import Mathlib

/-!
# Indexed string of the URL container

A shallow embedding of `boost/url/detail/indexed_string.hpp` and
`boost/url/detail/parts.hpp`, with the parts of `boost/url/impl/url_base.ipp`
that drive them.

Conventions of the embedding.

* A byte is a `Nat`; the zero byte is `0`.
* The owned buffer `s_` is `Option (List Nat)`: `none` is the null pointer, `some b`
  a block of exactly `b.length` bytes.  A pointer into the block is its offset.
* `std::size_t` arithmetic is arithmetic modulo `2 ^ w` (`wadd`, `wsub`);
  `std::ptrdiff_t` is an `Int` obtained through `to_ptrdiff`.
* An operation yields an `outcome`: normal return, a raised error together with the
  state the container is left in, or `fault` (a failed `BOOST_ASSERT` on a pointer, or
  an access outside the owned block).
* A loop over the index is a pointwise rebuild of the index (`tabulate`), one per
  source loop, in source order; the loop of `copy_impl`, which carries running offsets,
  is a recursion (`copy_impl_loop`).
* `BOOST_ASSERT( check_invariants() == 0 )` and the range assertions on part numbers do
  not change the state; they appear as the hypotheses of the theorems (`valid`, bounds on
  the part numbers), not inside the functions.  `BOOST_ASSERT( p != 0 )` of `copy_impl`
  guards the memory access that follows it and is a `fault`.
* `std::memcpy` and `std::memmove` of zero bytes touch nothing, also through a null
  pointer.
* The closing `BOOST_ASSERT(check_invariants() == 0)` of `parts_string::copy_all`, which
  compares the counters of the descriptor handed in with the bytes stored, is a check
  inside the function: a `fault` when it fails.  For `parts_string::clear` and
  `parts_string::copy` the theorems assume I7 and I8 and prove them again after the call.
* The assertions of the URL facade on the stored bytes (`BOOST_ASSERT` that a password
  part ends in `@`, that a user part starts with `//`, and the like) are checks inside the
  functions (`boost_assert`): a `fault` when they fail.
* A segment iterator is its pair of members `off_` and `n_`.  Its functions read the URL
  and return an `Option`: `none` when `BOOST_ASSERT( off_ != pt_->offset(id_frag) )` fails
  or a byte is read outside the block.  The modifiers of `segments_type` return the new URL
  together with the iterator, and are a `fault` when the final `parse()` is; the
  assertions of `erase` on the two positions are checks as well.
* A parameter iterator is its triple of members `off_`, `nk_` and `nv_`, and its functions
  return an `Option` in the same way, `none` when one of their assertions fails.  The two
  codecs of query keys and values are not part of these sources; their `parse` calls are
  parameters (`query_codecs`).
-/

set_option linter.all false

namespace Url

/-! ## Machine words -/

/-- Sum of two `std::size_t` values on a `w`-bit platform. -/
def wadd (w a b : Nat) : Nat := (a + b) % 2 ^ w

/-- Difference of two `std::size_t` values on a `w`-bit platform. -/
def wsub (w a b : Nat) : Nat := (a + 2 ^ w - b) % 2 ^ w

/-- Largest `std::size_t`, the value of `(std::size_t)-1`. -/
def size_max (w : Nat) : Nat := 2 ^ w - 1

/-- Conversion of a `std::size_t` to `std::ptrdiff_t` (two's complement). -/
def to_ptrdiff (w x : Nat) : Int :=
  if x < 2 ^ (w - 1) then (x : Int) else (x : Int) - 2 ^ w

/-- Compound assignment `x += n` of a `std::ptrdiff_t` to a `std::size_t`. -/
def wadd_int (w x : Nat) (n : Int) : Nat := (((x : Int) + n) % 2 ^ w).toNat

/-! ## Lists as memory -/

/-- List of the `n` values `f 0, ..., f (n-1)`. -/
def tabulate (n : Nat) (f : Nat → Nat) : List Nat := (List.range n).map f

/-- Byte of a block at an offset. -/
def byte_at (b : List Nat) (a : Nat) : Nat := b.getD a 0

/-- Result of `std::strlen` on a block: the offset of its first zero byte, `none` when
the block holds no zero byte (the scan would leave the block). -/
def strlen : List Nat → Option Nat
  | [] => none
  | c :: cs => if c = 0 then some 0 else (strlen cs).map (· + 1)

/-- Write of one byte at offset `pos` through pointer `s`. -/
def store (s : Option (List Nat)) (pos c : Nat) : Option (Option (List Nat)) :=
  match s with
  | none => none
  | some b =>
    if pos < b.length then
      some (some (tabulate b.length (fun a => if a = pos then c else byte_at b a)))
    else none

/-- Call `std::memmove(s + dst, s + src, n)` inside the block `s`; a call with `n = 0`
touches nothing. -/
def memmove (s : Option (List Nat)) (dst src n : Nat) : Option (Option (List Nat)) :=
  if n = 0 then some s
  else match s with
    | none => none
    | some b =>
      if dst + n ≤ b.length ∧ src + n ≤ b.length then
        some (some (tabulate b.length
          (fun a => if dst ≤ a ∧ a < dst + n then byte_at b (src + (a - dst)) else byte_at b a)))
      else none

/-- Call `std::memcpy(s + dst, src + so, n)` from a foreign byte string `src`; a call
with `n = 0` touches nothing. -/
def memcpy (s : Option (List Nat)) (dst : Nat) (src : List Nat) (so n : Nat) :
    Option (Option (List Nat)) :=
  if n = 0 then some s
  else match s with
    | none => none
    | some b =>
      if dst + n ≤ b.length ∧ so + n ≤ src.length then
        some (some (tabulate b.length
          (fun a => if dst ≤ a ∧ a < dst + n then byte_at src (so + (a - dst)) else byte_at b a)))
      else none

/-! ## Errors, storage, outcomes -/

/-- Error kinds raised at the container boundary. -/
inductive error where
  | invalid_part
  | too_large
  | alloc_failure
  deriving DecidableEq, Repr

/-- Storage capability: `allocate n` hands out a block of `n` bytes whose initial
content is arbitrary (the returned function), or raises.  `deallocate` has no effect on
the container and is not modelled. -/
structure storage where
  allocate : Nat → Except error (Nat → Nat)

/-- Outcome of an operation on a container of type `σ` returning a value of type `α`. -/
inductive outcome (σ α : Type) where
  | ok (st : σ) (val : α)
  | raise (e : error) (st : σ)
  | fault
  deriving DecidableEq, Repr

/-- Continue with the result of a memory access, or fault. -/
def outcome.mem {β σ α : Type} (m : Option β) (k : β → outcome σ α) : outcome σ α :=
  match m with
  | none => outcome.fault
  | some b => k b

/-- Sequence two operations on the same container: a raised error or a fault of the
first one ends the computation. -/
def outcome.andThen {σ α β : Type} (o : outcome σ α) (k : σ → α → outcome σ β) :
    outcome σ β :=
  match o with
  | outcome.ok st v => k st v
  | outcome.raise e st => outcome.raise e st
  | outcome.fault => outcome.fault

/-- Pointer `p + n` for a signed `n`, as an offset; `none` when it would point before
the block. -/
def ptr_add (p : Nat) (n : Int) : Option Nat :=
  if 0 ≤ (p : Int) + n then some ((p : Int) + n).toNat else none

/-! ## Part index -/

/-- Value of `index_[i]`. -/
def idx (index_ : List Nat) (i : Nat) : Nat := index_.getD i 0

/-- Member `part_index::offset`. -/
def offset (index_ : List Nat) (part : Nat) : Nat :=
  if part = 0 then 0 else idx index_ (part - 1)

/-- Member `part_index::length_all`. -/
def length_all (index_ : List Nat) : Nat := offset index_ index_.length

/-- Member `part_index::length(first, last)`. -/
def length_range (w : Nat) (index_ : List Nat) (first last : Nat) : Nat :=
  wsub w (offset index_ last) (offset index_ first)

/-- Member `part_index::length(first)`. -/
def length (w : Nat) (index_ : List Nat) (first : Nat) : Nat :=
  length_range w index_ first (first + 1)

/-- Member `part_index::reset`. -/
def reset (index_ : List Nat) : List Nat := tabulate index_.length (fun _ => 0)

/-- Member `part_index::check_invariants`, as the truth of `check_invariants() == 0`. -/
def part_index_check (index_ : List Nat) : Bool :=
  (List.range (index_.length - 1)).all (fun i => decide (idx index_ i ≤ idx index_ (i + 1)))

/-! ## Indexed string -/

/-- State of an `indexed_string<PartCount>`; `PartCount` is `index_.length`. -/
structure indexed_string where
  index_ : List Nat
  s_ : Option (List Nat)
  capacity_ : Nat
  deriving DecidableEq, Repr

namespace indexed_string

/-- Number of parts, the template argument `PartCount`. -/
def PartCount (st : indexed_string) : Nat := st.index_.length

/-- Member `indexed_string::check_invariants`, as the truth of
`check_invariants() == 0`. -/
def check_invariants (st : indexed_string) : Bool :=
  if st.capacity_ ≠ 0 then
    match st.s_ with
    | none => false
    | some b =>
      decide (strlen b = some (length_all st.index_)) &&
      (List.range (st.index_.length - 1)).all (fun i =>
        decide (idx st.index_ i ≤ idx st.index_ (i + 1)) &&
        decide (idx st.index_ i ≤ length_all st.index_))
  else
    match st.s_ with
    | some _ => false
    | none => (List.range st.index_.length).all (fun i => decide (idx st.index_ i = 0))

/-- Member `indexed_view::get(first, last)`: the bytes of parts `[first, last)`. -/
def get (w : Nat) (st : indexed_string) (first last : Nat) : List Nat :=
  ((st.s_.getD []).drop (offset st.index_ first)).take (length_range w st.index_ first last)

/-- Member `indexed_view::get(first)`. -/
def get_part (w : Nat) (st : indexed_string) (first : Nat) : List Nat :=
  get w st first (first + 1)

/-- Member `indexed_view::get_all`. -/
def get_all (st : indexed_string) : List Nat :=
  (st.s_.getD []).take (length_all st.index_)

/-- Member `indexed_string::reserve_all`; the returned pointer is the start of the
buffer, offset `0`. -/
def reserve_all (w : Nat) (a : storage) (n : Nat) (st : indexed_string) :
    outcome indexed_string Nat :=
  let n1 := wadd w n 1
  if n1 ≤ st.capacity_ then outcome.ok st 0
  else
    match a.allocate n1 with
    | Except.error e => outcome.raise e st
    | Except.ok f =>
      outcome.mem (memcpy (some (tabulate n1 f)) 0 (st.s_.getD []) 0 (length_all st.index_))
        fun s1 =>
      outcome.mem (store s1 (length_all st.index_) 0) fun s2 =>
      outcome.ok { index_ := st.index_, s_ := s2, capacity_ := n1 } 0

/-- Member `indexed_string::reserve_more`. -/
def reserve_more (w : Nat) (a : storage) (n : Nat) (st : indexed_string) :
    outcome indexed_string Nat :=
  let n0 := length_all st.index_
  if n > size_max w - n0 then outcome.raise error.too_large st
  else reserve_all w a (wadd w n0 n) st

/-- Member `indexed_string::reserve`. -/
def reserve (w : Nat) (a : storage) (part n : Nat) (st : indexed_string) :
    outcome indexed_string Unit :=
  let ps := length w st.index_ part
  if n > ps then
    (reserve_all w a (wadd w (length_all st.index_) (wsub w n ps)) st).andThen
      fun st1 _ => outcome.ok st1 ()
  else outcome.ok st ()

/-- Member `indexed_string::clear_all`. -/
def clear_all (st : indexed_string) : outcome indexed_string Unit :=
  match st.s_ with
  | none => outcome.ok { st with index_ := reset st.index_ } ()
  | some b =>
    outcome.mem (store (some b) 0 0) fun s1 =>
    outcome.ok { st with index_ := reset st.index_, s_ := s1 } ()

/-- Member `indexed_string::clear(first, last)`. -/
def clear (w : Nat) (first last : Nat) (st : indexed_string) : outcome indexed_string Unit :=
  let fp := offset st.index_ first
  let lp := offset st.index_ last
  if fp = lp then outcome.ok st ()
  else
    outcome.mem (memmove st.s_ fp lp (wsub w (length_all st.index_) lp)) fun s1 =>
    let n := fp
    let index1 := tabulate st.index_.length
      (fun i => if first ≤ i ∧ i < last then n else idx st.index_ i)
    let index2 := tabulate st.index_.length
      (fun i => if last ≤ i then wsub w (idx index1 i) (wsub w lp fp) else idx index1 i)
    outcome.mem (store s1 (length_all index2) 0) fun s2 =>
    outcome.ok { index_ := index2, s_ := s2, capacity_ := st.capacity_ } ()

/-- Member `indexed_string::clear(part)`. -/
def clear_part (w : Nat) (part : Nat) (st : indexed_string) : outcome indexed_string Unit :=
  clear w part (part + 1) st

/-- Member `indexed_string::resize(part, new_size)`; the returned pointer is
`s + offset(part)`, given as its offset. -/
def resize (w : Nat) (a : storage) (part new_size : Nat) (st : indexed_string) :
    outcome indexed_string Nat :=
  let len := length w st.index_ part
  if len = new_size then outcome.ok st (offset st.index_ part)
  else if new_size ≤ len then
    let n := wsub w len new_size
    let pos := offset st.index_ (part + 1)
    outcome.mem (ptr_add pos (-(n : Int))) fun dst =>
    outcome.mem (memmove st.s_ dst pos (wadd w (wsub w (length_all st.index_) pos) 1))
      fun s1 =>
    let index1 := tabulate st.index_.length
      (fun i => if part ≤ i then wsub w (idx st.index_ i) n else idx st.index_ i)
    outcome.ok { index_ := index1, s_ := s1, capacity_ := st.capacity_ } (offset index1 part)
  else
    (reserve_more w a (wsub w new_size len) st).andThen fun st1 _ =>
    let n := wsub w new_size len
    let pos := offset st1.index_ (part + 1)
    outcome.mem (memmove st1.s_ (pos + n) pos (wadd w (wsub w (length_all st1.index_) pos) 1))
      fun s1 =>
    let index1 := tabulate st1.index_.length
      (fun i => if part ≤ i then wadd w (idx st1.index_ i) n else idx st1.index_ i)
    outcome.ok { index_ := index1, s_ := s1, capacity_ := st1.capacity_ } (offset index1 part)

/-- Member `indexed_string::resize(first, last, new_size)`; the returned pointer is
`s + offset(first)`, given as its offset. -/
def resize_range (w : Nat) (a : storage) (first last new_size : Nat) (st : indexed_string) :
    outcome indexed_string Nat :=
  let len := length_range w st.index_ first last
  if new_size = 0 ∧ len = 0 then outcome.ok st (offset st.index_ first)
  else if new_size ≤ len then
    let n := wsub w len new_size
    let pos := offset st.index_ last
    outcome.mem (ptr_add pos (-(n : Int))) fun dst =>
    outcome.mem (memmove st.s_ dst pos (wadd w (wsub w (length_all st.index_) pos) 1))
      fun s1 =>
    let index1 := tabulate st.index_.length
      (fun i => if first ≤ i ∧ i < last - 1 then wsub w (idx st.index_ (last - 1)) n
        else idx st.index_ i)
    let index2 := tabulate st.index_.length
      (fun i => if last - 1 ≤ i then wsub w (idx index1 i) n else idx index1 i)
    outcome.ok { index_ := index2, s_ := s1, capacity_ := st.capacity_ } (offset index2 first)
  else
    (reserve_more w a (wsub w new_size len) st).andThen fun st1 _ =>
    let n := wsub w new_size len
    let pos := offset st1.index_ last
    outcome.mem (memmove st1.s_ (pos + n) pos (wadd w (wsub w (length_all st1.index_) pos) 1))
      fun s1 =>
    let index1 := tabulate st1.index_.length
      (fun i => if first ≤ i ∧ i < last - 1 then wadd w (idx st1.index_ (last - 1)) n
        else idx st1.index_ i)
    let index2 := tabulate st1.index_.length
      (fun i => if last - 1 ≤ i then wadd w (idx index1 i) n else idx index1 i)
    outcome.ok { index_ := index2, s_ := s1, capacity_ := st1.capacity_ } (offset index2 first)

/-- Plan recorded by `reserve_change_part`; `idx` is the position as a buffer offset. -/
structure change_part_reserved where
  part : Nat
  idx : Nat
  n : Int
  avail : Nat
  deriving DecidableEq, Repr

/-- Writable window returned by `change_part`; `p` is a buffer offset. -/
structure target_buffer where
  p : Nat
  avail : Nat
  deriving DecidableEq, Repr

/-- Member `indexed_string::reserve_change_part`; `pos` is the offset `pos - s_`. -/
def reserve_change_part (w : Nat) (a : storage) (part pos erase_count insert_count : Nat)
    (st : indexed_string) : outcome indexed_string change_part_reserved :=
  let i := pos
  let n := to_ptrdiff w (wsub w insert_count erase_count)
  if n > 0 then
    (reserve w a part (wadd_int w (length w st.index_ part) n) st).andThen fun st1 _ =>
    outcome.ok st1 { part := part, idx := i, n := n, avail := insert_count }
  else outcome.ok st { part := part, idx := i, n := n, avail := insert_count }

/-- Member `indexed_string::change_part(change_part_reserved)`. -/
def change_part (w : Nat) (r : change_part_reserved) (st : indexed_string) :
    outcome indexed_string target_buffer :=
  let p := r.idx
  if r.n = 0 then outcome.ok st { p := p, avail := r.avail }
  else
    outcome.mem
      (if r.n > 0 then
        (ptr_add p r.n).bind fun dst =>
          memmove st.s_ dst p (wsub w (length_all st.index_) r.idx)
      else
        (ptr_add p (-r.n)).bind fun src =>
          memmove st.s_ p src (wadd_int w (wsub w (length_all st.index_) r.idx) r.n))
      fun s1 =>
    let index1 := tabulate st.index_.length
      (fun i => if r.part ≤ i then wadd_int w (idx st.index_ i) r.n else idx st.index_ i)
    outcome.mem (store s1 (length_all index1) 0) fun s2 =>
    outcome.ok { index_ := index1, s_ := s2, capacity_ := st.capacity_ }
      { p := p, avail := r.avail }

/-- Member `target_buffer::copy(s, offset)`, writing into the buffer of the container
that handed out the window; the returned pointer is `p`. -/
def target_buffer.copy (w : Nat) (tb : target_buffer) (s : List Nat) (off : Nat)
    (st : indexed_string) : outcome indexed_string Nat :=
  outcome.mem (memcpy st.s_ (tb.p + off) s 0 (wsub w tb.avail off)) fun s1 =>
  outcome.ok { st with s_ := s1 } tb.p

/-- Member `indexed_string::change_part(part, pos, erase_count, s)`. -/
def change_part_copy (w : Nat) (a : storage) (part pos erase_count : Nat) (s : List Nat)
    (st : indexed_string) : outcome indexed_string Nat :=
  (reserve_change_part w a part pos erase_count s.length st).andThen fun st1 r =>
  (change_part w r st1).andThen fun st2 tb =>
  tb.copy w s 0 st2

/-- Write of `index_[i] = v`. -/
def set_index (index_ : List Nat) (i v : Nat) : List Nat :=
  tabulate index_.length (fun j => if j = i then v else idx index_ j)

/-- First index loop of `copy_impl`, `for( int i=first; i!=last; ++i )`, with `k`
iterations left, loop counter `i` and the running offsets `n1`, `n2`. -/
def copy_impl_loop (w : Nat) (pt_index : List Nat) :
    Nat → Nat → Nat → Nat → List Nat → List Nat
  | 0, _, _, _, index_ => index_
  | k + 1, i, n1, n2, index_ =>
    let d := wsub w (idx pt_index i) n2
    copy_impl_loop w pt_index k (i + 1) (wadd w n1 d) (wadd w n2 d)
      (set_index index_ i (wadd w n1 d))

/-- Member `indexed_string::copy_impl`; `pt` is the foreign index, `s` the foreign
bytes; the returned pointer is `ptr(first)`, given as its offset. -/
def copy_impl (w : Nat) (a : storage) (pt : List Nat) (s : List Nat)
    (first last buffer_before buffer_after : Nat) (st : indexed_string) :
    outcome indexed_string Nat :=
  let n := to_ptrdiff w
    (wsub w (wadd w (wadd w buffer_before buffer_after) (length_range w pt first last))
      (length_range w st.index_ first last))
  (if n > 0 then reserve_all w a (wadd_int w (length_all st.index_) n) st
    else outcome.ok st 0).andThen fun st1 _ =>
  let p := offset st1.index_ last
  if st1.s_ = none then outcome.fault
  else
    outcome.mem ((ptr_add p n).bind fun dst =>
      memmove st1.s_ dst p (wadd w (length_range w st1.index_ last st1.index_.length) 1))
      fun s1 =>
    let n1 := offset st1.index_ first
    let n2 := wsub w (offset pt first) buffer_before
    let index1 := copy_impl_loop w pt (last - first) first n1 n2 st1.index_
    let index2 := tabulate index1.length
      (fun i => if last ≤ i then wadd_int w (idx index1 i) n else idx index1 i)
    let p1 := offset index2 first
    outcome.mem (memcpy s1 (p1 + buffer_before) s (offset pt first)
      (length_range w pt first last)) fun s2 =>
    outcome.ok { index_ := index2, s_ := s2, capacity_ := st1.capacity_ } p1

/-- Member `indexed_string::copy_with_prefix(pt, s, prefix, first, last)`; the returned
pointer is the destination of the literal, `ptr(first)`. -/
def copy_with_prefix (w : Nat) (a : storage) (pt : List Nat) (s lit : List Nat)
    (first last : Nat) (st : indexed_string) : outcome indexed_string Nat :=
  let n := lit.length
  (copy_impl w a pt s first last n 0 st).andThen fun st1 p =>
  outcome.mem (memcpy st1.s_ p lit 0 n) fun s1 =>
  outcome.ok { st1 with s_ := s1 } p

/-- Member `indexed_string::copy_with_suffix(pt, s, suffix, first, last)`; the returned
pointer is the destination of the suffix. -/
def copy_with_suffix (w : Nat) (a : storage) (pt : List Nat) (s suffix : List Nat)
    (first last : Nat) (st : indexed_string) : outcome indexed_string Nat :=
  let n := suffix.length
  (copy_impl w a pt s first last 0 n st).andThen fun st1 p =>
  outcome.mem (memcpy st1.s_ (p + s.length) suffix 0 n) fun s1 =>
  outcome.ok { st1 with s_ := s1 } (p + s.length)

/-- Member `indexed_string::copy(pt, s, first, last)`. -/
def copy (w : Nat) (a : storage) (pt : List Nat) (s : List Nat) (first last : Nat)
    (st : indexed_string) : outcome indexed_string Nat :=
  copy_impl w a pt s first last 0 0 st

/-- Member `indexed_string::copy_all(pt, s)`. -/
def copy_all (w : Nat) (a : storage) (pt : List Nat) (s : List Nat) (st : indexed_string) :
    outcome indexed_string Unit :=
  if s = [] then clear_all st
  else
    let n := s.length
    (reserve_all w a n st).andThen fun st1 _ =>
    outcome.mem (memcpy st1.s_ 0 s 0 n) fun s1 =>
    let index1 := tabulate st1.index_.length (fun i => idx pt i)
    outcome.mem (store s1 (length_all index1) 0) fun s2 =>
    outcome.ok { index_ := index1, s_ := s2, capacity_ := st1.capacity_ } ()

/-- Well-formed state: `check_invariants() == 0`, together with what the types give:
`PartCount > 0` (the `static_assert`), `capacity_` is a `std::size_t`, and the block
behind `s_` has `capacity_` bytes. -/
def valid (w : Nat) (st : indexed_string) : Prop :=
  0 < st.index_.length ∧ st.check_invariants = true ∧ st.capacity_ < 2 ^ w ∧
  (st.s_.getD []).length = st.capacity_

instance (w : Nat) (st : indexed_string) : Decidable (valid w st) := by
  unfold valid; infer_instance

/-- The part of `valid` that does not read the payload: non-decreasing index (I1), no
buffer exactly when the capacity is zero, and then all offsets zero (I4), a zero byte at
`offset(PartCount)` (I5) and `offset(PartCount) < capacity_` (I6).  What is left out is that
no payload byte before the terminator is zero. -/
def valid_frame (w : Nat) (st : indexed_string) : Prop :=
  0 < st.index_.length ∧ part_index_check st.index_ = true ∧ st.capacity_ < 2 ^ w ∧
  (st.s_.getD []).length = st.capacity_ ∧
  (st.s_ = none → length_all st.index_ = 0) ∧
  (st.s_ ≠ none → length_all st.index_ < st.capacity_ ∧
    byte_at (st.s_.getD []) (length_all st.index_) = 0)

instance (w : Nat) (st : indexed_string) : Decidable (valid_frame w st) := by
  unfold valid_frame; infer_instance

/-- Pointwise reading of `valid`: what `check_invariants() == 0` says about each index
entry and each byte. -/
structure wf (w : Nat) (st : indexed_string) : Prop where
  pos : 0 < st.index_.length
  mono : ∀ i, i + 1 < st.index_.length → idx st.index_ i ≤ idx st.index_ (i + 1)
  cap : st.capacity_ < 2 ^ w
  len : (st.s_.getD []).length = st.capacity_
  null : st.s_ = none → ∀ i, i < st.index_.length → idx st.index_ i = 0
  term : st.s_ ≠ none →
    length_all st.index_ < st.capacity_ ∧ byte_at (st.s_.getD []) (length_all st.index_) = 0
  nonzero : ∀ x, x < length_all st.index_ → byte_at (st.s_.getD []) x ≠ 0

/-- Shape shared by the splice primitives, relating the state `st` before and the state
`st'` after: the index entries below part `lo` are kept, those from `hi - 1` on are
shifted so that part `hi` starts at `T`, the bytes before part `lo` are kept and the tail
from part `hi` through the terminator is found again from `T` on, inside a block that has
room for it. -/
structure splice (w : Nat) (st st' : indexed_string) (lo hi T : Nat) : Prop where
  parts : st'.index_.length = st.index_.length
  low : ∀ j, j < lo → idx st'.index_ j = idx st.index_ j
  high : ∀ j, hi - 1 ≤ j → j < st.index_.length →
    idx st'.index_ j = idx st.index_ j + T - offset st.index_ hi
  start : offset st.index_ lo ≤ T
  cap : st'.capacity_ < 2 ^ w
  len : (st'.s_.getD []).length = st'.capacity_
  room : st'.s_ ≠ none → length_all st.index_ + T - offset st.index_ hi < st'.capacity_
  null : st'.s_ = none → st.s_ = none ∧ T = offset st.index_ hi
  head : ∀ x, x < offset st.index_ lo →
    byte_at (st'.s_.getD []) x = byte_at (st.s_.getD []) x
  tail : ∀ x, offset st.index_ hi ≤ x → x ≤ length_all st.index_ →
    byte_at (st'.s_.getD []) (x + T - offset st.index_ hi) = byte_at (st.s_.getD []) x

end indexed_string

/-! ## Part identifiers -/

/-- Part identifier `id_scheme`; the stored scheme has a trailing `:`. -/
def id_scheme : Nat := 0

/-- Part identifier `id_user`; the stored user has a leading `//`. -/
def id_user : Nat := 1

/-- Part identifier `id_password`; the stored password has a leading `:` and a trailing
`@`. -/
def id_password : Nat := 2

/-- Part identifier `id_host`. -/
def id_host : Nat := 3

/-- Part identifier `id_port`; the stored port has a leading `:`. -/
def id_port : Nat := 4

/-- Part identifier `id_path`. -/
def id_path : Nat := 5

/-- Part identifier `id_query`; the stored query has a leading `?`. -/
def id_query : Nat := 6

/-- Part identifier `id_frag`; the stored fragment has a leading `#`. -/
def id_frag : Nat := 7

/-! ## URI parts string -/

/-- Enumeration `host_type`. -/
inductive host_type where
  | none
  | ipv4
  | ipv6
  | ipv_future
  | name
  deriving DecidableEq, Repr

/-- Type `parts`, a `part_index<id_end, parts_data>`: the descriptor a parser fills. -/
structure parts where
  index_ : List Nat
  nseg : Nat
  nparam : Nat
  host : host_type
  deriving DecidableEq, Repr

/-- State of a `parts_string`: the `indexed_string<8, parts_data>` base and the
`parts_data` members. -/
structure parts_string where
  base : indexed_string
  nseg : Nat
  nparam : Nat
  host : host_type
  deriving DecidableEq, Repr

namespace parts_string

/-- Run an operation of the base class inside a `parts_string`. -/
def lift {α β : Type} (ps : parts_string) (o : outcome indexed_string α)
    (k : indexed_string → α → outcome parts_string β) : outcome parts_string β :=
  match o with
  | outcome.ok st v => k st v
  | outcome.raise e st => outcome.raise e { ps with base := st }
  | outcome.fault => outcome.fault

/-- Member `parts_string::check_invariants`, as the truth of `check_invariants() == 0`:
the number of `/` in the path is `nseg`, and `nparam` is zero for an empty query and
otherwise one for a leading `?` plus the number of `&`. -/
def check_invariants (w : Nat) (ps : parts_string) : Bool :=
  let n := (indexed_string.get_part w ps.base id_path).count 47
  if n ≠ ps.nseg then false
  else
    let s := indexed_string.get_part w ps.base id_query
    let n := if s = [] then 0 else (if s.head? = some 63 then 1 else 0) + s.count 38
    if n ≠ ps.nparam then false else true

/-- Member `parts_string::clear_all`. -/
def clear_all (ps : parts_string) : outcome parts_string Unit :=
  ps.lift (indexed_string.clear_all ps.base) fun st _ =>
  outcome.ok { base := st, nseg := 0, nparam := 0, host := host_type.none } ()

/-- Member `parts_string::copy_all(pt, s)`; a `fault` when its closing
`BOOST_ASSERT(check_invariants() == 0)` fails, that is when the counters of `pt` do not
fit the bytes stored. -/
def copy_all (w : Nat) (a : storage) (pt : parts) (s : List Nat) (ps : parts_string) :
    outcome parts_string Unit :=
  ps.lift (indexed_string.copy_all w a pt.index_ s ps.base) fun st _ =>
  let ps1 : parts_string :=
    { base := st, nseg := pt.nseg, nparam := pt.nparam, host := pt.host }
  if ps1.check_invariants w = true then outcome.ok ps1 () else outcome.fault

end parts_string

/-! ## URL facade -/

/-- Number of parts of a URL, `id_end`. -/
def id_end : Nat := 8

/-- State of a `url_base`: its member `pt_`. -/
structure url_base where
  pt_ : parts_string
  deriving DecidableEq, Repr

namespace url_base

/-- Member `url_base::encoded_url`. -/
def encoded_url (w : Nat) (u : url_base) : List Nat :=
  indexed_string.get w u.pt_.base 0 id_end

/-- Member `url_base::set_encoded_url`; `parse_url s` is the descriptor the external
parser fills for `s`, `none` when it reports an error code. -/
def set_encoded_url (w : Nat) (a : storage) (parse_url : List Nat → Option parts)
    (s : List Nat) (u : url_base) : outcome url_base Unit :=
  if s = [] then
    match u.pt_.clear_all with
    | outcome.ok ps _ => outcome.ok { pt_ := ps } ()
    | outcome.raise e ps => outcome.raise e { pt_ := ps }
    | outcome.fault => outcome.fault
  else
    match parse_url s with
    | none => outcome.raise error.invalid_part u
    | some pt =>
      match u.pt_.copy_all w a pt s with
      | outcome.ok ps _ => outcome.ok { pt_ := ps } ()
      | outcome.raise e ps => outcome.raise e { pt_ := ps }
      | outcome.fault => outcome.fault

end url_base

/-! ## Splitting a part and access through pointers -/

/-- Member `part_index::split(part, n)`. -/
def split (w : Nat) (index_ : List Nat) (part n : Nat) : List Nat :=
  indexed_string.set_index index_ part (wadd w (offset index_ part) n)

namespace indexed_string

/-- Member `split(part, n)` of the index of a container. -/
def split_part (w : Nat) (part n : Nat) (st : indexed_string) : outcome indexed_string Unit :=
  outcome.ok { st with index_ := split w st.index_ part n } ()

/-- Assignment `dest[k] = c` through a pointer into the buffer, `pos` being the offset
`dest + k`. -/
def poke (pos c : Nat) (st : indexed_string) : outcome indexed_string Unit :=
  outcome.mem (store st.s_ pos c) fun s1 => outcome.ok { st with s_ := s1 } ()

/-- Call `s.copy(dest, s.size())` of a `string_view`, and the call `e.encode(dest, s)` of a
codec with `src` the encoded bytes: `src` is written at offset `pos`. -/
def write (pos : Nat) (src : List Nat) (st : indexed_string) : outcome indexed_string Unit :=
  outcome.mem (memcpy st.s_ pos src 0 src.length) fun s1 => outcome.ok { st with s_ := s1 } ()

/-- Read of `*p` through a pointer into the buffer. -/
def peek (pos : Nat) (st : indexed_string) : Option Nat :=
  match st.s_ with
  | none => none
  | some b => if pos < b.length then some (byte_at b pos) else none

end indexed_string

namespace parts_string

/-- Member `parts_string::clear(first_part, last_part)`. -/
def clear (w : Nat) (first_part last_part : Nat) (ps : parts_string) :
    outcome parts_string Unit :=
  ps.lift (indexed_string.clear w first_part last_part ps.base) fun st _ =>
  outcome.ok
    { base := st,
      nseg := if first_part ≤ id_path ∧ last_part > id_path then 0 else ps.nseg,
      nparam := if first_part ≤ id_query ∧ last_part > id_query then 0 else ps.nparam,
      host := if first_part ≤ id_host ∧ last_part > id_host then host_type.none
        else ps.host } ()

/-- Member `parts_string::clear(part)`. -/
def clear_part (w : Nat) (part : Nat) (ps : parts_string) : outcome parts_string Unit :=
  clear w part (part + 1) ps

/-- Member `parts_string::copy(pt, s, first_part, last_part)`. -/
def copy (w : Nat) (a : storage) (pt : parts) (s : List Nat) (first_part last_part : Nat)
    (ps : parts_string) : outcome parts_string Unit :=
  ps.lift (indexed_string.copy w a pt.index_ s first_part last_part ps.base) fun st _ =>
  outcome.ok
    { base := st,
      nseg := if first_part ≤ id_path ∧ last_part > id_path then pt.nseg else ps.nseg,
      nparam := if first_part ≤ id_query ∧ last_part > id_query then pt.nparam
        else ps.nparam,
      host := if first_part ≤ id_host ∧ last_part > id_host then pt.host else ps.host } ()

end parts_string

/-! ## Setters of the URL facade -/

/-- Percent-encoding codec of one character set (`userinfo_nc_pct_set()`,
`userinfo_pct_set()`, `reg_name_pct_set()`, `query_pct_set()`), which the sources use but
do not define.  `encode s` is the encoded form of `s`: `encoded_size(s)` is its length and
`encode(dest, s)` writes it at `dest`.  `validate s` tells whether `validate(s)` returns;
otherwise it raises `invalid_part`. -/
structure pct_encoding where
  encode : List Nat → List Nat
  validate : List Nat → Bool

/-- The four path matchers `match_path_abempty`, `match_path_absolute`,
`match_path_noscheme` and `match_path_rootless`, which the sources use but do not define:
each tells whether the call returns; otherwise it raises `invalid_part`. -/
structure path_rules where
  match_path_abempty : List Nat → Bool
  match_path_absolute : List Nat → Bool
  match_path_noscheme : List Nat → Bool
  match_path_rootless : List Nat → Bool

namespace url_base

/-- The URL whose container holds `st`, with the counters of `u`. -/
def with_base (u : url_base) (st : indexed_string) : url_base :=
  { pt_ := { u.pt_ with base := st } }

/-- Run operations on the buffer and index of `pt_` inside the URL. -/
def on_base {α : Type} (u : url_base) (o : outcome indexed_string α) :
    outcome url_base Unit :=
  match o with
  | outcome.ok st _ => outcome.ok (u.with_base st) ()
  | outcome.raise e st => outcome.raise e (u.with_base st)
  | outcome.fault => outcome.fault

/-- Run an operation of `pt_` inside the URL. -/
def on_parts {α : Type} (o : outcome parts_string α) : outcome url_base Unit :=
  match o with
  | outcome.ok ps _ => outcome.ok { pt_ := ps } ()
  | outcome.raise e ps => outcome.raise e { pt_ := ps }
  | outcome.fault => outcome.fault

/-- Check `BOOST_ASSERT( c )` of the facade on the stored bytes: the computation goes on
when `c` holds and is a `fault` otherwise. -/
def boost_assert {σ α : Type} (c : Prop) [Decidable c] (k : outcome σ α) : outcome σ α :=
  if c then k else outcome.fault

/-- Member `url_base::resize(id, new_size)`, which forwards to `pt_.resize`. -/
def resize (w : Nat) (a : storage) (id new_size : Nat) (u : url_base) :
    outcome indexed_string Nat :=
  indexed_string.resize w a id new_size u.pt_.base

/-- Member `url_base::resize(first, last, new_size)`, which forwards to `pt_.resize`. -/
def resize_range (w : Nat) (a : storage) (first last new_size : Nat) (u : url_base) :
    outcome indexed_string Nat :=
  indexed_string.resize_range w a first last new_size u.pt_.base

/-- Length `pt_.length(id)` of one part of the URL. -/
def part_length (w : Nat) (u : url_base) (id : Nat) : Nat :=
  length w u.pt_.base.index_ id

/-- Bytes `pt_.get(id)` of one part of the URL. -/
def part (w : Nat) (u : url_base) (id : Nat) : List Nat :=
  indexed_string.get_part w u.pt_.base id

/-- Member `url_base::set_scheme`; `parse_scheme s` tells whether the external
`parse_scheme(pr, s)` returns, otherwise it raises `invalid_part`. -/
def set_scheme (w : Nat) (a : storage) (parse_scheme : List Nat → Bool) (s : List Nat)
    (u : url_base) : outcome url_base Unit :=
  if s = [] then on_parts (u.pt_.clear_part w id_scheme)
  else if parse_scheme s = false then outcome.raise error.invalid_part u
  else
    let n := s.length
    u.on_base ((u.resize w a id_scheme (wadd w n 1)).andThen fun st dest =>
      (st.write dest s).andThen fun st _ =>
      st.poke (dest + n) 58)

/-- Member `url_base::has_authority`. -/
def has_authority (w : Nat) (u : url_base) : Bool :=
  decide (length_range w u.pt_.base.index_ id_user id_path ≠ 0)

/-- Member `url_base::set_user`. -/
def set_user (w : Nat) (a : storage) (e : pct_encoding) (s : List Nat) (u : url_base) :
    outcome url_base Unit :=
  if s = [] then
    if u.part_length w id_user = 0 then outcome.ok u ()
    else
      boost_assert ((u.part w id_password).getLast? = some 64) <|
      boost_assert (2 ≤ (u.part w id_user).length) <|
      boost_assert ((u.part w id_user)[0]? = some 47) <|
      boost_assert ((u.part w id_user)[1]? = some 47) <|
      if u.part_length w id_password = 1 then
        u.on_base (u.resize_range w a id_user id_host 2)
      else u.on_base (u.resize w a id_user 2)
  else if u.part_length w id_password ≠ 0 then
    boost_assert ((u.part w id_password).getLast? = some 64) <|
    u.on_base ((u.resize w a id_user (wadd w 2 (e.encode s).length)).andThen fun st dest =>
      st.write (dest + 2) (e.encode s))
  else
    let n := (e.encode s).length
    u.on_base ((u.resize w a id_user (wadd w (wadd w 2 n) 1)).andThen fun st dest =>
      (st.poke dest 47).andThen fun st _ =>
      (st.poke (dest + 1) 47).andThen fun st _ =>
      (st.poke (dest + (2 + n)) 64).andThen fun st _ =>
      (st.split_part w id_user (wadd w 2 n)).andThen fun st _ =>
      st.write (dest + 2) (e.encode s))

/-- Member `url_base::set_encoded_user`. -/
def set_encoded_user (w : Nat) (a : storage) (e : pct_encoding) (s : List Nat)
    (u : url_base) : outcome url_base Unit :=
  if s = [] then set_user w a e s u
  else if e.validate s = false then outcome.raise error.invalid_part u
  else
    let n := s.length
    if u.part_length w id_password ≠ 0 then
      boost_assert ((u.part w id_password).getLast? = some 64) <|
      u.on_base ((u.resize w a id_user (wadd w 2 n)).andThen fun st dest =>
        st.write (dest + 2) s)
    else
      u.on_base ((u.resize w a id_user (wadd w (wadd w 2 n) 1)).andThen fun st dest =>
        (st.poke dest 47).andThen fun st _ =>
        (st.poke (dest + 1) 47).andThen fun st _ =>
        (st.poke (dest + (2 + n)) 64).andThen fun st _ =>
        (st.split_part w id_user (wadd w 2 n)).andThen fun st _ =>
        st.write (dest + 2) s)

/-- Member `url_base::set_password`. -/
def set_password (w : Nat) (a : storage) (e : pct_encoding) (s : List Nat) (u : url_base) :
    outcome url_base Unit :=
  if s = [] then
    let n := u.part_length w id_password
    if n = 0 then outcome.ok u ()
    else
      boost_assert ((u.part w id_password).getLast? = some 64) <|
      boost_assert (2 ≤ (u.part w id_user).length) <|
      boost_assert ((u.part w id_user)[0]? = some 47) <|
      boost_assert ((u.part w id_user)[1]? = some 47) <|
      if u.part_length w id_user = 2 then on_parts (u.pt_.clear_part w id_password)
      else
        u.on_base ((u.resize w a id_password 1).andThen fun st dest => st.poke dest 64)
  else
    let n := (e.encode s).length
    if u.part_length w id_user ≠ 0 then
      u.on_base ((u.resize w a id_password (wadd w (wadd w 1 n) 1)).andThen fun st dest =>
        (st.poke dest 58).andThen fun st _ =>
        (st.poke (dest + (n + 1)) 64).andThen fun st _ =>
        st.write (dest + 1) (e.encode s))
    else
      u.on_base
        ((u.resize_range w a id_user id_host (wadd w (wadd w (wadd w 2 1) n) 1)).andThen
          fun st dest =>
        (st.poke dest 47).andThen fun st _ =>
        (st.poke (dest + 1) 47).andThen fun st _ =>
        (st.poke (dest + 2) 58).andThen fun st _ =>
        (st.poke (dest + (2 + n + 1)) 64).andThen fun st _ =>
        (st.write (dest + 3) (e.encode s)).andThen fun st _ =>
        st.split_part w id_user 2)

/-- Member `url_base::set_host`; `parse_plain_hostname s` is the host kind the external
`parse_plain_hostname(pt, s)` stores in `pt.host`, `none` when it raises `invalid_part`. -/
def set_host (w : Nat) (a : storage) (parse_plain_hostname : List Nat → Option host_type)
    (e : pct_encoding) (s : List Nat) (u : url_base) : outcome url_base Unit :=
  if s = [] then
    if length_range w u.pt_.base.index_ id_user id_host = 2 ∧ u.part_length w id_port = 0 then
      boost_assert (u.part w id_user = [47, 47]) <|
      on_parts (u.pt_.clear w id_user id_path)
    else on_parts (u.pt_.clear_part w id_host)
  else
    match parse_plain_hostname s with
    | none => outcome.raise error.invalid_part u
    | some h =>
      boost_assert (h ≠ host_type.none) <|
      (if h ≠ host_type.name then
        if u.has_authority w = false then
          u.on_base ((u.resize w a id_user (wadd w 2 s.length)).andThen fun st dest =>
            (st.poke dest 47).andThen fun st _ =>
            (st.poke (dest + 1) 47).andThen fun st _ =>
            (st.split_part w id_user 2).andThen fun st _ =>
            (st.split_part w id_password 0).andThen fun st _ =>
            st.write (dest + 2) s)
        else
          u.on_base ((u.resize w a id_host s.length).andThen fun st dest =>
            st.write dest s)
      else
        if u.has_authority w = false then
          u.on_base ((u.resize w a id_user (wadd w 2 (e.encode s).length)).andThen
            fun st dest =>
            (st.poke dest 47).andThen fun st _ =>
            (st.poke (dest + 1) 47).andThen fun st _ =>
            (st.split_part w id_user 2).andThen fun st _ =>
            (st.split_part w id_password 0).andThen fun st _ =>
            st.write (dest + 2) (e.encode s))
        else
          u.on_base ((u.resize w a id_host (e.encode s).length).andThen fun st dest =>
            st.write dest (e.encode s))).andThen fun u1 _ =>
      outcome.ok { pt_ := { u1.pt_ with host := h } } ()

/-- Member `url_base::set_port(string_view)`; `match_port s` tells whether the external
`match_port(s)` returns, otherwise it raises `invalid_part`. -/
def set_port (w : Nat) (a : storage) (match_port : List Nat → Bool) (s : List Nat)
    (u : url_base) : outcome url_base Unit :=
  if s = [] then
    if length_range w u.pt_.base.index_ id_user id_port = 2 then
      boost_assert ((u.part w id_user).take 2 = [47, 47]) <|
      on_parts (u.pt_.clear w id_user id_path)
    else on_parts (u.pt_.clear_part w id_port)
  else if match_port s = false then outcome.raise error.invalid_part u
  else if u.has_authority w = false then
    u.on_base ((u.resize w a id_user (wadd w 3 s.length)).andThen fun st dest =>
      (st.poke dest 47).andThen fun st _ =>
      (st.poke (dest + 1) 47).andThen fun st _ =>
      (st.poke (dest + 2) 58).andThen fun st _ =>
      (st.split_part w id_user 2).andThen fun st _ =>
      (st.split_part w id_password 0).andThen fun st _ =>
      (st.split_part w id_host 0).andThen fun st _ =>
      st.write (dest + 3) s)
  else
    u.on_base ((u.resize w a id_port (wadd w 1 s.length)).andThen fun st dest =>
      (st.poke dest 58).andThen fun st _ =>
      st.write (dest + 1) s)

/-- Member `url_base::set_encoded_path`. -/
def set_encoded_path (w : Nat) (a : storage) (r : path_rules) (s : List Nat)
    (u : url_base) : outcome url_base Unit :=
  if s = [] then on_parts (u.pt_.clear_part w id_path)
  else
    let accepted :=
      if u.has_authority w then r.match_path_abempty s
      else if s.head? = some 47 then r.match_path_absolute s
      else if u.part_length w id_scheme = 0 then r.match_path_noscheme s
      else r.match_path_rootless s
    if accepted = false then outcome.raise error.invalid_part u
    else
      u.on_base ((u.resize w a id_path s.length).andThen fun st dest =>
        st.write dest s)

/-- Member `url_base::encoded_query`; `none` when `BOOST_ASSERT( s.front() == '?' )`
fails. -/
def encoded_query (w : Nat) (u : url_base) : Option (List Nat) :=
  let s := u.part w id_query
  if s = [] then some s
  else if s.head? = some 63 then some (s.drop 1)
  else none

/-- Member `url_base::set_query`. -/
def set_query (w : Nat) (a : storage) (e : pct_encoding) (s : List Nat) (u : url_base) :
    outcome url_base Unit :=
  if s = [] then on_parts (u.pt_.clear_part w id_query)
  else
    let n := (e.encode s).length
    u.on_base ((u.resize w a id_query (wadd w 1 n)).andThen fun st dest =>
      (st.poke dest 63).andThen fun st _ =>
      st.write (dest + 1) (e.encode s))

/-- Member `url_base::set_encoded_query`. -/
def set_encoded_query (w : Nat) (a : storage) (e : pct_encoding) (s : List Nat)
    (u : url_base) : outcome url_base Unit :=
  if s = [] then on_parts (u.pt_.clear_part w id_query)
  else if e.validate s = false then outcome.raise error.invalid_part u
  else
    u.on_base ((u.resize w a id_query (wadd w 1 s.length)).andThen fun st dest =>
      (st.poke dest 63).andThen fun st _ =>
      st.write (dest + 1) s)

/-- Member `url_base::set_query_part`. -/
def set_query_part (w : Nat) (a : storage) (e : pct_encoding) (s : List Nat)
    (u : url_base) : outcome url_base Unit :=
  if s = [] then on_parts (u.pt_.clear_part w id_query)
  else if s.head? ≠ some 63 then outcome.raise error.invalid_part u
  else
    let s1 := s.drop 1
    if e.validate s1 = false then outcome.raise error.invalid_part u
    else
      u.on_base ((u.resize w a id_query (wadd w 1 s1.length)).andThen fun st dest =>
        (st.poke dest 63).andThen fun st _ =>
        st.write (dest + 1) s1)

/-- Loop `while(n-- > 0)` of `normalize_scheme`, with `n` iterations left and `p` the
offset of the pointer: a byte `c` with `(unsigned char)(c - 65) < 26` becomes `c + 32`. -/
def normalize_loop : Nat → Nat → indexed_string → outcome indexed_string Unit
  | 0, _, st => outcome.ok st ()
  | n + 1, p, st =>
    outcome.mem (st.peek p) fun c =>
    if (c + 256 - 65) % 256 < 26 then
      (st.poke p ((c + 32) % 256)).andThen fun st1 _ => normalize_loop n (p + 1) st1
    else normalize_loop n (p + 1) st

/-- Member `url_base::normalize_scheme`. -/
def normalize_scheme (w : Nat) (u : url_base) : outcome url_base Unit :=
  let n := u.part_length w id_scheme
  if n = 0 then outcome.ok u ()
  else
    let n1 := wsub w n 1
    let p := offset u.pt_.base.index_ id_scheme
    boost_assert (u.pt_.base.peek (p + n1) = some 58) <|
    u.on_base (normalize_loop n1 p u.pt_.base)

end url_base

/-! ## Authority, userinfo, port and fragment setters -/

namespace url_base

/-- Member `url_base::encoded_authority`; `none` when one of its two assertions on the
leading `//` fails. -/
def encoded_authority (w : Nat) (u : url_base) : Option (List Nat) :=
  let s := indexed_string.get w u.pt_.base id_user id_path
  if s = [] then some s
  else if 2 ≤ s.length ∧ s.take 2 = [47, 47] then some (s.drop 2)
  else none

/-- Member `url_base::set_encoded_origin`; `parse_origin s` is the descriptor the external
`parse_origin(pt, s, ec)` fills, `none` when it reports an error code. -/
def set_encoded_origin (w : Nat) (a : storage) (parse_origin : List Nat → Option parts)
    (s : List Nat) (u : url_base) : outcome url_base Unit :=
  if s = [] then on_parts (u.pt_.clear w id_scheme id_path)
  else
    match parse_origin s with
    | none => outcome.raise error.invalid_part u
    | some pt => on_parts (u.pt_.copy w a pt s id_scheme id_path)

/-- Member `url_base::set_encoded_authority`; `parse_authority s` is the descriptor the
external `parse_authority(pt, s)` fills, `none` when it raises `invalid_part`. -/
def set_encoded_authority (w : Nat) (a : storage) (parse_authority : List Nat → Option parts)
    (s : List Nat) (u : url_base) : outcome url_base Unit :=
  if s = [] then on_parts (u.pt_.clear w id_user id_path)
  else
    match parse_authority s with
    | none => outcome.raise error.invalid_part u
    | some pt =>
      (u.on_base ((u.resize_range w a id_user id_path (wadd w 2 s.length)).andThen
          fun st dest =>
        (st.poke dest 47).andThen fun st _ =>
        (st.poke (dest + 1) 47).andThen fun st _ =>
        (st.write (dest + 2) s).andThen fun st _ =>
        (st.split_part w id_user (wadd w 2 (length w pt.index_ id_user))).andThen fun st _ =>
        (st.split_part w id_password (length w pt.index_ id_password)).andThen fun st _ =>
        st.split_part w id_host (length w pt.index_ id_host))).andThen fun u1 _ =>
      boost_assert (u1.part_length w id_port = length w pt.index_ id_port) <|
      outcome.ok u1 ()

/-- Member `url_base::set_encoded_userinfo`; `parse_userinfo s` is the descriptor the
external `parse_userinfo(pt, s)` fills, `none` when it raises `invalid_part`. -/
def set_encoded_userinfo (w : Nat) (a : storage) (parse_userinfo : List Nat → Option parts)
    (s : List Nat) (u : url_base) : outcome url_base Unit :=
  if s = [] then
    if length_range w u.pt_.base.index_ id_host id_path = 0 then
      on_parts (u.pt_.clear w id_user id_host)
    else u.on_base (u.resize_range w a id_user id_host 2)
  else
    match parse_userinfo s with
    | none => outcome.raise error.invalid_part u
    | some pt =>
      u.on_base ((u.resize_range w a id_user id_host (wadd w (wadd w 2 s.length) 1)).andThen
          fun st dest =>
        (st.poke dest 47).andThen fun st _ =>
        (st.poke (dest + 1) 47).andThen fun st _ =>
        (st.write (dest + 2) s).andThen fun st _ =>
        (st.split_part w id_user (length w pt.index_ id_user)).andThen fun st _ =>
        st.poke (dest + 2 + s.length) 64)

/-- Member `url_base::set_userinfo_part`. -/
def set_userinfo_part (w : Nat) (a : storage) (parse_userinfo : List Nat → Option parts)
    (s : List Nat) (u : url_base) : outcome url_base Unit :=
  if s ≠ [] then
    if s.getLast? ≠ some 64 then outcome.raise error.invalid_part u
    else set_encoded_userinfo w a parse_userinfo s.dropLast u
  else set_encoded_userinfo w a parse_userinfo s u

/-- Member `url_base::set_encoded_password`. -/
def set_encoded_password (w : Nat) (a : storage) (e : pct_encoding) (s : List Nat)
    (u : url_base) : outcome url_base Unit :=
  if s = [] then set_password w a e s u
  else if s.head? = some 58 then outcome.raise error.invalid_part u
  else if e.validate s = false then outcome.raise error.invalid_part u
  else
    let n := s.length
    if u.part_length w id_user ≠ 0 then
      u.on_base ((u.resize w a id_password (wadd w (wadd w 1 n) 1)).andThen fun st dest =>
        (st.poke dest 58).andThen fun st _ =>
        (st.poke (dest + (n + 1)) 64).andThen fun st _ =>
        st.write (dest + 1) s)
    else
      u.on_base
        ((u.resize_range w a id_user id_host (wadd w (wadd w (wadd w 2 1) n) 1)).andThen
          fun st dest =>
        (st.poke dest 47).andThen fun st _ =>
        (st.poke (dest + 1) 47).andThen fun st _ =>
        (st.poke (dest + 2) 58).andThen fun st _ =>
        (st.poke (dest + (2 + n + 1)) 64).andThen fun st _ =>
        (st.write (dest + 3) s).andThen fun st _ =>
        st.split_part w id_user 2)

/-- Member `url_base::set_password_part`. -/
def set_password_part (w : Nat) (a : storage) (e : pct_encoding) (s : List Nat)
    (u : url_base) : outcome url_base Unit :=
  if s = [] then set_password w a e s u
  else if s.length = 1 then
    if s.head? ≠ some 58 then outcome.raise error.invalid_part u
    else if u.part_length w id_user ≠ 0 then
      u.on_base ((u.resize w a id_password 2).andThen fun st dest =>
        (st.poke dest 58).andThen fun st _ =>
        st.poke (dest + 1) 64)
    else
      (u.on_base ((u.resize_range w a id_user id_host 4).andThen fun st dest =>
        (st.poke dest 47).andThen fun st _ =>
        (st.poke (dest + 1) 47).andThen fun st _ =>
        (st.poke (dest + 2) 58).andThen fun st _ =>
        (st.poke (dest + 3) 64).andThen fun st _ =>
        st.split_part w id_user 2)).andThen fun u1 _ =>
      set_encoded_password w a e (s.drop 1) u1
  else set_encoded_password w a e (s.drop 1) u

/-- Member `url_base::set_encoded_host`; `parse_hostname s` is the host kind the external
`parse_hostname(pt, s)` stores in `pt.host`, `none` when it raises `invalid_part`.  The
empty input is handed to `set_host`, which takes the other two parameters. -/
def set_encoded_host (w : Nat) (a : storage) (parse_hostname : List Nat → Option host_type)
    (parse_plain_hostname : List Nat → Option host_type) (e : pct_encoding) (s : List Nat)
    (u : url_base) : outcome url_base Unit :=
  if s = [] then set_host w a parse_plain_hostname e s u
  else
    match parse_hostname s with
    | none => outcome.raise error.invalid_part u
    | some h =>
      (if u.has_authority w = false then
        u.on_base ((u.resize w a id_user (wadd w 2 s.length)).andThen fun st dest =>
          (st.poke dest 47).andThen fun st _ =>
          (st.poke (dest + 1) 47).andThen fun st _ =>
          (st.split_part w id_user 2).andThen fun st _ =>
          (st.split_part w id_password 0).andThen fun st _ =>
          st.write (dest + 2) s)
      else
        u.on_base ((u.resize w a id_host s.length).andThen fun st dest =>
          st.write dest s)).andThen fun u1 _ =>
      outcome.ok { pt_ := { u1.pt_ with host := h } } ()

/-- Member `url_base::set_port(unsigned)`; `port_string n` is the text the helper
`detail::port_string` renders for `n`, which the sources use but do not define. -/
def set_port_unsigned (w : Nat) (a : storage) (match_port : List Nat → Bool)
    (port_string : Nat → List Nat) (n : Nat) (u : url_base) : outcome url_base Unit :=
  set_port w a match_port (port_string n) u

/-- Member `url_base::set_port_part`. -/
def set_port_part (w : Nat) (a : storage) (match_port : List Nat → Bool) (s : List Nat)
    (u : url_base) : outcome url_base Unit :=
  if s = [] then set_port w a match_port s u
  else if s.head? ≠ some 58 then outcome.raise error.invalid_part u
  else if 1 < s.length then set_port w a match_port (s.drop 1) u
  else
    u.on_base ((u.resize w a id_port 1).andThen fun st dest => st.poke dest 58)

/-- Member `url_base::set_fragment`. -/
def set_fragment (w : Nat) (a : storage) (e : pct_encoding) (s : List Nat) (u : url_base) :
    outcome url_base Unit :=
  if s = [] then on_parts (u.pt_.clear_part w id_frag)
  else
    let n := (e.encode s).length
    u.on_base ((u.resize w a id_frag (wadd w 1 n)).andThen fun st dest =>
      (st.poke dest 35).andThen fun st _ =>
      st.write (dest + 1) (e.encode s))

/-- Member `url_base::set_encoded_fragment`. -/
def set_encoded_fragment (w : Nat) (a : storage) (e : pct_encoding) (s : List Nat)
    (u : url_base) : outcome url_base Unit :=
  if s = [] then on_parts (u.pt_.clear_part w id_frag)
  else if e.validate s = false then outcome.raise error.invalid_part u
  else
    u.on_base ((u.resize w a id_frag (wadd w 1 s.length)).andThen fun st dest =>
      (st.poke dest 35).andThen fun st _ =>
      st.write (dest + 1) s)

/-- Member `url_base::set_fragment_part`. -/
def set_fragment_part (w : Nat) (a : storage) (e : pct_encoding) (s : List Nat)
    (u : url_base) : outcome url_base Unit :=
  if s = [] then on_parts (u.pt_.clear_part w id_frag)
  else if s.head? ≠ some 35 then outcome.raise error.invalid_part u
  else
    let s1 := s.drop 1
    if e.validate s1 = false then outcome.raise error.invalid_part u
    else
      u.on_base ((u.resize w a id_frag (wadd w 1 s1.length)).andThen fun st dest =>
        (st.poke dest 35).andThen fun st _ =>
        st.write (dest + 1) s1)

end url_base

/-! ## Path segments -/

/-- State of a `segments_type::iterator`: the offset `off_` of the segment in the buffer
and its length `n_`, the leading `/` included.  The member `pt_` is the parts string of the
URL the iterator is used with, which is not null. -/
structure segments_iterator where
  off_ : Nat
  n_ : Nat
  deriving DecidableEq, Repr

namespace segments_type

/-- Loop `while(p < end)` of `iterator::parse`, entered with `k = end - p`: it stops at
the first `/` or after `k` bytes.  `none` when a byte is read outside the block. -/
def parse_loop : Nat → Nat → indexed_string → Option Nat
  | 0, p, _ => some p
  | k + 1, p, st =>
    match st.peek p with
    | none => none
    | some c => if c = 47 then some p else parse_loop k (p + 1) st

/-- Member `iterator::parse`; `none` when `BOOST_ASSERT(off_ != pt_->offset(id_frag))`
fails or a byte is read outside the block. -/
def parse (w : Nat) (u : url_base) (it : segments_iterator) : Option segments_iterator :=
  if it.off_ = offset u.pt_.base.index_ id_frag then none
  else
    let e := offset u.pt_.base.index_ id_query
    let p0 := it.off_
    match u.pt_.base.peek p0 with
    | none => none
    | some c =>
      let p := if c = 47 then p0 + 1 else p0
      match parse_loop (e - p) p u.pt_.base with
      | none => none
      | some p1 => some { off_ := it.off_, n_ := wsub w p1 p0 }

/-- Constructor `iterator(pt, end)` for the parts string of `u`. -/
def iterator (w : Nat) (u : url_base) (at_end : Bool) : Option segments_iterator :=
  if at_end = true ∨ u.pt_.nseg = 0 then
    some { off_ := offset u.pt_.base.index_ id_query, n_ := 0 }
  else parse w u { off_ := offset u.pt_.base.index_ id_path, n_ := 0 }

/-- Member `iterator::operator*`: the `n_` bytes at `off_`, without a leading `/`. -/
def value (u : url_base) (it : segments_iterator) : List Nat :=
  let s := ((u.pt_.base.s_.getD []).drop it.off_).take it.n_
  if s ≠ [] ∧ s.head? = some 47 then s.drop 1 else s

/-- Member `iterator::operator++`; `none` when its assertion or `parse` fails. -/
def next (w : Nat) (u : url_base) (it : segments_iterator) : Option segments_iterator :=
  if it.off_ = offset u.pt_.base.index_ id_frag then none
  else
    let off := wadd w it.off_ it.n_
    if off = offset u.pt_.base.index_ id_frag then some { off_ := off, n_ := 0 }
    else parse w u { off_ := off, n_ := it.n_ }

/-- Member `segments_type::begin`. -/
def begin (w : Nat) (u : url_base) : Option segments_iterator := iterator w u false

/-- Member `segments_type::end`. -/
def end_ (w : Nat) (u : url_base) : Option segments_iterator := iterator w u true

/-- Call `first.parse()` or `pos.parse()` that ends the modifiers: the iterator is parsed
again over the new state and returned; a `fault` when `parse` fails its assertion. -/
def reparse (w : Nat) (u : url_base) (it : segments_iterator) :
    outcome url_base segments_iterator :=
  match parse w u it with
  | none => outcome.fault
  | some it1 => outcome.ok u it1

/-- The statement
`pt_->change_part(pt_->reserve_change_part(id_path, pos, erase_count, n)).copy(s, 1)[0] = '/'`
shared by the four modifiers that store a segment, with `n = s.size() + 1`: `erase_count`
bytes at offset `pos` give way to `/` followed by `s`.  In `insert` and `replace` the call
is `.encode(pct, s, 1)`, which stores the encoded bytes at `p + 1`; `s` is then the encoded
form.  The pointer `pos.ptr()` is `pt_->data() + off_`, the offset `off_`. -/
def store_segment (w : Nat) (a : storage) (pos erase_count : Nat) (s : List Nat)
    (st : indexed_string) : outcome indexed_string Unit :=
  (st.reserve_change_part w a id_path pos erase_count (wadd w s.length 1)).andThen
    fun st1 r =>
  (st1.change_part w r).andThen fun st2 tb =>
  (tb.copy w s 1 st2).andThen fun st3 p =>
  st3.poke p 47

/-- Statements of `segments_type::erase(first, last)` before its final `first.parse()`: the
assertions on the two positions, the count of `/` in the range, the removal of the range
and the update of `nseg`; the result is the iterator `first`.  The loop
`for(i = p + first.off_; i != e; ++i)` leaves the block when `last.off_ < first.off_`, a
`fault`; the `int` counter `c` is taken without its overflow. -/
def erase_store (w : Nat) (a : storage) (first last : segments_iterator) (u : url_base) :
    outcome url_base segments_iterator :=
  url_base.boost_assert (offset u.pt_.base.index_ id_path ≤ first.off_) <|
  url_base.boost_assert (offset u.pt_.base.index_ id_path ≤ last.off_) <|
  url_base.boost_assert (first.off_ ≤ offset u.pt_.base.index_ id_query) <|
  url_base.boost_assert (last.off_ ≤ offset u.pt_.base.index_ id_query) <|
  if last.off_ < first.off_ then outcome.fault
  else
    let c := (((u.pt_.base.s_.getD []).drop first.off_).take
      (last.off_ - first.off_)).count 47
    match (u.pt_.base.reserve_change_part w a id_path first.off_
        (wsub w last.off_ first.off_) 0).andThen fun st1 r => st1.change_part w r with
    | outcome.fault => outcome.fault
    | outcome.raise e st => outcome.raise e (u.with_base st)
    | outcome.ok st _ =>
      outcome.ok { pt_ := { u.pt_ with base := st, nseg := wsub w u.pt_.nseg c } } first

/-- Member `segments_type::erase(first, last)`. -/
def erase (w : Nat) (a : storage) (first last : segments_iterator) (u : url_base) :
    outcome url_base segments_iterator :=
  (erase_store w a first last u).andThen fun u1 it => reparse w u1 it

/-- Member `segments_type::erase(pos)`. -/
def erase_one (w : Nat) (a : storage) (pos : segments_iterator) (u : url_base) :
    outcome url_base segments_iterator :=
  match next w u pos with
  | none => outcome.fault
  | some last => erase w a pos last u

/-- Statements of `segments_type::insert_encoded` before its final `pos.parse()`: the
validation, the stored segment, `++pt_->nseg` and `pos.off_ += n`; the result is the
iterator `pos`.  The codec `e` is `pchar_pct_set()`. -/
def insert_encoded_store (w : Nat) (a : storage) (e : pct_encoding) (pos : segments_iterator)
    (s : List Nat) (u : url_base) : outcome url_base segments_iterator :=
  if e.validate s = false then outcome.raise error.invalid_part u
  else
    let n := wadd w s.length 1
    match store_segment w a pos.off_ 0 s u.pt_.base with
    | outcome.fault => outcome.fault
    | outcome.raise err st => outcome.raise err (u.with_base st)
    | outcome.ok st _ =>
      outcome.ok { pt_ := { u.pt_ with base := st, nseg := wadd w u.pt_.nseg 1 } }
        { off_ := wadd w pos.off_ n, n_ := pos.n_ }

/-- Member `segments_type::insert_encoded`; `e` is the codec `pchar_pct_set()`. -/
def insert_encoded (w : Nat) (a : storage) (e : pct_encoding) (pos : segments_iterator)
    (s : List Nat) (u : url_base) : outcome url_base segments_iterator :=
  (insert_encoded_store w a e pos s u).andThen fun u1 it => reparse w u1 it

/-- Member `segments_type::insert`; `e` is the codec `pchar_pct_set()`. -/
def insert (w : Nat) (a : storage) (e : pct_encoding) (pos : segments_iterator)
    (s : List Nat) (u : url_base) : outcome url_base segments_iterator :=
  let n := wadd w (e.encode s).length 1
  match store_segment w a pos.off_ 0 (e.encode s) u.pt_.base with
  | outcome.fault => outcome.fault
  | outcome.raise err st => outcome.raise err (u.with_base st)
  | outcome.ok st _ =>
    reparse w { pt_ := { u.pt_ with base := st, nseg := wadd w u.pt_.nseg 1 } }
      { off_ := wadd w pos.off_ n, n_ := pos.n_ }

/-- Member `segments_type::replace_encoded`; `e` is the codec `pchar_pct_set()`. -/
def replace_encoded (w : Nat) (a : storage) (e : pct_encoding) (pos : segments_iterator)
    (s : List Nat) (u : url_base) : outcome url_base segments_iterator :=
  if e.validate s = false then outcome.raise error.invalid_part u
  else
    match store_segment w a pos.off_ pos.n_ s u.pt_.base with
    | outcome.fault => outcome.fault
    | outcome.raise err st => outcome.raise err (u.with_base st)
    | outcome.ok st _ => reparse w (u.with_base st) pos

/-- Member `segments_type::replace`; `e` is the codec `pchar_pct_set()`. -/
def replace (w : Nat) (a : storage) (e : pct_encoding) (pos : segments_iterator)
    (s : List Nat) (u : url_base) : outcome url_base segments_iterator :=
  match store_segment w a pos.off_ pos.n_ (e.encode s) u.pt_.base with
  | outcome.fault => outcome.fault
  | outcome.raise err st => outcome.raise err (u.with_base st)
  | outcome.ok st _ => reparse w (u.with_base st) pos

end segments_type

/-! ## Backward steps of the iterators and query parameters -/

/-- Loop `while(--p > begin)` of the two `operator--`, looking for the byte `c`, entered with
the pointer at offset `p`: the offset it stops at, and whether the byte was found there.
`none` when `--p` or a read leaves the block. -/
def scan_back (c : Nat) (first : Nat) (st : indexed_string) : Nat → Option (Nat × Bool)
  | 0 => none
  | p + 1 =>
    if first < p then
      match st.peek p with
      | none => none
      | some x => if x = c then some (p, true) else scan_back c first st p
    else some (p, false)

namespace segments_type

/-- Member `iterator::operator--` of the segments; `none` when its assertion
`off_ != pt_->offset(id_path)` fails, when `parse` fails or a read leaves the block. -/
def prev (w : Nat) (u : url_base) (it : segments_iterator) : Option segments_iterator :=
  if it.off_ = offset u.pt_.base.index_ id_path then none
  else
    match scan_back 47 (offset u.pt_.base.index_ id_path) u.pt_.base it.off_ with
    | none => none
    | some (p, true) => parse w u { off_ := p, n_ := it.n_ }
    | some (p, false) => some { off_ := p, n_ := wsub w it.off_ p }

end segments_type

/-- State of a `params_type::iterator`: the offset `off_` of the element in the buffer, the
length `nk_` of its separator and key, and the length `nv_` of its `=` and value, `0`
without a value.  The member `pt_` is the parts string of the URL the iterator is used
with, which is not null. -/
structure params_iterator where
  off_ : Nat
  nk_ : Nat
  nv_ : Nat
  deriving DecidableEq, Repr

/-- The calls `qkey_pct_set().parse(p, end, ec)` and `qval_pct_set().parse(p, end, ec)` of
the two codecs of query keys and values, which the sources use but do not define: for
the buffer and the offsets of `p` and `end` they give the offset returned, `none` when the
error code is set. -/
structure query_codecs where
  qkey_parse : List Nat → Nat → Nat → Option Nat
  qval_parse : List Nat → Nat → Nat → Option Nat

namespace params_type

/-- Member `iterator::parse` of the parameters; `none` when one of its assertions fails or
a read leaves the block. -/
def parse (w : Nat) (c : query_codecs) (u : url_base) (it : params_iterator) :
    Option params_iterator :=
  if u.pt_.nparam = 0 then none
  else
    let e := offset u.pt_.base.index_ id_end
    let p := it.off_
    match u.pt_.base.peek p with
    | none => none
    | some x =>
      if ¬ ((it.off_ = offset u.pt_.base.index_ id_query ∧ x = 63) ∨
          (it.off_ ≠ offset u.pt_.base.index_ id_query ∧ x = 38)) then none
      else
        match c.qkey_parse (u.pt_.base.s_.getD []) (p + 1) e with
        | none => none
        | some p1 =>
          let nk := wsub w p1 p
          if p1 = e then some { off_ := it.off_, nk_ := nk, nv_ := 0 }
          else
            match u.pt_.base.peek p1 with
            | none => none
            | some y =>
              if y ≠ 61 then none
              else
                match c.qval_parse (u.pt_.base.s_.getD []) (p1 + 1) e with
                | none => none
                | some p2 => some { off_ := it.off_, nk_ := nk, nv_ := wsub w p2 p1 }

/-- Constructor `iterator(pt, end)` of the parameters for the parts string of `u`. -/
def iterator (w : Nat) (c : query_codecs) (u : url_base) (at_end : Bool) :
    Option params_iterator :=
  if at_end = true ∨ u.pt_.nparam = 0 then
    some { off_ := offset u.pt_.base.index_ id_frag, nk_ := 0, nv_ := 0 }
  else parse w c u { off_ := offset u.pt_.base.index_ id_query, nk_ := 0, nv_ := 0 }

/-- Member `iterator::operator*` of the parameters: the key and the value, the value being
`none` for the empty view `{ }` returned when `nv_ == 0`; the outer `none` when one of its
assertions fails or a read leaves the block. -/
def value (w : Nat) (u : url_base) (it : params_iterator) :
    Option (List Nat × Option (List Nat)) :=
  if u.pt_.nparam = 0 then none
  else if it.nk_ = 0 then none
  else
    match u.pt_.base.peek it.off_ with
    | none => none
    | some x =>
      if x ≠ (if it.off_ = offset u.pt_.base.index_ id_query then 63 else 38) then none
      else
        let k := ((u.pt_.base.s_.getD []).drop (it.off_ + 1)).take (wsub w it.nk_ 1)
        if it.nv_ = 0 then some (k, none)
        else
          match u.pt_.base.peek (it.off_ + it.nk_) with
          | none => none
          | some y =>
            if y ≠ 61 then none
            else
              some (k, some (((u.pt_.base.s_.getD []).drop (it.off_ + it.nk_ + 1)).take
                (wsub w it.nv_ 1)))

/-- Member `iterator::operator++` of the parameters; `none` when one of its assertions or
`parse` fails. -/
def next (w : Nat) (c : query_codecs) (u : url_base) (it : params_iterator) :
    Option params_iterator :=
  if u.pt_.nparam = 0 then none
  else if it.off_ = offset u.pt_.base.index_ id_frag then none
  else
    let off := wadd w (wadd w it.off_ it.nv_) it.nk_
    if off = offset u.pt_.base.index_ id_frag then some { off_ := off, nk_ := 0, nv_ := 0 }
    else parse w c u { off_ := off, nk_ := it.nk_, nv_ := it.nv_ }

/-- Member `iterator::operator--` of the parameters; `none` when one of its assertions or
`parse` fails, or a read leaves the block.  When no `&` is found the offset is set and
`nk_` and `nv_` are left as they are. -/
def prev (w : Nat) (c : query_codecs) (u : url_base) (it : params_iterator) :
    Option params_iterator :=
  if u.pt_.nparam = 0 then none
  else if it.off_ = offset u.pt_.base.index_ id_query then none
  else
    match scan_back 38 (offset u.pt_.base.index_ id_query) u.pt_.base it.off_ with
    | none => none
    | some (p, true) => parse w c u { off_ := p, nk_ := it.nk_, nv_ := it.nv_ }
    | some (p, false) =>
      if u.pt_.base.peek p = some 63 then some { off_ := p, nk_ := it.nk_, nv_ := it.nv_ }
      else none

/-- Member `params_type::begin`. -/
def begin (w : Nat) (c : query_codecs) (u : url_base) : Option params_iterator :=
  iterator w c u false

/-- Member `params_type::end`. -/
def end_ (w : Nat) (c : query_codecs) (u : url_base) : Option params_iterator :=
  iterator w c u true

end params_type

/-! ## Specification-side notions -/

/-- Lower-case form of a byte as the specification words it: the bytes `A`..`Z` go to the
corresponding bytes `a`..`z`, every other byte stays. -/
def ascii_lower (c : Nat) : Nat := if 65 ≤ c ∧ c ≤ 90 then c + 32 else c

/-- The `parts_view` that reads the foreign bytes `s` through the descriptor `pt`, with the
counters of `pt`: what `copy` and `copy_all` are handed. -/
def parts.view (pt : parts) (s : List Nat) : parts_string :=
  { base := { index_ := pt.index_, s_ := some s, capacity_ := s.length },
    nseg := pt.nseg, nparam := pt.nparam, host := pt.host }

namespace url_base

/-- State of a URL in stored form, in the words of the specification: eight parts over a
valid container (I1-I6), every stored byte a byte, and the delimiters of the table of the
parts (I9): a non-empty scheme ends in `:`; the user part is empty or starts with `//`, and
it is not empty when one of the authority parts is not; the password part is empty, the
bare `@`, or starts with `:` and ends in `@`; a non-empty port starts with `:`, a non-empty
query with `?`, a non-empty fragment with `#`. -/
def stored_form (w : Nat) (u : url_base) : Prop :=
  u.pt_.base.index_.length = id_end ∧ indexed_string.valid w u.pt_.base ∧
  (∀ j, j < id_end → ∀ c, c ∈ u.part w j → c < 256) ∧
  (u.part w id_scheme = [] ∨ (u.part w id_scheme).getLast? = some 58) ∧
  (u.part w id_user = [] ∨ (u.part w id_user).take 2 = [47, 47]) ∧
  (u.has_authority w = true → u.part w id_user ≠ []) ∧
  (u.part w id_password = [] ∨ u.part w id_password = [64] ∨
    ((u.part w id_password).head? = some 58 ∧
      (u.part w id_password).getLast? = some 64)) ∧
  (u.part w id_port = [] ∨ (u.part w id_port).head? = some 58) ∧
  (u.part w id_query = [] ∨ (u.part w id_query).head? = some 63) ∧
  (u.part w id_frag = [] ∨ (u.part w id_frag).head? = some 35)

instance (w : Nat) (u : url_base) : Decidable (stored_form w u) := by
  unfold stored_form; infer_instance

end url_base

/-- Path of the segments `vs` as the specification words it: every segment behind its
own `/`. -/
def join_segments : List (List Nat) → List Nat
  | [] => []
  | v :: vs => 47 :: v ++ join_segments vs

namespace segments_type

/-- Walk of `k` steps from the iterator `it`: the values `*it` met on the way, each
followed by `++it`, and the iterator reached. -/
def walk (w : Nat) (u : url_base) : Nat → segments_iterator →
    Option (List (List Nat) × segments_iterator)
  | 0, it => some ([], it)
  | k + 1, it =>
    match next w u it with
    | none => none
    | some it1 =>
      match walk w u k it1 with
      | none => none
      | some (vs, it2) => some (value u it :: vs, it2)

end segments_type

namespace segments_type

/-- The iterator `it` stands on a segment of the path `[o, q)` of the buffer `b`: its `n_`
bytes lie in the path, none but the first is a `/`, the first is one unless the segment
starts the path, and the segment ends with the path or in front of a `/`. -/
def on_segment (b : List Nat) (o q : Nat) (it : segments_iterator) : Prop :=
  o ≤ it.off_ ∧ 1 ≤ it.n_ ∧ it.off_ + it.n_ ≤ q ∧
  (∀ i, i < it.n_ - 1 → byte_at b (it.off_ + 1 + i) ≠ 47) ∧
  (it.off_ = o ∨ byte_at b it.off_ = 47) ∧
  (it.off_ + it.n_ = q ∨ byte_at b (it.off_ + it.n_) = 47)

instance (b : List Nat) (o q : Nat) (it : segments_iterator) :
    Decidable (on_segment b o q it) := by
  unfold on_segment; infer_instance

/-- The iterator reached from `it` by `k` applications of `++`, none of them to an
iterator that stands at the position of `end()`. -/
def advance (w : Nat) (u : url_base) : Nat → segments_iterator → Option segments_iterator
  | 0, it => some it
  | k + 1, it =>
    if it.off_ = offset u.pt_.base.index_ id_query then none
    else
      match next w u it with
      | none => none
      | some it1 => advance w u k it1

end segments_type

/-! ## Concrete inputs -/

/-- A storage that always hands out a block, filled with the byte `7`. -/
def sample_storage : storage := ⟨fun _ => Except.ok (fun _ => 7)⟩

/-- A storage that never hands out a block. -/
def failing_storage : storage := ⟨fun _ => Except.error error.alloc_failure⟩

/-- A three-part container holding `[1,2] [3] [4,5]` in a block of eight bytes. -/
def sample_string : indexed_string :=
  { index_ := [2, 3, 5], s_ := some [1, 2, 3, 4, 5, 0, 9, 9], capacity_ := 8 }

/-- The container `copy_with_prefix` leaves when the whole foreign view `[65] [66] [67]` is
copied into the sample container with the literal `[88]` in front. -/
def prefix_result : indexed_string :=
  { index_ := [2, 3, 4], s_ := some [88, 65, 66, 67, 0, 0, 9, 9], capacity_ := 8 }

/-- The container `copy_with_suffix` leaves when the whole foreign view `[65] [66] [67]` is
copied into the sample container with the suffix `[88]`. -/
def suffix_result : indexed_string :=
  { index_ := [1, 2, 3], s_ := some [65, 66, 67, 88, 0, 0, 9, 9], capacity_ := 8 }

/-- The container `resize(2, 3)` leaves when the last part of the sample container grows
by one byte: the old terminator is still at offset `5`, inside the payload. -/
def grown_string : indexed_string :=
  { index_ := [2, 3, 6], s_ := some [1, 2, 3, 4, 5, 0, 0, 9], capacity_ := 8 }

/-- A freshly constructed URL: eight empty parts, no buffer, counters reset. -/
def empty_url : url_base :=
  { pt_ := { base := { index_ := [0, 0, 0, 0, 0, 0, 0, 0], s_ := none, capacity_ := 0 },
             nseg := 0, nparam := 0, host := host_type.none } }

/-- Descriptor of the URL `h:`: a two-byte scheme and nothing else. -/
def sample_parts : parts :=
  { index_ := [2, 2, 2, 2, 2, 2, 2, 2], nseg := 0, nparam := 0, host := host_type.none }

/-- A codec that stores the bytes as they are and accepts every string. -/
def identity_encoding : pct_encoding := ⟨fun s => s, fun _ => true⟩

/-- Path matchers that accept every string. -/
def lenient_rules : path_rules := ⟨fun _ => true, fun _ => true, fun _ => true, fun _ => true⟩

/-- A matcher that accepts every string. -/
def accept_all : List Nat → Bool := fun _ => true

/-- The URL `http://a:b@x.y:8080/p/q?k=v#f` in stored form. -/
def sample_url : url_base :=
  { pt_ := { base := { index_ := [5, 8, 11, 14, 19, 23, 27, 29],
                       s_ := some [104, 116, 116, 112, 58, 47, 47, 97, 58, 98, 64, 120, 46,
                         121, 58, 56, 48, 56, 48, 47, 112, 47, 113, 63, 107, 61, 118, 35, 102,
                         0],
                       capacity_ := 30 },
             nseg := 2, nparam := 1, host := host_type.name } }

/-- The URL `http://:b@x.y:8080/p/q?k=v#f` in stored form, in the block `set_user("")`
leaves behind. -/
def sample_url_no_user : url_base :=
  { pt_ := { base := { index_ := [5, 7, 10, 13, 18, 22, 26, 28],
                       s_ := some [104, 116, 116, 112, 58, 47, 47, 58, 98, 64, 120, 46, 121,
                         58, 56, 48, 56, 48, 47, 112, 47, 113, 63, 107, 61, 118, 35, 102, 0,
                         0],
                       capacity_ := 30 },
             nseg := 2, nparam := 1, host := host_type.name } }

/-- The URL `http://x.y:8080/p/q?k=v#f` in stored form, in the block `set_password("")`
leaves behind. -/
def sample_url_no_userinfo : url_base :=
  { pt_ := { base := { index_ := [5, 7, 7, 10, 15, 19, 23, 25],
                       s_ := some [104, 116, 116, 112, 58, 47, 47, 120, 46, 121, 58, 56, 48,
                         56, 48, 47, 112, 47, 113, 63, 107, 61, 118, 35, 102, 0, 35, 102, 0,
                         0],
                       capacity_ := 30 },
             nseg := 2, nparam := 1, host := host_type.name } }

/-- The URL `//u@` in stored form: a user, the bare `@`, no host and no port. -/
def userinfo_url : url_base :=
  { pt_ := { base := { index_ := [0, 3, 4, 4, 4, 4, 4, 4], s_ := some [47, 47, 117, 64, 0],
                       capacity_ := 5 },
             nseg := 0, nparam := 0, host := host_type.none } }

/-- The URL `//u@h` in stored form: a user, the bare `@`, the host `h` and no port. -/
def userinfo_host_url : url_base :=
  { pt_ := { base := { index_ := [0, 3, 4, 5, 5, 5, 5, 5],
                       s_ := some [47, 47, 117, 64, 104, 0], capacity_ := 6 },
             nseg := 0, nparam := 0, host := host_type.name } }

/-- The URL `//u@` in the block `set_host("")` leaves behind on `//u@h`. -/
def userinfo_host_cleared : url_base :=
  { pt_ := { base := { index_ := [0, 3, 4, 4, 4, 4, 4, 4],
                       s_ := some [47, 47, 117, 64, 0, 0], capacity_ := 6 },
             nseg := 0, nparam := 0, host := host_type.none } }

/-- The URL `HTTPS:` in stored form, as `set_scheme("HTTPS")` leaves a fresh URL. -/
def upper_scheme_url : url_base :=
  { pt_ := { base := { index_ := [6, 6, 6, 6, 6, 6, 6, 6],
                       s_ := some [72, 84, 84, 80, 83, 58, 0], capacity_ := 7 },
             nseg := 0, nparam := 0, host := host_type.none } }

/-- The URL `https:` in stored form, as `normalize_scheme()` leaves `HTTPS:`. -/
def lower_scheme_url : url_base :=
  { pt_ := { base := { index_ := [6, 6, 6, 6, 6, 6, 6, 6],
                       s_ := some [104, 116, 116, 112, 115, 58, 0], capacity_ := 7 },
             nseg := 0, nparam := 0, host := host_type.none } }

/-- The state `set_encoded_path("/p/q")` leaves a fresh URL in: the path is stored and
`nseg` is still `0`. -/
def path_only_url : url_base :=
  { pt_ := { base := { index_ := [0, 0, 0, 0, 0, 4, 4, 4], s_ := some [47, 112, 47, 113, 0],
                       capacity_ := 5 },
             nseg := 0, nparam := 0, host := host_type.none } }

/-- The state the query setters leave a fresh URL in for the query `a=1&b=2`: the query
is stored and `nparam` is still `0`. -/
def query_only_url : url_base :=
  { pt_ := { base := { index_ := [0, 0, 0, 0, 0, 0, 8, 8],
                       s_ := some [63, 97, 61, 49, 38, 98, 61, 50, 0], capacity_ := 9 },
             nseg := 0, nparam := 0, host := host_type.none } }

/-- The empty URL in the block that `set_user("")` followed by `set_port("")` leaves
`//u@` in. -/
def cleared_userinfo_url : url_base :=
  { pt_ := { base := { index_ := [0, 0, 0, 0, 0, 0, 0, 0], s_ := some [0, 47, 0, 64, 0],
                       capacity_ := 5 },
             nseg := 0, nparam := 0, host := host_type.none } }

/-- The URL `//` in stored form, in the block that `set_user("")` leaves `//u@` in: a
user part `//` and no password part. -/
def bare_authority_url : url_base :=
  { pt_ := { base := { index_ := [0, 2, 2, 2, 2, 2, 2, 2], s_ := some [47, 47, 0, 64, 0],
                       capacity_ := 5 },
             nseg := 0, nparam := 0, host := host_type.none } }

/-- The URL `http://x/` in stored form: the path is the single byte `/`. -/
def root_url : url_base :=
  { pt_ := { base := { index_ := [5, 7, 7, 8, 8, 9, 9, 9],
                       s_ := some [104, 116, 116, 112, 58, 47, 47, 120, 47, 0],
                       capacity_ := 10 },
             nseg := 1, nparam := 0, host := host_type.name } }

/-- The URL `/p/q` in stored form, with its two segments counted. -/
def segments_url : url_base :=
  { pt_ := { base := { index_ := [0, 0, 0, 0, 0, 4, 4, 4], s_ := some [47, 112, 47, 113, 0],
                       capacity_ := 5 },
             nseg := 2, nparam := 0, host := host_type.none } }

/-- The URL `a/b` in stored form: a relative path with one `/`. -/
def relative_url : url_base :=
  { pt_ := { base := { index_ := [0, 0, 0, 0, 0, 3, 3, 3], s_ := some [97, 47, 98, 0],
                       capacity_ := 4 },
             nseg := 1, nparam := 0, host := host_type.none } }

/-- A userinfo parser that accepts `u:p` style input whose user is the first byte: the
descriptor has a user of length `1` and a password of the remaining bytes. -/
def one_byte_user (s : List Nat) : Option parts :=
  some { index_ := [0, 1, s.length, s.length, s.length, s.length, s.length, s.length],
         nseg := 0, nparam := 0, host := host_type.none }

/-- The state `insert_encoded(end(), "a")` has stored on `http://x/` when it parses the
iterator it returns: the path is `//a` and `nseg` is `2`. -/
def root_url_appended : url_base :=
  { pt_ := { base := { index_ := [5, 7, 7, 8, 8, 11, 11, 11],
                       s_ := some [104, 116, 116, 112, 58, 47, 47, 120, 47, 47, 97, 0],
                       capacity_ := 12 },
             nseg := 2, nparam := 0, host := host_type.name } }

/-- The URL `http://x/?k` in stored form: the path `/` and one parameter. -/
def root_query_url : url_base :=
  { pt_ := { base := { index_ := [5, 7, 7, 8, 8, 9, 11, 11],
                       s_ := some [104, 116, 116, 112, 58, 47, 47, 120, 47, 63, 107, 0],
                       capacity_ := 12 },
             nseg := 1, nparam := 1, host := host_type.name } }

/-- The URL `http://x//a?k` in stored form, which `insert_encoded(end(), "a")` returns on
`http://x/?k`: the path is `//a` and `nseg` is `2`. -/
def root_query_url_appended : url_base :=
  { pt_ := { base := { index_ := [5, 7, 7, 8, 8, 11, 13, 13],
                       s_ := some [104, 116, 116, 112, 58, 47, 47, 120, 47, 47, 97, 63, 107,
                         0],
                       capacity_ := 14 },
             nseg := 2, nparam := 1, host := host_type.name } }

/-- The state `insert_encoded(end(), "a")` has stored on `/p/q` when it parses the returned
iterator: the path is `/p/q/a` and `nseg` is `3`. -/
def segments_url_appended : url_base :=
  { pt_ := { base := { index_ := [0, 0, 0, 0, 0, 6, 6, 6],
                       s_ := some [47, 112, 47, 113, 47, 97, 0], capacity_ := 7 },
             nseg := 3, nparam := 0, host := host_type.none } }

/-- The state `erase` has stored on `/p/q` for the range of the second segment when it
parses the returned iterator: the path is `/p` and `nseg` is `1`. -/
def segments_url_erased : url_base :=
  { pt_ := { base := { index_ := [0, 0, 0, 0, 0, 2, 2, 2], s_ := some [47, 112, 0, 113, 0],
                       capacity_ := 5 },
             nseg := 1, nparam := 0, host := host_type.none } }

/-- The state `replace_encoded(begin(), "x")` leaves `a/b` in: the path is `/x/b` and
`nseg` is still `1`. -/
def relative_url_replaced : url_base :=
  { pt_ := { base := { index_ := [0, 0, 0, 0, 0, 4, 4, 4], s_ := some [47, 120, 47, 98, 0],
                       capacity_ := 5 },
             nseg := 1, nparam := 0, host := host_type.none } }

/-- The state `set_encoded_userinfo("u:p")` leaves a fresh URL in when the parser reports
a user of one byte: the user part is the single byte `/`. -/
def split_userinfo_url : url_base :=
  { pt_ := { base := { index_ := [0, 1, 6, 6, 6, 6, 6, 6],
                       s_ := some [47, 47, 117, 58, 112, 64, 0], capacity_ := 7 },
             nseg := 0, nparam := 0, host := host_type.none } }

/-- The state `set_port_part(":")` leaves a fresh URL in: a port part `:` and no `//`. -/
def bare_port_url : url_base :=
  { pt_ := { base := { index_ := [0, 0, 0, 0, 1, 1, 1, 1], s_ := some [58, 0],
                       capacity_ := 2 },
             nseg := 0, nparam := 0, host := host_type.none } }

/-- The state `set_port("8")` leaves a fresh URL in: the authority `//:8`. -/
def authority_port_url : url_base :=
  { pt_ := { base := { index_ := [0, 2, 2, 2, 4, 4, 4, 4], s_ := some [47, 47, 58, 56, 0],
                       capacity_ := 5 },
             nseg := 0, nparam := 0, host := host_type.none } }

/-- Descriptor of the authority `u:p@h:8`: a user of one byte, the password `:p@`, a host
of one byte and the port `:8`. -/
def sample_authority_parts : parts :=
  { index_ := [0, 1, 4, 5, 7, 7, 7, 7], nseg := 0, nparam := 0, host := host_type.name }

/-- A hostname parser that accepts every string as a registered name. -/
def accept_name : List Nat → Option host_type := fun _ => some host_type.name

/-- A parser that rejects every string. -/
def reject_all : List Nat → Option parts := fun _ => none

/-- Scan of the bytes of `b` from offset `p` on, over at most `k` bytes, up to the first
byte that `stop` holds for. -/
def scan_until (stop : Nat → Bool) (b : List Nat) : Nat → Nat → Nat
  | 0, p => p
  | k + 1, p => if stop (byte_at b p) then p else scan_until stop b k (p + 1)

/-- Codecs of query keys and values that never set the error code: the key ends at the
first `=`, `&` or `#`, the value at the first `&` or `#`, both at `end` at the latest. -/
def plain_codecs : query_codecs :=
  { qkey_parse := fun b p e =>
      some (scan_until (fun x => x = 61 || x = 38 || x = 35) b (e - p) p),
    qval_parse := fun b p e => some (scan_until (fun x => x = 38 || x = 35) b (e - p) p) }

/-- The URL `?a=1&b=&c` in stored form, with its three parameters counted. -/
def three_params_url : url_base :=
  { pt_ := { base := { index_ := [0, 0, 0, 0, 0, 0, 9, 9],
                       s_ := some [63, 97, 61, 49, 38, 98, 61, 38, 99, 0], capacity_ := 10 },
             nseg := 0, nparam := 3, host := host_type.none } }

/-- The URL `?a=1&b=&c#f` in stored form: the same query in front of a fragment. -/
def three_params_frag_url : url_base :=
  { pt_ := { base := { index_ := [0, 0, 0, 0, 0, 0, 9, 11],
                       s_ := some [63, 97, 61, 49, 38, 98, 61, 38, 99, 35, 102, 0],
                       capacity_ := 12 },
             nseg := 0, nparam := 3, host := host_type.none } }

/-- The URL `?a&b` in stored form: two keys without a value. -/
def bare_keys_url : url_base :=
  { pt_ := { base := { index_ := [0, 0, 0, 0, 0, 0, 4, 4], s_ := some [63, 97, 38, 98, 0],
                       capacity_ := 5 },
             nseg := 0, nparam := 2, host := host_type.none } }

/-- The URL `?a=1&bb=22` in stored form, with its two parameters counted. -/
def two_params_url : url_base :=
  { pt_ := { base := { index_ := [0, 0, 0, 0, 0, 0, 10, 10],
                       s_ := some [63, 97, 61, 49, 38, 98, 98, 61, 50, 50, 0],
                       capacity_ := 11 },
             nseg := 0, nparam := 2, host := host_type.none } }

/-- The URL `abc` in stored form: a path without a `/`, so `nseg == 0`. -/
def plain_path_url : url_base :=
  { pt_ := { base := { index_ := [0, 0, 0, 0, 0, 3, 3, 3], s_ := some [97, 98, 99, 0],
                       capacity_ := 4 },
             nseg := 0, nparam := 0, host := host_type.none } }

/-- The URL `//:@` in stored form: the empty password with its delimiters, as
`set_password_part(":")` leaves `//`. -/
def colon_password_url : url_base :=
  { pt_ := { base := { index_ := [0, 2, 4, 4, 4, 4, 4, 4], s_ := some [47, 47, 58, 64, 0],
                       capacity_ := 5 },
             nseg := 0, nparam := 0, host := host_type.none } }

/-- The state `set_password_part(":")` leaves a fresh URL in: the user part `//` and no
password part, in the block that held `//:@`. -/
def cleared_password_url : url_base :=
  { pt_ := { base := { index_ := [0, 2, 2, 2, 2, 2, 2, 2], s_ := some [47, 47, 0, 64, 0],
                       capacity_ := 5 },
             nseg := 0, nparam := 0, host := host_type.none } }

/-- The URL `//:x@` in stored form. -/
def short_password_url : url_base :=
  { pt_ := { base := { index_ := [0, 2, 5, 5, 5, 5, 5, 5],
                       s_ := some [47, 47, 58, 120, 64, 0], capacity_ := 6 },
             nseg := 0, nparam := 0, host := host_type.none } }

/-- A descriptor of the URL `/` with non-decreasing offsets and the total length `1` whose
counter `nseg` is `0` although its path part holds one `/`. -/
def unfit_parts : parts :=
  { index_ := [0, 0, 0, 0, 0, 1, 1, 1], nseg := 0, nparam := 0, host := host_type.none }

/-- Descriptor of the URL `/`: a one-byte path with one segment. -/
def slash_parts : parts :=
  { index_ := [0, 0, 0, 0, 0, 1, 1, 1], nseg := 1, nparam := 0, host := host_type.none }

/-- The URL `/` in stored form, in a block of two bytes. -/
def slash_url : url_base :=
  { pt_ := { base := { index_ := [0, 0, 0, 0, 0, 1, 1, 1], s_ := some [47, 0],
                       capacity_ := 2 },
             nseg := 1, nparam := 0, host := host_type.none } }

end Url

/-! # Lemmas and theorems -/

namespace Url
theorem wadd_eq {w a b : Nat} (h : a + b < 2 ^ w) : wadd w a b = a + b :=
  Nat.mod_eq_of_lt h

theorem wsub_eq {w a b : Nat} (h1 : b ≤ a) (h2 : a < 2 ^ w) : wsub w a b = a - b := by
  unfold wsub
  have : a + 2 ^ w - b = (a - b) + 2 ^ w := by omega
  rw [this, Nat.add_mod_right]
  exact Nat.mod_eq_of_lt (by omega)

@[simp] theorem length_tabulate (n : Nat) (f : Nat → Nat) : (tabulate n f).length = n := by
  simp [tabulate]

theorem getD_tabulate (n : Nat) (f : Nat → Nat) (a : Nat) :
    (tabulate n f).getD a 0 = if a < n then f a else 0 := by
  unfold tabulate
  by_cases h : a < n
  · simp [h, List.getD_eq_getElem?_getD]
  · have : (List.range n)[a]? = none := List.getElem?_eq_none (by simpa using h)
    simp [h, List.getD_eq_getElem?_getD, this]

theorem byte_at_tabulate (n : Nat) (f : Nat → Nat) (a : Nat) :
    byte_at (tabulate n f) a = if a < n then f a else 0 := getD_tabulate n f a

theorem idx_tabulate (n : Nat) (f : Nat → Nat) (a : Nat) :
    idx (tabulate n f) a = if a < n then f a else 0 := getD_tabulate n f a

theorem byte_at_cons_succ (c : Nat) (cs : List Nat) (a : Nat) :
    byte_at (c :: cs) (a + 1) = byte_at cs a := by
  simp [byte_at]

theorem strlen_eq_some_iff (b : List Nat) (n : Nat) :
    strlen b = some n ↔ n < b.length ∧ byte_at b n = 0 ∧ ∀ a, a < n → byte_at b a ≠ 0 := by
  induction b generalizing n with
  | nil => simp [strlen]
  | cons c cs ih =>
    unfold strlen
    by_cases hc : c = 0
    · subst hc
      simp only [if_true, Option.some.injEq]
      constructor
      · intro h; subst h; simp [byte_at]
      · rintro ⟨_, _, h3⟩
        by_contra hne
        exact h3 0 (by omega) (by simp [byte_at])
    · simp only [hc, if_false, Option.map_eq_some']
      constructor
      · rintro ⟨m, hm, rfl⟩
        obtain ⟨h1, h2, h3⟩ := (ih m).1 hm
        refine ⟨by simpa using h1, by rw [byte_at_cons_succ]; exact h2, ?_⟩
        intro a ha
        cases a with
        | zero => simpa [byte_at] using hc
        | succ a => rw [byte_at_cons_succ]; exact h3 a (by omega)
      · rintro ⟨h1, h2, h3⟩
        cases n with
        | zero => exact absurd (by simpa [byte_at] using h2) hc
        | succ m =>
          refine ⟨m, (ih m).2 ⟨by simpa using h1, by rw [← byte_at_cons_succ c]; exact h2, ?_⟩, rfl⟩
          intro a ha
          rw [← byte_at_cons_succ c]; exact h3 (a+1) (by omega)

theorem list_ext_byte_at {l1 l2 : List Nat} (hl : l1.length = l2.length)
    (h : ∀ a, a < l1.length → byte_at l1 a = byte_at l2 a) : l1 = l2 := by
  apply List.ext_getElem hl
  intro n h1 h2
  have := h n h1
  simp only [byte_at, List.getD_eq_getElem?_getD, List.getElem?_eq_getElem h1, List.getElem?_eq_getElem h2, Option.getD_some] at this
  exact this

theorem byte_at_take (l : List Nat) (n a : Nat) :
    byte_at (l.take n) a = if a < n then byte_at l a else 0 := by
  unfold byte_at
  by_cases h : a < n
  · simp [h, List.getD_eq_getElem?_getD, List.getElem?_take]
  · simp [h, List.getD_eq_getElem?_getD, List.getElem?_take]

theorem byte_at_drop (l : List Nat) (n a : Nat) :
    byte_at (l.drop n) a = byte_at l (n + a) := by
  simp [byte_at, List.getD_eq_getElem?_getD, List.getElem?_drop]

theorem byte_at_append (l1 l2 : List Nat) (a : Nat) :
    byte_at (l1 ++ l2) a = if a < l1.length then byte_at l1 a else byte_at l2 (a - l1.length) := by
  unfold byte_at
  by_cases h : a < l1.length
  · simp [h, List.getD_eq_getElem?_getD, List.getElem?_append_left]
  · simp [h, List.getD_eq_getElem?_getD, List.getElem?_append_right (Nat.le_of_not_lt h)]

theorem byte_at_of_le (l : List Nat) (a : Nat) (h : l.length ≤ a) : byte_at l a = 0 := by
  simp [byte_at, List.getD_eq_getElem?_getD, List.getElem?_eq_none h]

theorem two_pow_pos (w : Nat) : 0 < 2 ^ w := Nat.pow_pos (by decide)

theorem store_spec (s : Option (List Nat)) (pos c : Nat) (h : pos < (s.getD []).length) :
    ∃ s', store s pos c = some s' ∧ s' ≠ none ∧ (s'.getD []).length = (s.getD []).length ∧
      ∀ a, byte_at (s'.getD []) a = if a = pos then c else byte_at (s.getD []) a := by
  cases s with
  | none => simp at h
  | some b =>
    simp only [Option.getD_some] at h ⊢
    have e : store (some b) pos c =
        some (some (tabulate b.length (fun a => if a = pos then c else byte_at b a))) := by
      simp only [store, h, if_true]
    refine ⟨_, e, by simp, by simp, ?_⟩
    intro a
    simp only [Option.getD_some, byte_at_tabulate]
    by_cases ha : a < b.length
    · simp [ha]
    · have : a ≠ pos := by omega
      simp [ha, this, byte_at_of_le b a (by omega)]

theorem memmove_spec (s : Option (List Nat)) (dst src n : Nat)
    (h : n = 0 ∨ (dst + n ≤ (s.getD []).length ∧ src + n ≤ (s.getD []).length)) :
    ∃ s', memmove s dst src n = some s' ∧ (s' = none ↔ s = none) ∧
      (s'.getD []).length = (s.getD []).length ∧
      ∀ a, byte_at (s'.getD []) a =
        if dst ≤ a ∧ a < dst + n then byte_at (s.getD []) (src + (a - dst))
        else byte_at (s.getD []) a := by
  by_cases hn : n = 0
  · refine ⟨s, by simp [memmove, hn], Iff.rfl, rfl, ?_⟩
    intro a
    have : ¬ (dst ≤ a ∧ a < dst + n) := by omega
    simp [this]
  · have hb := h.resolve_left hn
    cases s with
    | none => simp at hb; omega
    | some b =>
      simp only [Option.getD_some] at hb ⊢
      have e : memmove (some b) dst src n = some (some (tabulate b.length
          (fun a => if dst ≤ a ∧ a < dst + n then byte_at b (src + (a - dst))
            else byte_at b a))) := by
        simp only [memmove, hn, hb, if_false, and_self, if_true]
      refine ⟨_, e, by simp, by simp, ?_⟩
      intro a
      simp only [Option.getD_some, byte_at_tabulate]
      by_cases ha : a < b.length
      · simp [ha]
      · have : ¬ (dst ≤ a ∧ a < dst + n) := by omega
        simp [ha, this, byte_at_of_le b a (by omega)]

theorem memcpy_spec (s : Option (List Nat)) (dst : Nat) (src : List Nat) (so n : Nat)
    (h : n = 0 ∨ (dst + n ≤ (s.getD []).length ∧ so + n ≤ src.length)) :
    ∃ s', memcpy s dst src so n = some s' ∧ (s' = none ↔ s = none) ∧
      (s'.getD []).length = (s.getD []).length ∧
      ∀ a, byte_at (s'.getD []) a =
        if dst ≤ a ∧ a < dst + n then byte_at src (so + (a - dst))
        else byte_at (s.getD []) a := by
  by_cases hn : n = 0
  · refine ⟨s, by simp [memcpy, hn], Iff.rfl, rfl, ?_⟩
    intro a
    have : ¬ (dst ≤ a ∧ a < dst + n) := by omega
    simp [this]
  · have hb := h.resolve_left hn
    cases s with
    | none => simp at hb; omega
    | some b =>
      simp only [Option.getD_some] at hb ⊢
      have e : memcpy (some b) dst src so n = some (some (tabulate b.length
          (fun a => if dst ≤ a ∧ a < dst + n then byte_at src (so + (a - dst))
            else byte_at b a))) := by
        simp only [memcpy, hn, hb, if_false, and_self, if_true]
      refine ⟨_, e, by simp, by simp, ?_⟩
      intro a
      simp only [Option.getD_some, byte_at_tabulate]
      by_cases ha : a < b.length
      · simp [ha]
      · have : ¬ (dst ≤ a ∧ a < dst + n) := by omega
        simp [ha, this, byte_at_of_le b a (by omega)]

theorem slice_ext {b1 b2 : List Nat} {o1 o2 n : Nat}
    (h1 : o1 + n ≤ b1.length) (h2 : o2 + n ≤ b2.length)
    (h : ∀ k, k < n → byte_at b1 (o1 + k) = byte_at b2 (o2 + k)) :
    (b1.drop o1).take n = (b2.drop o2).take n := by
  apply list_ext_byte_at
  · simp; omega
  · intro a ha
    simp only [List.length_take, List.length_drop] at ha
    have han : a < n := by omega
    simp only [byte_at_take, byte_at_drop, han, if_true]
    exact h a han

theorem take_slice_ext {b1 b2 : List Nat} {o1 o2 n1 n2 m : Nat}
    (hm1 : m ≤ n1) (hm2 : m ≤ n2) (h1 : o1 + n1 ≤ b1.length) (h2 : o2 + n2 ≤ b2.length)
    (h : ∀ k, k < m → byte_at b1 (o1 + k) = byte_at b2 (o2 + k)) :
    ((b1.drop o1).take n1).take m = ((b2.drop o2).take n2).take m := by
  apply list_ext_byte_at
  · simp; omega
  · intro a ha
    simp only [List.length_take, List.length_drop] at ha
    have han : a < m := by omega
    have han1 : a < n1 := by omega
    have han2 : a < n2 := by omega
    simp only [byte_at_take, byte_at_drop, han, han1, han2, if_true]
    exact h a han

theorem slice_eq_list {b : List Nat} {o : Nat} {l : List Nat}
    (h1 : o + l.length ≤ b.length)
    (h : ∀ k, k < l.length → byte_at b (o + k) = byte_at l k) :
    (b.drop o).take l.length = l := by
  apply list_ext_byte_at
  · simp; omega
  · intro a ha
    simp only [List.length_take, List.length_drop] at ha
    have han : a < l.length := by omega
    simp only [byte_at_take, byte_at_drop, han, if_true]
    exact h a han


namespace indexed_string

theorem idx_mono_of_step {index_ : List Nat}
    (h : ∀ i, i + 1 < index_.length → idx index_ i ≤ idx index_ (i + 1)) :
    ∀ j i, i ≤ j → j < index_.length → idx index_ i ≤ idx index_ j := by
  intro j
  induction j with
  | zero => intro i hi _; have : i = 0 := by omega
            subst this; exact le_refl _
  | succ j ih =>
    intro i hi hj
    by_cases e : i = j + 1
    · subst e; exact le_refl _
    · exact le_trans (ih i (by omega) (by omega)) (h j hj)

theorem offset_mono_of_step {index_ : List Nat}
    (h : ∀ i, i + 1 < index_.length → idx index_ i ≤ idx index_ (i + 1))
    {i j : Nat} (hij : i ≤ j) (hj : j ≤ index_.length) :
    offset index_ i ≤ offset index_ j := by
  unfold offset
  by_cases hi : i = 0
  · simp [hi]
  · have hj0 : j ≠ 0 := by omega
    simp only [hi, hj0, if_false]
    exact idx_mono_of_step h (j - 1) (i - 1) (by omega) (by omega)

theorem offset_succ (index_ : List Nat) (i : Nat) : offset index_ (i + 1) = idx index_ i := by
  simp [offset]

theorem offset_zero (index_ : List Nat) : offset index_ 0 = 0 := by
  simp [offset]

theorem length_all_eq (index_ : List Nat) (h : 0 < index_.length) :
    length_all index_ = idx index_ (index_.length - 1) := by
  unfold length_all offset
  simp [Nat.ne_of_gt h]

theorem wf_of_valid {w : Nat} {st : indexed_string} (h : valid w st) : wf w st := by
  obtain ⟨hpos, hchk, hcap, hlen⟩ := h
  unfold check_invariants at hchk
  by_cases hc : st.capacity_ = 0
  · simp only [hc, ne_eq, not_true_eq_false, if_false] at hchk
    cases hs : st.s_ with
    | some b => simp [hs] at hchk
    | none =>
      simp only [hs, List.all_eq_true, List.mem_range, decide_eq_true_eq] at hchk
      have hz : ∀ i, idx st.index_ i = 0 := by
        intro i
        by_cases hi : i < st.index_.length
        · exact hchk i hi
        · exact byte_at_of_le _ _ (by omega)
      have hL : length_all st.index_ = 0 := by
        rw [length_all_eq _ hpos]; exact hz _
      refine ⟨hpos, ?_, hcap, hlen, ?_, ?_, ?_⟩
      · intro i _; rw [hz i, hz (i+1)]
      · intro _ i _; exact hz i
      · intro hne; exact absurd hs hne
      · intro x hx; omega
  · simp only [hc, ne_eq, not_false_eq_true, if_true] at hchk
    cases hs : st.s_ with
    | none => simp [hs] at hchk
    | some b =>
      simp only [hs, Bool.and_eq_true, decide_eq_true_eq, List.all_eq_true, List.mem_range] at hchk
      obtain ⟨hstr, hall⟩ := hchk
      obtain ⟨h1, h2, h3⟩ := (strlen_eq_some_iff b _).1 hstr
      simp only [hs, Option.getD_some] at hlen
      refine ⟨hpos, ?_, hcap, by simpa [hs] using hlen, ?_, ?_, ?_⟩
      · intro i hi; exact (hall i (by omega)).1
      · intro hn; rw [hs] at hn; simp at hn
      · intro _; rw [hs]; simp only [Option.getD_some]; exact ⟨by omega, h2⟩
      · intro x hx; rw [hs]; simp only [Option.getD_some]; exact h3 x hx

theorem valid_of_wf {w : Nat} {st : indexed_string} (h : wf w st) : valid w st := by
  refine ⟨h.pos, ?_, h.cap, h.len⟩
  unfold check_invariants
  cases hs : st.s_ with
  | none =>
    have hlen := h.len
    simp only [hs, Option.getD_none, List.length_nil] at hlen
    have hc : st.capacity_ = 0 := hlen.symm
    simp only [hc, ne_eq, not_true_eq_false, if_false, List.all_eq_true, List.mem_range,
      decide_eq_true_eq]
    intro i hi; exact h.null hs i hi
  | some b =>
    have hne : st.s_ ≠ none := by simp [hs]
    obtain ⟨t1, t2⟩ := h.term hne
    have hlen := h.len
    simp only [hs, Option.getD_some] at hlen t2
    have hc : st.capacity_ ≠ 0 := by omega
    simp only [hc, ne_eq, not_false_eq_true, if_true, Bool.and_eq_true, decide_eq_true_eq,
      List.all_eq_true, List.mem_range]
    refine ⟨(strlen_eq_some_iff b _).2 ⟨by omega, t2, ?_⟩, ?_⟩
    · intro a ha; have := h.nonzero a ha; simpa [hs] using this
    · intro i hi
      refine ⟨h.mono i (by omega), ?_⟩
      rw [length_all_eq _ h.pos]
      exact idx_mono_of_step h.mono _ i (by omega) (by omega)

theorem valid_iff_wf (w : Nat) (st : indexed_string) : valid w st ↔ wf w st :=
  ⟨wf_of_valid, valid_of_wf⟩

theorem wf.s_ne_none {w : Nat} {st : indexed_string} (h : wf w st) (hc : 0 < st.capacity_) :
    st.s_ ≠ none := by
  intro hs
  have := h.len
  rw [hs] at this
  simp at this
  omega

theorem wf.cap_zero {w : Nat} {st : indexed_string} (h : wf w st) (hs : st.s_ = none) :
    st.capacity_ = 0 := by
  have := h.len
  rw [hs] at this
  simpa using this.symm

theorem wf.all_zero {w : Nat} {st : indexed_string} (h : wf w st) (hs : st.s_ = none) :
    length_all st.index_ = 0 := by
  rw [length_all_eq _ h.pos]
  exact h.null hs _ (by have := h.pos; omega)

theorem wf.all_le_cap {w : Nat} {st : indexed_string} (h : wf w st) :
    length_all st.index_ ≤ st.capacity_ := by
  by_cases hs : st.s_ = none
  · rw [h.all_zero hs]; exact Nat.zero_le _
  · exact Nat.le_of_lt (h.term hs).1

theorem wf.all_lt {w : Nat} {st : indexed_string} (h : wf w st) :
    length_all st.index_ < 2 ^ w :=
  lt_of_le_of_lt h.all_le_cap h.cap

theorem wf.offset_mono {w : Nat} {st : indexed_string} (h : wf w st) {i j : Nat}
    (hij : i ≤ j) (hj : j ≤ st.index_.length) : offset st.index_ i ≤ offset st.index_ j :=
  offset_mono_of_step h.mono hij hj

theorem wf.offset_le_all {w : Nat} {st : indexed_string} (h : wf w st) {i : Nat}
    (hi : i ≤ st.index_.length) : offset st.index_ i ≤ length_all st.index_ :=
  h.offset_mono hi (le_refl _)

theorem wf.length_range_eq {w : Nat} {st : indexed_string} (h : wf w st) {i j : Nat}
    (hij : i ≤ j) (hj : j ≤ st.index_.length) :
    length_range w st.index_ i j = offset st.index_ j - offset st.index_ i := by
  unfold length_range
  exact wsub_eq (h.offset_mono hij hj) (lt_of_le_of_lt (h.offset_le_all hj) h.all_lt)

theorem wf.length_eq {w : Nat} {st : indexed_string} (h : wf w st) {i : Nat}
    (hi : i < st.index_.length) :
    length w st.index_ i = offset st.index_ (i + 1) - offset st.index_ i :=
  h.length_range_eq (Nat.le_succ i) hi

theorem reserve_all_spec {w : Nat} {a : storage} {n : Nat} {st : indexed_string}
    (h : wf w st) (hn : n + 1 < 2 ^ w) (hL : length_all st.index_ ≤ n)
    (halloc : st.capacity_ < n + 1 → ∃ f, a.allocate (n + 1) = Except.ok f) :
    ∃ st', reserve_all w a n st = outcome.ok st' 0 ∧ st'.index_ = st.index_ ∧ wf w st' ∧
      n + 1 ≤ st'.capacity_ ∧ st'.s_ ≠ none ∧
      ∀ x, x < length_all st.index_ →
        byte_at (st'.s_.getD []) x = byte_at (st.s_.getD []) x := by
  have hw : wadd w n 1 = n + 1 := wadd_eq hn
  unfold reserve_all
  simp only [hw]
  by_cases hc : n + 1 ≤ st.capacity_
  · simp only [hc, if_true]
    exact ⟨st, rfl, rfl, h, hc, h.s_ne_none (by omega), fun _ _ => rfl⟩
  · simp only [hc, if_false]
    obtain ⟨f, hf⟩ := halloc (by omega)
    simp only [hf]
    have hsrc : length_all st.index_ = 0 ∨
        (0 + length_all st.index_ ≤ ((some (tabulate (n + 1) f)).getD []).length ∧
          0 + length_all st.index_ ≤ (st.s_.getD []).length) := by
      right
      simp only [Option.getD_some, length_tabulate, h.len]
      have := h.all_le_cap
      omega
    obtain ⟨s1, e1, hn1, hl1, hb1⟩ := memcpy_spec _ 0 (st.s_.getD []) 0 _ hsrc
    simp only [Option.getD_some, length_tabulate] at hl1
    obtain ⟨s2, e2, hn2, hl2, hb2⟩ := store_spec s1 (length_all st.index_) 0 (by omega)
    simp only [e1, e2, outcome.mem]
    refine ⟨_, rfl, rfl, ?_, by simp, hn2, ?_⟩
    · refine ⟨h.pos, h.mono, hn, by dsimp only; omega, ?_, ?_, ?_⟩
      · intro hs; exact absurd hs hn2
      · intro _; dsimp only
        refine ⟨by omega, ?_⟩
        rw [hb2]; simp
      · intro x hx; dsimp only at hx ⊢
        rw [hb2, hb1]
        have : x ≠ length_all st.index_ := by omega
        have hx' : 0 ≤ x ∧ x < 0 + length_all st.index_ := by omega
        simp only [this, if_false, hx', if_true]
        simpa using h.nonzero x hx
    · intro x hx
      simp only
      rw [hb2, hb1]
      have : x ≠ length_all st.index_ := by omega
      have hx' : 0 ≤ x ∧ x < 0 + length_all st.index_ := by omega
      simp only [this, if_false, hx', if_true, and_self]
      simp

theorem reserve_all_raise {w : Nat} {a : storage} {n : Nat} {st : indexed_string} {e : error}
    (hc : st.capacity_ < wadd w n 1) (hf : a.allocate (wadd w n 1) = Except.error e) :
    reserve_all w a n st = outcome.raise e st := by
  unfold reserve_all
  simp only [Nat.not_le.2 hc, if_false, hf]

theorem offset_tabulate_keep {index_ : List Nat} {f : Nat → Nat} {k : Nat}
    (hk : k ≤ index_.length) (hf : ∀ j, j < k → f j = idx index_ j) :
    offset (tabulate index_.length f) k = offset index_ k := by
  unfold offset
  by_cases h0 : k = 0
  · simp [h0]
  · simp only [h0, if_false, idx_tabulate, show k - 1 < index_.length by omega, if_true]
    exact hf _ (by omega)

theorem reserve_more_spec {w : Nat} {a : storage} {k : Nat} {st : indexed_string}
    (h : wf w st) (hk : length_all st.index_ + k + 1 < 2 ^ w)
    (halloc : st.capacity_ < length_all st.index_ + k + 1 →
      ∃ f, a.allocate (length_all st.index_ + k + 1) = Except.ok f) :
    ∃ st', reserve_more w a k st = outcome.ok st' 0 ∧ st'.index_ = st.index_ ∧ wf w st' ∧
      length_all st.index_ + k + 1 ≤ st'.capacity_ ∧ st'.s_ ≠ none ∧
      ∀ x, x < length_all st.index_ →
        byte_at (st'.s_.getD []) x = byte_at (st.s_.getD []) x := by
  unfold reserve_more
  have h1 : ¬ (k > size_max w - length_all st.index_) := by
    unfold size_max; omega
  have h2 : wadd w (length_all st.index_) k = length_all st.index_ + k := wadd_eq (by omega)
  simp only [h1, if_false, h2]
  exact reserve_all_spec h hk (by omega) halloc

theorem ptr_add_neg {p n : Nat} (h : n ≤ p) : ptr_add p (-(n : Int)) = some (p - n) := by
  unfold ptr_add
  have : (0 : Int) ≤ (p : Int) + -(n : Int) := by omega
  simp only [this, if_true, Option.some.injEq]
  omega

/-- Pointwise description of the state after `resize(part, new_size)`. -/
theorem resize_spec {w : Nat} {a : storage} {i n : Nat} {st : indexed_string}
    (h : wf w st) (hi : i < st.index_.length)
    (hgrow : length w st.index_ i < n →
      length_all st.index_ + (n - length w st.index_ i) + 1 < 2 ^ w ∧
      (st.capacity_ < length_all st.index_ + (n - length w st.index_ i) + 1 →
        ∃ f, a.allocate (length_all st.index_ + (n - length w st.index_ i) + 1) =
          Except.ok f)) :
    ∃ st', resize w a i n st = outcome.ok st' (offset st.index_ i) ∧
      st'.index_.length = st.index_.length ∧
      (∀ j, j < st.index_.length → idx st'.index_ j =
        if i ≤ j then idx st.index_ j + n - length w st.index_ i else idx st.index_ j) ∧
      st'.capacity_ < 2 ^ w ∧ (st'.s_.getD []).length = st'.capacity_ ∧
      (st'.s_ = none → st.s_ = none ∧ n = length w st.index_ i) ∧
      (st'.s_ ≠ none → length_all st.index_ + n - length w st.index_ i < st'.capacity_) ∧
      (n ≤ length w st.index_ i → st'.capacity_ = st.capacity_) ∧
      (∀ x, x < offset st.index_ i + min n (length w st.index_ i) →
        byte_at (st'.s_.getD []) x = byte_at (st.s_.getD []) x) ∧
      (∀ x, offset st.index_ (i + 1) ≤ x → x ≤ length_all st.index_ →
        byte_at (st'.s_.getD []) (x + n - length w st.index_ i) =
          byte_at (st.s_.getD []) x) := by
  have hlen := h.length_eq hi
  have hoff1 : offset st.index_ i ≤ offset st.index_ (i + 1) := h.offset_mono (Nat.le_succ i) hi
  have hoff2 : offset st.index_ (i + 1) ≤ length_all st.index_ := h.offset_le_all hi
  have hLw := h.all_lt
  have hLc := h.all_le_cap
  have hblen := h.len
  have hterm : byte_at (st.s_.getD []) (length_all st.index_) = 0 := by
    by_cases hs : st.s_ = none
    · rw [hs]; rfl
    · exact (h.term hs).2
  generalize hl : length w st.index_ i = len at *
  unfold resize
  simp only [hl]
  by_cases heq : len = n
  · subst heq
    simp only [if_true]
    refine ⟨st, rfl, rfl, ?_, h.cap, h.len, ?_, ?_, fun _ => rfl, fun _ _ => rfl, ?_⟩
    · intro j _; split_ifs <;> omega
    · intro hs; exact ⟨hs, trivial⟩
    · intro hs; have := (h.term hs).1; omega
    · intro x h1 h2
      have : x + len - len = x := by omega
      rw [this]
  · simp only [heq, if_false]
    by_cases hsh : n ≤ len
    · -- shrink
      simp only [hsh, if_true]
      have hd : wsub w len n = len - n := wsub_eq hsh (by omega)
      have hsz : wsub w (length_all st.index_) (offset st.index_ (i + 1)) =
          length_all st.index_ - offset st.index_ (i + 1) := wsub_eq hoff2 hLw
      have hsz1 : wadd w (length_all st.index_ - offset st.index_ (i + 1)) 1 =
          length_all st.index_ - offset st.index_ (i + 1) + 1 := wadd_eq (by omega)
      have hne : st.s_ ≠ none := by
        intro hs
        have := h.all_zero hs
        omega
      have hcapL := (h.term hne).1
      simp only [hd, hsz, hsz1, ptr_add_neg (show len - n ≤ offset st.index_ (i + 1) by omega),
        outcome.mem]
      obtain ⟨s1, e1, hn1, hl1, hb1⟩ := memmove_spec st.s_
        (offset st.index_ (i + 1) - (len - n)) (offset st.index_ (i + 1))
        (length_all st.index_ - offset st.index_ (i + 1) + 1) (Or.inr (by omega))
      simp only [e1]
      rw [offset_tabulate_keep (by omega)
        (fun j hj => by simp only [show ¬ (i ≤ j) by omega, if_false])]
      refine ⟨_, rfl, by simp, ?_, h.cap, by (try dsimp only); omega, ?_, ?_, fun _ => rfl, ?_, ?_⟩
      · intro j hj
        (try dsimp only)
        rw [idx_tabulate]
        simp only [hj, if_true]
        by_cases hij : i ≤ j
        · simp only [hij, if_true]
          have h1 : offset st.index_ (i + 1) ≤ offset st.index_ (j + 1) :=
            h.offset_mono (by omega) (by omega)
          have h2 : offset st.index_ (j + 1) ≤ length_all st.index_ := h.offset_le_all (by omega)
          have ei := offset_succ st.index_ i
          have ej := offset_succ st.index_ j
          rw [wsub_eq (by omega) (by omega)]
          omega
        · simp only [hij, if_false]
      · intro hs; exact absurd (hn1.1 hs) hne
      · intro _; (try dsimp only); omega
      · intro x hx
        (try dsimp only)
        rw [hb1]
        have : ¬ (offset st.index_ (i + 1) - (len - n) ≤ x ∧ x < offset st.index_ (i + 1) -
            (len - n) + (length_all st.index_ - offset st.index_ (i + 1) + 1)) := by
          have : min n len = n := by omega
          omega
        simp only [this, if_false]
      · intro x hx1 hx2
        (try dsimp only)
        rw [hb1]
        have : (offset st.index_ (i + 1) - (len - n) ≤ x + n - len ∧ x + n - len <
            offset st.index_ (i + 1) -
            (len - n) + (length_all st.index_ - offset st.index_ (i + 1) + 1)) := by
          omega
        simp only [this, and_self, if_true]
        congr 1
        omega
    · -- grow
      simp only [hsh, if_false]
      obtain ⟨hk, hal⟩ := hgrow (by omega)
      have hd : wsub w n len = n - len := wsub_eq (by omega) (by omega)
      obtain ⟨st1, e1, hidx1, hwf1, hcap1, hne1, hb1⟩ := reserve_more_spec h hk hal
      simp only [hd, e1, outcome.andThen, hidx1]
      have hsz : wsub w (length_all st.index_) (offset st.index_ (i + 1)) =
          length_all st.index_ - offset st.index_ (i + 1) := wsub_eq hoff2 hLw
      have hsz1 : wadd w (length_all st.index_ - offset st.index_ (i + 1)) 1 =
          length_all st.index_ - offset st.index_ (i + 1) + 1 := wadd_eq (by omega)
      simp only [hsz, hsz1]
      have hl1 := hwf1.len
      obtain ⟨s2, e2, hn2, hl2, hb2⟩ := memmove_spec st1.s_
        (offset st.index_ (i + 1) + (n - len)) (offset st.index_ (i + 1))
        (length_all st.index_ - offset st.index_ (i + 1) + 1) (Or.inr (by omega))
      simp only [e2, outcome.mem]
      have hterm1 : byte_at (st1.s_.getD []) (length_all st.index_) = 0 := by
        have := (hwf1.term hne1).2
        rw [hidx1] at this
        exact this
      rw [offset_tabulate_keep (by omega)
        (fun j hj => by simp only [show ¬ (i ≤ j) by omega, if_false])]
      refine ⟨_, rfl, by simp, ?_, hwf1.cap, by (try dsimp only); omega, ?_, ?_, ?_, ?_, ?_⟩
      · intro j hj
        (try dsimp only)
        rw [idx_tabulate]
        simp only [hj, if_true]
        by_cases hij : i ≤ j
        · simp only [hij, if_true]
          have h1 : offset st.index_ (i + 1) ≤ offset st.index_ (j + 1) :=
            h.offset_mono (by omega) (by omega)
          have h2 : offset st.index_ (j + 1) ≤ length_all st.index_ := h.offset_le_all (by omega)
          have ei := offset_succ st.index_ i
          have ej := offset_succ st.index_ j
          rw [wadd_eq (by omega)]
          omega
        · simp only [hij, if_false]
      · intro hs; exact absurd (hn2.1 hs) hne1
      · intro _; (try dsimp only); omega
      · intro hle; first | exact absurd hle hsh | exact hle.elim
      · intro x hx
        (try dsimp only)
        rw [hb2]
        have : ¬ (offset st.index_ (i + 1) + (n - len) ≤ x ∧ x < offset st.index_ (i + 1) +
            (n - len) + (length_all st.index_ - offset st.index_ (i + 1) + 1)) := by
          have : min n len = len := by omega
          omega
        simp only [this, if_false]
        exact hb1 x (by have : min n len = len := by omega
                        omega)
      · intro x hx1 hx2
        (try dsimp only)
        rw [hb2]
        have : (offset st.index_ (i + 1) + (n - len) ≤ x + n - len ∧ x + n - len <
            offset st.index_ (i + 1) +
            (n - len) + (length_all st.index_ - offset st.index_ (i + 1) + 1)) := by
          omega
        simp only [this, and_self, if_true]
        have e : offset st.index_ (i + 1) + (x + n - len - (offset st.index_ (i + 1) + (n - len)))
            = x := by omega
        rw [e]
        by_cases hxL : x = length_all st.index_
        · rw [hxL, hterm1, hterm]
        · exact hb1 x (by omega)

theorem offset_of_idx {index1 index_ : List Nat} {f : Nat → Nat}
    (hidx : ∀ j, j < index_.length → idx index1 j = f j) {k : Nat} (hk : k ≤ index_.length) :
    offset index1 k = if k = 0 then 0 else f (k - 1) := by
  unfold offset
  by_cases h0 : k = 0
  · simp [h0]
  · simp only [h0, if_false]
    exact hidx _ (by omega)

theorem get_part_eq (w : Nat) (st : indexed_string) (j : Nat) :
    get_part w st j = ((st.s_.getD []).drop (offset st.index_ j)).take (length w st.index_ j) :=
  rfl

/-- Claim C1.  For a valid state, a part `i` and a size `n` whose grow succeeds (the new
total length with its terminator fits a `std::size_t` and the storage hands out the block
when one is needed), `resize(i, n)` returns with `length(i) = n`, every other part keeps
its length and its bytes, the first `min n (old length i)` bytes of part `i` are kept, and
the byte at `offset(PartCount)` is the zero terminator. -/
theorem C1_resize_part (w : Nat) (a : storage) (st : indexed_string) (i n : Nat)
    (hv : valid w st) (hi : i < st.index_.length)
    (hgrow : length w st.index_ i < n →
      length_all st.index_ + (n - length w st.index_ i) + 1 < 2 ^ w ∧
      (st.capacity_ < length_all st.index_ + (n - length w st.index_ i) + 1 →
        ∃ f, a.allocate (length_all st.index_ + (n - length w st.index_ i) + 1) =
          Except.ok f)) :
    ∃ st' p, resize w a i n st = outcome.ok st' p ∧
      length w st'.index_ i = n ∧
      (∀ j, j < st.index_.length → j ≠ i →
        length w st'.index_ j = length w st.index_ j ∧ get_part w st' j = get_part w st j) ∧
      (get_part w st' i).take (min n (length w st.index_ i)) =
        (get_part w st i).take (min n (length w st.index_ i)) ∧
      (∀ b, st'.s_ = some b →
        length_all st'.index_ < b.length ∧ byte_at b (length_all st'.index_) = 0) := by
  have h := wf_of_valid hv
  obtain ⟨st', e, hP, hidx, hcap, hblen', hnull, hnn, _, hb1, hb2⟩ := resize_spec h hi hgrow
  have hlen := h.length_eq hi
  have hoff1 : offset st.index_ i ≤ offset st.index_ (i + 1) := h.offset_mono (Nat.le_succ i) hi
  have hoff2 : offset st.index_ (i + 1) ≤ length_all st.index_ := h.offset_le_all hi
  have hLw := h.all_lt
  have hLc := h.all_le_cap
  have hblen := h.len
  have hterm : byte_at (st.s_.getD []) (length_all st.index_) = 0 := by
    by_cases hs : st.s_ = none
    · rw [hs]; rfl
    · exact (h.term hs).2
  generalize hl : length w st.index_ i = len at *
  have hoff : ∀ k, k ≤ st.index_.length →
      offset st'.index_ k = if i < k then offset st.index_ k + n - len else offset st.index_ k := by
    intro k hk
    rw [offset_of_idx hidx hk]
    unfold offset
    by_cases h0 : k = 0
    · simp [h0]
    · simp only [h0, if_false]
      by_cases hik : i < k
      · simp [hik, show i ≤ k - 1 by omega]
      · simp [hik, show ¬ (i ≤ k - 1) by omega]
  have hL' : length_all st'.index_ = length_all st.index_ + n - len := by
    unfold length_all
    rw [hP, hoff _ (le_refl _)]
    simp [hi]
  have hL'w : length_all st.index_ + n - len < 2 ^ w := by
    by_cases hs : st'.s_ = none
    · obtain ⟨_, e2⟩ := hnull hs
      omega
    · have := hnn hs; omega
  have hL'c : length_all st.index_ + n - len ≤ (st'.s_.getD []).length := by
    by_cases hs : st'.s_ = none
    · obtain ⟨e1, e2⟩ := hnull hs
      have := h.all_zero e1
      omega
    · have := hnn hs; omega
  have hlen' : ∀ j, j < st.index_.length →
      length w st'.index_ j = if j = i then n else length w st.index_ j := by
    intro j hj
    have o1 : offset st.index_ j ≤ offset st.index_ (j + 1) := h.offset_mono (Nat.le_succ j) hj
    have o2 : offset st.index_ (j + 1) ≤ length_all st.index_ := h.offset_le_all hj
    have o3 : i < j → offset st.index_ (i + 1) ≤ offset st.index_ j :=
      fun hij => h.offset_mono hij (by omega)
    rw [h.length_eq hj]
    unfold length length_range
    rw [hoff j (Nat.le_of_lt hj), hoff (j + 1) hj]
    by_cases hji : j = i
    · subst hji
      simp only [lt_irrefl, if_false, Nat.lt_succ_self, if_true]
      rw [wsub_eq (by omega) (by omega)]
      omega
    · by_cases hij : i < j
      · have := o3 hij
        simp only [hij, show i < j + 1 by omega, if_true, hji, if_false]
        rw [wsub_eq (by omega) (by omega)]
        omega
      · simp only [hij, show ¬ (i < j + 1) by omega, if_false, hji]
        rw [wsub_eq (by omega) (by omega)]
  refine ⟨st', _, e, ?_, ?_, ?_, ?_⟩
  · rw [hlen' i hi]; simp
  · intro j hj hji
    have hlj := hlen' j hj
    simp only [hji, if_false] at hlj
    refine ⟨hlj, ?_⟩
    rw [get_part_eq, get_part_eq, hlj, h.length_eq hj, hoff _ (Nat.le_of_lt hj)]
    have o1 : offset st.index_ j ≤ offset st.index_ (j + 1) := h.offset_mono (Nat.le_succ j) hj
    have o2 : offset st.index_ (j + 1) ≤ length_all st.index_ := h.offset_le_all hj
    by_cases hij : i < j
    · have o3 : offset st.index_ (i + 1) ≤ offset st.index_ j := h.offset_mono hij (by omega)
      simp only [hij, if_true]
      apply slice_ext (by omega) (by omega)
      intro k hk
      have := hb2 (offset st.index_ j + k) (by omega) (by omega)
      rw [← this]
      congr 1
      omega
    · have o3 : offset st.index_ (j + 1) ≤ offset st.index_ i :=
        h.offset_mono (show j + 1 ≤ i by omega) (by omega)
      simp only [hij, if_false]
      apply slice_ext (by omega) (by omega)
      intro k hk
      exact hb1 _ (by omega)
  · rw [get_part_eq, get_part_eq, hlen' i hi, hlen, hoff i (Nat.le_of_lt hi)]
    simp only [lt_irrefl, if_false, if_true]
    apply take_slice_ext (by omega) (by omega) (by omega) (by omega)
    intro k hk
    exact hb1 _ (by omega)
  · intro b hb
    have hne : st'.s_ ≠ none := by simp [hb]
    have h1 := hnn hne
    have h2 := hb2 (length_all st.index_) hoff2 (le_refl _)
    rw [hb] at hblen' h2
    simp only [Option.getD_some] at hblen' h2
    rw [hL']
    exact ⟨by omega, by rw [h2, hterm]⟩

/-- Witness of C1: growing part `1` of the sample container from one byte to three,
inside the capacity it already has. -/
theorem C1_resize_part_witness :
    valid 64 sample_string ∧
    ∃ st' p, resize 64 failing_storage 1 3 sample_string = outcome.ok st' p ∧
      length 64 st'.index_ 1 = 3 := by
  have hv : valid 64 sample_string := by decide
  obtain ⟨st', p, h1, h2, _⟩ := C1_resize_part 64 failing_storage sample_string 1 3 hv
    (by decide) (fun _ => ⟨by decide, fun h => absurd h (by decide)⟩)
  exact ⟨hv, st', p, h1, h2⟩

theorem mem_raise {β σ α : Type} {m : Option β} {k : β → outcome σ α} {e : error} {st : σ}
    (h : outcome.mem m k = outcome.raise e st) : ∃ b, m = some b ∧ k b = outcome.raise e st := by
  cases m with
  | none => simp [outcome.mem] at h
  | some b => exact ⟨b, rfl, h⟩

theorem andThen_raise {σ α β : Type} {o : outcome σ α} {k : σ → α → outcome σ β} {e : error}
    {st : σ} (h : o.andThen k = outcome.raise e st) :
    o = outcome.raise e st ∨ ∃ st1 v, o = outcome.ok st1 v ∧ k st1 v = outcome.raise e st := by
  cases o with
  | ok st1 v => exact Or.inr ⟨st1, v, rfl, h⟩
  | raise e1 st1 =>
    simp only [outcome.andThen, outcome.raise.injEq] at h
    left; rw [h.1, h.2]
  | fault => simp [outcome.andThen] at h

theorem reserve_all_raise_eq {w : Nat} {a : storage} {n : Nat} {st st' : indexed_string}
    {e : error} (h : reserve_all w a n st = outcome.raise e st') : st' = st := by
  unfold reserve_all at h
  dsimp only at h
  split at h
  · simp at h
  · split at h
    · simp only [outcome.raise.injEq] at h; exact h.2.symm
    · obtain ⟨_, _, h⟩ := mem_raise h
      obtain ⟨_, _, h⟩ := mem_raise h
      simp at h

theorem reserve_more_raise_eq {w : Nat} {a : storage} {n : Nat} {st st' : indexed_string}
    {e : error} (h : reserve_more w a n st = outcome.raise e st') : st' = st := by
  unfold reserve_more at h
  dsimp only at h
  split at h
  · simp only [outcome.raise.injEq] at h; exact h.2.symm
  · exact reserve_all_raise_eq h

theorem reserve_raise_eq {w : Nat} {a : storage} {part n : Nat} {st st' : indexed_string}
    {e : error} (h : reserve w a part n st = outcome.raise e st') : st' = st := by
  unfold reserve at h
  dsimp only at h
  split at h
  · rcases andThen_raise h with h | ⟨_, _, _, h⟩
    · exact reserve_all_raise_eq h
    · simp at h
  · simp at h

theorem resize_raise_eq {w : Nat} {a : storage} {part n : Nat} {st st' : indexed_string}
    {e : error} (h : resize w a part n st = outcome.raise e st') : st' = st := by
  unfold resize at h
  dsimp only at h
  split at h
  · simp at h
  · split at h
    · obtain ⟨_, _, h⟩ := mem_raise h
      obtain ⟨_, _, h⟩ := mem_raise h
      simp at h
    · rcases andThen_raise h with h | ⟨_, _, _, h⟩
      · exact reserve_more_raise_eq h
      · obtain ⟨_, _, h⟩ := mem_raise h
        simp at h

theorem resize_range_raise_eq {w : Nat} {a : storage} {first last n : Nat}
    {st st' : indexed_string}
    {e : error} (h : resize_range w a first last n st = outcome.raise e st') : st' = st := by
  unfold resize_range at h
  dsimp only at h
  split at h
  · simp at h
  · split at h
    · obtain ⟨_, _, h⟩ := mem_raise h
      obtain ⟨_, _, h⟩ := mem_raise h
      simp at h
    · rcases andThen_raise h with h | ⟨_, _, _, h⟩
      · exact reserve_more_raise_eq h
      · obtain ⟨_, _, h⟩ := mem_raise h
        simp at h

theorem reserve_change_part_raise_eq {w : Nat} {a : storage} {part pos ec ic : Nat}
    {st st' : indexed_string}
    {e : error} (h : reserve_change_part w a part pos ec ic st = outcome.raise e st') :
    st' = st := by
  unfold reserve_change_part at h
  dsimp only at h
  split at h
  · rcases andThen_raise h with h | ⟨_, _, _, h⟩
    · exact reserve_raise_eq h
    · simp at h
  · simp at h

theorem copy_impl_raise_eq {w : Nat} {a : storage} {pt s : List Nat} {first last bb ba : Nat}
    {st st' : indexed_string}
    {e : error} (h : copy_impl w a pt s first last bb ba st = outcome.raise e st') :
    st' = st := by
  unfold copy_impl at h
  dsimp only at h
  rcases andThen_raise h with h | ⟨_, _, _, h⟩
  · split at h
    · exact reserve_all_raise_eq h
    · simp at h
  · split at h
    · simp at h
    · obtain ⟨_, _, h⟩ := mem_raise h
      obtain ⟨_, _, h⟩ := mem_raise h
      simp at h

theorem clear_all_not_raise {st st' : indexed_string} {e : error} :
    clear_all st ≠ outcome.raise e st' := by
  unfold clear_all
  intro h
  split at h
  · simp at h
  · obtain ⟨_, _, h⟩ := mem_raise h
    simp at h

theorem copy_all_raise_eq {w : Nat} {a : storage} {pt s : List Nat}
    {st st' : indexed_string}
    {e : error} (h : copy_all w a pt s st = outcome.raise e st') :
    st' = st := by
  unfold copy_all at h
  dsimp only at h
  split at h
  · exact absurd h clear_all_not_raise
  · rcases andThen_raise h with h | ⟨_, _, _, h⟩
    · exact reserve_all_raise_eq h
    · obtain ⟨_, _, h⟩ := mem_raise h
      obtain ⟨_, _, h⟩ := mem_raise h
      simp at h

/-- Claim C9.  Strong guarantee: whenever one of `reserve_all`, `reserve_more`, `reserve`,
`resize(i, n)`, `resize(first, last, n)`, `reserve_change_part`, `copy(pt, s, first, last)`
or `copy_all(pt, s)` raises (the storage refused the block, or the size check did), the
container it leaves behind is the container it was called on: same buffer, same
capacity, same bytes, same index. -/
theorem C9_raise_leaves_state (w : Nat) (a : storage) (st st' : indexed_string) (e : error) :
    (∀ n, reserve_all w a n st = outcome.raise e st' → st' = st) ∧
    (∀ n, reserve_more w a n st = outcome.raise e st' → st' = st) ∧
    (∀ part n, reserve w a part n st = outcome.raise e st' → st' = st) ∧
    (∀ i n, resize w a i n st = outcome.raise e st' → st' = st) ∧
    (∀ first last n, resize_range w a first last n st = outcome.raise e st' → st' = st) ∧
    (∀ part pos ec ic,
      reserve_change_part w a part pos ec ic st = outcome.raise e st' → st' = st) ∧
    (∀ pt s first last, copy w a pt s first last st = outcome.raise e st' → st' = st) ∧
    (∀ pt s, copy_all w a pt s st = outcome.raise e st' → st' = st) :=
  ⟨fun _ h => reserve_all_raise_eq h, fun _ h => reserve_more_raise_eq h,
    fun _ _ h => reserve_raise_eq h, fun _ _ h => resize_raise_eq h,
    fun _ _ _ h => resize_range_raise_eq h, fun _ _ _ _ h => reserve_change_part_raise_eq h,
    fun _ _ _ _ h => copy_impl_raise_eq h, fun _ _ h => copy_all_raise_eq h⟩

/-- Witness of C9: growing the last part of the sample container by four bytes needs a
block of ten bytes; the failing storage refuses it and the container is untouched. -/
theorem C9_raise_leaves_state_witness :
    ∃ e st', resize 64 failing_storage 2 6 sample_string = outcome.raise e st' ∧
      st' = sample_string :=
  ⟨error.alloc_failure, sample_string, by decide,
    (C9_raise_leaves_state 64 failing_storage sample_string sample_string
      error.alloc_failure).2.2.2.1 2 6 (by decide)⟩

/-- Claim C10, at the failing input.  On a 64-bit platform the sample container has total
length `5`; `reserve_more(2^64 - 1 - 5)` passes the overflow check, the `++n` of
`reserve_all` wraps to `0`, and the call returns normally with the capacity still `8`,
short of the `2^64` bytes the claim promises.  The grow that follows leaves the block. -/
theorem C10_reserve_more_wraps :
    valid 64 sample_string ∧
    reserve_more 64 sample_storage (2 ^ 64 - 1 - length_all sample_string.index_)
      sample_string = outcome.ok sample_string 0 ∧
    sample_string.capacity_ <
      length_all sample_string.index_ + (2 ^ 64 - 1 - length_all sample_string.index_) + 1 ∧
    resize 64 sample_storage 2 (2 + (2 ^ 64 - 1 - 5)) sample_string = outcome.fault := by
  refine ⟨by decide, by decide, by decide, by decide⟩

theorem wf.term_byte {w : Nat} {st : indexed_string} (h : wf w st) :
    byte_at (st.s_.getD []) (length_all st.index_) = 0 := by
  by_cases hs : st.s_ = none
  · rw [hs]; rfl
  · exact (h.term hs).2

theorem get_eq (w : Nat) (st : indexed_string) (i j : Nat) :
    get w st i j =
      ((st.s_.getD []).drop (offset st.index_ i)).take (length_range w st.index_ i j) := rfl

/-- Frame of a splice.  When the index entries below `lo` are kept, the entries from
`hi - 1` on are shifted so that part `hi` starts at `T`, the bytes below `offset lo` are
kept and the tail from `offset hi` through the terminator is found again from `T` on,
then every part outside `[lo, hi)` keeps its length and its bytes, and the payload is
terminated at the new total length. -/
theorem splice_frame {w : Nat} {st st' : indexed_string} (h : wf w st) {lo hi T : Nat}
    (hlh : lo < hi) (hhi : hi ≤ st.index_.length)
    (hP : st'.index_.length = st.index_.length)
    (hlow : ∀ j, j < lo → idx st'.index_ j = idx st.index_ j)
    (hhigh : ∀ j, hi - 1 ≤ j → j < st.index_.length →
      idx st'.index_ j = idx st.index_ j + T - offset st.index_ hi)
    (hT : offset st.index_ lo ≤ T)
    (hw : length_all st.index_ + T - offset st.index_ hi < 2 ^ w)
    (hbl : length_all st.index_ + T - offset st.index_ hi ≤ (st'.s_.getD []).length)
    (hb1 : ∀ x, x < offset st.index_ lo →
      byte_at (st'.s_.getD []) x = byte_at (st.s_.getD []) x)
    (hb2 : ∀ x, offset st.index_ hi ≤ x → x ≤ length_all st.index_ →
      byte_at (st'.s_.getD []) (x + T - offset st.index_ hi) = byte_at (st.s_.getD []) x) :
    (∀ j, j < st.index_.length → (j < lo ∨ hi ≤ j) →
      length w st'.index_ j = length w st.index_ j ∧ get_part w st' j = get_part w st j) ∧
    length_all st'.index_ = length_all st.index_ + T - offset st.index_ hi ∧
    byte_at (st'.s_.getD []) (length_all st'.index_) = 0 ∧
    offset st'.index_ lo = offset st.index_ lo ∧ offset st'.index_ hi = T ∧
    length_range w st'.index_ lo hi = T - offset st.index_ lo := by
  have hLw := h.all_lt
  have hLc := h.all_le_cap
  have hblen := h.len
  have hterm := h.term_byte
  have olh : offset st.index_ lo ≤ offset st.index_ hi := h.offset_mono (Nat.le_of_lt hlh) hhi
  have ohL : offset st.index_ hi ≤ length_all st.index_ := h.offset_le_all hhi
  have hofflow : ∀ k, k ≤ lo → offset st'.index_ k = offset st.index_ k := by
    intro k hk
    unfold offset
    by_cases h0 : k = 0
    · simp [h0]
    · simp only [h0, if_false]
      exact hlow _ (by omega)
  have hoffhigh : ∀ k, hi ≤ k → k ≤ st.index_.length →
      offset st'.index_ k = offset st.index_ k + T - offset st.index_ hi := by
    intro k hk hkP
    unfold offset
    have h0 : k ≠ 0 := by omega
    have h1 : hi ≠ 0 := by omega
    simp only [h0, h1, if_false]
    have := hhigh (k - 1) (by omega) (by omega)
    unfold offset at this
    simp only [h1, if_false] at this
    exact this
  have hL' : length_all st'.index_ = length_all st.index_ + T - offset st.index_ hi := by
    unfold length_all
    rw [hP]
    exact hoffhigh _ hhi (le_refl _)
  refine ⟨?_, hL', ?_, hofflow lo (le_refl _), ?_, ?_⟩
  · intro j hj hcase
    have o1 : offset st.index_ j ≤ offset st.index_ (j + 1) := h.offset_mono (Nat.le_succ j) hj
    have o2 : offset st.index_ (j + 1) ≤ length_all st.index_ := h.offset_le_all hj
    rcases hcase with hjl | hjh
    · have o3 : offset st.index_ (j + 1) ≤ offset st.index_ lo :=
        h.offset_mono (show j + 1 ≤ lo by omega) (by omega)
      have e1 := hofflow j (by omega)
      have e2 := hofflow (j + 1) (by omega)
      have hl : length w st'.index_ j = length w st.index_ j := by
        unfold length length_range
        rw [e1, e2]
      refine ⟨hl, ?_⟩
      rw [get_part_eq, get_part_eq, hl, h.length_eq hj, e1]
      apply slice_ext (by omega) (by omega)
      intro k hk
      exact hb1 _ (by omega)
    · have o3 : offset st.index_ hi ≤ offset st.index_ j := h.offset_mono hjh (by omega)
      have e1 := hoffhigh j hjh (by omega)
      have e2 := hoffhigh (j + 1) (by omega) hj
      have hl : length w st'.index_ j = length w st.index_ j := by
        rw [h.length_eq hj]
        unfold length length_range
        rw [e1, e2, wsub_eq (by omega) (by omega)]
        omega
      refine ⟨hl, ?_⟩
      rw [get_part_eq, get_part_eq, hl, h.length_eq hj, e1]
      apply slice_ext (by omega) (by omega)
      intro k hk
      have := hb2 (offset st.index_ j + k) (by omega) (by omega)
      rw [← this]
      congr 1
      omega
  · rw [hL']
    rw [hb2 _ ohL (le_refl _)]
    exact hterm
  · have := hoffhigh hi (le_refl _) hhi
    omega
  · unfold length_range
    rw [hofflow lo (le_refl _), hoffhigh hi (le_refl _) hhi, wsub_eq (by omega) (by omega)]
    omega

/-- Payload after a splice: the old bytes before the region, the new region, the old
tail. -/
theorem splice_payload {w : Nat} {st st' : indexed_string} (h : wf w st) {lo hi T : Nat}
    (hhi : hi ≤ st.index_.length) (hlh : lo ≤ hi)
    (hoL : offset st'.index_ lo = offset st.index_ lo)
    (hL' : length_all st'.index_ = length_all st.index_ + T - offset st.index_ hi)
    (hlen : length_range w st'.index_ lo hi = T - offset st.index_ lo)
    (hT : offset st.index_ lo ≤ T)
    (hbl : length_all st.index_ + T - offset st.index_ hi ≤ (st'.s_.getD []).length)
    (hb1 : ∀ x, x < offset st.index_ lo →
      byte_at (st'.s_.getD []) x = byte_at (st.s_.getD []) x)
    (hb2 : ∀ x, offset st.index_ hi ≤ x → x ≤ length_all st.index_ →
      byte_at (st'.s_.getD []) (x + T - offset st.index_ hi) = byte_at (st.s_.getD []) x) :
    get_all st' = (get_all st).take (offset st.index_ lo) ++ get w st' lo hi ++
      (get_all st).drop (offset st.index_ hi) := by
  have hLc := h.all_le_cap
  have hblen := h.len
  have olh : offset st.index_ lo ≤ offset st.index_ hi := h.offset_mono hlh hhi
  have ohL : offset st.index_ hi ≤ length_all st.index_ := h.offset_le_all hhi
  unfold get_all
  rw [get_eq, hoL, hlen, hL']
  apply list_ext_byte_at
  · simp only [List.length_take, List.length_append, List.length_drop]
    omega
  · intro x hx
    simp only [List.length_take] at hx
    have hx' : x < length_all st.index_ + T - offset st.index_ hi := by omega
    simp only [byte_at_append, byte_at_take, byte_at_drop, List.length_take,
      List.length_append, List.length_drop, hx', if_true]
    have m1 : min (offset st.index_ lo) (min (length_all st.index_) (st.s_.getD []).length) =
        offset st.index_ lo := by omega
    have m2 : min (T - offset st.index_ lo) ((st'.s_.getD []).length - offset st.index_ lo) =
        T - offset st.index_ lo := by omega
    rw [m1, m2]
    by_cases c1 : x < offset st.index_ lo
    · have c1' : x < offset st.index_ lo + (T - offset st.index_ lo) := by omega
      have c1'' : x < length_all st.index_ := by omega
      simp only [c1, c1', c1'', if_true]
      exact hb1 x c1
    · by_cases c2 : x < T
      · have c2' : x < offset st.index_ lo + (T - offset st.index_ lo) := by omega
        have c2'' : x - offset st.index_ lo < T - offset st.index_ lo := by omega
        simp only [c1, c2', c2'', if_true, if_false]
        congr 1
        omega
      · have c2' : ¬ (x < offset st.index_ lo + (T - offset st.index_ lo)) := by omega
        have c3 : offset st.index_ hi +
            (x - (offset st.index_ lo + (T - offset st.index_ lo))) < length_all st.index_ := by
          omega
        simp only [c2', c3, if_true, if_false]
        have := hb2 (offset st.index_ hi + (x - (offset st.index_ lo + (T - offset st.index_ lo))))
          (by omega) (by omega)
        rw [← this]
        congr 1
        omega

theorem splice.total_lt {w : Nat} {st st' : indexed_string} {lo hi T : Nat}
    (h : wf w st) (sp : splice w st st' lo hi T) :
    length_all st.index_ + T - offset st.index_ hi < 2 ^ w := by
  by_cases hs : st'.s_ = none
  · obtain ⟨e1, e2⟩ := sp.null hs
    have := h.all_lt
    omega
  · have := sp.room hs
    have := sp.cap
    omega

theorem splice.total_le {w : Nat} {st st' : indexed_string} {lo hi T : Nat}
    (h : wf w st) (sp : splice w st st' lo hi T) :
    length_all st.index_ + T - offset st.index_ hi ≤ (st'.s_.getD []).length := by
  by_cases hs : st'.s_ = none
  · obtain ⟨e1, e2⟩ := sp.null hs
    have := h.all_zero e1
    omega
  · have := sp.room hs
    have := sp.len
    omega

theorem splice.frame {w : Nat} {st st' : indexed_string} {lo hi T : Nat}
    (h : wf w st) (sp : splice w st st' lo hi T) (hlh : lo < hi)
    (hhi : hi ≤ st.index_.length) :
    (∀ j, j < st.index_.length → (j < lo ∨ hi ≤ j) →
      length w st'.index_ j = length w st.index_ j ∧ get_part w st' j = get_part w st j) ∧
    length_all st'.index_ = length_all st.index_ + T - offset st.index_ hi ∧
    byte_at (st'.s_.getD []) (length_all st'.index_) = 0 ∧
    offset st'.index_ lo = offset st.index_ lo ∧ offset st'.index_ hi = T ∧
    length_range w st'.index_ lo hi = T - offset st.index_ lo :=
  splice_frame h hlh hhi sp.parts sp.low sp.high sp.start (sp.total_lt h) (sp.total_le h)
    sp.head sp.tail

theorem splice.payload {w : Nat} {st st' : indexed_string} {lo hi T : Nat}
    (h : wf w st) (sp : splice w st st' lo hi T) (hlh : lo < hi)
    (hhi : hi ≤ st.index_.length) :
    get_all st' = (get_all st).take (offset st.index_ lo) ++ get w st' lo hi ++
      (get_all st).drop (offset st.index_ hi) := by
  obtain ⟨_, hL, _, ho, _, hl⟩ := sp.frame h hlh hhi
  exact splice_payload h hhi (Nat.le_of_lt hlh) ho hL hl sp.start (sp.total_le h) sp.head sp.tail

theorem splice.terminated {w : Nat} {st st' : indexed_string} {lo hi T : Nat}
    (h : wf w st) (sp : splice w st st' lo hi T) (hlh : lo < hi)
    (hhi : hi ≤ st.index_.length) :
    ∀ b, st'.s_ = some b →
      length_all st'.index_ < b.length ∧ byte_at b (length_all st'.index_) = 0 := by
  intro b hb
  obtain ⟨_, hL, ht, _⟩ := sp.frame h hlh hhi
  have hne : st'.s_ ≠ none := by simp [hb]
  have h1 := sp.room hne
  have h2 := sp.len
  rw [hb] at h2 ht
  simp only [Option.getD_some] at h2 ht
  exact ⟨by omega, ht⟩

/-- A splice whose region is filled with non-zero bytes and indexed monotonically leaves
a state that satisfies the invariants. -/
theorem splice.wf {w : Nat} {st st' : indexed_string} {lo hi T : Nat}
    (h : wf w st) (sp : splice w st st' lo hi T) (hlh : lo < hi)
    (hhi : hi ≤ st.index_.length)
    (hmid : ∀ j, lo ≤ j → j < hi →
      offset st.index_ lo ≤ idx st'.index_ j ∧ idx st'.index_ j ≤ T ∧
      (j + 1 < hi → idx st'.index_ j ≤ idx st'.index_ (j + 1)))
    (hfill : ∀ x, offset st.index_ lo ≤ x → x < T → byte_at (st'.s_.getD []) x ≠ 0) :
    indexed_string.wf w st' := by
  obtain ⟨_, hL, ht, _, _, _⟩ := sp.frame h hlh hhi
  have olh : offset st.index_ lo ≤ offset st.index_ hi := h.offset_mono (Nat.le_of_lt hlh) hhi
  have ohL : offset st.index_ hi ≤ length_all st.index_ := h.offset_le_all hhi
  have hio : offset st.index_ hi = idx st.index_ (hi - 1) := by
    unfold offset; simp [show hi ≠ 0 by omega]
  refine ⟨by rw [sp.parts]; exact h.pos, ?_, sp.cap, sp.len, ?_, ?_, ?_⟩
  · intro j hj
    rw [sp.parts] at hj
    by_cases c1 : j + 1 < lo
    · rw [sp.low j (by omega), sp.low (j + 1) c1]
      exact h.mono j hj
    · by_cases c2 : hi - 1 ≤ j
      · rw [sp.high j c2 (by omega), sp.high (j + 1) (by omega) hj]
        have := h.mono j hj
        omega
      · by_cases c3 : j + 1 = lo
        · rw [sp.low j (by omega)]
          have := (hmid (j + 1) (by omega) (by omega)).1
          have e : offset st.index_ lo = idx st.index_ j := by
            unfold offset; simp [show lo ≠ 0 by omega, ← c3]
          omega
        · exact (hmid j (by omega) (by omega)).2.2 (by omega)
  · intro hs i hi'
    rw [sp.parts] at hi'
    obtain ⟨e1, e2⟩ := sp.null hs
    have hz := h.null e1
    have hL0 := h.all_zero e1
    by_cases c1 : i < lo
    · rw [sp.low i c1]; exact hz i hi'
    · by_cases c2 : hi - 1 ≤ i
      · rw [sp.high i c2 hi', hz i hi']; omega
      · have := (hmid i (by omega) (by omega)).2.1
        omega
  · intro hs
    have h1 := sp.room hs
    rw [hL]
    exact ⟨h1, by rw [← hL]; exact ht⟩
  · intro x hx
    rw [hL] at hx
    by_cases c1 : x < offset st.index_ lo
    · rw [sp.head x c1]
      exact h.nonzero x (by omega)
    · by_cases c2 : x < T
      · exact hfill x (by omega) c2
      · have := sp.tail (x + offset st.index_ hi - T) (by omega) (by omega)
        have e : x + offset st.index_ hi - T + T - offset st.index_ hi = x := by omega
        rw [e] at this
        rw [this]
        exact h.nonzero _ (by omega)

theorem length_all_of_idx {index1 index_ : List Nat}
    (hlen : index1.length = index_.length) (hpos : 0 < index_.length) :
    length_all index1 = idx index1 (index_.length - 1) := by
  rw [length_all_eq _ (by omega), hlen]

theorem clear_splice {w : Nat} {first last : Nat} {st : indexed_string}
    (h : wf w st) (hl : last ≤ st.index_.length)
    (hne : offset st.index_ first ≠ offset st.index_ last) (hfl : first < last) :
    ∃ st', clear w first last st = outcome.ok st' () ∧
      splice w st st' first last (offset st.index_ first) ∧
      st'.capacity_ = st.capacity_ ∧
      (∀ j, first ≤ j → j < last → idx st'.index_ j = offset st.index_ first) ∧
      st'.s_ ≠ none := by
  have hLw := h.all_lt
  have hLc := h.all_le_cap
  have hblen := h.len
  have hterm := h.term_byte
  have olh : offset st.index_ first ≤ offset st.index_ last :=
    h.offset_mono (Nat.le_of_lt hfl) hl
  have ohL : offset st.index_ last ≤ length_all st.index_ := h.offset_le_all hl
  have hnn : st.s_ ≠ none := by
    intro hs
    have := h.all_zero hs
    omega
  have hcapL := (h.term hnn).1
  have hio : offset st.index_ last = idx st.index_ (last - 1) := by
    unfold offset; simp [show last ≠ 0 by omega]
  unfold clear
  simp only [hne, if_false]
  have hsz : wsub w (length_all st.index_) (offset st.index_ last) =
      length_all st.index_ - offset st.index_ last := wsub_eq ohL hLw
  have hd : wsub w (offset st.index_ last) (offset st.index_ first) =
      offset st.index_ last - offset st.index_ first := wsub_eq olh (by omega)
  simp only [hsz, hd]
  obtain ⟨s1, e1, hn1, hl1, hb1⟩ := memmove_spec st.s_ (offset st.index_ first)
    (offset st.index_ last) (length_all st.index_ - offset st.index_ last) (Or.inr (by omega))
  simp only [e1, outcome.mem]
  have hidx2 : ∀ j, j < st.index_.length →
      idx (tabulate st.index_.length fun i =>
        if last ≤ i then
          wsub w (idx (tabulate st.index_.length fun i =>
            if first ≤ i ∧ i < last then offset st.index_ first else idx st.index_ i) i)
            (offset st.index_ last - offset st.index_ first)
        else idx (tabulate st.index_.length fun i =>
            if first ≤ i ∧ i < last then offset st.index_ first else idx st.index_ i) i) j =
      if first ≤ j ∧ j < last then offset st.index_ first
      else if last ≤ j then idx st.index_ j - (offset st.index_ last - offset st.index_ first)
      else idx st.index_ j := by
    intro j hj
    simp only [idx_tabulate, hj, if_true]
    by_cases c1 : last ≤ j
    · have c2 : ¬ (first ≤ j ∧ j < last) := by omega
      simp only [c1, c2, if_true, if_false]
      have o1 : offset st.index_ last ≤ offset st.index_ (j + 1) :=
        h.offset_mono (by omega) (by omega)
      have o2 : offset st.index_ (j + 1) ≤ length_all st.index_ := h.offset_le_all (by omega)
      rw [offset_succ] at o1 o2
      exact wsub_eq (by omega) (by omega)
    · simp only [c1, if_false]
  generalize hI : (tabulate st.index_.length fun i =>
        if last ≤ i then
          wsub w (idx (tabulate st.index_.length fun i =>
            if first ≤ i ∧ i < last then offset st.index_ first else idx st.index_ i) i)
            (offset st.index_ last - offset st.index_ first)
        else idx (tabulate st.index_.length fun i =>
            if first ≤ i ∧ i < last then offset st.index_ first else idx st.index_ i) i) = index2
    at hidx2 ⊢
  have hP2 : index2.length = st.index_.length := by rw [← hI]; simp
  have hL2 : length_all index2 =
      length_all st.index_ - (offset st.index_ last - offset st.index_ first) := by
    rw [length_all_of_idx hP2 h.pos, hidx2 _ (by have := h.pos; omega)]
    have hLe := length_all_eq st.index_ h.pos
    by_cases c : last = st.index_.length
    · have c1 : first ≤ st.index_.length - 1 ∧ st.index_.length - 1 < last := by omega
      simp only [c1, and_self, if_true]
      have hLo : length_all st.index_ = offset st.index_ last := by rw [c]; rfl
      omega
    · have c1 : ¬ (first ≤ st.index_.length - 1 ∧ st.index_.length - 1 < last) := by omega
      have c2 : last ≤ st.index_.length - 1 := by omega
      simp only [c1, c2, if_true, if_false]
      omega
  obtain ⟨s2, e2, hn2, hl2, hb2⟩ := store_spec s1 (length_all index2) 0 (by omega)
  simp only [e2]
  refine ⟨_, rfl, ?_, rfl, ?_, hn2⟩
  · refine ⟨hP2, ?_, ?_, le_refl _, h.cap, by (try dsimp only); omega, ?_, ?_, ?_, ?_⟩
    · intro j hj
      (try dsimp only)
      rw [hidx2 j (by omega)]
      simp only [show ¬ (first ≤ j ∧ j < last) by omega, show ¬ (last ≤ j) by omega, if_false]
    · intro j hj1 hj2
      (try dsimp only)
      rw [hidx2 j hj2]
      by_cases c : j < last
      · have : j = last - 1 := by omega
        simp only [show first ≤ j ∧ j < last by omega, and_self, if_true]
        rw [hio, ← this]
        omega
      · have o1 : offset st.index_ last ≤ offset st.index_ (j + 1) :=
          h.offset_mono (by omega) (by omega)
        rw [offset_succ] at o1
        simp only [show ¬ (first ≤ j ∧ j < last) by omega, show last ≤ j by omega, if_true,
          if_false]
        omega
    · intro _; (try dsimp only); omega
    · intro hs; exact absurd hs hn2
    · intro x hx
      (try dsimp only)
      rw [hb2, hb1, hL2]
      simp only [show x ≠ length_all st.index_ -
        (offset st.index_ last - offset st.index_ first) by omega,
        show ¬ (offset st.index_ first ≤ x ∧ x < offset st.index_ first +
          (length_all st.index_ - offset st.index_ last)) by omega, if_false]
    · intro x hx1 hx2
      (try dsimp only)
      rw [hb2, hb1, hL2]
      by_cases c : x = length_all st.index_
      · simp only [show x + offset st.index_ first - offset st.index_ last = length_all st.index_ -
          (offset st.index_ last - offset st.index_ first) by omega, if_true]
        rw [c, hterm]
      · simp only [show x + offset st.index_ first - offset st.index_ last ≠
          length_all st.index_ - (offset st.index_ last - offset st.index_ first) by omega,
          show (offset st.index_ first ≤ x + offset st.index_ first - offset st.index_ last ∧
            x + offset st.index_ first - offset st.index_ last < offset st.index_ first +
            (length_all st.index_ - offset st.index_ last)) by omega, and_self, if_true, if_false]
        congr 1
        omega
  · intro j hj1 hj2
    (try dsimp only)
    rw [hidx2 j (by omega)]
    simp only [show first ≤ j ∧ j < last by omega, and_self, if_true]

/-- Claim C4.  For a valid state and `first ≤ last ≤ PartCount`, `clear(first, last)`
returns, every part in `[first, last)` has length `0`, the payload is the old payload
without the bytes `[offset(first), offset(last))`, every part outside the range keeps its
length and its bytes, the payload is terminated at the new `offset(PartCount)`, and the
capacity is unchanged. -/
theorem C4_clear_range (w : Nat) (st : indexed_string) (first last : Nat)
    (hv : valid w st) (hfl : first ≤ last) (hl : last ≤ st.index_.length) :
    ∃ st', clear w first last st = outcome.ok st' () ∧
      (∀ j, first ≤ j → j < last → length w st'.index_ j = 0) ∧
      get_all st' = (get_all st).take (offset st.index_ first) ++
        (get_all st).drop (offset st.index_ last) ∧
      (∀ j, j < st.index_.length → (j < first ∨ last ≤ j) →
        length w st'.index_ j = length w st.index_ j ∧ get_part w st' j = get_part w st j) ∧
      (∀ b, st'.s_ = some b →
        length_all st'.index_ < b.length ∧ byte_at b (length_all st'.index_) = 0) ∧
      st'.capacity_ = st.capacity_ := by
  have h := wf_of_valid hv
  have olh : offset st.index_ first ≤ offset st.index_ last := h.offset_mono hfl hl
  by_cases hne : offset st.index_ first = offset st.index_ last
  · refine ⟨st, by unfold clear; simp only [hne, if_true], ?_, ?_, fun _ _ _ => ⟨rfl, rfl⟩, ?_, rfl⟩
    · intro j hj1 hj2
      have o1 : offset st.index_ first ≤ offset st.index_ j := h.offset_mono hj1 (by omega)
      have o2 : offset st.index_ j ≤ offset st.index_ (j + 1) :=
        h.offset_mono (Nat.le_succ j) (by omega)
      have o3 : offset st.index_ (j + 1) ≤ offset st.index_ last := h.offset_mono hj2 hl
      rw [h.length_eq (by omega)]
      omega
    · rw [hne, List.take_append_drop]
    · intro b hb
      have hnn : st.s_ ≠ none := by simp [hb]
      have := h.term hnn
      have hlen := h.len
      rw [hb] at this hlen
      simp only [Option.getD_some] at this hlen
      exact ⟨by omega, this.2⟩
  · have hfl' : first < last := by
      rcases Nat.lt_or_ge first last with c | c
      · exact c
      · have : first = last := by omega
        subst this; exact absurd rfl hne
    obtain ⟨st', e, sp, hc, hmid, _⟩ := clear_splice h hl hne hfl'
    obtain ⟨hfr, hL, ht, ho, hoh, hlr⟩ := sp.frame h hfl' hl
    refine ⟨st', e, ?_, ?_, hfr, sp.terminated h hfl' hl, hc⟩
    · intro j hj1 hj2
      unfold length length_range
      have e1 : offset st'.index_ (j + 1) = offset st.index_ first := by
        rw [offset_succ]; exact hmid j hj1 hj2
      have e2 : offset st'.index_ j = offset st.index_ first := by
        by_cases c : j = first
        · rw [c]; exact ho
        · unfold offset
          simp only [show j ≠ 0 by omega, if_false]
          have := hmid (j - 1) (by omega) (by omega)
          unfold offset at this
          exact this
      rw [e1, e2]
      have b1 := h.all_lt
      have b2 : offset st.index_ first ≤ length_all st.index_ := h.offset_le_all (by omega)
      exact (wsub_eq (le_refl _) (by omega)).trans (Nat.sub_self _)
    · have hp := sp.payload h hfl' hl
      rw [hp, get_eq, hlr]
      simp

/-- Witness of C4: clearing parts `1` and `2` of the sample container leaves the bytes
of part `0`. -/
theorem C4_clear_range_witness :
    ∃ st', clear 64 1 3 sample_string = outcome.ok st' () ∧ get_all st' = [1, 2] := by
  obtain ⟨st', e, _, hp, _⟩ :=
    C4_clear_range 64 sample_string 1 3 (by decide) (by decide) (by decide)
  exact ⟨st', e, hp.trans (by decide)⟩

/-- Pointwise description of the state after `resize(first, last, new_size)`. -/
theorem resize_range_splice {w : Nat} {a : storage} {first last n : Nat}
    {st : indexed_string} (h : wf w st) (hfl : first < last) (hl : last ≤ st.index_.length)
    (hgrow : length_range w st.index_ first last < n →
      length_all st.index_ + (n - length_range w st.index_ first last) + 1 < 2 ^ w ∧
      (st.capacity_ < length_all st.index_ + (n - length_range w st.index_ first last) + 1 →
        ∃ f, a.allocate
          (length_all st.index_ + (n - length_range w st.index_ first last) + 1) =
            Except.ok f)) :
    ∃ st', resize_range w a first last n st = outcome.ok st' (offset st.index_ first) ∧
      splice w st st' first last (offset st.index_ first + n) ∧
      (∀ j, first ≤ j → j < last → idx st'.index_ j = offset st.index_ first + n) ∧
      (n ≤ length_range w st.index_ first last → st'.capacity_ = st.capacity_) ∧
      (∀ x, x < offset st.index_ first + min n (length_range w st.index_ first last) →
        byte_at (st'.s_.getD []) x = byte_at (st.s_.getD []) x) := by
  have hlen := h.length_range_eq (Nat.le_of_lt hfl) hl
  have olh : offset st.index_ first ≤ offset st.index_ last :=
    h.offset_mono (Nat.le_of_lt hfl) hl
  have ohL : offset st.index_ last ≤ length_all st.index_ := h.offset_le_all hl
  have hLw := h.all_lt
  have hLc := h.all_le_cap
  have hblen := h.len
  have hterm := h.term_byte
  have hio : offset st.index_ last = idx st.index_ (last - 1) := by
    unfold offset; simp [show last ≠ 0 by omega]
  have hmonoj : ∀ j, last - 1 ≤ j → j < st.index_.length →
      offset st.index_ last ≤ idx st.index_ j ∧ idx st.index_ j ≤ length_all st.index_ := by
    intro j hj1 hj2
    have o1 : offset st.index_ last ≤ offset st.index_ (j + 1) :=
      h.offset_mono (by omega) (by omega)
    have o2 : offset st.index_ (j + 1) ≤ length_all st.index_ := h.offset_le_all (by omega)
    rw [offset_succ] at o1 o2
    exact ⟨o1, o2⟩
  generalize hlr : length_range w st.index_ first last = len at *
  unfold resize_range
  simp only [hlr]
  by_cases hz : n = 0 ∧ len = 0
  · obtain ⟨hn0, hl0⟩ := hz
    subst hn0
    simp only [hl0, and_self, if_true]
    refine ⟨st, rfl, ?_, ?_, fun _ => rfl, fun _ _ => rfl⟩
    · refine ⟨rfl, fun _ _ => rfl, ?_, by omega, h.cap, h.len, ?_, ?_, fun _ _ => rfl, ?_⟩
      · intro j _ _; omega
      · intro hs; have := (h.term hs).1; omega
      · intro hs; exact ⟨hs, by omega⟩
      · intro x hx1 hx2
        congr 1; omega
    · intro j hj1 hj2
      have o1 : offset st.index_ first ≤ offset st.index_ (j + 1) :=
        h.offset_mono (by omega) (by omega)
      have o2 : offset st.index_ (j + 1) ≤ offset st.index_ last := h.offset_mono hj2 hl
      rw [offset_succ] at o1 o2
      omega
  · simp only [hz, if_false]
    by_cases hsh : n ≤ len
    · -- shrink
      simp only [hsh, if_true]
      have hd : wsub w len n = len - n := wsub_eq hsh (by omega)
      have hsz : wsub w (length_all st.index_) (offset st.index_ last) =
          length_all st.index_ - offset st.index_ last := wsub_eq ohL hLw
      have hsz1 : wadd w (length_all st.index_ - offset st.index_ last) 1 =
          length_all st.index_ - offset st.index_ last + 1 := wadd_eq (by omega)
      have hne : st.s_ ≠ none := by
        intro hs
        have := h.all_zero hs
        omega
      have hcapL := (h.term hne).1
      simp only [hd, hsz, hsz1, ptr_add_neg (show len - n ≤ offset st.index_ last by omega),
        outcome.mem]
      obtain ⟨s1, e1, hn1, hl1, hb1⟩ := memmove_spec st.s_
        (offset st.index_ last - (len - n)) (offset st.index_ last)
        (length_all st.index_ - offset st.index_ last + 1) (Or.inr (by omega))
      simp only [e1]
      have hidx2 : ∀ j, j < st.index_.length →
          idx (tabulate st.index_.length fun i =>
            if last - 1 ≤ i then
              wsub w (idx (tabulate st.index_.length fun i =>
                if first ≤ i ∧ i < last - 1 then wsub w (idx st.index_ (last - 1)) (len - n)
                else idx st.index_ i) i) (len - n)
            else idx (tabulate st.index_.length fun i =>
                if first ≤ i ∧ i < last - 1 then wsub w (idx st.index_ (last - 1)) (len - n)
                else idx st.index_ i) i) j =
          if first ≤ j ∧ j < last then offset st.index_ first + n
          else if last ≤ j then idx st.index_ j + (offset st.index_ first + n) -
            offset st.index_ last
          else idx st.index_ j := by
        intro j hj
        simp only [idx_tabulate, hj, if_true]
        by_cases c1 : last - 1 ≤ j
        · have c2 : ¬ (first ≤ j ∧ j < last - 1) := by omega
          obtain ⟨m1, m2⟩ := hmonoj j c1 hj
          simp only [c1, c2, if_true, if_false]
          rw [wsub_eq (by omega) (by omega)]
          by_cases c3 : j < last
          · have : j = last - 1 := by omega
            simp only [show first ≤ j ∧ j < last by omega, and_self, if_true]
            rw [this]; omega
          · simp only [show ¬ (first ≤ j ∧ j < last) by omega, show last ≤ j by omega, if_true,
              if_false]
            omega
        · simp only [c1, if_false]
          by_cases c2 : first ≤ j
          · simp only [show first ≤ j ∧ j < last - 1 by omega, show first ≤ j ∧ j < last by omega,
              and_self, if_true]
            rw [wsub_eq (by omega) (by omega)]
            omega
          · simp only [show ¬ (first ≤ j ∧ j < last - 1) by omega,
              show ¬ (first ≤ j ∧ j < last) by omega, show ¬ (last ≤ j) by omega, if_false]
      generalize hI : (tabulate st.index_.length fun i =>
            if last - 1 ≤ i then
              wsub w (idx (tabulate st.index_.length fun i =>
                if first ≤ i ∧ i < last - 1 then wsub w (idx st.index_ (last - 1)) (len - n)
                else idx st.index_ i) i) (len - n)
            else idx (tabulate st.index_.length fun i =>
                if first ≤ i ∧ i < last - 1 then wsub w (idx st.index_ (last - 1)) (len - n)
                else idx st.index_ i) i) = index2 at hidx2 ⊢
      have hP2 : index2.length = st.index_.length := by rw [← hI]; simp
      have hof : offset index2 first = offset st.index_ first := by
        unfold offset
        by_cases c : first = 0
        · simp [c]
        · simp only [c, if_false]
          rw [hidx2 _ (by omega)]
          simp only [show ¬ (first ≤ first - 1 ∧ first - 1 < last) by omega,
            show ¬ (last ≤ first - 1) by omega, if_false]
      rw [hof]
      refine ⟨_, rfl, ?_, ?_, fun _ => rfl, ?_⟩
      · refine ⟨hP2, ?_, ?_, by omega, h.cap, by (try dsimp only); omega, ?_, ?_, ?_, ?_⟩
        · intro j hj
          (try dsimp only)
          rw [hidx2 j (by omega)]
          simp only [show ¬ (first ≤ j ∧ j < last) by omega, show ¬ (last ≤ j) by omega,
            if_false]
        · intro j hj1 hj2
          (try dsimp only)
          rw [hidx2 j hj2]
          obtain ⟨m1, m2⟩ := hmonoj j hj1 hj2
          by_cases c : j < last
          · have : j = last - 1 := by omega
            simp only [show first ≤ j ∧ j < last by omega, and_self, if_true]
            rw [this, ← hio]; omega
          · simp only [show ¬ (first ≤ j ∧ j < last) by omega, show last ≤ j by omega, if_true,
              if_false]
        · intro _; (try dsimp only); omega
        · intro hs; exact absurd (hn1.1 hs) hne
        · intro x hx
          (try dsimp only)
          rw [hb1]
          simp only [show ¬ (offset st.index_ last - (len - n) ≤ x ∧ x <
            offset st.index_ last - (len - n) +
            (length_all st.index_ - offset st.index_ last + 1)) by omega, if_false]
        · intro x hx1 hx2
          (try dsimp only)
          rw [hb1]
          simp only [show (offset st.index_ last - (len - n) ≤
            x + (offset st.index_ first + n) - offset st.index_ last ∧
            x + (offset st.index_ first + n) - offset st.index_ last <
            offset st.index_ last - (len - n) +
            (length_all st.index_ - offset st.index_ last + 1)) by omega, and_self, if_true]
          congr 1
          omega
      · intro j hj1 hj2
        (try dsimp only)
        rw [hidx2 j (by omega)]
        simp only [show first ≤ j ∧ j < last by omega, and_self, if_true]
      · intro x hx
        (try dsimp only)
        rw [hb1]
        simp only [show ¬ (offset st.index_ last - (len - n) ≤ x ∧ x <
          offset st.index_ last - (len - n) +
          (length_all st.index_ - offset st.index_ last + 1)) by omega, if_false]
    · -- grow
      simp only [hsh, if_false]
      obtain ⟨hk, hal⟩ := hgrow (by omega)
      have hd : wsub w n len = n - len := wsub_eq (by omega) (by omega)
      obtain ⟨st1, e1, hidx1, hwf1, hcap1, hne1, hb1⟩ := reserve_more_spec h hk hal
      simp only [hd, e1, outcome.andThen, hidx1]
      have hsz : wsub w (length_all st.index_) (offset st.index_ last) =
          length_all st.index_ - offset st.index_ last := wsub_eq ohL hLw
      have hsz1 : wadd w (length_all st.index_ - offset st.index_ last) 1 =
          length_all st.index_ - offset st.index_ last + 1 := wadd_eq (by omega)
      simp only [hsz, hsz1]
      have hl1 := hwf1.len
      obtain ⟨s2, e2, hn2, hl2, hb2⟩ := memmove_spec st1.s_
        (offset st.index_ last + (n - len)) (offset st.index_ last)
        (length_all st.index_ - offset st.index_ last + 1) (Or.inr (by omega))
      simp only [e2, outcome.mem]
      have hterm1 : byte_at (st1.s_.getD []) (length_all st.index_) = 0 := by
        have := (hwf1.term hne1).2
        rw [hidx1] at this
        exact this
      have hidx2 : ∀ j, j < st.index_.length →
          idx (tabulate st.index_.length fun i =>
            if last - 1 ≤ i then
              wadd w (idx (tabulate st.index_.length fun i =>
                if first ≤ i ∧ i < last - 1 then wadd w (idx st.index_ (last - 1)) (n - len)
                else idx st.index_ i) i) (n - len)
            else idx (tabulate st.index_.length fun i =>
                if first ≤ i ∧ i < last - 1 then wadd w (idx st.index_ (last - 1)) (n - len)
                else idx st.index_ i) i) j =
          if first ≤ j ∧ j < last then offset st.index_ first + n
          else if last ≤ j then idx st.index_ j + (offset st.index_ first + n) -
            offset st.index_ last
          else idx st.index_ j := by
        intro j hj
        simp only [idx_tabulate, hj, if_true]
        by_cases c1 : last - 1 ≤ j
        · have c2 : ¬ (first ≤ j ∧ j < last - 1) := by omega
          obtain ⟨m1, m2⟩ := hmonoj j c1 hj
          simp only [c1, c2, if_true, if_false]
          rw [wadd_eq (by omega)]
          by_cases c3 : j < last
          · have : j = last - 1 := by omega
            simp only [show first ≤ j ∧ j < last by omega, and_self, if_true]
            rw [this]; omega
          · simp only [show ¬ (first ≤ j ∧ j < last) by omega, show last ≤ j by omega, if_true,
              if_false]
            omega
        · simp only [c1, if_false]
          by_cases c2 : first ≤ j
          · simp only [show first ≤ j ∧ j < last - 1 by omega, show first ≤ j ∧ j < last by omega,
              and_self, if_true]
            rw [wadd_eq (by omega)]
            omega
          · simp only [show ¬ (first ≤ j ∧ j < last - 1) by omega,
              show ¬ (first ≤ j ∧ j < last) by omega, show ¬ (last ≤ j) by omega, if_false]
      generalize hI : (tabulate st.index_.length fun i =>
            if last - 1 ≤ i then
              wadd w (idx (tabulate st.index_.length fun i =>
                if first ≤ i ∧ i < last - 1 then wadd w (idx st.index_ (last - 1)) (n - len)
                else idx st.index_ i) i) (n - len)
            else idx (tabulate st.index_.length fun i =>
                if first ≤ i ∧ i < last - 1 then wadd w (idx st.index_ (last - 1)) (n - len)
                else idx st.index_ i) i) = index2 at hidx2 ⊢
      have hP2 : index2.length = st.index_.length := by rw [← hI]; simp
      have hof : offset index2 first = offset st.index_ first := by
        unfold offset
        by_cases c : first = 0
        · simp [c]
        · simp only [c, if_false]
          rw [hidx2 _ (by omega)]
          simp only [show ¬ (first ≤ first - 1 ∧ first - 1 < last) by omega,
            show ¬ (last ≤ first - 1) by omega, if_false]
      rw [hof]
      refine ⟨_, rfl, ?_, ?_, ?_, ?_⟩
      · refine ⟨hP2, ?_, ?_, by omega, hwf1.cap, by (try dsimp only); omega, ?_, ?_, ?_, ?_⟩
        · intro j hj
          (try dsimp only)
          rw [hidx2 j (by omega)]
          simp only [show ¬ (first ≤ j ∧ j < last) by omega, show ¬ (last ≤ j) by omega,
            if_false]
        · intro j hj1 hj2
          (try dsimp only)
          rw [hidx2 j hj2]
          obtain ⟨m1, m2⟩ := hmonoj j hj1 hj2
          by_cases c : j < last
          · have : j = last - 1 := by omega
            simp only [show first ≤ j ∧ j < last by omega, and_self, if_true]
            rw [this, ← hio]; omega
          · simp only [show ¬ (first ≤ j ∧ j < last) by omega, show last ≤ j by omega, if_true,
              if_false]
        · intro _; (try dsimp only); omega
        · intro hs; exact absurd (hn2.1 hs) hne1
        · intro x hx
          (try dsimp only)
          rw [hb2]
          simp only [show ¬ (offset st.index_ last + (n - len) ≤ x ∧ x <
            offset st.index_ last + (n - len) +
            (length_all st.index_ - offset st.index_ last + 1)) by omega, if_false]
          exact hb1 x (by omega)
        · intro x hx1 hx2
          (try dsimp only)
          rw [hb2]
          simp only [show (offset st.index_ last + (n - len) ≤
            x + (offset st.index_ first + n) - offset st.index_ last ∧
            x + (offset st.index_ first + n) - offset st.index_ last <
            offset st.index_ last + (n - len) +
            (length_all st.index_ - offset st.index_ last + 1)) by omega, and_self, if_true]
          have e : offset st.index_ last + (x + (offset st.index_ first + n) -
            offset st.index_ last - (offset st.index_ last + (n - len))) = x := by omega
          rw [e]
          by_cases hxL : x = length_all st.index_
          · rw [hxL, hterm1, hterm]
          · exact hb1 x (by omega)
      · intro j hj1 hj2
        (try dsimp only)
        rw [hidx2 j (by omega)]
        simp only [show first ≤ j ∧ j < last by omega, and_self, if_true]
      · intro hle; first | exact absurd hle hsh | exact hle.elim
      · intro x hx
        (try dsimp only)
        rw [hb2]
        simp only [show ¬ (offset st.index_ last + (n - len) ≤ x ∧ x <
          offset st.index_ last + (n - len) +
          (length_all st.index_ - offset st.index_ last + 1)) by omega, if_false]
        exact hb1 x (by omega)

/-- Claim C3.  For a valid state, `first < last ≤ PartCount` and a size `n` whose grow
succeeds, `resize(first, last, n)` returns, part `first` has length `n`, every part
strictly between `first` and `last` has length `0`, every part outside `[first, last)`
keeps its length and its bytes, and the first `min n (old length(first, last))` bytes of
the range are kept. -/
theorem C3_resize_range (w : Nat) (a : storage) (st : indexed_string) (first last n : Nat)
    (hv : valid w st) (hfl : first < last) (hl : last ≤ st.index_.length)
    (hgrow : length_range w st.index_ first last < n →
      length_all st.index_ + (n - length_range w st.index_ first last) + 1 < 2 ^ w ∧
      (st.capacity_ < length_all st.index_ + (n - length_range w st.index_ first last) + 1 →
        ∃ f, a.allocate
          (length_all st.index_ + (n - length_range w st.index_ first last) + 1) =
            Except.ok f)) :
    ∃ st' p, resize_range w a first last n st = outcome.ok st' p ∧
      length w st'.index_ first = n ∧
      (∀ j, first < j → j < last → length w st'.index_ j = 0) ∧
      (∀ j, j < st.index_.length → (j < first ∨ last ≤ j) →
        length w st'.index_ j = length w st.index_ j ∧ get_part w st' j = get_part w st j) ∧
      (get w st' first last).take (min n (length_range w st.index_ first last)) =
        (get w st first last).take (min n (length_range w st.index_ first last)) := by
  have h := wf_of_valid hv
  obtain ⟨st', e, sp, hmid, _, hbytes⟩ := resize_range_splice h hfl hl hgrow
  obtain ⟨hfr, hL, ht, ho, hoh, hlr⟩ := sp.frame h hfl hl
  have hlen := h.length_range_eq (Nat.le_of_lt hfl) hl
  have olh : offset st.index_ first ≤ offset st.index_ last :=
    h.offset_mono (Nat.le_of_lt hfl) hl
  have ohL : offset st.index_ last ≤ length_all st.index_ := h.offset_le_all hl
  have hLc := h.all_le_cap
  have hblen := h.len
  have htl := sp.total_lt h
  have hte := sp.total_le h
  refine ⟨st', _, e, ?_, ?_, hfr, ?_⟩
  · unfold length length_range
    rw [offset_succ, hmid first (le_refl _) hfl, ho, wsub_eq (by omega) (by omega)]
    omega
  · intro j hj1 hj2
    unfold length length_range
    have e2 : offset st'.index_ j = offset st.index_ first + n := by
      unfold offset
      simp only [show j ≠ 0 by omega, if_false]
      exact hmid (j - 1) (by omega) (by omega)
    rw [offset_succ, hmid j (by omega) hj2, e2]
    exact (wsub_eq (le_refl _) (by omega)).trans (Nat.sub_self _)
  · rw [get_eq, get_eq, hlr, ho, hlen]
    apply take_slice_ext (by omega) (by omega) (by omega) (by omega)
    intro k hk
    exact hbytes _ (by omega)

/-- Witness of C3: resizing parts `[0, 2)` of the sample container, three bytes long,
to one byte. -/
theorem C3_resize_range_witness :
    ∃ st' p, resize_range 64 failing_storage 0 2 1 sample_string = outcome.ok st' p ∧
      length 64 st'.index_ 0 = 1 ∧ length 64 st'.index_ 1 = 0 := by
  obtain ⟨st', p, e, h1, h2, _⟩ := C3_resize_range 64 failing_storage sample_string 0 2 1
    (by decide) (by decide) (by decide) (fun h => absurd h (by decide))
  exact ⟨st', p, e, h1, h2 1 (by decide) (by decide)⟩

end indexed_string

theorem two_pow_half {w : Nat} (hw : 0 < w) : 2 ^ w = 2 * 2 ^ (w - 1) := by
  obtain ⟨k, rfl⟩ : ∃ k, w = k + 1 := ⟨w - 1, by omega⟩
  simp [pow_succ, Nat.mul_comm]

theorem to_ptrdiff_wsub {w a b : Nat} (hw : 0 < w) (ha : a < 2 ^ (w - 1))
    (hb : b ≤ 2 ^ (w - 1)) : to_ptrdiff w (wsub w a b) = (a : Int) - (b : Int) := by
  have h2 := two_pow_half hw
  unfold to_ptrdiff
  by_cases hab : b ≤ a
  · rw [wsub_eq hab (by omega)]
    have : a - b < 2 ^ (w - 1) := by omega
    simp only [this, if_true]
    omega
  · have e : wsub w a b = a + 2 ^ w - b := by
      unfold wsub
      exact Nat.mod_eq_of_lt (by omega)
    rw [e]
    have : ¬ (a + 2 ^ w - b < 2 ^ (w - 1)) := by omega
    simp only [this, if_false]
    have hc : ((2 ^ w : Nat) : Int) = (2 : Int) ^ w := by push_cast; rfl
    rw [← hc]
    omega

theorem wadd_int_eq {w x : Nat} {n : Int} (h0 : 0 ≤ (x : Int) + n)
    (h1 : (x : Int) + n < ((2 ^ w : Nat) : Int)) : wadd_int w x n = ((x : Int) + n).toNat := by
  unfold wadd_int
  have hc : ((2 ^ w : Nat) : Int) = (2 : Int) ^ w := by push_cast; rfl
  rw [← hc, Int.emod_eq_of_lt h0 h1]

theorem wadd_int_sub {w x a b : Nat} (h0 : b ≤ x + a) (h1 : x + a - b < 2 ^ w) :
    wadd_int w x ((a : Int) - (b : Int)) = x + a - b := by
  rw [wadd_int_eq (by omega) (by omega)]
  omega

theorem ptr_add_sub {p a b : Nat} (h : b ≤ p + a) :
    ptr_add p ((a : Int) - (b : Int)) = some (p + a - b) := by
  unfold ptr_add
  have : (0 : Int) ≤ (p : Int) + ((a : Int) - (b : Int)) := by omega
  simp only [this, if_true, Option.some.injEq]
  omega

namespace indexed_string

theorem reserve_change_part_spec {w : Nat} {a : storage} {part i e ins : Nat}
    {st : indexed_string} (h : wf w st) (hp : part < st.index_.length) (hw : 0 < w)
    (hins : ins < 2 ^ (w - 1)) (he : e ≤ 2 ^ (w - 1))
    (hgrow : e < ins → length_all st.index_ + (ins - e) + 1 < 2 ^ w ∧
      (st.capacity_ < length_all st.index_ + (ins - e) + 1 →
        ∃ f, a.allocate (length_all st.index_ + (ins - e) + 1) = Except.ok f)) :
    ∃ st1, reserve_change_part w a part i e ins st =
        outcome.ok st1 ⟨part, i, (ins : Int) - (e : Int), ins⟩ ∧
      st1.index_ = st.index_ ∧ wf w st1 ∧
      (e < ins → length_all st.index_ + (ins - e) + 1 ≤ st1.capacity_) ∧
      (ins ≤ e → st1 = st) ∧
      ∀ x, x < length_all st.index_ →
        byte_at (st1.s_.getD []) x = byte_at (st.s_.getD []) x := by
  unfold reserve_change_part
  simp only [to_ptrdiff_wsub hw hins he]
  by_cases c : e < ins
  · obtain ⟨hk, hal⟩ := hgrow c
    have hpos : (ins : Int) - (e : Int) > 0 := by omega
    simp only [hpos, if_true]
    have hlen := h.length_eq hp
    have o1 : offset st.index_ part ≤ offset st.index_ (part + 1) :=
      h.offset_mono (Nat.le_succ _) hp
    have o2 : offset st.index_ (part + 1) ≤ length_all st.index_ := h.offset_le_all hp
    have e1 : wadd_int w (length w st.index_ part) ((ins : Int) - (e : Int)) =
        length w st.index_ part + ins - e := wadd_int_sub (by omega) (by omega)
    unfold reserve
    simp only [e1]
    have c2 : length w st.index_ part + ins - e > length w st.index_ part := by omega
    simp only [c2, if_true]
    have e2 : wsub w (length w st.index_ part + ins - e) (length w st.index_ part) = ins - e := by
      rw [wsub_eq (by omega) (by omega)]; omega
    have e3 : wadd w (length_all st.index_) (ins - e) = length_all st.index_ + (ins - e) :=
      wadd_eq (by omega)
    simp only [e2, e3]
    obtain ⟨st1, r1, r2, r3, r4, _, r6⟩ := reserve_all_spec h hk (by omega) hal
    simp only [r1, outcome.andThen]
    exact ⟨st1, rfl, r2, r3, fun _ => r4, fun hle => absurd c (by omega), r6⟩
  · have hpos : ¬ ((ins : Int) - (e : Int) > 0) := by omega
    simp only [hpos, if_false]
    exact ⟨st, rfl, rfl, h, fun hc => absurd hc c, fun _ => rfl, fun _ _ => rfl⟩

theorem change_part_fill {w : Nat} {part i e : Nat} {src : List Nat} {st : indexed_string}
    (h : wf w st) (hp : part < st.index_.length)
    (hi : offset st.index_ part ≤ i) (hie : i + e ≤ offset st.index_ (part + 1))
    (hroom : e < src.length → length_all st.index_ + (src.length - e) + 1 ≤ st.capacity_) :
    ∃ st', ((change_part w ⟨part, i, (src.length : Int) - (e : Int), src.length⟩ st).andThen
        fun st2 tb => tb.copy w src 0 st2) = outcome.ok st' i ∧
      st'.index_.length = st.index_.length ∧
      (∀ j, j < st.index_.length → idx st'.index_ j =
        if part ≤ j then idx st.index_ j + src.length - e else idx st.index_ j) ∧
      st'.capacity_ = st.capacity_ ∧ (st'.s_.getD []).length = st'.capacity_ ∧
      (st'.s_ = none ↔ st.s_ = none) ∧
      (∀ x, x < i → byte_at (st'.s_.getD []) x = byte_at (st.s_.getD []) x) ∧
      (∀ k, k < src.length → byte_at (st'.s_.getD []) (i + k) = byte_at src k) ∧
      (∀ x, i + e ≤ x → x ≤ length_all st.index_ →
        byte_at (st'.s_.getD []) (x + src.length - e) = byte_at (st.s_.getD []) x) := by
  have hLw := h.all_lt
  have hLc := h.all_le_cap
  have hcw := h.cap
  have hblen := h.len
  have hterm := h.term_byte
  have o2 : offset st.index_ (part + 1) ≤ length_all st.index_ := h.offset_le_all hp
  have hmonoj : ∀ j, part ≤ j → j < st.index_.length →
      offset st.index_ (part + 1) ≤ idx st.index_ j ∧ idx st.index_ j ≤ length_all st.index_ := by
    intro j hj1 hj2
    have o1 : offset st.index_ (part + 1) ≤ offset st.index_ (j + 1) :=
      h.offset_mono (by omega) (by omega)
    have o2 : offset st.index_ (j + 1) ≤ length_all st.index_ := h.offset_le_all (by omega)
    rw [offset_succ] at o1 o2
    exact ⟨o1, o2⟩
  generalize hins : src.length = ins at *
  have hav : wsub w ins 0 = ins := by
    rw [wsub_eq (Nat.zero_le _) (by omega)]; rfl
  unfold change_part
  dsimp only
  by_cases c0 : ins = e
  · -- same size: only the window is written
    subst c0
    simp only [sub_self, if_true, outcome.andThen, target_buffer.copy, hav, Nat.add_zero]
    obtain ⟨s1, e1, hn1, hl1, hb1⟩ := memcpy_spec st.s_ i src 0 ins
      (Or.inr ⟨by omega, by omega⟩)
    simp only [e1, outcome.mem]
    refine ⟨_, rfl, rfl, ?_, rfl, by (try dsimp only); omega, hn1, ?_, ?_, ?_⟩
    · intro j hj
      by_cases c : part ≤ j
      · have := hmonoj j c hj
        simp only [c, if_true]; omega
      · simp only [c, if_false]
    · intro x hx
      (try dsimp only)
      rw [hb1]
      simp only [show ¬ (i ≤ x ∧ x < i + ins) by omega, if_false]
    · intro k hk
      (try dsimp only)
      rw [hb1]
      simp only [show (i ≤ i + k ∧ i + k < i + ins) by omega, and_self, if_true]
      congr 1; omega
    · intro x hx1 hx2
      (try dsimp only)
      rw [hb1]
      simp only [show ¬ (i ≤ x + ins - ins ∧ x + ins - ins < i + ins) by omega, if_false]
      congr 1; omega
  · have hne0 : ¬ ((ins : Int) - (e : Int) = 0) := by omega
    simp only [hne0, if_false]
    have hidx1 : ∀ j, j < st.index_.length →
        idx (tabulate st.index_.length fun j =>
          if part ≤ j then wadd_int w (idx st.index_ j) ((ins : Int) - (e : Int))
          else idx st.index_ j) j =
        if part ≤ j then idx st.index_ j + ins - e else idx st.index_ j := by
      intro j hj
      simp only [idx_tabulate, hj, if_true]
      by_cases c : part ≤ j
      · have := hmonoj j c hj
        simp only [c, if_true]
        exact wadd_int_sub (by omega) (by omega)
      · simp only [c, if_false]
    generalize hI : (tabulate st.index_.length fun j =>
          if part ≤ j then wadd_int w (idx st.index_ j) ((ins : Int) - (e : Int))
          else idx st.index_ j) = index1 at hidx1 ⊢
    have hP1 : index1.length = st.index_.length := by rw [← hI]; simp
    have hL1 : length_all index1 = length_all st.index_ + ins - e := by
      rw [length_all_of_idx hP1 h.pos, hidx1 _ (by have := h.pos; omega)]
      have hLe := length_all_eq st.index_ h.pos
      simp only [show part ≤ st.index_.length - 1 by omega, if_true]
      omega
    have hsz : wsub w (length_all st.index_) i = length_all st.index_ - i :=
      wsub_eq (by omega) hLw
    by_cases cg : e < ins
    · -- insert more than is erased: the tail moves right
      have hr := hroom cg
      have hnn : st.s_ ≠ none := h.s_ne_none (by omega)
      have hpos : (ins : Int) - (e : Int) > 0 := by omega
      simp only [hpos, if_true, ptr_add_sub (show e ≤ i + ins by omega), Option.some_bind, hsz]
      obtain ⟨s1, e1, hn1, hl1, hb1⟩ := memmove_spec st.s_ (i + ins - e) i
        (length_all st.index_ - i) (Or.inr ⟨by omega, by omega⟩)
      simp only [e1, outcome.mem, hL1]
      obtain ⟨s2, e2, hn2, hl2, hb2⟩ := store_spec s1 (length_all st.index_ + ins - e) 0
        (by omega)
      simp only [e2, outcome.andThen, target_buffer.copy, hav, Nat.add_zero]
      obtain ⟨s3, e3, hn3, hl3, hb3⟩ := memcpy_spec s2 i src 0 ins
        (Or.inr ⟨by omega, by omega⟩)
      simp only [e3]
      refine ⟨_, rfl, hP1, hidx1, rfl, by (try dsimp only); omega, ?_, ?_, ?_, ?_⟩
      · (try dsimp only)
        constructor
        · intro hs; exact absurd (hn3.1 hs) hn2
        · intro hs; exact absurd hs hnn
      · intro x hx
        (try dsimp only)
        rw [hb3, hb2, hb1]
        simp only [show ¬ (i ≤ x ∧ x < i + ins) by omega,
          show x ≠ length_all st.index_ + ins - e by omega,
          show ¬ (i + ins - e ≤ x ∧ x < i + ins - e + (length_all st.index_ - i)) by omega,
          if_false]
      · intro k hk
        (try dsimp only)
        rw [hb3]
        simp only [show (i ≤ i + k ∧ i + k < i + ins) by omega, and_self, if_true]
        congr 1; omega
      · intro x hx1 hx2
        (try dsimp only)
        rw [hb3, hb2, hb1]
        simp only [show ¬ (i ≤ x + ins - e ∧ x + ins - e < i + ins) by omega, if_false]
        by_cases cL : x = length_all st.index_
        · simp only [show x + ins - e = length_all st.index_ + ins - e by omega, if_true]
          rw [cL, hterm]
        · simp only [show x + ins - e ≠ length_all st.index_ + ins - e by omega,
            show (i + ins - e ≤ x + ins - e ∧
              x + ins - e < i + ins - e + (length_all st.index_ - i)) by omega, and_self,
            if_true, if_false]
          congr 1; omega
    · -- erase more than is inserted: the tail moves left
      have hnn : st.s_ ≠ none := by
        intro hs
        have := h.all_zero hs
        omega
      have hcapL := (h.term hnn).1
      have hpos : ¬ ((ins : Int) - (e : Int) > 0) := by omega
      have hneg : -((ins : Int) - (e : Int)) = (e : Int) - (ins : Int) := by omega
      have hcnt : wadd_int w (length_all st.index_ - i) ((ins : Int) - (e : Int)) =
          length_all st.index_ - i + ins - e := wadd_int_sub (by omega) (by omega)
      simp only [hpos, if_false, hneg, ptr_add_sub (show ins ≤ i + e by omega),
        Option.some_bind, hsz, hcnt]
      obtain ⟨s1, e1, hn1, hl1, hb1⟩ := memmove_spec st.s_ i (i + e - ins)
        (length_all st.index_ - i + ins - e) (Or.inr ⟨by omega, by omega⟩)
      simp only [e1, outcome.mem, hL1]
      obtain ⟨s2, e2, hn2, hl2, hb2⟩ := store_spec s1 (length_all st.index_ + ins - e) 0
        (by omega)
      simp only [e2, outcome.andThen, target_buffer.copy, hav, Nat.add_zero]
      obtain ⟨s3, e3, hn3, hl3, hb3⟩ := memcpy_spec s2 i src 0 ins
        (Or.inr ⟨by omega, by omega⟩)
      simp only [e3]
      refine ⟨_, rfl, hP1, hidx1, rfl, by (try dsimp only); omega, ?_, ?_, ?_, ?_⟩
      · (try dsimp only)
        constructor
        · intro hs; exact absurd (hn3.1 hs) hn2
        · intro hs; exact absurd hs hnn
      · intro x hx
        (try dsimp only)
        rw [hb3, hb2, hb1]
        simp only [show ¬ (i ≤ x ∧ x < i + ins) by omega,
          show x ≠ length_all st.index_ + ins - e by omega,
          show ¬ (i ≤ x ∧ x < i + (length_all st.index_ - i + ins - e)) by omega,
          if_false]
      · intro k hk
        (try dsimp only)
        rw [hb3]
        simp only [show (i ≤ i + k ∧ i + k < i + ins) by omega, and_self, if_true]
        congr 1; omega
      · intro x hx1 hx2
        (try dsimp only)
        rw [hb3, hb2, hb1]
        simp only [show ¬ (i ≤ x + ins - e ∧ x + ins - e < i + ins) by omega, if_false]
        by_cases cL : x = length_all st.index_
        · simp only [show x + ins - e = length_all st.index_ + ins - e by omega, if_true]
          rw [cL, hterm]
        · simp only [show x + ins - e ≠ length_all st.index_ + ins - e by omega,
            show (i ≤ x + ins - e ∧
              x + ins - e < i + (length_all st.index_ - i + ins - e)) by omega, and_self,
            if_true, if_false]
          congr 1; omega

/-- Pointwise description of the state after `change_part(part, pos, erase_count, s)`. -/
theorem change_part_copy_splice {w : Nat} {a : storage} {part i e : Nat} {src : List Nat}
    {st : indexed_string} (h : wf w st) (hp : part < st.index_.length) (hw : 0 < w)
    (hins : src.length < 2 ^ (w - 1)) (he : e < 2 ^ (w - 1))
    (hi : offset st.index_ part ≤ i) (hie : i + e ≤ offset st.index_ (part + 1))
    (hgrow : e < src.length → length_all st.index_ + (src.length - e) + 1 < 2 ^ w ∧
      (st.capacity_ < length_all st.index_ + (src.length - e) + 1 →
        ∃ f, a.allocate (length_all st.index_ + (src.length - e) + 1) = Except.ok f)) :
    ∃ st', change_part_copy w a part i e src st = outcome.ok st' i ∧
      splice w st st' part (part + 1) (offset st.index_ (part + 1) + src.length - e) ∧
      (∀ x, x < i → byte_at (st'.s_.getD []) x = byte_at (st.s_.getD []) x) ∧
      (∀ k, k < src.length → byte_at (st'.s_.getD []) (i + k) = byte_at src k) ∧
      (∀ x, i + e ≤ x → x ≤ length_all st.index_ →
        byte_at (st'.s_.getD []) (x + src.length - e) = byte_at (st.s_.getD []) x) ∧
      (src.length ≤ e → st'.capacity_ = st.capacity_) := by
  obtain ⟨st1, r1, r2, r3, r4, r5, r6⟩ :=
    reserve_change_part_spec (a := a) (i := i) h hp hw hins (Nat.le_of_lt he) hgrow
  have o2 : offset st.index_ (part + 1) ≤ length_all st.index_ := h.offset_le_all hp
  have hLc := h.all_le_cap
  have hterm := h.term_byte
  have hterm1 := r3.term_byte
  rw [r2] at hterm1
  have hb : ∀ x, x ≤ length_all st.index_ →
      byte_at (st1.s_.getD []) x = byte_at (st.s_.getD []) x := by
    intro x hx
    by_cases c : x = length_all st.index_
    · rw [c, hterm, hterm1]
    · exact r6 x (by omega)
  obtain ⟨st', f1, f2, f3, f4, f5, f6, f7, f8, f9⟩ :=
    @change_part_fill w part i e src st1 r3
      (by rw [r2]; exact hp) (by rw [r2]; exact hi) (by rw [r2]; exact hie)
      (by rw [r2]; exact r4)
  simp only [r2] at f2 f3 f9
  unfold change_part_copy
  simp only [r1, outcome.andThen]
  simp only [outcome.andThen] at f1
  refine ⟨st', f1, ?_, ?_, f8, ?_, ?_⟩
  · have hmonoj : ∀ j, part ≤ j → j < st.index_.length →
        offset st.index_ (part + 1) ≤ idx st.index_ j := by
      intro j hj1 hj2
      have o1 : offset st.index_ (part + 1) ≤ offset st.index_ (j + 1) :=
        h.offset_mono (by omega) (by omega)
      rw [offset_succ] at o1
      exact o1
    refine ⟨f2, ?_, ?_, by omega, by rw [f4]; exact r3.cap, f5, ?_, ?_, ?_, ?_⟩
    · intro j hj
      rw [f3 j (by omega)]
      simp only [show ¬ (part ≤ j) by omega, if_false]
    · intro j hj1 hj2
      rw [f3 j hj2]
      have := hmonoj j (by omega) hj2
      simp only [show part ≤ j by omega, if_true]
      omega
    · intro hs
      rw [f4]
      have hs1 : st1.s_ ≠ none := fun c => hs (f6.2 c)
      by_cases c : e < src.length
      · have := r4 c; omega
      · have e1 := r5 (by omega)
        rw [e1] at hs1 ⊢
        have := (h.term hs1).1
        omega
    · intro hs
      have hs1 : st1.s_ = none := f6.1 hs
      have hc1 := r3.cap_zero hs1
      have c : ¬ (e < src.length) := by
        intro c; have := r4 c; omega
      have e1 := r5 (by omega)
      rw [e1] at hs1
      have := h.all_zero hs1
      exact ⟨hs1, by omega⟩
    · intro x hx
      rw [f7 x (by omega)]
      exact hb x (by omega)
    · intro x hx1 hx2
      have := f9 x (by omega) hx2
      rw [hb x hx2] at this
      rw [← this]
      congr 1; omega
  · intro x hx
    rw [f7 x hx]
    exact hb x (by omega)
  · intro x hx1 hx2
    rw [f9 x hx1 hx2]
    exact hb x hx2
  · intro hle
    rw [f4, r5 hle]

theorem byte_at_mem {l : List Nat} {k : Nat} (hk : k < l.length) : byte_at l k ∈ l := by
  unfold byte_at
  rw [List.getD_eq_getElem?_getD, List.getElem?_eq_getElem hk]
  exact List.getElem_mem hk

/-- After `change_part(part, pos, erase_count, s)` with a NUL-free `s` the invariants hold
again. -/
theorem change_part_copy_wf {w : Nat} {part i e : Nat} {src : List Nat}
    {st st' : indexed_string} (h : wf w st) (hp : part < st.index_.length)
    (hnul : ∀ c, c ∈ src → c ≠ 0)
    (hi : offset st.index_ part ≤ i) (hie : i + e ≤ offset st.index_ (part + 1))
    (sp : splice w st st' part (part + 1) (offset st.index_ (part + 1) + src.length - e))
    (b1 : ∀ x, x < i → byte_at (st'.s_.getD []) x = byte_at (st.s_.getD []) x)
    (b2 : ∀ k, k < src.length → byte_at (st'.s_.getD []) (i + k) = byte_at src k)
    (b3 : ∀ x, i + e ≤ x → x ≤ length_all st.index_ →
        byte_at (st'.s_.getD []) (x + src.length - e) = byte_at (st.s_.getD []) x) :
    wf w st' := by
  have o2 : offset st.index_ (part + 1) ≤ length_all st.index_ := h.offset_le_all hp
  apply sp.wf h (Nat.lt_succ_self part) hp
  · intro j hj1 hj2
    have : j = part := by omega
    subst this
    have := sp.high j (by omega) hp
    have e0 := offset_succ st.index_ j
    have o1 : offset st.index_ j ≤ offset st.index_ (j + 1) := h.offset_mono (Nat.le_succ _) hp
    refine ⟨by omega, by omega, fun c => absurd c (by omega)⟩
  · intro x hx1 hx2
    by_cases c1 : x < i
    · rw [b1 x c1]; exact h.nonzero x (by omega)
    · by_cases c2 : x < i + src.length
      · have := b2 (x - i) (by omega)
        rw [show i + (x - i) = x by omega] at this
        rw [this]
        exact hnul _ (byte_at_mem (by omega))
      · have := b3 (x + e - src.length) (by omega) (by omega)
        rw [show x + e - src.length + src.length - e = x by omega] at this
        rw [this]
        exact h.nonzero _ (by omega)

/-- Claim C2.  For a valid state, a part `p`, a buffer offset `i` inside part `p`, an
erase count `e` that stays inside part `p`, and a byte string `src` (both counts
representable as `std::ptrdiff_t`, `src` free of the zero byte, the grow succeeding when
one is needed),
`change_part(p, pos, e, src)` returns; the payload is the old payload with the `e` bytes at
`i` replaced by `src`, the length of part `p` changes by `|src| - e`, every other part keeps
its length, and the terminator stands at the new `offset(PartCount)`, which is the
`strlen` of the buffer. -/
theorem C2_change_part_splice (w : Nat) (a : storage) (st : indexed_string)
    (p i e : Nat) (src : List Nat)
    (hv : valid w st) (hp : p < st.index_.length) (hw : 0 < w)
    (hsrc : src.length < 2 ^ (w - 1)) (he : e < 2 ^ (w - 1))
    (hnul : ∀ c, c ∈ src → c ≠ 0)
    (hi : offset st.index_ p ≤ i) (hie : i + e ≤ offset st.index_ (p + 1))
    (hgrow : e < src.length → length_all st.index_ + (src.length - e) + 1 < 2 ^ w ∧
      (st.capacity_ < length_all st.index_ + (src.length - e) + 1 →
        ∃ f, a.allocate (length_all st.index_ + (src.length - e) + 1) = Except.ok f)) :
    ∃ st' q, change_part_copy w a p i e src st = outcome.ok st' q ∧
      get_all st' = (get_all st).take i ++ src ++ (get_all st).drop (i + e) ∧
      length w st'.index_ p + e = length w st.index_ p + src.length ∧
      (∀ j, j < st.index_.length → j ≠ p → length w st'.index_ j = length w st.index_ j) ∧
      (∀ b, st'.s_ = some b → strlen b = some (length_all st'.index_)) := by
  have h := wf_of_valid hv
  obtain ⟨st', e1, sp, b1, b2, b3, _⟩ :=
    change_part_copy_splice (a := a) h hp hw hsrc he hi hie hgrow
  obtain ⟨hfr, hL, ht, ho, hoh, hlr⟩ := sp.frame h (Nat.lt_succ_self p) hp
  have o1 : offset st.index_ p ≤ offset st.index_ (p + 1) := h.offset_mono (Nat.le_succ _) hp
  have o2 : offset st.index_ (p + 1) ≤ length_all st.index_ := h.offset_le_all hp
  have hLc := h.all_le_cap
  have hblen := h.len
  have hte := sp.total_le h
  have hwf' := change_part_copy_wf h hp hnul hi hie sp b1 b2 b3
  refine ⟨st', i, e1, ?_, ?_, ?_, ?_⟩
  rotate_left 3
  · intro b hb
    have hne : st'.s_ ≠ none := by simp [hb]
    have t := hwf'.term hne
    have nz := hwf'.nonzero
    have hl := hwf'.len
    rw [hb] at t nz hl
    simp only [Option.getD_some] at t nz hl
    exact (strlen_eq_some_iff b _).2 ⟨by omega, t.2, nz⟩
  · unfold get_all
    rw [hL]
    apply list_ext_byte_at
    · simp only [List.length_take, List.length_append, List.length_drop]
      omega
    · intro x hx
      simp only [List.length_take] at hx
      have hx' : x < length_all st.index_ + (offset st.index_ (p + 1) + src.length - e) -
          offset st.index_ (p + 1) := by omega
      simp only [byte_at_append, byte_at_take, byte_at_drop, List.length_take,
        List.length_append, hx', if_true]
      have m1 : min i (min (length_all st.index_) (st.s_.getD []).length) = i := by omega
      rw [m1]
      by_cases c1 : x < i
      · simp only [c1, show x < i + src.length by omega, show x < length_all st.index_ by omega,
          if_true]
        exact b1 x c1
      · by_cases c2 : x < i + src.length
        · simp only [c1, c2, if_true, if_false]
          have := b2 (x - i) (by omega)
          rw [← this]
          congr 1; omega
        · simp only [c2, if_false]
          have c3 : i + e + (x - (i + src.length)) < length_all st.index_ := by omega
          simp only [c3, if_true]
          have := b3 (i + e + (x - (i + src.length))) (by omega) (by omega)
          rw [← this]
          congr 1; omega
  · have : length w st'.index_ p = length_range w st'.index_ p (p + 1) := rfl
    rw [this, hlr, h.length_eq hp]
    omega
  · intro j hj hjp
    exact (hfr j hj (by omega)).1

/-- Witness of C2: in the sample container, replacing the one byte of part `1` by
three bytes. -/
theorem C2_change_part_splice_witness :
    ∃ st' q, change_part_copy 64 sample_storage 1 2 1 [70, 71, 72] sample_string =
        outcome.ok st' q ∧ get_all st' = [1, 2, 70, 71, 72, 4, 5] := by
  obtain ⟨st', q, e, hp, _⟩ := C2_change_part_splice 64 sample_storage sample_string 1 2 1
    [70, 71, 72] (by decide) (by decide) (by decide) (by decide) (by decide) (by decide)
    (by decide) (by decide) (fun _ => ⟨by decide, fun _ => ⟨_, rfl⟩⟩)
  exact ⟨st', q, e, hp.trans (by decide)⟩

theorem idx_set_index (index_ : List Nat) (i v j : Nat) :
    idx (set_index index_ i v) j =
      if j < index_.length then (if j = i then v else idx index_ j) else 0 := by
  unfold set_index
  rw [idx_tabulate]

theorem length_set_index (index_ : List Nat) (i v : Nat) :
    (set_index index_ i v).length = index_.length := by
  simp [set_index]

theorem idx_of_le (index_ : List Nat) (j : Nat) (h : index_.length ≤ j) : idx index_ j = 0 :=
  byte_at_of_le index_ j h

theorem part_index_check_mono {pt : List Nat} (h : part_index_check pt = true) :
    ∀ j, j + 1 < pt.length → idx pt j ≤ idx pt (j + 1) := by
  unfold part_index_check at h
  simp only [List.all_eq_true, List.mem_range, decide_eq_true_eq] at h
  intro j hj
  exact h j (by omega)

/-- Claim C6, at the failing input.  Copying the whole foreign view `[65] [66] [67]` with
the suffix `[88]` into the sample container returns normally; the range `[0, 3)` holds the
three copied bytes without the suffix, `offset(PartCount)` is `3` while the buffer is
terminated at `4`, and `check_invariants` fails.  On the same input the sibling
`copy_with_prefix` leaves the range `[0, 3)` holding the literal and the copied bytes, in a
state that passes `check_invariants`. -/
theorem C6_copy_with_suffix_drops_suffix :
    valid 64 sample_string ∧
    copy_with_suffix 64 failing_storage [1, 2, 3] [65, 66, 67] [88] 0 3 sample_string =
      outcome.ok suffix_result 3 ∧
    get 64 suffix_result 0 3 = [65, 66, 67] ∧
    length_all suffix_result.index_ = 3 ∧
    strlen [65, 66, 67, 88, 0, 0, 9, 9] = some 4 ∧
    check_invariants suffix_result = false ∧
    copy_with_prefix 64 failing_storage [1, 2, 3] [65, 66, 67] [88] 0 3 sample_string =
      outcome.ok prefix_result 0 ∧
    get 64 prefix_result 0 3 = [88, 65, 66, 67] ∧
    check_invariants prefix_result = true := by
  refine ⟨by decide, by decide, by decide, by decide, by decide, by decide, by decide,
    by decide, by decide⟩

theorem tabulate_idx_self (l : List Nat) : tabulate l.length (fun i => idx l i) = l := by
  apply list_ext_byte_at (by simp)
  intro a ha
  simp only [length_tabulate] at ha
  rw [byte_at_tabulate]
  simp only [ha, if_true]
  rfl

theorem reserve_all_spec_any {w : Nat} {a : storage} {n : Nat} {st : indexed_string}
    (h : wf w st) (hn : n + 1 < 2 ^ w)
    (halloc : st.capacity_ < n + 1 → ∃ f, a.allocate (n + 1) = Except.ok f) :
    ∃ st', reserve_all w a n st = outcome.ok st' 0 ∧ st'.index_ = st.index_ ∧ wf w st' ∧
      n + 1 ≤ st'.capacity_ ∧ st'.s_ ≠ none := by
  by_cases hc : n + 1 ≤ st.capacity_
  · refine ⟨st, ?_, rfl, h, hc, h.s_ne_none (by omega)⟩
    unfold reserve_all
    simp only [wadd_eq hn, hc, if_true]
  · have := h.all_le_cap
    obtain ⟨st', r1, r2, r3, r4, r5, _⟩ := reserve_all_spec h hn (by omega) halloc
    exact ⟨st', r1, r2, r3, r4, r5⟩

theorem clear_all_spec {w : Nat} {st : indexed_string} (h : wf w st) :
    ∃ st', clear_all st = outcome.ok st' () ∧ wf w st' ∧
      st'.index_.length = st.index_.length ∧ (∀ i, idx st'.index_ i = 0) ∧
      length_all st'.index_ = 0 ∧ st'.capacity_ = st.capacity_ := by
  have hz : ∀ i, idx (reset st.index_) i = 0 := by
    intro i
    unfold reset
    rw [idx_tabulate]
    split_ifs <;> rfl
  have hP : (reset st.index_).length = st.index_.length := by simp [reset]
  have hL : length_all (reset st.index_) = 0 := by
    rw [length_all_of_idx hP h.pos]; exact hz _
  unfold clear_all
  cases hs : st.s_ with
  | none =>
    dsimp only
    refine ⟨_, rfl, ?_, hP, hz, hL, rfl⟩
    refine ⟨by rw [hP]; exact h.pos, ?_, h.cap, ?_, ?_, ?_, ?_⟩
    · intro i _; dsimp only; rw [hz i, hz (i + 1)]
    · have := h.len; rw [hs] at this; exact this
    · intro _ i _; exact hz i
    · intro hn; exact absurd rfl hn
    · intro x hx; dsimp only at hx; rw [hL] at hx; omega
  | some b =>
    dsimp only
    have hne : st.s_ ≠ none := by simp [hs]
    have hcapL := (h.term hne).1
    have hlen := h.len
    rw [hs] at hlen
    simp only [Option.getD_some] at hlen
    obtain ⟨s1, e1, hn1, hl1, hb1⟩ := store_spec (some b) 0 0
      (by simp only [Option.getD_some]; omega)
    simp only [e1, outcome.mem]
    simp only [Option.getD_some] at hl1
    refine ⟨_, rfl, ?_, hP, hz, hL, rfl⟩
    refine ⟨by rw [hP]; exact h.pos, ?_, h.cap, by dsimp only; omega, ?_, ?_, ?_⟩
    · intro i _; dsimp only; rw [hz i, hz (i + 1)]
    · intro hn; exact absurd hn hn1
    · intro _
      dsimp only
      rw [hL]
      exact ⟨by omega, by rw [hb1]; simp⟩
    · intro x hx; dsimp only at hx; rw [hL] at hx; omega

theorem copy_all_spec {w : Nat} {a : storage} {pt s : List Nat} {st : indexed_string}
    (h : wf w st) (hs : s ≠ []) (hpt : pt.length = st.index_.length)
    (hm : ∀ j, j + 1 < pt.length → idx pt j ≤ idx pt (j + 1))
    (hptL : length_all pt = s.length) (hnul : ∀ c, c ∈ s → c ≠ 0)
    (hsz : s.length + 1 < 2 ^ w)
    (halloc : st.capacity_ < s.length + 1 → ∃ f, a.allocate (s.length + 1) = Except.ok f) :
    ∃ st', copy_all w a pt s st = outcome.ok st' () ∧ st'.index_ = pt ∧ wf w st' ∧
      get_all st' = s := by
  obtain ⟨st1, r1, r2, r3, r4, r5⟩ := reserve_all_spec_any h hsz halloc
  have hl1 := r3.len
  unfold copy_all
  simp only [hs, if_false, r1, outcome.andThen]
  obtain ⟨s1, e1, hn1, hl1', hb1⟩ := memcpy_spec st1.s_ 0 s 0 s.length
    (Or.inr ⟨by omega, by omega⟩)
  simp only [e1, outcome.mem]
  have hI : tabulate st1.index_.length (fun i => idx pt i) = pt := by
    rw [r2, ← hpt]; exact tabulate_idx_self pt
  simp only [hI, hptL]
  obtain ⟨s2, e2, hn2, hl2, hb2⟩ := store_spec s1 s.length 0 (by omega)
  simp only [e2]
  have hbytes : ∀ x, x < s.length → byte_at (s2.getD []) x = byte_at s x := by
    intro x hx
    rw [hb2, hb1]
    simp only [show x ≠ s.length by omega, show (0 ≤ x ∧ x < 0 + s.length) by omega, and_self,
      if_true, if_false]
    congr 1; omega
  refine ⟨_, rfl, rfl, ?_, ?_⟩
  · refine ⟨by dsimp only; rw [hpt]; exact h.pos, hm, r3.cap, by dsimp only; omega, ?_, ?_, ?_⟩
    · intro hn; exact absurd hn hn2
    · intro _
      dsimp only
      rw [hptL]
      exact ⟨by omega, by rw [hb2]; simp⟩
    · intro x hx
      dsimp only at hx ⊢
      rw [hptL] at hx
      rw [hbytes x hx]
      exact hnul _ (byte_at_mem hx)
  · unfold get_all
    dsimp only
    rw [hptL]
    have := @slice_eq_list (s2.getD []) 0 s (by omega) (fun k hk => by
      rw [Nat.zero_add]; exact hbytes k hk)
    simpa using this

end indexed_string

namespace url_base

open indexed_string

theorem encoded_url_eq_get_all {w : Nat} {u : url_base} (h : wf w u.pt_.base)
    (hP : u.pt_.base.index_.length = id_end) :
    encoded_url w u = get_all u.pt_.base := by
  unfold encoded_url get_all
  rw [get_eq, ← hP, h.length_range_eq (Nat.zero_le _) (le_refl _), offset_zero]
  rfl

end url_base

namespace indexed_string

theorem part_index_check_of_mono {index_ : List Nat}
    (h : ∀ j, j + 1 < index_.length → idx index_ j ≤ idx index_ (j + 1)) :
    part_index_check index_ = true := by
  unfold part_index_check
  simp only [List.all_eq_true, List.mem_range, decide_eq_true_eq]
  intro j hj
  exact h j (by omega)

/-- State after a resize seen as a splice: the index is monotone and the payload is
terminated within the capacity; if in addition the bytes added by a grow are non-zero,
the invariants hold. -/
theorem splice.resized {w : Nat} {st st' : indexed_string} {lo hi n : Nat}
    (h : indexed_string.wf w st) (sp : splice w st st' lo hi (offset st.index_ lo + n)) (hlh : lo < hi)
    (hhi : hi ≤ st.index_.length)
    (hmid : ∀ j, lo ≤ j → j < hi → idx st'.index_ j = offset st.index_ lo + n)
    (hkeep : ∀ x, x < offset st.index_ lo + min n (offset st.index_ hi - offset st.index_ lo) →
      byte_at (st'.s_.getD []) x = byte_at (st.s_.getD []) x) :
    valid_frame w st' ∧
    ((∀ x, offset st.index_ hi ≤ x → x < offset st.index_ lo + n →
      byte_at (st'.s_.getD []) x ≠ 0) → valid w st') := by
  obtain ⟨_, hL, ht, _, _, _⟩ := sp.frame h hlh hhi
  have olh : offset st.index_ lo ≤ offset st.index_ hi := h.offset_mono (Nat.le_of_lt hlh) hhi
  have ohL : offset st.index_ hi ≤ length_all st.index_ := h.offset_le_all hhi
  have hmid' : ∀ j, lo ≤ j → j < hi →
      offset st.index_ lo ≤ idx st'.index_ j ∧ idx st'.index_ j ≤ offset st.index_ lo + n ∧
      (j + 1 < hi → idx st'.index_ j ≤ idx st'.index_ (j + 1)) := by
    intro j hj1 hj2
    rw [hmid j hj1 hj2]
    refine ⟨by omega, le_refl _, fun c => ?_⟩
    rw [hmid (j + 1) (by omega) c]
  have hmono : ∀ j, j + 1 < st'.index_.length → idx st'.index_ j ≤ idx st'.index_ (j + 1) := by
    intro j hj
    rw [sp.parts] at hj
    by_cases c1 : j + 1 < lo
    · rw [sp.low j (by omega), sp.low (j + 1) c1]
      exact h.mono j hj
    · by_cases c2 : hi - 1 ≤ j
      · rw [sp.high j c2 (by omega), sp.high (j + 1) (by omega) hj]
        have := h.mono j hj
        omega
      · by_cases c3 : j + 1 = lo
        · rw [sp.low j (by omega)]
          have := (hmid' (j + 1) (by omega) (by omega)).1
          have e : offset st.index_ lo = idx st.index_ j := by
            unfold offset; simp [show lo ≠ 0 by omega, ← c3]
          omega
        · exact (hmid' j (by omega) (by omega)).2.2 (by omega)
  constructor
  · refine ⟨by rw [sp.parts]; exact h.pos, part_index_check_of_mono hmono, sp.cap, sp.len,
      ?_, ?_⟩
    · intro hs
      obtain ⟨e1, e2⟩ := sp.null hs
      have := h.all_zero e1
      omega
    · intro hs
      have h1 := sp.room hs
      rw [hL]
      exact ⟨h1, by rw [← hL]; exact ht⟩
  · intro hgap
    apply valid_of_wf
    apply sp.wf h hlh hhi hmid'
    intro x hx1 hx2
    by_cases c : x < offset st.index_ lo + min n (offset st.index_ hi - offset st.index_ lo)
    · rw [hkeep x c]
      exact h.nonzero x (by omega)
    · exact hgap x (by omega) hx2

theorem resize_splice {w : Nat} {a : storage} {i n : Nat} {st : indexed_string}
    (h : wf w st) (hi : i < st.index_.length)
    (hgrow : length w st.index_ i < n →
      length_all st.index_ + (n - length w st.index_ i) + 1 < 2 ^ w ∧
      (st.capacity_ < length_all st.index_ + (n - length w st.index_ i) + 1 →
        ∃ f, a.allocate (length_all st.index_ + (n - length w st.index_ i) + 1) =
          Except.ok f)) :
    ∃ st', resize w a i n st = outcome.ok st' (offset st.index_ i) ∧
      splice w st st' i (i + 1) (offset st.index_ i + n) ∧
      (∀ j, i ≤ j → j < i + 1 → idx st'.index_ j = offset st.index_ i + n) ∧
      (∀ x, x < offset st.index_ i + min n (offset st.index_ (i + 1) - offset st.index_ i) →
        byte_at (st'.s_.getD []) x = byte_at (st.s_.getD []) x) := by
  obtain ⟨st', e, hP, hidx, hcap, hblen', hnull, hnn, _, hb1, hb2⟩ := resize_spec h hi hgrow
  have hlen := h.length_eq hi
  have o1 : offset st.index_ i ≤ offset st.index_ (i + 1) := h.offset_mono (Nat.le_succ i) hi
  have o2 : offset st.index_ (i + 1) ≤ length_all st.index_ := h.offset_le_all hi
  have ei := offset_succ st.index_ i
  rw [hlen] at hidx hnull hnn hb1 hb2
  refine ⟨st', e, ?_, ?_, hb1⟩
  · refine ⟨hP, ?_, ?_, by omega, hcap, hblen', ?_, ?_, ?_, ?_⟩
    · intro j hj
      rw [hidx j (by omega)]
      simp only [show ¬ (i ≤ j) by omega, if_false]
    · intro j hj1 hj2
      rw [hidx j hj2]
      have m1 : offset st.index_ (i + 1) ≤ offset st.index_ (j + 1) :=
        h.offset_mono (by omega) (by omega)
      rw [offset_succ st.index_ j] at m1
      simp only [show i ≤ j by omega, if_true]
      omega
    · intro hs
      have := hnn hs
      omega
    · intro hs
      obtain ⟨e1, e2⟩ := hnull hs
      exact ⟨e1, by omega⟩
    · intro x hx
      exact hb1 x (by omega)
    · intro x hx1 hx2
      have := hb2 x hx1 hx2
      rw [← this]
      congr 1; omega
  · intro j hj1 hj2
    have : j = i := by omega
    subst this
    rw [hidx j hi]
    simp only [le_refl, if_true]
    omega

theorem valid_frame_of_wf {w : Nat} {st : indexed_string} (h : wf w st) : valid_frame w st :=
  ⟨h.pos, part_index_check_of_mono h.mono, h.cap, h.len, fun hs => h.all_zero hs, h.term⟩

end indexed_string

end Url

/-! ## Writes into a resized part -/

namespace Url

namespace indexed_string

theorem poke_spec {st : indexed_string} {pos c : Nat} (h : pos < (st.s_.getD []).length) :
    ∃ st', poke pos c st = outcome.ok st' () ∧ st'.index_ = st.index_ ∧
      st'.capacity_ = st.capacity_ ∧ (st'.s_ = none ↔ st.s_ = none) ∧
      (st'.s_.getD []).length = (st.s_.getD []).length ∧
      ∀ x, byte_at (st'.s_.getD []) x = if x = pos then c else byte_at (st.s_.getD []) x := by
  obtain ⟨s', e, hn, hl, hb⟩ := store_spec st.s_ pos c h
  have hs : st.s_ ≠ none := by
    intro e0
    rw [e0] at h
    exact absurd h (by simp)
  exact ⟨{ st with s_ := s' }, by unfold poke; rw [e]; rfl, rfl, rfl,
    ⟨fun e1 => absurd e1 hn, fun e1 => absurd e1 hs⟩, hl, hb⟩

theorem write_spec {st : indexed_string} {pos : Nat} {src : List Nat}
    (h : src = [] ∨ pos + src.length ≤ (st.s_.getD []).length) :
    ∃ st', write pos src st = outcome.ok st' () ∧ st'.index_ = st.index_ ∧
      st'.capacity_ = st.capacity_ ∧ (st'.s_ = none ↔ st.s_ = none) ∧
      (st'.s_.getD []).length = (st.s_.getD []).length ∧
      ∀ x, byte_at (st'.s_.getD []) x =
        if pos ≤ x ∧ x < pos + src.length then byte_at src (x - pos)
        else byte_at (st.s_.getD []) x := by
  have h' : src.length = 0 ∨
      (pos + src.length ≤ (st.s_.getD []).length ∧ 0 + src.length ≤ src.length) := by
    rcases h with h | h
    · left; simp [h]
    · right; exact ⟨h, by omega⟩
  obtain ⟨s', e, hn, hl, hb⟩ := memcpy_spec st.s_ pos src 0 src.length h'
  refine ⟨{ st with s_ := s' }, by unfold write; rw [e]; rfl, rfl, rfl, hn, hl, ?_⟩
  intro x
  rw [hb x]
  simp

theorem get_part_intro {w : Nat} {st : indexed_string} {j : Nat} {l : List Nat}
    (hlen : length w st.index_ j = l.length)
    (hb : offset st.index_ j + l.length ≤ (st.s_.getD []).length)
    (h : ∀ k, k < l.length → byte_at (st.s_.getD []) (offset st.index_ j + k) = byte_at l k) :
    get_part w st j = l := by
  rw [get_part_eq, hlen]
  exact slice_eq_list hb h

theorem wf.part_le {w : Nat} {st : indexed_string} (h : wf w st) {j : Nat}
    (hj : j < st.index_.length) :
    offset st.index_ j + length w st.index_ j ≤ (st.s_.getD []).length ∧
    offset st.index_ j + length w st.index_ j = offset st.index_ (j + 1) ∧
    offset st.index_ (j + 1) ≤ length_all st.index_ := by
  have o1 : offset st.index_ j ≤ offset st.index_ (j + 1) := h.offset_mono (Nat.le_succ j) hj
  have o2 : offset st.index_ (j + 1) ≤ length_all st.index_ := h.offset_le_all hj
  have := h.all_le_cap
  have := h.len
  rw [h.length_eq hj]
  omega

theorem wf.get_part_bytes {w : Nat} {st : indexed_string} (h : wf w st) {j : Nat}
    (hj : j < st.index_.length) :
    (get_part w st j).length = length w st.index_ j ∧
    ∀ k, k < length w st.index_ j →
      byte_at (get_part w st j) k = byte_at (st.s_.getD []) (offset st.index_ j + k) := by
  have := (h.part_le hj).1
  rw [get_part_eq]
  refine ⟨?_, ?_⟩
  · rw [List.length_take, List.length_drop]; omega
  · intro k hk
    rw [byte_at_take, byte_at_drop]
    simp [hk]

/-- A state that differs from the result of a splice only in the bytes of the spliced
range is a result of the same splice. -/
theorem splice.overwrite {w : Nat} {st st1 st2 : indexed_string} {lo hi T : Nat}
    (h : indexed_string.wf w st) (hhi : hi ≤ st.index_.length)
    (sp : splice w st st1 lo hi T) (hidx : st2.index_ = st1.index_)
    (hcap : st2.capacity_ = st1.capacity_)
    (hlen : (st2.s_.getD []).length = (st1.s_.getD []).length)
    (hnull : st2.s_ = none ↔ st1.s_ = none)
    (hout : ∀ x, (x < offset st.index_ lo ∨ T ≤ x) →
      byte_at (st2.s_.getD []) x = byte_at (st1.s_.getD []) x) :
    splice w st st2 lo hi T := by
  have hoh : offset st.index_ hi ≤ length_all st.index_ := h.offset_le_all hhi
  refine ⟨by rw [hidx]; exact sp.parts, ?_, ?_, sp.start, by rw [hcap]; exact sp.cap,
    by rw [hlen, hcap]; exact sp.len, ?_, fun e => sp.null (hnull.1 e), ?_, ?_⟩
  · intro j hj; rw [hidx]; exact sp.low j hj
  · intro j hj1 hj2; rw [hidx]; exact sp.high j hj1 hj2
  · intro hne
    rw [hcap]
    exact sp.room (fun e => hne (hnull.2 e))
  · intro x hx; rw [hout x (Or.inl hx)]; exact sp.head x hx
  · intro x hx1 hx2
    rw [hout _ (Or.inr (by omega))]
    exact sp.tail x hx1 hx2


/-- Resize of a part followed by writes that fill it.  When the writes `k` that follow
`resize(i, c.length)` stay inside the part and leave the bytes `c` there, the part reads
`c` afterwards, every other part keeps its length and its bytes, and the state is valid
when `c` holds no zero byte. -/
theorem resize_then_fill {w : Nat} {a : storage} {i : Nat} {c : List Nat}
    {st : indexed_string} (h : wf w st) (hi : i < st.index_.length)
    (hgrow : length w st.index_ i < c.length →
      length_all st.index_ + (c.length - length w st.index_ i) + 1 < 2 ^ w ∧
      (st.capacity_ < length_all st.index_ + (c.length - length w st.index_ i) + 1 →
        ∃ f, a.allocate (length_all st.index_ + (c.length - length w st.index_ i) + 1) =
          Except.ok f))
    (k : indexed_string → Nat → outcome indexed_string Unit)
    (hk : ∀ st1 : indexed_string,
      offset st.index_ i + c.length ≤ (st1.s_.getD []).length →
      (∀ x, x < offset st.index_ i + min c.length (length w st.index_ i) →
        byte_at (st1.s_.getD []) x = byte_at (st.s_.getD []) x) →
      ∃ st2, k st1 (offset st.index_ i) = outcome.ok st2 () ∧ st2.index_ = st1.index_ ∧
        st2.capacity_ = st1.capacity_ ∧ (st2.s_ = none ↔ st1.s_ = none) ∧
        (st2.s_.getD []).length = (st1.s_.getD []).length ∧
        (∀ x, (x < offset st.index_ i ∨ offset st.index_ i + c.length ≤ x) →
          byte_at (st2.s_.getD []) x = byte_at (st1.s_.getD []) x) ∧
        (∀ x, x < c.length →
          byte_at (st2.s_.getD []) (offset st.index_ i + x) = byte_at c x)) :
    ∃ st2, (resize w a i c.length st).andThen k = outcome.ok st2 () ∧
      splice w st st2 i (i + 1) (offset st.index_ i + c.length) ∧
      st2.index_.length = st.index_.length ∧
      idx st2.index_ i = offset st.index_ i + c.length ∧
      length w st2.index_ i = c.length ∧
      get_part w st2 i = c ∧
      (∀ j, j < st.index_.length → j ≠ i →
        length w st2.index_ j = length w st.index_ j ∧ get_part w st2 j = get_part w st j) ∧
      ((∀ x, x ∈ c → x ≠ 0) → wf w st2) := by
  obtain ⟨st1, e1, sp1, hmid1, hkeep1⟩ := resize_splice h hi hgrow
  have hpl := h.part_le hi
  have hle1 := sp1.total_le h
  have hbound : offset st.index_ i + c.length ≤ (st1.s_.getD []).length := by omega
  have hkeep : ∀ x, x < offset st.index_ i + min c.length (length w st.index_ i) →
      byte_at (st1.s_.getD []) x = byte_at (st.s_.getD []) x := by
    intro x hx
    apply hkeep1
    rw [h.length_eq hi] at hx
    exact hx
  obtain ⟨st2, e2, hidx, hcap, hnull, hlen, hout, hin⟩ := hk st1 hbound hkeep
  have sp2 : splice w st st2 i (i + 1) (offset st.index_ i + c.length) :=
    sp1.overwrite h (by omega) hidx hcap hlen hnull hout
  obtain ⟨hfr, hL, ht, ho, hoh, hlr⟩ := sp2.frame h (Nat.lt_succ_self i) (by omega)
  have hlen2 : length w st2.index_ i = c.length := by
    unfold length; rw [hlr]; omega
  have hmid2 : idx st2.index_ i = offset st.index_ i + c.length := by
    rw [hidx]; exact hmid1 i (le_refl _) (Nat.lt_succ_self i)
  refine ⟨st2, by rw [e1]; exact e2, sp2, sp2.parts, hmid2, hlen2, ?_, ?_, ?_⟩
  · apply get_part_intro hlen2
    · rw [ho, hlen]; exact hbound
    · intro x hx; rw [ho]; exact hin x hx
  · intro j hj hji
    exact hfr j hj (by omega)
  · intro hc
    apply sp2.wf h (Nat.lt_succ_self i) (by omega)
    · intro j hj1 hj2
      have : j = i := by omega
      subst this
      rw [hmid2]
      exact ⟨by omega, le_refl _, fun hh => absurd hh (by omega)⟩
    · intro x hx1 hx2
      have := hin (x - offset st.index_ i) (by omega)
      rw [show offset st.index_ i + (x - offset st.index_ i) = x by omega] at this
      rw [this]
      apply hc
      unfold byte_at
      rw [List.getD_eq_getElem _ _ (by omega)]
      exact List.getElem_mem _


/-- Effect of `clear(first, last)` on a valid state: the parts of the range become empty,
every other part keeps its length and its bytes, and the state stays valid. -/
theorem clear_effect {w : Nat} {first last : Nat} {st : indexed_string}
    (h : wf w st) (hfl : first ≤ last) (hl : last ≤ st.index_.length) :
    ∃ st', clear w first last st = outcome.ok st' () ∧ wf w st' ∧
      st'.index_.length = st.index_.length ∧
      (∀ j, first ≤ j → j < last → length w st'.index_ j = 0 ∧ get_part w st' j = []) ∧
      (∀ j, j < st.index_.length → (j < first ∨ last ≤ j) →
        length w st'.index_ j = length w st.index_ j ∧ get_part w st' j = get_part w st j) ∧
      st'.capacity_ = st.capacity_ ∧
      get_all st' = (get_all st).take (offset st.index_ first) ++
        (get_all st).drop (offset st.index_ last) := by
  have olh : offset st.index_ first ≤ offset st.index_ last := h.offset_mono hfl hl
  have hempty : ∀ (st' : indexed_string) (j : Nat), length w st'.index_ j = 0 →
      length w st'.index_ j = 0 ∧ get_part w st' j = [] := by
    intro st' j hj
    refine ⟨hj, ?_⟩
    rw [get_part_eq, hj, List.take_zero]
  by_cases hne : offset st.index_ first = offset st.index_ last
  · refine ⟨st, by unfold clear; simp only [hne, if_true], h, rfl, ?_,
      fun _ _ _ => ⟨rfl, rfl⟩, rfl, ?_⟩
    · intro j hj1 hj2
      apply hempty
      have o1 : offset st.index_ first ≤ offset st.index_ j := h.offset_mono hj1 (by omega)
      have o2 : offset st.index_ j ≤ offset st.index_ (j + 1) :=
        h.offset_mono (Nat.le_succ j) (by omega)
      have o3 : offset st.index_ (j + 1) ≤ offset st.index_ last := h.offset_mono hj2 hl
      rw [h.length_eq (by omega)]
      omega
    · rw [hne, List.take_append_drop]
  · have hfl' : first < last := by
      rcases Nat.lt_or_ge first last with c | c
      · exact c
      · have : first = last := by omega
        subst this; exact absurd rfl hne
    obtain ⟨st', e, sp, hc, hmid, _⟩ := clear_splice h hl hne hfl'
    obtain ⟨hfr, hL, ht, ho, hoh, hlr⟩ := sp.frame h hfl' hl
    have hwf : wf w st' := by
      apply sp.wf h hfl' hl
      · intro j hj1 hj2
        rw [hmid j hj1 hj2]
        refine ⟨le_refl _, le_refl _, fun hh => ?_⟩
        rw [hmid (j + 1) (by omega) hh]
      · intro x hx1 hx2
        omega
    refine ⟨st', e, hwf, sp.parts, ?_, hfr, hc, ?_⟩
    · intro j hj1 hj2
      apply hempty
      unfold length length_range
      have e1 : offset st'.index_ (j + 1) = offset st.index_ first := by
        rw [offset_succ]; exact hmid j hj1 hj2
      have e2 : offset st'.index_ j = offset st.index_ first := by
        by_cases c : j = first
        · rw [c]; exact ho
        · unfold offset
          simp only [show j ≠ 0 by omega, if_false]
          have := hmid (j - 1) (by omega) (by omega)
          unfold offset at this
          exact this
      rw [e1, e2]
      have b1 := h.all_lt
      have b2 : offset st.index_ first ≤ length_all st.index_ := h.offset_le_all (by omega)
      exact (wsub_eq (le_refl _) (by omega)).trans (Nat.sub_self _)
    · have hp := sp.payload h hfl' hl
      rw [hp, get_eq, hlr]
      simp

end indexed_string

namespace parts_string

theorem clear_ok {w : Nat} {first_part last_part : Nat} {ps : parts_string}
    {st' : indexed_string}
    (e : indexed_string.clear w first_part last_part ps.base = outcome.ok st' ()) :
    ps.clear w first_part last_part = outcome.ok
      { base := st',
        nseg := if first_part ≤ id_path ∧ last_part > id_path then 0 else ps.nseg,
        nparam := if first_part ≤ id_query ∧ last_part > id_query then 0 else ps.nparam,
        host := if first_part ≤ id_host ∧ last_part > id_host then host_type.none
          else ps.host } () := by
  unfold clear lift
  rw [e]

end parts_string

namespace url_base

theorem on_base_ok {α : Type} {u : url_base} {o : outcome indexed_string α}
    {st : indexed_string} {v : α} (e : o = outcome.ok st v) :
    u.on_base o = outcome.ok (u.with_base st) () := by
  rw [e]; rfl

theorem on_parts_ok {α : Type} {o : outcome parts_string α} {ps : parts_string} {v : α}
    (e : o = outcome.ok ps v) : on_parts o = outcome.ok { pt_ := ps } () := by
  rw [e]; rfl

/-- Effect of `set_encoded_query`: for a valid container with eight parts whose grow
succeeds, the query part becomes empty for empty input and `?` followed by `s` otherwise,
every other part keeps its length and its bytes, the counters are the old ones, and the
container stays valid when `s` holds no zero byte. -/
theorem set_encoded_query_spec {w : Nat} {a : storage} {e : pct_encoding} {s : List Nat}
    {u : url_base} (hP : u.pt_.base.index_.length = id_end)
    (h : indexed_string.wf w u.pt_.base) (hs : s ≠ [] → e.validate s = true)
    (hsz : length_all u.pt_.base.index_ + s.length + 2 < 2 ^ w)
    (halloc : ∀ m, ∃ f, a.allocate m = Except.ok f) :
    ∃ u', set_encoded_query w a e s u = outcome.ok u' () ∧
      u'.pt_.base.index_.length = id_end ∧
      u'.part w id_query = (if s = [] then [] else 63 :: s) ∧
      (∀ j, j < id_end → j ≠ id_query →
        u'.part_length w j = u.part_length w j ∧ u'.part w j = u.part w j) ∧
      u'.pt_.nseg = u.pt_.nseg ∧ u'.pt_.host = u.pt_.host ∧
      u'.pt_.nparam = (if s = [] then 0 else u.pt_.nparam) ∧
      ((∀ x, x ∈ s → x ≠ 0) → indexed_string.wf w u'.pt_.base) := by
  have hi : id_query < u.pt_.base.index_.length := by rw [hP]; decide
  by_cases hs0 : s = []
  · subst hs0
    obtain ⟨st', e1, hwf, hP', hin, hout, _, _⟩ :=
      indexed_string.clear_effect h (Nat.le_succ id_query) hi
    have e3 := @on_parts_ok Unit _ _ () (parts_string.clear_ok e1)
    refine ⟨_, (by
      unfold set_encoded_query parts_string.clear_part
      simp only [if_true]
      exact e3), ?_, ?_, ?_, ?_, ?_, ?_, ?_⟩
    · exact hP'.trans hP
    · simp only [if_true]
      exact (hin id_query (le_refl _) (Nat.lt_succ_self _)).2
    · intro j hj hjq
      exact hout j (by rw [hP]; exact hj)
        (by rcases Nat.lt_or_ge j id_query with c | c
            · exact Or.inl c
            · exact Or.inr (by omega))
    · simp [id_path, id_query]
    · simp [id_host, id_query]
    · simp [id_query]
    · intro _; exact hwf
  · have hv := hs hs0
    have hw1 : wadd w 1 s.length = (63 :: s).length := by
      rw [wadd_eq (by omega)]; simp; omega
    have hgrow : length w u.pt_.base.index_ id_query < (63 :: s).length →
        length_all u.pt_.base.index_ +
          ((63 :: s).length - length w u.pt_.base.index_ id_query) + 1 < 2 ^ w ∧
        (u.pt_.base.capacity_ < length_all u.pt_.base.index_ +
          ((63 :: s).length - length w u.pt_.base.index_ id_query) + 1 →
          ∃ f, a.allocate (length_all u.pt_.base.index_ +
            ((63 :: s).length - length w u.pt_.base.index_ id_query) + 1) = Except.ok f) := by
      intro _
      refine ⟨?_, fun _ => halloc _⟩
      simp only [List.length_cons]
      omega
    obtain ⟨st2, e2, sp2, hP2, hidx2, hlen2, hpart2, hframe2, hwf2⟩ :=
      indexed_string.resize_then_fill h hi hgrow
        (fun st dest => (st.poke dest 63).andThen fun st _ => st.write (dest + 1) s)
        (by
          intro st1 hb hkeep
          simp only [List.length_cons] at hb
          obtain ⟨sa, ea, ia, ca, na, la, ba⟩ :=
            @indexed_string.poke_spec st1 (offset u.pt_.base.index_ id_query) 63 (by omega)
          obtain ⟨sb, eb, ib, cb, nb, lb, bb⟩ :=
            @indexed_string.write_spec sa (offset u.pt_.base.index_ id_query + 1) s
              (Or.inr (by omega))
          refine ⟨sb, ?_, ib.trans ia, cb.trans ca, nb.trans na, lb.trans la, ?_, ?_⟩
          · simp only [ea, outcome.andThen]
            exact eb
          · intro x hx
            simp only [List.length_cons] at hx
            rw [bb x, ba x]
            rcases hx with hx | hx
            · rw [if_neg (by omega), if_neg (by omega)]
            · rw [if_neg (by omega), if_neg (by omega)]
          · intro x hx
            simp only [List.length_cons] at hx
            rw [bb, ba]
            cases x with
            | zero => simp [byte_at]
            | succ y =>
              rw [if_pos (by omega)]
              simp only [byte_at, List.getD_cons_succ]
              congr 1
              omega)
    refine ⟨u.with_base st2, ?_, hP2.trans hP, ?_, ?_, rfl, rfl, ?_, ?_⟩
    · unfold set_encoded_query url_base.resize
      simp only [hs0, if_false, hv, Bool.true_eq_false, hw1]
      exact on_base_ok e2
    · simp only [hs0, if_false]
      exact hpart2
    · intro j hj hjq
      exact hframe2 j (by rw [hP]; exact hj) hjq
    · simp [hs0]; rfl
    · intro hz
      apply hwf2
      intro x hx
      rcases List.mem_cons.1 hx with c | c
      · rw [c]; decide
      · exact hz x c

end url_base
end Url

/-! ## Empty input of the userinfo and host setters -/

namespace Url

theorem length_of_offsets {w : Nat} {index_ : List Nat} {j : Nat}
    (h1 : offset index_ j ≤ offset index_ (j + 1)) (h2 : offset index_ (j + 1) < 2 ^ w) :
    length w index_ j = offset index_ (j + 1) - offset index_ j := by
  unfold length length_range
  exact wsub_eq h1 h2

namespace indexed_string

theorem resize_same {w : Nat} {a : storage} {i n : Nat} {st : indexed_string}
    (h : length w st.index_ i = n) :
    resize w a i n st = outcome.ok st (offset st.index_ i) := by
  unfold resize
  simp only [h, if_true]

end indexed_string

namespace url_base

theorem with_base_self (u : url_base) : u.with_base u.pt_.base = u := rfl

theorem boost_assert_pos {σ α : Type} {c : Prop} [Decidable c] (h : c) (k : outcome σ α) :
    boost_assert c k = k := by
  unfold boost_assert
  rw [if_pos h]

theorem boost_assert_neg {σ α : Type} {c : Prop} [Decidable c] (h : ¬ c) (k : outcome σ α) :
    boost_assert c k = outcome.fault := by
  unfold boost_assert
  rw [if_neg h]

theorem slashes_facts {l : List Nat} (h : l.take 2 = [47, 47]) :
    2 ≤ l.length ∧ l[0]? = some 47 ∧ l[1]? = some 47 := by
  match l, h with
  | [], h => simp at h
  | [_], h => simp at h
  | a :: b :: r, h =>
    simp only [List.take_succ_cons, List.take_zero, List.cons.injEq, and_true] at h
    obtain ⟨rfl, rfl⟩ := h
    simp

theorem slashes_take {l : List Nat} (h : l.take 2 = [47, 47]) : ∃ r, l = 47 :: 47 :: r := by
  match l, h with
  | [], h => simp at h
  | [_], h => simp at h
  | a :: b :: r, h =>
    simp only [List.take_succ_cons, List.take_zero, List.cons.injEq, and_true] at h
    obtain ⟨rfl, rfl⟩ := h
    exact ⟨r, rfl⟩

/-- The four assertions that `set_user("")` and `set_password("")` make on the stored
userinfo hold when the password part ends in `@` and the user part starts with `//`. -/
theorem userinfo_asserts {σ α : Type} {w : Nat} {u : url_base}
    (hp : (u.part w id_password).getLast? = some 64)
    (hu : (u.part w id_user).take 2 = [47, 47]) (k : outcome σ α) :
    boost_assert ((u.part w id_password).getLast? = some 64)
      (boost_assert (2 ≤ (u.part w id_user).length)
        (boost_assert ((u.part w id_user)[0]? = some 47)
          (boost_assert ((u.part w id_user)[1]? = some 47) k))) = k := by
  obtain ⟨f1, f2, f3⟩ := slashes_facts hu
  rw [boost_assert_pos hp, boost_assert_pos f1, boost_assert_pos f2, boost_assert_pos f3]

theorem set_user_empty_none {w : Nat} {a : storage} {e : pct_encoding} {u : url_base}
    (h0 : u.part_length w id_user = 0) : set_user w a e [] u = outcome.ok u () := by
  unfold set_user
  simp only [if_true, h0]

theorem set_user_empty_fixed {w : Nat} {a : storage} {e : pct_encoding} {u : url_base}
    (h2 : u.part_length w id_user = 2) (h1 : u.part_length w id_password ≠ 1)
    (hp : (u.part w id_password).getLast? = some 64)
    (hu : (u.part w id_user).take 2 = [47, 47]) :
    set_user w a e [] u = outcome.ok u () := by
  unfold set_user
  rw [if_pos rfl, if_neg (by rw [h2]; decide), userinfo_asserts hp hu, if_neg h1]
  unfold url_base.resize
  unfold part_length at h2
  rw [on_base_ok (indexed_string.resize_same h2)]
  rfl

/-- Effect of `set_user("")` when the password part is the bare `@`: the user and password
parts shrink to two bytes, the first two of the old user part. -/
theorem set_user_empty_bare {w : Nat} {a : storage} {e : pct_encoding} {u : url_base}
    (hP : u.pt_.base.index_.length = id_end) (h : indexed_string.wf w u.pt_.base)
    (h1 : u.part_length w id_password = 1)
    (hp : (u.part w id_password).getLast? = some 64)
    (hu : (u.part w id_user).take 2 = [47, 47]) :
    ∃ u', set_user w a e [] u = outcome.ok u' () ∧
      u'.pt_.base.index_.length = id_end ∧ indexed_string.wf w u'.pt_.base ∧
      u'.part_length w id_user = 2 ∧ u'.part_length w id_password = 0 ∧
      u'.part w id_password = [] ∧
      u'.part w id_user = [47, 47] ∧
      (∀ j, j < id_end → j ≠ id_user → j ≠ id_password →
        u'.part_length w j = u.part_length w j ∧ u'.part w j = u.part w j) ∧
      u'.pt_.nseg = u.pt_.nseg ∧ u'.pt_.nparam = u.pt_.nparam ∧ u'.pt_.host = u.pt_.host := by
  have h2 : 2 ≤ length w u.pt_.base.index_ id_user := by
    rw [← (h.get_part_bytes (show id_user < u.pt_.base.index_.length by
      rw [hP]; decide)).1]
    exact (slashes_facts hu).1
  have h0 : length w u.pt_.base.index_ id_user ≠ 0 := by omega
  have h0' : u.part_length w id_user ≠ 0 := h0
  have h1' := h1
  unfold part_length at h1
  have hP8 : u.pt_.base.index_.length = 8 := hP
  have hlu := h.part_le (show id_user < u.pt_.base.index_.length by rw [hP]; decide)
  have hlp := h.part_le (show id_password < u.pt_.base.index_.length by rw [hP]; decide)
  have hr23 : id_password + 1 = id_host := rfl
  have hr12 : id_user + 1 = id_password := rfl
  rw [hr23] at hlp
  rw [hr12] at hlu
  have hLw := h.all_lt
  have hrange : length_range w u.pt_.base.index_ id_user id_host =
      length w u.pt_.base.index_ id_user + 1 := by
    rw [h.length_range_eq (by decide) (by rw [hP]; decide)]
    omega
  obtain ⟨st1, e1, sp, hmid, hcap, hkeep⟩ :=
    @indexed_string.resize_range_splice w a id_user id_host 2 u.pt_.base h (by decide)
      (by rw [hP]; decide) (by intro hh; rw [hrange] at hh; omega)
  obtain ⟨hfr, hL, ht, ho, hoh, hlr⟩ := sp.frame h (by decide) (by rw [hP]; decide)
  have hv := (sp.resized h (by decide) (by rw [hP]; decide) hmid
    (by
      intro x hx
      apply hkeep
      rw [h.length_range_eq (by decide) (by rw [hP]; decide)]
      exact hx)).2 (by intro x hx1 hx2; omega)
  have hwf1 := indexed_string.wf_of_valid hv
  have hi1 : idx st1.index_ 1 = offset u.pt_.base.index_ id_user + 2 :=
    hmid 1 (by decide) (by decide)
  have hi2 : idx st1.index_ 2 = offset u.pt_.base.index_ id_user + 2 :=
    hmid 2 (by decide) (by decide)
  have hLw1 := hwf1.all_lt
  have hT := sp.total_lt h
  have hlen_u : length w st1.index_ id_user = 2 := by
    have e2 : offset st1.index_ (id_user + 1) = offset u.pt_.base.index_ id_user + 2 := by
      rw [show id_user + 1 = 1 + 1 from rfl, indexed_string.offset_succ, hi1]
    rw [length_of_offsets (by omega) (by omega), e2, ho]
    omega
  have hlen_p : length w st1.index_ id_password = 0 := by
    have e2 : offset st1.index_ id_password = offset u.pt_.base.index_ id_user + 2 := by
      rw [show id_password = 1 + 1 from rfl, indexed_string.offset_succ, hi1]
    have e3 : offset st1.index_ (id_password + 1) = offset u.pt_.base.index_ id_user + 2 := by
      rw [show id_password + 1 = 2 + 1 from rfl, indexed_string.offset_succ, hi2]
    rw [length_of_offsets (by omega) (by omega), e2, e3]
    omega
  refine ⟨u.with_base st1, ?_, sp.parts.trans hP, hwf1, hlen_u, hlen_p, ?_, ?_, ?_,
    rfl, rfl, rfl⟩
  · unfold set_user
    rw [if_pos rfl, if_neg h0', userinfo_asserts hp hu, if_pos h1']
    exact on_base_ok e1
  · show indexed_string.get_part w st1 id_password = []
    rw [indexed_string.get_part_eq, hlen_p, List.take_zero]
  · show indexed_string.get_part w st1 id_user = [47, 47]
    rw [← hu]
    show indexed_string.get_part w st1 id_user =
      (indexed_string.get_part w u.pt_.base id_user).take 2
    obtain ⟨gl, gb⟩ := h.get_part_bytes (show id_user < u.pt_.base.index_.length by
      rw [hP]; decide)
    apply indexed_string.get_part_intro
    · rw [hlen_u, List.length_take, gl]; omega
    · rw [List.length_take, gl, ho, sp.len]
      have := sp.total_le h
      rw [sp.len] at this
      omega
    · intro k hk
      rw [List.length_take, gl] at hk
      rw [byte_at_take, if_pos (by omega), gb k (by omega), ho]
      apply hkeep
      rw [hrange]
      omega
  · intro j hj hju hjp
    have hj' : j < id_user ∨ id_host ≤ j := by
      simp only [id_user, id_host, id_password] at *
      omega
    exact hfr j (by rw [hP]; exact hj) hj'

/-- Effect of `set_user("")` when the password part is not the bare `@`: the user part
becomes its first two bytes and every other part is kept. -/
theorem set_user_empty_keep {w : Nat} {a : storage} {e : pct_encoding} {u : url_base}
    (hP : u.pt_.base.index_.length = id_end) (h : indexed_string.wf w u.pt_.base)
    (h1 : u.part_length w id_password ≠ 1)
    (hp : (u.part w id_password).getLast? = some 64)
    (hu : (u.part w id_user).take 2 = [47, 47]) :
    ∃ u', set_user w a e [] u = outcome.ok u' () ∧
      u'.pt_.base.index_.length = id_end ∧ indexed_string.wf w u'.pt_.base ∧
      u'.part_length w id_user = 2 ∧ u'.part w id_user = [47, 47] ∧
      (∀ j, j < id_end → j ≠ id_user →
        u'.part_length w j = u.part_length w j ∧ u'.part w j = u.part w j) ∧
      u'.pt_.nseg = u.pt_.nseg ∧ u'.pt_.nparam = u.pt_.nparam ∧ u'.pt_.host = u.pt_.host := by
  have hi : id_user < u.pt_.base.index_.length := by rw [hP]; decide
  obtain ⟨gl, gb⟩ := h.get_part_bytes hi
  have h2 : 2 ≤ length w u.pt_.base.index_ id_user := by
    rw [← gl]
    exact (slashes_facts hu).1
  have h0 : u.part_length w id_user ≠ 0 := by
    show length w u.pt_.base.index_ id_user ≠ 0
    omega
  have hlu := h.part_le hi
  have hLw := h.all_lt
  obtain ⟨st1, e1, sp, hmid, hkeep⟩ :=
    @indexed_string.resize_splice w a id_user 2 u.pt_.base h hi
      (by intro hh; omega)
  obtain ⟨hfr, hL, ht, ho, hoh, hlr⟩ := sp.frame h (Nat.lt_succ_self _) hi
  have hlen_u : length w st1.index_ id_user = 2 := by
    unfold length; rw [hlr]; omega
  have hv := (sp.resized h (Nat.lt_succ_self _) hi hmid hkeep).2
    (by intro x hx1 hx2; omega)
  refine ⟨u.with_base st1, ?_, sp.parts.trans hP, indexed_string.wf_of_valid hv, hlen_u, ?_,
    ?_, rfl, rfl, rfl⟩
  · unfold set_user
    rw [if_pos rfl, if_neg h0, userinfo_asserts hp hu, if_neg h1]
    exact on_base_ok e1
  · show indexed_string.get_part w st1 id_user = [47, 47]
    rw [← hu]
    show indexed_string.get_part w st1 id_user =
      (indexed_string.get_part w u.pt_.base id_user).take 2
    apply indexed_string.get_part_intro
    · rw [hlen_u, List.length_take, gl]; omega
    · rw [List.length_take, gl, ho, sp.len]
      have := sp.total_le h
      rw [sp.len] at this
      omega
    · intro k hk
      rw [List.length_take, gl] at hk
      rw [byte_at_take, if_pos (by omega), gb k (by omega), ho]
      apply hkeep
      omega
  · intro j hj hju
    have hj' : j < id_user ∨ id_user + 1 ≤ j := by omega
    exact hfr j (by rw [hP]; exact hj) hj'

/-- Effect of `pt_.clear(first, last)` inside the URL: the parts of the range become
empty, every other part keeps its length and its bytes, the container stays valid, and the
counters are reset exactly when their part is in the range. -/
theorem clear_parts_effect {w : Nat} {first last : Nat} {u : url_base}
    (hP : u.pt_.base.index_.length = id_end) (h : indexed_string.wf w u.pt_.base)
    (hfl : first ≤ last) (hl : last ≤ id_end) :
    ∃ u', on_parts (u.pt_.clear w first last) = outcome.ok u' () ∧
      u'.pt_.base.index_.length = id_end ∧ indexed_string.wf w u'.pt_.base ∧
      (∀ j, first ≤ j → j < last → u'.part_length w j = 0 ∧ u'.part w j = []) ∧
      (∀ j, j < id_end → (j < first ∨ last ≤ j) →
        u'.part_length w j = u.part_length w j ∧ u'.part w j = u.part w j) ∧
      u'.pt_.nseg = (if first ≤ id_path ∧ last > id_path then 0 else u.pt_.nseg) ∧
      u'.pt_.nparam = (if first ≤ id_query ∧ last > id_query then 0 else u.pt_.nparam) ∧
      u'.pt_.host = (if first ≤ id_host ∧ last > id_host then host_type.none
        else u.pt_.host) ∧
      u'.encoded_url w = (u.encoded_url w).take (offset u.pt_.base.index_ first) ++
        (u.encoded_url w).drop (offset u.pt_.base.index_ last) := by
  obtain ⟨st', e1, hwf, hP', hin, hout, _, hall⟩ :=
    indexed_string.clear_effect h hfl (show last ≤ u.pt_.base.index_.length by rw [hP]; exact hl)
  have e3 := @on_parts_ok Unit _ _ () (parts_string.clear_ok e1)
  refine ⟨_, e3, hP'.trans hP, hwf, hin, ?_, rfl, rfl, rfl, ?_⟩
  · intro j hj hjr
    exact hout j (by rw [hP]; exact hj) hjr
  · have q1 := @encoded_url_eq_get_all w
      { pt_ := { base := st',
                 nseg := if first ≤ id_path ∧ last > id_path then 0 else u.pt_.nseg,
                 nparam := if first ≤ id_query ∧ last > id_query then 0 else u.pt_.nparam,
                 host := if first ≤ id_host ∧ last > id_host then host_type.none
                   else u.pt_.host } } hwf (hP'.trans hP)
    rw [q1, encoded_url_eq_get_all h hP]
    exact hall

theorem set_password_empty_none {w : Nat} {a : storage} {e : pct_encoding} {u : url_base}
    (h0 : u.part_length w id_password = 0) : set_password w a e [] u = outcome.ok u () := by
  unfold set_password
  simp only [if_true, h0]

/-- Effect of `set_password("")` on a non-empty password part: the part becomes empty when
the user part is two bytes long and the bare `@` otherwise; every other part is kept. -/
theorem set_password_empty_spec {w : Nat} {a : storage} {e : pct_encoding} {u : url_base}
    (hP : u.pt_.base.index_.length = id_end) (h : indexed_string.wf w u.pt_.base)
    (h0 : u.part_length w id_password ≠ 0)
    (hp : (u.part w id_password).getLast? = some 64)
    (hu : (u.part w id_user).take 2 = [47, 47]) :
    ∃ u', set_password w a e [] u = outcome.ok u' () ∧
      u'.pt_.base.index_.length = id_end ∧ indexed_string.wf w u'.pt_.base ∧
      u'.part w id_password = (if u.part_length w id_user = 2 then [] else [64]) ∧
      (∀ j, j < id_end → j ≠ id_password →
        u'.part_length w j = u.part_length w j ∧ u'.part w j = u.part w j) ∧
      u'.pt_.nseg = u.pt_.nseg ∧ u'.pt_.nparam = u.pt_.nparam ∧ u'.pt_.host = u.pt_.host := by
  by_cases h2 : u.part_length w id_user = 2
  · obtain ⟨u', e1, hP', hwf, hin, hout, hn, hq, hh, _⟩ :=
      @clear_parts_effect w id_password (id_password + 1) u hP h (Nat.le_succ _) (by decide)
    refine ⟨u', ?_, hP', hwf, ?_, ?_, ?_, ?_, ?_⟩
    · unfold set_password parts_string.clear_part
      simp only [if_true, h0, if_false]
      rw [userinfo_asserts hp hu, if_pos h2]
      exact e1
    · simp only [h2, if_true]
      exact (hin id_password (le_refl _) (Nat.lt_succ_self _)).2
    · intro j hj hjp
      exact hout j hj (by omega)
    · rw [hn]; simp [id_password, id_path]
    · rw [hq]; simp [id_password, id_query]
    · rw [hh]; simp [id_password, id_host]
  · have hi : id_password < u.pt_.base.index_.length := by rw [hP]; decide
    have h0' : length w u.pt_.base.index_ id_password ≠ 0 := h0
    obtain ⟨st2, e2, sp2, hP2, hidx2, hlen2, hpart2, hframe2, hwf2⟩ :=
      @indexed_string.resize_then_fill w a id_password [64] u.pt_.base h hi
        (by intro hh; simp only [List.length_singleton] at hh; omega)
        (fun st dest => st.poke dest 64)
        (by
          intro st1 hb hkeep
          simp only [List.length_singleton] at hb
          obtain ⟨sa, ea, ia, ca, na, la, ba⟩ :=
            @indexed_string.poke_spec st1 (offset u.pt_.base.index_ id_password) 64 (by omega)
          refine ⟨sa, ea, ia, ca, na, la, ?_, ?_⟩
          · intro x hx
            simp only [List.length_singleton] at hx
            rw [ba x, if_neg (by omega)]
          · intro x hx
            simp only [List.length_singleton] at hx
            have : x = 0 := by omega
            subst this
            rw [ba]
            simp [byte_at])
    refine ⟨u.with_base st2, ?_, hP2.trans hP, ?_, ?_, ?_, rfl, rfl, rfl⟩
    · unfold set_password
      simp only [if_true, h0, if_false]
      rw [userinfo_asserts hp hu, if_neg h2]
      exact on_base_ok e2
    · apply hwf2
      intro x hx
      rw [List.mem_singleton.1 hx]
      decide
    · simp only [h2, if_false]
      exact hpart2
    · intro j hj hjp
      exact hframe2 j (by rw [hP]; exact hj) hjp

/-- Effect of `set_host("")`: the authority is cleared when the user and password parts
together are two bytes long and the port part is empty; otherwise only the host part is
cleared. -/
theorem set_host_empty_spec {w : Nat} {a : storage}
    {parse_plain_hostname : List Nat → Option host_type} {e : pct_encoding} {u : url_base}
    (hP : u.pt_.base.index_.length = id_end) (h : indexed_string.wf w u.pt_.base)
    (hu : length_range w u.pt_.base.index_ id_user id_host = 2 ∧
      u.part_length w id_port = 0 → u.part w id_user = [47, 47]) :
    ∃ u', set_host w a parse_plain_hostname e [] u = outcome.ok u' () ∧
      u'.pt_.base.index_.length = id_end ∧ indexed_string.wf w u'.pt_.base ∧
      u'.part w id_host = [] ∧ u'.part_length w id_host = 0 ∧
      u'.pt_.host = host_type.none ∧
      u'.pt_.nseg = u.pt_.nseg ∧ u'.pt_.nparam = u.pt_.nparam ∧
      (∀ j, j < id_end → (j < id_user ∨ id_path ≤ j) →
        u'.part_length w j = u.part_length w j ∧ u'.part w j = u.part w j) ∧
      (length_range w u.pt_.base.index_ id_user id_host = 2 ∧ u.part_length w id_port = 0 →
        ∀ j, id_user ≤ j → j < id_path → u'.part_length w j = 0 ∧ u'.part w j = []) ∧
      (¬ (length_range w u.pt_.base.index_ id_user id_host = 2 ∧
          u.part_length w id_port = 0) →
        ∀ j, j < id_end → j ≠ id_host →
          u'.part_length w j = u.part_length w j ∧ u'.part w j = u.part w j) := by
  by_cases hg : length_range w u.pt_.base.index_ id_user id_host = 2 ∧
      u.part_length w id_port = 0
  · obtain ⟨u', e1, hP', hwf, hin, hout, hn, hp, hh, _⟩ :=
      @clear_parts_effect w id_user id_path u hP h (by decide) (by decide)
    have hin3 := hin id_host (by decide) (by decide)
    refine ⟨u', ?_, hP', hwf, hin3.2, hin3.1, ?_, ?_, ?_, hout, fun _ => hin,
      fun hc => absurd hg hc⟩
    · unfold set_host
      rw [if_pos rfl, if_pos hg, boost_assert_pos (hu hg)]
      exact e1
    · rw [hh]; simp [id_user, id_path, id_host]
    · rw [hn]; simp [id_user, id_path]
    · rw [hp]; simp [id_user, id_path, id_query]
  · obtain ⟨u', e1, hP', hwf, hin, hout, hn, hp, hh, _⟩ :=
      @clear_parts_effect w id_host (id_host + 1) u hP h (Nat.le_succ _) (by decide)
    have hin3 := hin id_host (le_refl _) (Nat.lt_succ_self _)
    refine ⟨u', ?_, hP', hwf, hin3.2, hin3.1, ?_, ?_, ?_, ?_, fun hc => absurd hc hg, ?_⟩
    · unfold set_host parts_string.clear_part
      simp only [if_true, hg, if_false]
      exact e1
    · rw [hh]; simp [id_host]
    · rw [hn]; simp [id_path, id_host]
    · rw [hp]; simp [id_host, id_query]
    · intro j hj hjr
      apply hout j hj
      simp only [id_user, id_path, id_host] at *
      omega
    · intro _ j hj hjh
      apply hout j hj
      omega

end url_base
end Url

/-! ## The raw user setter -/

namespace Url

namespace indexed_string

theorem write_same {st : indexed_string} {pos : Nat} {src : List Nat}
    (h : pos + src.length ≤ (st.s_.getD []).length)
    (hb : ∀ k, k < src.length → byte_at (st.s_.getD []) (pos + k) = byte_at src k) :
    write pos src st = outcome.ok st () := by
  unfold write memcpy
  by_cases h0 : src.length = 0
  · simp only [h0, if_true]
    rfl
  · simp only [h0, if_false]
    cases hs : st.s_ with
    | none =>
      rw [hs] at h
      simp only [Option.getD_none, List.length_nil] at h
      omega
    | some b =>
      rw [hs] at h hb
      simp only [Option.getD_some] at h hb
      simp only [h, Nat.zero_add, le_refl, and_self, if_true, outcome.mem]
      have : tabulate b.length
          (fun a => if pos ≤ a ∧ a < pos + src.length then byte_at src (a - pos)
            else byte_at b a) = b := by
        apply list_ext_byte_at (by simp)
        intro x hx
        rw [length_tabulate] at hx
        rw [byte_at_tabulate, if_pos hx]
        by_cases c : pos ≤ x ∧ x < pos + src.length
        · rw [if_pos c]
          have := hb (x - pos) (by omega)
          rw [show pos + (x - pos) = x by omega] at this
          exact this.symm
        · rw [if_neg c]
      rw [this]
      cases st
      simp only at hs
      rw [hs]

/-- A splice of the parts `[lo, hi)` is also a splice of a longer range `[lo, hi2)`. -/
theorem splice.widen {w : Nat} {st st' : indexed_string} {lo hi T : Nat}
    (h : indexed_string.wf w st) (sp : splice w st st' lo hi T) {hi2 : Nat}
    (h1 : hi ≤ hi2) (h2 : hi2 ≤ st.index_.length) :
    splice w st st' lo hi2 (T + (offset st.index_ hi2 - offset st.index_ hi)) := by
  have o1 : offset st.index_ hi ≤ offset st.index_ hi2 := h.offset_mono h1 h2
  have o2 : offset st.index_ hi2 ≤ length_all st.index_ := h.offset_le_all h2
  have o3 := sp.start
  refine ⟨sp.parts, sp.low, ?_, by omega, sp.cap, sp.len, ?_, ?_, sp.head, ?_⟩
  · intro j hj1 hj2
    rw [sp.high j (by omega) hj2]
    have : offset st.index_ hi2 ≤ idx st.index_ j := by
      have := @wf.offset_mono w st h hi2 (j + 1) (by omega) (by omega)
      rw [offset_succ] at this
      exact this
    omega
  · intro hne
    have := sp.room hne
    omega
  · intro e
    obtain ⟨e1, e2⟩ := sp.null e
    exact ⟨e1, by omega⟩
  · intro x hx1 hx2
    have := sp.tail x (by omega) hx2
    rw [← this]
    congr 1
    omega

/-- A state that differs from the result of a splice only in the index entries inside
the spliced range is a result of the same splice. -/
theorem splice.reindex {w : Nat} {st st1 st2 : indexed_string} {lo hi T : Nat}
    (sp : splice w st st1 lo hi T) (hlen : st2.index_.length = st1.index_.length)
    (hs : st2.s_ = st1.s_) (hcap : st2.capacity_ = st1.capacity_)
    (hidx : ∀ j, (j < lo ∨ hi - 1 ≤ j) → idx st2.index_ j = idx st1.index_ j) :
    splice w st st2 lo hi T := by
  refine ⟨hlen.trans sp.parts, ?_, ?_, sp.start, by rw [hcap]; exact sp.cap,
    by rw [hs, hcap]; exact sp.len, ?_, ?_, ?_, ?_⟩
  · intro j hj; rw [hidx j (Or.inl hj)]; exact sp.low j hj
  · intro j hj1 hj2; rw [hidx j (Or.inr hj1)]; exact sp.high j hj1 hj2
  · intro hne; rw [hcap]; rw [hs] at hne; exact sp.room hne
  · intro e; rw [hs] at e; exact sp.null e
  · intro x hx; rw [hs]; exact sp.head x hx
  · intro x hx1 hx2; rw [hs]; exact sp.tail x hx1 hx2

end indexed_string

namespace url_base

/-- A state on which `set_encoded_user(s)` changes nothing: the user part already has the
length of `//` and `s`, a password part is present, and the bytes of `s` stand behind the
first two bytes of the user part. -/
theorem set_encoded_user_fixed {w : Nat} {a : storage} {e : pct_encoding} {s : List Nat}
    {u : url_base} (hs : s ≠ []) (hv : e.validate s = true)
    (hw : 2 + s.length < 2 ^ w)
    (hlen : u.part_length w id_user = 2 + s.length)
    (hpw : u.part_length w id_password ≠ 0)
    (hp : (u.part w id_password).getLast? = some 64)
    (hbound : offset u.pt_.base.index_ id_user + 2 + s.length ≤ (u.pt_.base.s_.getD []).length)
    (hbytes : ∀ k, k < s.length →
      byte_at (u.pt_.base.s_.getD []) (offset u.pt_.base.index_ id_user + 2 + k) =
        byte_at s k) :
    set_encoded_user w a e s u = outcome.ok u () := by
  unfold set_encoded_user url_base.resize
  simp only [hs, if_false, hv, Bool.true_eq_false, hpw, ne_eq, not_false_eq_true, if_true]
  rw [boost_assert_pos hp]
  unfold part_length at hlen
  rw [wadd_eq hw, indexed_string.resize_same hlen]
  simp only [outcome.andThen]
  rw [on_base_ok (indexed_string.write_same hbound hbytes)]
  rfl

/-- Effect of `set_encoded_user(s)` for non-empty `s` when a password part is present:
the user part gets the length of `//` and `s` and holds `s` behind its first two bytes,
and every other part is kept. -/
theorem set_encoded_user_keep_spec {w : Nat} {a : storage} {e : pct_encoding}
    {s : List Nat} {u : url_base}
    (hP : u.pt_.base.index_.length = id_end) (h : indexed_string.wf w u.pt_.base)
    (hs : s ≠ []) (hv : e.validate s = true)
    (hpw : u.part_length w id_password ≠ 0)
    (hp : (u.part w id_password).getLast? = some 64)
    (hsz : length_all u.pt_.base.index_ + s.length + 4 < 2 ^ w)
    (halloc : ∀ m, ∃ f, a.allocate m = Except.ok f) :
    ∃ u', set_encoded_user w a e s u = outcome.ok u' () ∧
      u'.pt_.base.index_.length = id_end ∧
      u'.part_length w id_user = 2 + s.length ∧
      offset u'.pt_.base.index_ id_user = offset u.pt_.base.index_ id_user ∧
      offset u.pt_.base.index_ id_user + 2 + s.length ≤ (u'.pt_.base.s_.getD []).length ∧
      (∀ k, k < s.length →
        byte_at (u'.pt_.base.s_.getD []) (offset u.pt_.base.index_ id_user + 2 + k) =
          byte_at s k) ∧
      (∀ k, k < min 2 (u.part_length w id_user) →
        byte_at (u'.pt_.base.s_.getD []) (offset u.pt_.base.index_ id_user + k) =
          byte_at (u.pt_.base.s_.getD []) (offset u.pt_.base.index_ id_user + k)) ∧
      (∀ j, j < id_end → j ≠ id_user →
        u'.part_length w j = u.part_length w j ∧ u'.part w j = u.part w j) ∧
      u'.pt_.nseg = u.pt_.nseg ∧ u'.pt_.nparam = u.pt_.nparam ∧ u'.pt_.host = u.pt_.host := by
  have hi : id_user < u.pt_.base.index_.length := by rw [hP]; decide
  have hlu := h.part_le hi
  obtain ⟨st1, e1, sp, hmid, hkeep⟩ :=
    @indexed_string.resize_splice w a id_user (2 + s.length) u.pt_.base h hi
      (by intro hh; exact ⟨by omega, fun _ => halloc _⟩)
  have hle1 := sp.total_le h
  obtain ⟨sb, eb, ib, cb, nb, lb, bb⟩ :=
    @indexed_string.write_spec st1 (offset u.pt_.base.index_ id_user + 2) s
      (Or.inr (by omega))
  have sp2 : indexed_string.splice w u.pt_.base sb id_user (id_user + 1)
      (offset u.pt_.base.index_ id_user + (2 + s.length)) :=
    sp.overwrite h hi ib cb lb nb (by
      intro x hx
      rw [bb x, if_neg (by omega)])
  obtain ⟨hfr, hL, ht, ho, hoh, hlr⟩ := sp2.frame h (Nat.lt_succ_self _) hi
  refine ⟨u.with_base sb, ?_, sp2.parts.trans hP, ?_, ho, ?_, ?_, ?_, ?_, rfl, rfl, rfl⟩
  · unfold set_encoded_user url_base.resize
    simp only [hs, if_false, hv, Bool.true_eq_false, hpw, ne_eq, not_false_eq_true, if_true]
    rw [boost_assert_pos hp, wadd_eq (by omega), e1]
    simp only [outcome.andThen]
    exact on_base_ok eb
  · show length w sb.index_ id_user = _
    unfold length; rw [hlr]; omega
  · show _ ≤ (sb.s_.getD []).length
    rw [lb]; omega
  · intro k hk
    show byte_at (sb.s_.getD []) _ = _
    rw [bb, if_pos (by omega)]
    congr 1
    omega
  · intro k hk
    show byte_at (sb.s_.getD []) _ = _
    rw [bb, if_neg (by omega)]
    apply hkeep
    unfold part_length at hk
    rw [h.length_eq hi] at hk
    omega
  · intro j hj hju
    exact hfr j (by rw [hP]; exact hj) (by omega)


end url_base
end Url

/-! ## Scheme normalization -/

namespace Url

theorem ascii_test (c : Nat) (h : c < 256) :
    ((c + 256 - 65) % 256 < 26 ↔ (65 ≤ c ∧ c ≤ 90)) := by
  omega

theorem ascii_lower_lt (c : Nat) (h : c < 256) : ascii_lower c < 256 := by
  unfold ascii_lower
  split <;> omega

theorem ascii_lower_fixed (c : Nat) (h : c < 256) :
    ¬ ((ascii_lower c + 256 - 65) % 256 < 26) := by
  unfold ascii_lower
  split <;> omega

theorem byte_at_map_lt (f : Nat → Nat) (l : List Nat) (k : Nat) (h : k < l.length) :
    byte_at (l.map f) k = f (byte_at l k) := by
  unfold byte_at
  rw [List.getD_eq_getElem _ _ (by simpa using h), List.getD_eq_getElem _ _ h]
  simp

theorem byte_at_getLast {l : List Nat} {c : Nat} (h : l.getLast? = some c) :
    byte_at l (l.length - 1) = c := by
  unfold byte_at
  rw [List.getLast?_eq_getElem?] at h
  rw [List.getD_eq_getElem?_getD, h]
  rfl

namespace url_base

theorem normalize_loop_spec (n : Nat) : ∀ (p : Nat) (st : indexed_string) (b : List Nat),
    st.s_ = some b → p + n ≤ b.length →
    (∀ x, p ≤ x → x < p + n → byte_at b x < 256) →
    ∃ b', normalize_loop n p st = outcome.ok { st with s_ := some b' } () ∧
      b'.length = b.length ∧
      ∀ x, byte_at b' x =
        if p ≤ x ∧ x < p + n then ascii_lower (byte_at b x) else byte_at b x := by
  induction n with
  | zero =>
    intro p st b hs _ _
    refine ⟨b, ?_, rfl, ?_⟩
    · unfold normalize_loop
      cases st
      simp only at hs
      rw [hs]
    · intro x
      rw [if_neg (by omega)]
  | succ n ih =>
    intro p st b hs hb h256
    have hpk : st.peek p = some (byte_at b p) := by
      unfold indexed_string.peek
      rw [hs]
      simp only
      rw [if_pos (by omega)]
    have hc := h256 p (le_refl _) (by omega)
    unfold normalize_loop
    rw [hpk]
    simp only [outcome.mem]
    by_cases ht : (byte_at b p + 256 - 65) % 256 < 26
    · rw [if_pos ht]
      have hr := (ascii_test _ hc).1 ht
      obtain ⟨sa, ea, ia, ca, na, la, ba⟩ :=
        @indexed_string.poke_spec st p ((byte_at b p + 32) % 256)
          (by rw [hs]; simp only [Option.getD_some]; omega)
      have hsa : ∃ b1, sa.s_ = some b1 := by
        cases hq : sa.s_ with
        | none =>
          have := na.1 hq
          rw [hs] at this
          exact absurd this (by simp)
        | some b1 => exact ⟨b1, rfl⟩
      obtain ⟨b1, hb1⟩ := hsa
      rw [hs, hb1] at la ba
      simp only [Option.getD_some] at la ba
      obtain ⟨b', e', l', q'⟩ := ih (p + 1) sa b1 hb1 (by omega) (by
        intro x hx1 hx2
        rw [ba x, if_neg (by omega)]
        exact h256 x (by omega) (by omega))
      refine ⟨b', ?_, l'.trans la, ?_⟩
      · rw [ea]
        simp only [outcome.andThen]
        rw [e']
        cases st
        cases sa
        simp only at ia ca
        subst ia
        subst ca
        rfl
      · intro x
        rw [q' x, ba x]
        by_cases c1 : x = p
        · subst c1
          rw [if_neg (by omega), if_pos rfl, if_pos (by omega)]
          unfold ascii_lower
          rw [if_pos hr]
          omega
        · rw [if_neg c1]
          by_cases c2 : p + 1 ≤ x ∧ x < p + 1 + n
          · rw [if_pos c2, if_pos (by omega)]
          · rw [if_neg c2]
            rw [if_neg (by omega)]
    · rw [if_neg ht]
      have hr := (not_congr (ascii_test _ hc)).1 ht
      obtain ⟨b', e', l', q'⟩ := ih (p + 1) st b hs (by omega) (by
        intro x hx1 hx2
        exact h256 x (by omega) (by omega))
      refine ⟨b', e', l', ?_⟩
      intro x
      rw [q' x]
      by_cases c1 : x = p
      · subst c1
        rw [if_neg (by omega), if_pos (by omega)]
        unfold ascii_lower
        rw [if_neg hr]
      · by_cases c2 : p + 1 ≤ x ∧ x < p + 1 + n
        · rw [if_pos c2, if_pos (by omega)]
        · rw [if_neg c2, if_neg (by omega)]

theorem normalize_loop_fixed (n : Nat) : ∀ (p : Nat) (st : indexed_string) (b : List Nat),
    st.s_ = some b → p + n ≤ b.length →
    (∀ x, p ≤ x → x < p + n → ¬ ((byte_at b x + 256 - 65) % 256 < 26)) →
    normalize_loop n p st = outcome.ok st () := by
  induction n with
  | zero =>
    intro p st b _ _ _
    unfold normalize_loop
    rfl
  | succ n ih =>
    intro p st b hs hb hno
    have hpk : st.peek p = some (byte_at b p) := by
      unfold indexed_string.peek
      rw [hs]
      simp only
      rw [if_pos (by omega)]
    unfold normalize_loop
    rw [hpk]
    simp only [outcome.mem]
    rw [if_neg (hno p (le_refl _) (by omega))]
    exact ih (p + 1) st b hs (by omega) (fun x hx1 hx2 => hno x (by omega) (by omega))


/-- Effect of `normalize_scheme` on a valid container with eight parts whose scheme part
is empty or ends in `:` and holds bytes below 256: the scheme part is mapped through
`ascii_lower`, the index and every other part are kept, and a second call changes
nothing. -/
theorem normalize_scheme_spec {w : Nat} {u : url_base}
    (hP : u.pt_.base.index_.length = id_end) (h : indexed_string.wf w u.pt_.base)
    (hform : u.part w id_scheme = [] ∨ (u.part w id_scheme).getLast? = some 58)
    (h256 : ∀ c, c ∈ u.part w id_scheme → c < 256) :
    ∃ u', normalize_scheme w u = outcome.ok u' () ∧
      u'.pt_.base.index_ = u.pt_.base.index_ ∧
      u'.pt_.base.capacity_ = u.pt_.base.capacity_ ∧
      u'.part w id_scheme = (u.part w id_scheme).map ascii_lower ∧
      (∀ j, j < id_end → j ≠ id_scheme → u'.part w j = u.part w j) ∧
      u'.pt_.nseg = u.pt_.nseg ∧ u'.pt_.nparam = u.pt_.nparam ∧ u'.pt_.host = u.pt_.host ∧
      normalize_scheme w u' = outcome.ok u' () := by
  have hi : id_scheme < u.pt_.base.index_.length := by rw [hP]; decide
  obtain ⟨gl, gb⟩ := h.get_part_bytes hi
  have hpl := h.part_le hi
  have ho0 : offset u.pt_.base.index_ id_scheme = 0 := indexed_string.offset_zero _
  rw [ho0] at gb hpl
  simp only [Nat.zero_add] at gb hpl
  by_cases hn : u.part_length w id_scheme = 0
  · have hpart : u.part w id_scheme = [] := by
      show indexed_string.get_part w u.pt_.base id_scheme = []
      unfold part_length at hn
      rw [indexed_string.get_part_eq, hn, List.take_zero]
    have e0 : normalize_scheme w u = outcome.ok u () := by
      unfold normalize_scheme
      simp only [hn, if_true]
    refine ⟨u, e0, rfl, rfl, ?_, fun _ _ _ => rfl, rfl, rfl, rfl, e0⟩
    rw [hpart]; rfl
  · have hn' : length w u.pt_.base.index_ id_scheme ≠ 0 := hn
    generalize hm : length w u.pt_.base.index_ id_scheme = n at *
    have hs : ∃ b, u.pt_.base.s_ = some b := by
      cases hq : u.pt_.base.s_ with
      | none =>
        have hz := h.all_zero hq
        omega
      | some b => exact ⟨b, rfl⟩
    obtain ⟨b, hb⟩ := hs
    have hlenb := h.len
    rw [hb] at gb hpl hlenb
    simp only [Option.getD_some] at gb hpl hlenb
    have hpart_ne : u.part w id_scheme ≠ [] := by
      intro e0
      have : (indexed_string.get_part w u.pt_.base id_scheme).length = 0 := by
        show (u.part w id_scheme).length = 0
        rw [e0]; rfl
      omega
    have hlast : byte_at b (n - 1) = 58 := by
      rcases hform with c | c
      · exact absurd c hpart_ne
      · have := byte_at_getLast c
        rw [show (u.part w id_scheme).length = n from gl] at this
        rw [← gb (n - 1) (by omega)]
        exact this
    have hbyte : ∀ x, x < n → byte_at b x < 256 := by
      intro x hx
      apply h256
      rw [← gb x hx]
      show byte_at (indexed_string.get_part w u.pt_.base id_scheme) x ∈
        indexed_string.get_part w u.pt_.base id_scheme
      unfold byte_at
      rw [List.getD_eq_getElem _ _ (by omega)]
      exact List.getElem_mem _
    have hLw := h.all_lt
    obtain ⟨b', e', l', q'⟩ := normalize_loop_spec (n - 1) 0 u.pt_.base b hb (by omega)
      (fun x _ hx => hbyte x (by omega))
    have hq : ∀ x, byte_at b' x = if x < n then ascii_lower (byte_at b x) else byte_at b x := by
      intro x
      rw [q' x]
      by_cases c : x < n - 1
      · rw [if_pos ⟨Nat.zero_le _, by omega⟩, if_pos (by omega)]
      · rw [if_neg (by omega)]
        by_cases c2 : x < n
        · rw [if_pos c2]
          have : x = n - 1 := by omega
          rw [this, hlast]
          rfl
        · rw [if_neg c2]
    have hrun : ∀ v : url_base, v.pt_.base.index_ = u.pt_.base.index_ →
        v.pt_.base.peek (n - 1) = some 58 →
        normalize_scheme w v =
          v.on_base (normalize_loop (n - 1) 0 v.pt_.base) := by
      intro v hv hpk
      unfold normalize_scheme part_length
      rw [hv, hm]
      simp only [hn', if_false]
      rw [wsub_eq (by omega) (by omega), ho0, Nat.zero_add, boost_assert_pos hpk]
    have hpeek : ∀ (st : indexed_string) (c : List Nat), st.s_ = some c →
        c.length = b.length → byte_at c (n - 1) = 58 → st.peek (n - 1) = some 58 := by
      intro st c hc hl hbyte
      unfold indexed_string.peek
      rw [hc]
      simp only
      rw [if_pos (by omega), hbyte]
    refine ⟨u.with_base { u.pt_.base with s_ := some b' }, ?_, rfl, rfl, ?_, ?_, rfl, rfl, rfl,
      ?_⟩
    · rw [hrun u rfl (hpeek _ b hb rfl hlast)]
      exact on_base_ok e'
    · show indexed_string.get_part w { u.pt_.base with s_ := some b' } id_scheme =
        (indexed_string.get_part w u.pt_.base id_scheme).map ascii_lower
      apply indexed_string.get_part_intro
      · show length w u.pt_.base.index_ id_scheme = _
        rw [List.length_map, gl]
        exact hm
      · show offset u.pt_.base.index_ id_scheme + _ ≤ b'.length
        rw [List.length_map, gl, ho0, l']
        omega
      · intro k hk
        rw [List.length_map, gl] at hk
        show byte_at b' (offset u.pt_.base.index_ id_scheme + k) = _
        rw [ho0, Nat.zero_add, hq k, if_pos hk, byte_at_map_lt _ _ _ (by omega), gb k hk]
    · intro j hj hj0
      have hj' : j < u.pt_.base.index_.length := by rw [hP]; exact hj
      show indexed_string.get_part w { u.pt_.base with s_ := some b' } j =
        indexed_string.get_part w u.pt_.base j
      have hplj := h.part_le hj'
      have o1 : offset u.pt_.base.index_ (id_scheme + 1) ≤ offset u.pt_.base.index_ j :=
        h.offset_mono (by
          have : id_scheme = 0 := rfl
          omega) (by omega)
      rw [indexed_string.get_part_eq, indexed_string.get_part_eq]
      show ((b').drop _).take _ = ((u.pt_.base.s_.getD []).drop _).take _
      rw [hb]
      simp only [Option.getD_some]
      rw [hb] at hplj
      simp only [Option.getD_some] at hplj
      apply slice_ext (by omega) (by omega)
      intro k hk
      rw [hq, if_neg (by omega)]
    · rw [hrun (u.with_base { u.pt_.base with s_ := some b' }) rfl
        (hpeek _ b' rfl l' (by rw [hq, if_pos (by omega), hlast]; rfl))]
      have := normalize_loop_fixed (n - 1) 0 { u.pt_.base with s_ := some b' } b' rfl
        (by omega) (by
          intro x _ hx
          rw [hq x, if_pos (by omega)]
          exact ascii_lower_fixed _ (hbyte x (by omega)))
      exact on_base_ok this

end url_base
end Url

/-! ## Counters of the parts string -/

namespace Url
namespace indexed_string

end indexed_string

namespace parts_string

theorem check_invariants_iff (w : Nat) (ps : parts_string) :
    ps.check_invariants w = true ↔
      (indexed_string.get_part w ps.base id_path).count 47 = ps.nseg ∧
      (if indexed_string.get_part w ps.base id_query = [] then 0
        else (if (indexed_string.get_part w ps.base id_query).head? = some 63 then 1 else 0) +
          (indexed_string.get_part w ps.base id_query).count 38) = ps.nparam := by
  unfold check_invariants
  simp only [ne_eq, ite_not]
  by_cases c1 : (indexed_string.get_part w ps.base id_path).count 47 = ps.nseg
  · by_cases c2 : (if indexed_string.get_part w ps.base id_query = [] then 0
        else (if (indexed_string.get_part w ps.base id_query).head? = some 63 then 1 else 0) +
          (indexed_string.get_part w ps.base id_query).count 38) = ps.nparam
    · simp [c1, c2]
    · simp [c1, c2]
  · simp [c1]

/-- The counters fit a state whose path and query parts either are the old ones with the
old counters, or are empty with counters zero. -/
theorem check_of_parts {w : Nat} {ps ps' : parts_string}
    (h : ps.check_invariants w = true)
    (hpath : (indexed_string.get_part w ps'.base id_path =
        indexed_string.get_part w ps.base id_path ∧ ps'.nseg = ps.nseg) ∨
      (indexed_string.get_part w ps'.base id_path = [] ∧ ps'.nseg = 0))
    (hquery : (indexed_string.get_part w ps'.base id_query =
        indexed_string.get_part w ps.base id_query ∧ ps'.nparam = ps.nparam) ∨
      (indexed_string.get_part w ps'.base id_query = [] ∧ ps'.nparam = 0)) :
    ps'.check_invariants w = true := by
  rw [check_invariants_iff] at h ⊢
  constructor
  · rcases hpath with ⟨e1, e2⟩ | ⟨e1, e2⟩
    · rw [e1, e2]; exact h.1
    · rw [e1, e2]; rfl
  · rcases hquery with ⟨e1, e2⟩ | ⟨e1, e2⟩
    · rw [e1, e2]; exact h.2
    · rw [e1, e2]; rfl

/-- Effect of `parts_string::clear_all`: every part is empty and the counters are reset. -/
theorem clear_all_keeps {w : Nat} {ps : parts_string}
    (h : indexed_string.wf w ps.base) :
    ∃ ps', ps.clear_all = outcome.ok ps' () ∧
      ps'.base.index_.length = ps.base.index_.length ∧ indexed_string.wf w ps'.base ∧
      ps'.check_invariants w = true ∧
      ps'.nseg = 0 ∧ ps'.nparam = 0 ∧ ps'.host = host_type.none := by
  obtain ⟨st', e1, hwf, hP', hz, _, _⟩ := indexed_string.clear_all_spec h
  have hempty : ∀ j, indexed_string.get_part w st' j = [] := by
    intro j
    have o : ∀ k, offset st'.index_ k = 0 := by
      intro k
      unfold offset
      split
      · rfl
      · exact hz _
    rw [indexed_string.get_part_eq]
    unfold length length_range
    rw [o, o]
    have : wsub w 0 0 = 0 := by unfold wsub; simp
    rw [this, List.take_zero]
  have e2 : ps.clear_all = outcome.ok
      { base := st', nseg := 0, nparam := 0, host := host_type.none } () := by
    unfold clear_all lift
    rw [e1]
  refine ⟨_, e2, hP', hwf, ?_, rfl, rfl, rfl⟩
  rw [check_invariants_iff]
  show List.count 47 (indexed_string.get_part w st' id_path) = 0 ∧
    (if indexed_string.get_part w st' id_query = [] then 0
      else (if (indexed_string.get_part w st' id_query).head? = some 63 then 1 else 0) +
        (indexed_string.get_part w st' id_query).count 38) = 0
  rw [hempty, hempty]
  exact ⟨rfl, rfl⟩

end parts_string
end Url

/-! ## Claims on the setters -/

namespace Url
namespace url_base

theorem stored_form.base_wf {w : Nat} {u : url_base} (h : stored_form w u) :
    indexed_string.wf w u.pt_.base := indexed_string.wf_of_valid h.2.1

theorem part_length_eq {w : Nat} {u : url_base} (hP : u.pt_.base.index_.length = id_end)
    (h : indexed_string.wf w u.pt_.base) {j : Nat} (hj : j < id_end) :
    (u.part w j).length = u.part_length w j :=
  (h.get_part_bytes (show j < u.pt_.base.index_.length by rw [hP]; exact hj)).1

theorem part_eq_nil_iff {w : Nat} {u : url_base} (hP : u.pt_.base.index_.length = id_end)
    (h : indexed_string.wf w u.pt_.base) {j : Nat} (hj : j < id_end) :
    u.part w j = [] ↔ u.part_length w j = 0 := by
  rw [← part_length_eq hP h hj]
  exact List.length_eq_zero.symm

/-- In stored form a non-empty password part ends in `@`. -/
theorem stored_form.password_last {w : Nat} {u : url_base} (h : stored_form w u)
    (hne : u.part w id_password ≠ []) : (u.part w id_password).getLast? = some 64 := by
  rcases h.2.2.2.2.2.2.1 with c | c | c
  · exact absurd c hne
  · rw [c]; rfl
  · exact c.2

/-- In stored form the user part starts with `//` as soon as one of the authority parts
is not empty. -/
theorem stored_form.user_slashes {w : Nat} {u : url_base} (h : stored_form w u) {j : Nat}
    (hj1 : id_user ≤ j) (hj2 : j < id_path) (hne : u.part w j ≠ []) :
    (u.part w id_user).take 2 = [47, 47] := by
  have hP := h.1
  have hwf := h.base_wf
  have hauth : u.has_authority w = true := by
    unfold has_authority
    rw [decide_eq_true_iff, hwf.length_range_eq (by decide) (by rw [hP]; decide)]
    have hjP : j < u.pt_.base.index_.length := by
      rw [hP]
      simp only [id_path, id_end] at *
      omega
    have hl := part_length_eq hP hwf (show j < id_end by
      simp only [id_path, id_end] at *
      omega)
    have hpos : 0 < (u.part w j).length := List.length_pos.2 hne
    have p := hwf.part_le hjP
    have o1 : offset u.pt_.base.index_ id_user ≤ offset u.pt_.base.index_ j :=
      hwf.offset_mono hj1 (by omega)
    have o2 : offset u.pt_.base.index_ (j + 1) ≤ offset u.pt_.base.index_ id_path :=
      hwf.offset_mono hj2 (by rw [hP]; decide)
    unfold part_length at hl
    omega
  rcases h.2.2.2.2.1 with c | c
  · exact absurd c (h.2.2.2.2.2.1 hauth)
  · exact c

/-- Claim C11 fails in the code.  On a freshly constructed URL, which satisfies I7,
`set_encoded_path("/p/q")` stores the path and returns with `nseg` still `0`, while the
stored path holds two `/`: `check_invariants` of the parts string fails on the state
returned. -/
theorem C11_set_encoded_path_keeps_nseg :
    stored_form 64 empty_url ∧ empty_url.pt_.check_invariants 64 = true ∧
    set_encoded_path 64 sample_storage lenient_rules [47, 112, 47, 113] empty_url =
      outcome.ok path_only_url () ∧
    path_only_url.part 64 id_path = [47, 112, 47, 113] ∧
    (path_only_url.part 64 id_path).count 47 = 2 ∧
    path_only_url.pt_.nseg = 0 ∧
    path_only_url.pt_.check_invariants 64 = false := by
  refine ⟨by decide, by decide, by decide, by decide, by decide, by decide, by decide⟩

/-- Claim C12 fails in the code.  On a freshly constructed URL, which satisfies I8,
`set_query("a=1&b=2")`, `set_encoded_query("a=1&b=2")` and `set_query_part("?a=1&b=2")` all
store `?a=1&b=2` and return with `nparam` still `0`, while I8 asks for `2`:
`check_invariants` of the parts string fails on the state returned. -/
theorem C12_query_setters_keep_nparam :
    stored_form 64 empty_url ∧ empty_url.pt_.check_invariants 64 = true ∧
    set_query 64 sample_storage identity_encoding [97, 61, 49, 38, 98, 61, 50] empty_url =
      outcome.ok query_only_url () ∧
    set_encoded_query 64 sample_storage identity_encoding [97, 61, 49, 38, 98, 61, 50]
      empty_url = outcome.ok query_only_url () ∧
    set_query_part 64 sample_storage identity_encoding [63, 97, 61, 49, 38, 98, 61, 50]
      empty_url = outcome.ok query_only_url () ∧
    query_only_url.part 64 id_query = [63, 97, 61, 49, 38, 98, 61, 50] ∧
    1 + (query_only_url.part 64 id_query).count 38 = 2 ∧
    query_only_url.pt_.nparam = 0 ∧
    query_only_url.pt_.check_invariants 64 = false := by
  refine ⟨by decide, by decide, by decide, by decide, by decide, by decide, by decide,
    by decide, by decide⟩

/-- Claim C16 fails in the code.  On the URL `//u@`, which is in stored form,
`set_user("")` followed by `set_port("")` leaves the empty URL, while `set_port("")`
followed by `set_user("")` leaves `//`: `set_user("")` never removes the `//`, so the two
orders differ in whether `set_port("")` still finds something in front of the port. -/
theorem C16_user_port_order_differs :
    stored_form 64 userinfo_url ∧
    userinfo_url.pt_.check_invariants 64 = true ∧
    encoded_url 64 userinfo_url = [47, 47, 117, 64] ∧
    (set_user 64 sample_storage identity_encoding [] userinfo_url).andThen
      (fun v _ => set_port 64 sample_storage accept_all [] v) =
      outcome.ok cleared_userinfo_url () ∧
    (set_port 64 sample_storage accept_all [] userinfo_url).andThen
      (fun v _ => set_user 64 sample_storage identity_encoding [] v) =
      outcome.ok bare_authority_url () ∧
    encoded_url 64 cleared_userinfo_url = [] ∧
    encoded_url 64 bare_authority_url = [47, 47] := by
  refine ⟨by decide, by decide, by decide, by decide, by decide, by decide, by decide⟩

/-- Claim C17 fails in the code.  On the URL `//u@`, which is in stored form,
`set_encoded_user("")` returns and leaves `//`, a user part `//` without a password part,
again in stored form; the second `set_encoded_user("")` does not return: `set_user`
asserts that the password part ends in `@` as soon as the user part is not empty. -/
theorem C17_second_call_asserts :
    stored_form 64 userinfo_url ∧ userinfo_url.pt_.check_invariants 64 = true ∧
    set_encoded_user 64 sample_storage identity_encoding [] userinfo_url =
      outcome.ok bare_authority_url () ∧
    stored_form 64 bare_authority_url ∧
    bare_authority_url.part 64 id_user = [47, 47] ∧
    bare_authority_url.part 64 id_password = [] ∧
    set_encoded_user 64 sample_storage identity_encoding [] bare_authority_url =
      outcome.fault := by
  refine ⟨by decide, by decide, by decide, by decide, by decide, by decide, by decide⟩

/-- Claim C14.  For a URL in stored form: when the user part is empty, `set_user("")`
returns the state unchanged; when the user part is `//` followed by some bytes and the
password part is longer than one byte, `set_user("")` returns, the user part is `//`, and
every other part, the password part included, and the counters are unchanged; when the
password part is the bare `@`, `set_user("")` returns, the user part is `//`, the password
part is empty and every other part is unchanged.  The container stays valid. -/
theorem C14_set_user_empty (w : Nat) (a : storage) (e : pct_encoding) (u : url_base)
    (hsf : stored_form w u) :
    (u.part w id_user = [] → set_user w a e [] u = outcome.ok u ()) ∧
    (∀ usr, u.part w id_user = 47 :: 47 :: usr → 1 < (u.part w id_password).length →
      ∃ u', set_user w a e [] u = outcome.ok u' () ∧
        u'.part w id_user = [47, 47] ∧
        (∀ j, j < id_end → j ≠ id_user → u'.part w j = u.part w j) ∧
        u'.pt_.nseg = u.pt_.nseg ∧ u'.pt_.nparam = u.pt_.nparam ∧
        u'.pt_.host = u.pt_.host ∧ indexed_string.valid w u'.pt_.base) ∧
    (∀ usr, u.part w id_user = 47 :: 47 :: usr → u.part w id_password = [64] →
      ∃ u', set_user w a e [] u = outcome.ok u' () ∧
        u'.part w id_user = [47, 47] ∧ u'.part w id_password = [] ∧
        (∀ j, j < id_end → j ≠ id_user → j ≠ id_password → u'.part w j = u.part w j) ∧
        u'.pt_.nseg = u.pt_.nseg ∧ u'.pt_.nparam = u.pt_.nparam ∧
        u'.pt_.host = u.pt_.host ∧ indexed_string.valid w u'.pt_.base) := by
  have hP := hsf.1
  have h := hsf.base_wf
  have hlp := part_length_eq hP h (show id_password < id_end by decide)
  refine ⟨?_, ?_, ?_⟩
  · intro h0
    exact set_user_empty_none ((part_eq_nil_iff hP h (by decide)).1 h0)
  · intro usr hu h1
    have hne : u.part w id_password ≠ [] := by
      intro c
      rw [c] at h1
      exact absurd h1 (by decide)
    obtain ⟨u', e1, _, hwf, _, hpart, hfr, c1, c2, c3⟩ :=
      @set_user_empty_keep w a e u hP h (by omega) (hsf.password_last hne)
        (by rw [hu]; rfl)
    exact ⟨u', e1, hpart, fun j hj hju => (hfr j hj hju).2, c1, c2, c3,
      indexed_string.valid_of_wf hwf⟩
  · intro usr hu h1
    have hl1 : u.part_length w id_password = 1 := by
      rw [← hlp, h1]; rfl
    obtain ⟨u', e1, _, hwf, _, _, hpw, hpart, hfr, c1, c2, c3⟩ :=
      @set_user_empty_bare w a e u hP h hl1 (by rw [h1]; rfl) (by rw [hu]; rfl)
    exact ⟨u', e1, hpart, hpw, fun j hj hju hjp => (hfr j hj hju hjp).2, c1, c2, c3,
      indexed_string.valid_of_wf hwf⟩

/-- Witness of C14: on `http://a:b@x.y:8080/p/q?k=v#f` the password part `:b@` is longer
than one byte, and `set_user("")` leaves `http://:b@x.y:8080/p/q?k=v#f`. -/
theorem C14_set_user_empty_witness :
    stored_form 64 sample_url ∧
    sample_url.part 64 id_user = [47, 47, 97] ∧
    1 < (sample_url.part 64 id_password).length ∧
    (∃ u', set_user 64 sample_storage identity_encoding [] sample_url = outcome.ok u' () ∧
      u'.part 64 id_user = [47, 47] ∧ u'.part 64 id_password = [58, 98, 64]) ∧
    set_user 64 sample_storage identity_encoding [] sample_url =
      outcome.ok sample_url_no_user () ∧
    encoded_url 64 sample_url_no_user =
      [104, 116, 116, 112, 58, 47, 47, 58, 98, 64, 120, 46, 121, 58, 56, 48, 56, 48, 47, 112,
        47, 113, 63, 107, 61, 118, 35, 102] := by
  have hsf : stored_form 64 sample_url := by decide
  have hu : sample_url.part 64 id_user = [47, 47, 97] := by decide
  have hp : 1 < (sample_url.part 64 id_password).length := by decide
  obtain ⟨u', e1, e2, e3, _⟩ :=
    (C14_set_user_empty 64 sample_storage identity_encoding sample_url hsf).2.1 [97] hu hp
  exact ⟨hsf, hu, hp, ⟨u', e1, e2, (e3 id_password (by decide) (by decide)).trans
    (by decide)⟩, by decide, by decide⟩

/-- Claim C15.  For a URL in stored form that satisfies I7 and I8, with a non-empty
password part, `set_password("")` returns; the password part is empty when the user part
is exactly `//` and is the bare `@` when the user part is longer; every other part keeps
its bytes, the counters are unchanged, the container stays valid and I7 and I8 still hold
(the assertion at the end of `parts_string::clear`). -/
theorem C15_set_password_empty (w : Nat) (a : storage) (e : pct_encoding) (u : url_base)
    (hsf : stored_form w u) (hinv : u.pt_.check_invariants w = true)
    (hpw : u.part w id_password ≠ []) :
    ∃ u', set_password w a e [] u = outcome.ok u' () ∧
      (u.part w id_user = [47, 47] → u'.part w id_password = []) ∧
      (2 < (u.part w id_user).length → u'.part w id_password = [64]) ∧
      (∀ j, j < id_end → j ≠ id_password → u'.part w j = u.part w j) ∧
      u'.pt_.nseg = u.pt_.nseg ∧ u'.pt_.nparam = u.pt_.nparam ∧ u'.pt_.host = u.pt_.host ∧
      indexed_string.valid w u'.pt_.base ∧ u'.pt_.check_invariants w = true := by
  have hP := hsf.1
  have h := hsf.base_wf
  have hlu := part_length_eq hP h (show id_user < id_end by decide)
  obtain ⟨u', e1, _, hwf, hpart, hfr, c1, c2, c3⟩ :=
    @set_password_empty_spec w a e u hP h
      (fun c => hpw ((part_eq_nil_iff hP h (by decide)).2 c))
      (hsf.password_last hpw)
      (hsf.user_slashes (show id_user ≤ id_password by decide) (by decide) hpw)
  refine ⟨u', e1, ?_, ?_, fun j hj hjp => (hfr j hj hjp).2, c1, c2, c3,
    indexed_string.valid_of_wf hwf,
    parts_string.check_of_parts hinv
      (Or.inl ⟨(hfr id_path (by decide) (by decide)).2, c1⟩)
      (Or.inl ⟨(hfr id_query (by decide) (by decide)).2, c2⟩)⟩
  · intro h2
    rw [hpart, if_pos (by rw [← hlu, h2]; rfl)]
  · intro h2
    rw [hpart, if_neg (by omega)]

/-- Witness of C15: on `http://:b@x.y:8080/p/q?k=v#f` the user part is exactly `//`, and
`set_password("")` leaves `http://x.y:8080/p/q?k=v#f`. -/
theorem C15_set_password_empty_witness :
    stored_form 64 sample_url_no_user ∧
    sample_url_no_user.pt_.check_invariants 64 = true ∧
    sample_url_no_user.part 64 id_password ≠ [] ∧
    (∃ u', set_password 64 sample_storage identity_encoding [] sample_url_no_user =
        outcome.ok u' () ∧ u'.part 64 id_password = [] ∧
      u'.part 64 id_host = [120, 46, 121]) ∧
    set_password 64 sample_storage identity_encoding [] sample_url_no_user =
      outcome.ok sample_url_no_userinfo () ∧
    encoded_url 64 sample_url_no_userinfo =
      [104, 116, 116, 112, 58, 47, 47, 120, 46, 121, 58, 56, 48, 56, 48, 47, 112, 47, 113, 63,
        107, 61, 118, 35, 102] := by
  have hsf : stored_form 64 sample_url_no_user := by decide
  have hi : sample_url_no_user.pt_.check_invariants 64 = true := by decide
  have hp : sample_url_no_user.part 64 id_password ≠ [] := by decide
  obtain ⟨u', e1, e2, _, e4, _⟩ :=
    C15_set_password_empty 64 sample_storage identity_encoding sample_url_no_user hsf hi hp
  exact ⟨hsf, hi, hp, ⟨u', e1, e2 (by decide), (e4 id_host (by decide) (by decide)).trans
    (by decide)⟩, by decide, by decide⟩

end url_base
end Url

/-! ## Claims on query, scheme, host and counters -/

namespace Url
namespace url_base

/-- Claim C18.  For a valid container with eight parts that satisfies I7 and I8, and
every `s` that is empty or accepted by `validate` (the grow succeeding),
`set_encoded_query(s)` returns; for non-empty `s` the query part is `?` followed by `s`,
for empty `s` it is empty; in both cases `encoded_query()` returns `s`, and the scheme,
user, password, host, port, path and fragment parts return the same bytes as before the
call.  For empty `s` I7 and I8 still hold (the assertion at the end of
`parts_string::clear`). -/
theorem C18_set_encoded_query_frame (w : Nat) (a : storage) (e : pct_encoding)
    (s : List Nat) (u : url_base)
    (hP : u.pt_.base.index_.length = id_end) (hv : indexed_string.valid w u.pt_.base)
    (hinv : u.pt_.check_invariants w = true)
    (hs : s ≠ [] → e.validate s = true)
    (hsz : length_all u.pt_.base.index_ + s.length + 2 < 2 ^ w)
    (halloc : ∀ m, ∃ f, a.allocate m = Except.ok f) :
    ∃ u', set_encoded_query w a e s u = outcome.ok u' () ∧
      u'.part w id_query = (if s = [] then [] else 63 :: s) ∧
      u'.encoded_query w = some s ∧
      (∀ j, j < id_end → j ≠ id_query → u'.part w j = u.part w j) ∧
      (s = [] → u'.pt_.check_invariants w = true) := by
  obtain ⟨u', e1, _, hq, hfr, c1, _, c3, _⟩ :=
    @set_encoded_query_spec w a e s u hP (indexed_string.wf_of_valid hv) hs hsz halloc
  refine ⟨u', e1, hq, ?_, fun j hj hjq => (hfr j hj hjq).2, ?_⟩
  · unfold encoded_query
    simp only [hq]
    by_cases hs0 : s = []
    · simp [hs0]
    · simp [hs0]
  · intro hs0
    rw [if_pos hs0] at hq c3
    exact parts_string.check_of_parts hinv
      (Or.inl ⟨(hfr id_path (by decide) (by decide)).2, c1⟩) (Or.inr ⟨hq, c3⟩)

/-- Witness of C18: `set_encoded_query("a=1&b=2")` on `http://a:b@x.y:8080/p/q?k=v#f`. -/
theorem C18_set_encoded_query_frame_witness :
    indexed_string.valid 64 sample_url.pt_.base ∧
    ∃ u', set_encoded_query 64 sample_storage identity_encoding [97, 61, 49, 38, 98, 61, 50]
        sample_url = outcome.ok u' () ∧
      u'.part 64 id_query = [63, 97, 61, 49, 38, 98, 61, 50] ∧
      u'.encoded_query 64 = some [97, 61, 49, 38, 98, 61, 50] ∧
      u'.part 64 id_frag = [35, 102] := by
  have hv : indexed_string.valid 64 sample_url.pt_.base := by decide
  obtain ⟨u', e1, e2, e3, e4, _⟩ :=
    C18_set_encoded_query_frame 64 sample_storage identity_encoding
      [97, 61, 49, 38, 98, 61, 50] sample_url (by decide) hv (by decide) (fun _ => rfl)
      (by decide) (fun _ => ⟨_, rfl⟩)
  exact ⟨hv, u', e1, e2, e3, (e4 id_frag (by decide) (by decide)).trans (by decide)⟩

/-- Claim C19.  For a URL in stored form (a scheme part that is empty or ends in `:`),
`normalize_scheme()` returns; every byte of the scheme part in `A`..`Z` is replaced by the
corresponding byte in `a`..`z` and every other byte of it is kept (the scheme part is
mapped through `ascii_lower`), every other part returns the same bytes, the index and the
counters are unchanged, and a second call returns the same state. -/
theorem C19_normalize_scheme (w : Nat) (u : url_base) (hsf : stored_form w u) :
    ∃ u', normalize_scheme w u = outcome.ok u' () ∧
      u'.part w id_scheme = (u.part w id_scheme).map ascii_lower ∧
      (∀ j, j < id_end → j ≠ id_scheme → u'.part w j = u.part w j) ∧
      u'.pt_.base.index_ = u.pt_.base.index_ ∧
      u'.pt_.nseg = u.pt_.nseg ∧ u'.pt_.nparam = u.pt_.nparam ∧ u'.pt_.host = u.pt_.host ∧
      normalize_scheme w u' = outcome.ok u' () := by
  obtain ⟨u', e1, hi, _, hsch, hfr, c1, c2, c3, e2⟩ :=
    @normalize_scheme_spec w u hsf.1 hsf.base_wf hsf.2.2.2.1 (hsf.2.2.1 id_scheme (by decide))
  exact ⟨u', e1, hsch, hfr, hi, c1, c2, c3, e2⟩

/-- Witness of C19: `set_scheme("HTTPS")` on a freshly constructed URL gives `HTTPS:`, and
`normalize_scheme()` then gives `https:`. -/
theorem C19_normalize_scheme_witness :
    set_scheme 64 sample_storage accept_all [72, 84, 84, 80, 83] empty_url =
      outcome.ok upper_scheme_url () ∧
    stored_form 64 upper_scheme_url ∧
    (∃ u', normalize_scheme 64 upper_scheme_url = outcome.ok u' () ∧
      u'.part 64 id_scheme = [104, 116, 116, 112, 115, 58] ∧
      normalize_scheme 64 u' = outcome.ok u' ()) ∧
    normalize_scheme 64 upper_scheme_url = outcome.ok lower_scheme_url () ∧
    encoded_url 64 lower_scheme_url = [104, 116, 116, 112, 115, 58] := by
  have hsf : stored_form 64 upper_scheme_url := by decide
  obtain ⟨u', e1, e2, _, _, _, _, _, e5⟩ := C19_normalize_scheme 64 upper_scheme_url hsf
  exact ⟨by decide, hsf, ⟨u', e1, e2.trans (by decide), e5⟩, by decide, by decide⟩

/-- Claim C20 as stated fails on `//u@h`, which is in stored form: `set_host("")` clears
the host part only, so the port part is empty after the call while the user and password
parts keep `//u@` and `has_authority()` is still true. -/
theorem C20_set_host_keeps_userinfo :
    stored_form 64 userinfo_host_url ∧
    userinfo_host_url.pt_.check_invariants 64 = true ∧
    encoded_url 64 userinfo_host_url = [47, 47, 117, 64, 104] ∧
    set_host 64 sample_storage (fun _ => some host_type.name) identity_encoding []
      userinfo_host_url = outcome.ok userinfo_host_cleared () ∧
    userinfo_host_cleared.part 64 id_host = [] ∧
    userinfo_host_cleared.part 64 id_port = [] ∧
    userinfo_host_cleared.has_authority 64 = true ∧
    userinfo_host_cleared.part 64 id_user = [47, 47, 117] ∧
    userinfo_host_cleared.part 64 id_password = [64] := by
  refine ⟨by decide, by decide, by decide, by decide, by decide, by decide, by decide,
    by decide, by decide⟩

/-- Claim C20, amended.  For a URL in stored form that satisfies I7 and I8,
`set_host("")` returns, the host part is empty and the host kind is `none`; when before
the call the user and password parts together are exactly `//` and the port part is
empty, the entire authority is removed: `has_authority()` is false and the user, password,
host and port parts are all empty; otherwise the user, password and port parts keep their
bytes.  The scheme, path, query and fragment parts keep their bytes in both cases, the
container stays valid and I7 and I8 still hold (the assertion at the end of
`parts_string::clear`). -/
theorem C20_set_host_empty (w : Nat) (a : storage)
    (parse_plain_hostname : List Nat → Option host_type) (e : pct_encoding) (u : url_base)
    (hsf : stored_form w u) (hinv : u.pt_.check_invariants w = true) :
    ∃ u', set_host w a parse_plain_hostname e [] u = outcome.ok u' () ∧
      u'.part w id_host = [] ∧ u'.pt_.host = host_type.none ∧
      (indexed_string.get w u.pt_.base id_user id_host = [47, 47] ∧ u.part w id_port = [] →
        u'.has_authority w = false ∧
        ∀ j, id_user ≤ j → j < id_path → u'.part w j = []) ∧
      (¬ (indexed_string.get w u.pt_.base id_user id_host = [47, 47] ∧
          u.part w id_port = []) →
        ∀ j, j < id_end → j ≠ id_host → u'.part w j = u.part w j) ∧
      (∀ j, j < id_end → (j < id_user ∨ id_path ≤ j) → u'.part w j = u.part w j) ∧
      indexed_string.valid w u'.pt_.base ∧ u'.pt_.check_invariants w = true := by
  have hP := hsf.1
  have h := hsf.base_wf
  have hiu : id_user < u.pt_.base.index_.length := by rw [hP]; decide
  have hip : id_password < u.pt_.base.index_.length := by rw [hP]; decide
  have hih : id_host ≤ u.pt_.base.index_.length := by rw [hP]; decide
  have plu := h.part_le hiu
  have plp := h.part_le hip
  have hLc := h.all_le_cap
  have hlen := h.len
  have hrl := @indexed_string.wf.length_range_eq w u.pt_.base h id_user id_host (by decide) hih
  obtain ⟨gl, gb⟩ := h.get_part_bytes hiu
  have hport := part_eq_nil_iff hP h (show id_port < id_end by decide)
  -- the bytes of user and password together
  have hgetlen : (indexed_string.get w u.pt_.base id_user id_host).length =
      length_range w u.pt_.base.index_ id_user id_host := by
    rw [indexed_string.get_eq, List.length_take, List.length_drop, hrl]
    have : id_password + 1 = id_host := rfl
    rw [this] at plp
    omega
  -- when the range is two bytes long the user part is `//`
  have huser : length_range w u.pt_.base.index_ id_user id_host = 2 →
      u.part w id_user = [47, 47] ∧
        indexed_string.get w u.pt_.base id_user id_host = [47, 47] := by
    intro h2
    have hauth : u.has_authority w = true := by
      unfold has_authority
      rw [decide_eq_true_iff, h.length_range_eq (by decide) (by rw [hP]; decide)]
      have o2 : offset u.pt_.base.index_ id_host ≤ offset u.pt_.base.index_ id_path :=
        h.offset_mono (by decide) (by rw [hP]; decide)
      omega
    have hsl : (u.part w id_user).take 2 = [47, 47] := by
      rcases hsf.2.2.2.2.1 with c | c
      · exact absurd c (hsf.2.2.2.2.2.1 hauth)
      · exact c
    have hl2 : (u.part w id_user).length = 2 := by
      have f := (slashes_facts hsl).1
      have : (u.part w id_user).length = length w u.pt_.base.index_ id_user := gl
      have e12 : id_user + 1 = id_password := rfl
      have e23 : id_password + 1 = id_host := rfl
      rw [e12] at plu
      rw [e23] at plp
      omega
    have hu : u.part w id_user = [47, 47] := by
      rw [← hsl, List.take_of_length_le (by omega)]
    refine ⟨hu, ?_⟩
    have hl0 : length w u.pt_.base.index_ id_user = 2 := by
      rw [← gl]; exact hl2
    have : indexed_string.get w u.pt_.base id_user id_host =
        indexed_string.get_part w u.pt_.base id_user := by
      rw [indexed_string.get_eq, indexed_string.get_part_eq, h2, hl0]
    rw [this]
    exact hu
  have hguard : (indexed_string.get w u.pt_.base id_user id_host = [47, 47] ∧
      u.part w id_port = []) ↔
      (length_range w u.pt_.base.index_ id_user id_host = 2 ∧ u.part_length w id_port = 0) := by
    constructor
    · rintro ⟨c1, c2⟩
      refine ⟨?_, hport.1 c2⟩
      rw [← hgetlen, c1]
      rfl
    · rintro ⟨c1, c2⟩
      exact ⟨(huser c1).2, hport.2 c2⟩
  obtain ⟨u', e1, hP', hwf, hh, _, hk, cn, cp, hout, hyes, hno⟩ :=
    @set_host_empty_spec w a parse_plain_hostname e u hP h (fun hg => (huser hg.1).1)
  refine ⟨u', e1, hh, hk, ?_, fun hc j hj hjh => (hno (fun c => hc (hguard.2 c)) j hj hjh).2,
    fun j hj hjr => (hout j hj hjr).2, indexed_string.valid_of_wf hwf,
    parts_string.check_of_parts hinv
      (Or.inl ⟨(hout id_path (by decide) (Or.inr (le_refl _))).2, cn⟩)
      (Or.inl ⟨(hout id_query (by decide) (Or.inr (by decide))).2, cp⟩)⟩
  intro hg
  have hz := hyes (hguard.1 hg)
  refine ⟨?_, fun j hj1 hj2 => (hz j hj1 hj2).2⟩
  unfold has_authority
  rw [decide_eq_false_iff_not, not_not,
    hwf.length_range_eq (by decide) (by rw [hP']; decide)]
  have l1 := (hz 1 (by decide) (by decide)).1
  have l2 := (hz 2 (by decide) (by decide)).1
  have l3 := (hz 3 (by decide) (by decide)).1
  have l4 := (hz 4 (by decide) (by decide)).1
  have p1 := (hwf.part_le (show 1 < u'.pt_.base.index_.length by rw [hP']; decide)).2.1
  have p2 := (hwf.part_le (show 2 < u'.pt_.base.index_.length by rw [hP']; decide)).2.1
  have p3 := (hwf.part_le (show 3 < u'.pt_.base.index_.length by rw [hP']; decide)).2.1
  have p4 := (hwf.part_le (show 4 < u'.pt_.base.index_.length by rw [hP']; decide)).2.1
  unfold part_length at l1 l2 l3 l4
  rw [l1] at p1
  rw [l2] at p2
  rw [l3] at p3
  rw [l4] at p4
  simp only [Nat.add_zero, Nat.reduceAdd] at p1 p2 p3 p4
  show offset u'.pt_.base.index_ 5 - offset u'.pt_.base.index_ 1 = 0
  omega

/-- Witness of C20: on `http://a:b@x.y:8080/p/q?k=v#f` the user and password parts are
longer than `//`, so `set_host("")` clears the host part and keeps the port `:8080`. -/
theorem C20_set_host_empty_witness :
    stored_form 64 sample_url ∧ sample_url.pt_.check_invariants 64 = true ∧
    ∃ u', set_host 64 sample_storage (fun _ => some host_type.name) identity_encoding []
        sample_url = outcome.ok u' () ∧
      u'.part 64 id_host = [] ∧ u'.pt_.host = host_type.none ∧
      u'.part 64 id_port = [58, 56, 48, 56, 48] := by
  have hsf : stored_form 64 sample_url := by decide
  have hi : sample_url.pt_.check_invariants 64 = true := by decide
  obtain ⟨u', e1, e2, e3, _, e5, _⟩ :=
    C20_set_host_empty 64 sample_storage (fun _ => some host_type.name) identity_encoding
      sample_url hsf hi
  exact ⟨hsf, hi, u', e1, e2, e3, (e5 (by decide) id_port (by decide) (by decide)).trans
    (by decide)⟩

end url_base

namespace parts_string

end parts_string
end Url

/-! ## Layout of the authority -/

namespace Url
namespace indexed_string

/-- I1 after a splice: the index is non-decreasing as soon as the entries of the parts in
between are. -/
theorem splice.index_mono {w : Nat} {st st' : indexed_string} {lo hi T : Nat}
    (h : indexed_string.wf w st) (sp : splice w st st' lo hi T) (hlh : lo < hi)
    (hhi : hi ≤ st.index_.length)
    (hmid : ∀ j, lo ≤ j → j < hi →
      offset st.index_ lo ≤ idx st'.index_ j ∧ idx st'.index_ j ≤ T ∧
      (j + 1 < hi → idx st'.index_ j ≤ idx st'.index_ (j + 1))) :
    part_index_check st'.index_ = true := by
  apply part_index_check_of_mono
  intro j hj
  rw [sp.parts] at hj
  by_cases c1 : j + 1 < lo
  · rw [sp.low j (by omega), sp.low (j + 1) c1]
    exact h.mono j hj
  · by_cases c2 : hi - 1 ≤ j
    · rw [sp.high j c2 (by omega), sp.high (j + 1) (by omega) hj]
      have := h.mono j hj
      omega
    · by_cases c3 : j + 1 = lo
      · rw [sp.low j (by omega)]
        have := (hmid (j + 1) (by omega) (by omega)).1
        have e : offset st.index_ lo = idx st.index_ j := by
          unfold offset; simp [show lo ≠ 0 by omega, ← c3]
        omega
      · exact (hmid j (by omega) (by omega)).2.2 (by omega)

/-- Layout of the authority after its bytes `c` have been stored from `offset(id_user)` on
and the entries of the user, password and host parts set to the cuts `a1 ≤ a2 ≤ a3`: the
four authority parts are the four pieces of `c`, every other part is kept, and I1 holds. -/
theorem splice.authority_layout {w : Nat} {st st2 : indexed_string} {c : List Nat}
    {a1 a2 a3 : Nat} (h : indexed_string.wf w st) (hP : st.index_.length = id_end)
    (sp : splice w st st2 id_user id_path (offset st.index_ id_user + c.length))
    (h1 : idx st2.index_ id_user = offset st.index_ id_user + a1)
    (h2 : idx st2.index_ id_password = offset st.index_ id_user + a2)
    (h3 : idx st2.index_ id_host = offset st.index_ id_user + a3)
    (h12 : a1 ≤ a2) (h23 : a2 ≤ a3) (h3c : a3 ≤ c.length)
    (hb : ∀ k, k < c.length →
      byte_at (st2.s_.getD []) (offset st.index_ id_user + k) = byte_at c k) :
    st2.index_.length = id_end ∧
    get_part w st2 id_user = c.take a1 ∧
    get_part w st2 id_password = (c.drop a1).take (a2 - a1) ∧
    get_part w st2 id_host = (c.drop a2).take (a3 - a2) ∧
    get_part w st2 id_port = c.drop a3 ∧
    (∀ j, j < id_end → (j < id_user ∨ id_path ≤ j) →
      length w st2.index_ j = length w st.index_ j ∧ get_part w st2 j = get_part w st j) ∧
    part_index_check st2.index_ = true ∧
    ((∀ x, x ∈ c → x ≠ 0) → indexed_string.wf w st2) := by
  have hhi : id_path ≤ st.index_.length := by rw [hP]; decide
  obtain ⟨hfr, hL, ht, ho, hoh, hlr⟩ := sp.frame h (by decide) hhi
  have hT := sp.total_lt h
  have hle := sp.total_le h
  have ohL : offset st.index_ id_path ≤ length_all st.index_ := h.offset_le_all hhi
  generalize hoff : offset st.index_ id_user = off at *
  have o1 : offset st2.index_ 1 = off := ho
  have o2 : offset st2.index_ 2 = off + a1 := by
    rw [show (2 : Nat) = 1 + 1 from rfl, offset_succ]; exact h1
  have o3 : offset st2.index_ 3 = off + a2 := by
    rw [show (3 : Nat) = 2 + 1 from rfl, offset_succ]; exact h2
  have o4 : offset st2.index_ 4 = off + a3 := by
    rw [show (4 : Nat) = 3 + 1 from rfl, offset_succ]; exact h3
  have o5 : offset st2.index_ 5 = off + c.length := hoh
  have i4 : idx st2.index_ 4 = off + c.length := by
    rw [← offset_succ]; exact hoh
  have l1 : length w st2.index_ id_user = a1 := by
    rw [length_of_offsets (by show offset st2.index_ 1 ≤ offset st2.index_ 2; omega)
      (by show offset st2.index_ 2 < _; omega)]
    show offset st2.index_ 2 - offset st2.index_ 1 = a1
    omega
  have l2 : length w st2.index_ id_password = a2 - a1 := by
    rw [length_of_offsets (by show offset st2.index_ 2 ≤ offset st2.index_ 3; omega)
      (by show offset st2.index_ 3 < _; omega)]
    show offset st2.index_ 3 - offset st2.index_ 2 = _
    omega
  have l3 : length w st2.index_ id_host = a3 - a2 := by
    rw [length_of_offsets (by show offset st2.index_ 3 ≤ offset st2.index_ 4; omega)
      (by show offset st2.index_ 4 < _; omega)]
    show offset st2.index_ 4 - offset st2.index_ 3 = _
    omega
  have l4 : length w st2.index_ id_port = c.length - a3 := by
    rw [length_of_offsets (by show offset st2.index_ 4 ≤ offset st2.index_ 5; omega)
      (by show offset st2.index_ 5 < _; omega)]
    show offset st2.index_ 5 - offset st2.index_ 4 = _
    omega
  have hmid : ∀ j, id_user ≤ j → j < id_path →
      off ≤ idx st2.index_ j ∧ idx st2.index_ j ≤ off + c.length ∧
      (j + 1 < id_path → idx st2.index_ j ≤ idx st2.index_ (j + 1)) := by
    intro j hj1 hj2
    simp only [id_user, id_path] at hj1 hj2
    have h1' : idx st2.index_ 1 = off + a1 := h1
    have h2' : idx st2.index_ 2 = off + a2 := h2
    have h3' : idx st2.index_ 3 = off + a3 := h3
    interval_cases j
    · exact ⟨by omega, by omega, fun _ => by show idx st2.index_ 1 ≤ idx st2.index_ 2; omega⟩
    · exact ⟨by omega, by omega, fun _ => by show idx st2.index_ 2 ≤ idx st2.index_ 3; omega⟩
    · exact ⟨by omega, by omega, fun _ => by show idx st2.index_ 3 ≤ idx st2.index_ 4; omega⟩
    · exact ⟨by omega, by omega, fun hh => by simp [id_path] at hh⟩
  refine ⟨sp.parts.trans hP, ?_, ?_, ?_, ?_, ?_, ?_, ?_⟩
  · apply get_part_intro
    · rw [l1, List.length_take]; omega
    · show offset st2.index_ 1 + _ ≤ _
      rw [o1, List.length_take]; omega
    · intro k hk
      rw [List.length_take] at hk
      show byte_at _ (offset st2.index_ 1 + k) = _
      rw [o1, hb k (by omega), byte_at_take, if_pos (by omega)]
  · apply get_part_intro
    · rw [l2, List.length_take, List.length_drop]; omega
    · show offset st2.index_ 2 + _ ≤ _
      rw [o2, List.length_take, List.length_drop]; omega
    · intro k hk
      rw [List.length_take, List.length_drop] at hk
      show byte_at _ (offset st2.index_ 2 + k) = _
      rw [o2, Nat.add_assoc, hb (a1 + k) (by omega), byte_at_take, if_pos (by omega),
        byte_at_drop]
  · apply get_part_intro
    · rw [l3, List.length_take, List.length_drop]; omega
    · show offset st2.index_ 3 + _ ≤ _
      rw [o3, List.length_take, List.length_drop]; omega
    · intro k hk
      rw [List.length_take, List.length_drop] at hk
      show byte_at _ (offset st2.index_ 3 + k) = _
      rw [o3, Nat.add_assoc, hb (a2 + k) (by omega), byte_at_take, if_pos (by omega),
        byte_at_drop]
  · apply get_part_intro
    · rw [l4, List.length_drop]
    · show offset st2.index_ 4 + _ ≤ _
      rw [o4, List.length_drop]; omega
    · intro k hk
      rw [List.length_drop] at hk
      show byte_at _ (offset st2.index_ 4 + k) = _
      rw [o4, Nat.add_assoc, hb (a3 + k) (by omega), byte_at_drop]
  · intro j hj hc
    exact hfr j (by rw [hP]; exact hj) hc
  · exact sp.index_mono h (by decide) hhi (by rw [hoff]; exact hmid)
  · intro hnz
    apply sp.wf h (by decide) hhi (by rw [hoff]; exact hmid)
    intro x hx1 hx2
    rw [hoff] at hx1
    have := hb (x - off) (by omega)
    rw [show off + (x - off) = x by omega] at this
    rw [this]
    exact hnz _ (byte_at_mem (by omega))

end indexed_string
end Url

namespace Url
namespace indexed_string

theorem length_split (w : Nat) (index_ : List Nat) (part n : Nat) :
    (split w index_ part n).length = index_.length := by
  unfold split
  rw [length_set_index]

theorem idx_split (w : Nat) (index_ : List Nat) (part n j : Nat)
    (hp : part < index_.length) :
    idx (split w index_ part n) j =
      if j = part then wadd w (offset index_ part) n else idx index_ j := by
  unfold split
  rw [idx_set_index]
  by_cases c : j < index_.length
  · rw [if_pos c]
  · rw [if_neg c]
    have hj : j ≠ part := by omega
    rw [if_neg hj, idx_of_le _ _ (by omega)]

end indexed_string

namespace url_base

/-- Effect of `set_encoded_authority(s)` for a non-empty `s` whose descriptor has the
component lengths `U`, `PW`, `H`, `PO` with sum `|s|`. -/
theorem set_encoded_authority_spec {w : Nat} {a : storage}
    {parse_authority : List Nat → Option parts} {s : List Nat} {u : url_base} {pt : parts}
    {U PW H PO : Nat}
    (hP : u.pt_.base.index_.length = id_end) (h : indexed_string.wf w u.pt_.base)
    (hs : s ≠ []) (hpa : parse_authority s = some pt)
    (hU : length w pt.index_ id_user = U) (hPW : length w pt.index_ id_password = PW)
    (hH : length w pt.index_ id_host = H) (hPO : length w pt.index_ id_port = PO)
    (hsum : U + PW + H + PO = s.length)
    (hsz : length_all u.pt_.base.index_ + s.length + 3 < 2 ^ w)
    (halloc : ∀ m, ∃ f, a.allocate m = Except.ok f) :
    ∃ u', set_encoded_authority w a parse_authority s u = outcome.ok u' () ∧
      u'.pt_.base.index_.length = id_end ∧
      u'.part w id_user = 47 :: 47 :: s.take U ∧
      u'.part w id_password = (s.drop U).take PW ∧
      u'.part w id_host = (s.drop (U + PW)).take H ∧
      u'.part w id_port = s.drop (U + PW + H) ∧
      (∀ j, j < id_end → (j < id_user ∨ id_path ≤ j) →
        u'.part_length w j = u.part_length w j ∧ u'.part w j = u.part w j) ∧
      part_index_check u'.pt_.base.index_ = true ∧
      ((∀ x, x ∈ s → x ≠ 0) → indexed_string.wf w u'.pt_.base) ∧
      u'.pt_.nseg = u.pt_.nseg ∧ u'.pt_.nparam = u.pt_.nparam ∧ u'.pt_.host = u.pt_.host := by
  have hhi : id_path ≤ u.pt_.base.index_.length := by rw [hP]; decide
  have hLw := h.all_lt
  have ohL : offset u.pt_.base.index_ id_path ≤ length_all u.pt_.base.index_ :=
    h.offset_le_all hhi
  have oup : offset u.pt_.base.index_ id_user ≤ offset u.pt_.base.index_ id_path :=
    h.offset_mono (by decide) hhi
  obtain ⟨st1, e1, sp1, hmid1, -, -⟩ :=
    @indexed_string.resize_range_splice w a id_user id_path (2 + s.length) u.pt_.base h
      (by decide) hhi (by intro hh; exact ⟨by omega, fun _ => halloc _⟩)
  have hle1 := sp1.total_le h
  have hlt1 := sp1.total_lt h
  have ho1 := (sp1.frame h (by decide) hhi).2.2.2.1
  generalize hoff : offset u.pt_.base.index_ id_user = off at *
  have hT : off + (2 + s.length) ≤ (st1.s_.getD []).length := by omega
  obtain ⟨sa, ea, ia, ca, na, la, ba⟩ := @indexed_string.poke_spec st1 off 47 (by omega)
  obtain ⟨sb, eb, ib, cb, nb, lb, bb⟩ :=
    @indexed_string.poke_spec sa (off + 1) 47 (by omega)
  obtain ⟨sc, ec, ic, cc, nc, lc, bc⟩ :=
    @indexed_string.write_spec sb (off + 2) s (Or.inr (by omega))
  have hidx1 : sc.index_ = st1.index_ := ic.trans (ib.trans ia)
  have hlen1 : st1.index_.length = id_end := sp1.parts.trans hP
  -- the three splits
  have hi1 : idx (split w sc.index_ id_user (wadd w 2 U)) id_user = off + (2 + U) := by
    rw [indexed_string.idx_split _ _ _ _ _ (by rw [hidx1, hlen1]; decide), if_pos rfl,
      hidx1, ho1, wadd_eq (show 2 + U < 2 ^ w by omega), wadd_eq (by omega)]
  have hi2 : idx (split w (split w sc.index_ id_user (wadd w 2 U)) id_password PW) id_password =
      off + (2 + U + PW) := by
    rw [indexed_string.idx_split _ _ _ _ _ (by
      rw [indexed_string.length_split, hidx1, hlen1]; decide), if_pos rfl,
      show offset (split w sc.index_ id_user (wadd w 2 U)) id_password =
        idx (split w sc.index_ id_user (wadd w 2 U)) id_user from
        indexed_string.offset_succ _ 1, hi1, wadd_eq (by omega)]
    omega
  have hi3 : idx (split w (split w (split w sc.index_ id_user (wadd w 2 U)) id_password PW)
      id_host H) id_host = off + (2 + U + PW + H) := by
    rw [indexed_string.idx_split _ _ _ _ _ (by
      rw [indexed_string.length_split, indexed_string.length_split, hidx1, hlen1]; decide),
      if_pos rfl,
      show offset (split w (split w sc.index_ id_user (wadd w 2 U)) id_password PW) id_host =
        idx (split w (split w sc.index_ id_user (wadd w 2 U)) id_password PW) id_password from
        indexed_string.offset_succ _ 2, hi2, wadd_eq (by omega)]
    omega
  have hother : ∀ j, j ≠ id_user → j ≠ id_password → j ≠ id_host →
      idx (split w (split w (split w sc.index_ id_user (wadd w 2 U)) id_password PW)
        id_host H) j = idx st1.index_ j := by
    intro j j1 j2 j3
    rw [indexed_string.idx_split _ _ _ _ _ (by
      rw [indexed_string.length_split, indexed_string.length_split, hidx1, hlen1]; decide),
      if_neg j3, indexed_string.idx_split _ _ _ _ _ (by
      rw [indexed_string.length_split, hidx1, hlen1]; decide), if_neg j2,
      indexed_string.idx_split _ _ _ _ _ (by rw [hidx1, hlen1]; decide), if_neg j1, hidx1]
  have hi1' : idx (split w (split w (split w sc.index_ id_user (wadd w 2 U)) id_password PW)
      id_host H) id_user = off + (2 + U) := by
    rw [indexed_string.idx_split _ _ _ _ _ (by
      rw [indexed_string.length_split, indexed_string.length_split, hidx1, hlen1]; decide),
      if_neg (by decide), indexed_string.idx_split _ _ _ _ _ (by
      rw [indexed_string.length_split, hidx1, hlen1]; decide), if_neg (by decide), hi1]
  have hi2' : idx (split w (split w (split w sc.index_ id_user (wadd w 2 U)) id_password PW)
      id_host H) id_password = off + (2 + U + PW) := by
    rw [indexed_string.idx_split _ _ _ _ _ (by
      rw [indexed_string.length_split, indexed_string.length_split, hidx1, hlen1]; decide),
      if_neg (by decide), hi2]
  generalize hsd : ({ sc with index_ := split w (split w (split w sc.index_ id_user
    (wadd w 2 U)) id_password PW) id_host H } : indexed_string) = sd at *
  have hsdi : sd.index_ = split w (split w (split w sc.index_ id_user
    (wadd w 2 U)) id_password PW) id_host H := by rw [← hsd]
  have hsds : sd.s_ = sc.s_ := by rw [← hsd]
  have hsdc : sd.capacity_ = sc.capacity_ := by rw [← hsd]
  have bfin : ∀ x, byte_at (sd.s_.getD []) x =
      if off + 2 ≤ x ∧ x < off + 2 + s.length then byte_at s (x - (off + 2))
      else if x = off + 1 then 47
      else if x = off then 47
      else byte_at (st1.s_.getD []) x := by
    intro x
    rw [hsds, bc x, bb x, ba x]
  have spd : indexed_string.splice w u.pt_.base sd id_user id_path (off + (2 + s.length)) := by
    have q1 := @indexed_string.splice.overwrite w u.pt_.base st1 sc id_user id_path
      (off + (2 + s.length)) h hhi sp1 hidx1 (cc.trans (cb.trans ca))
      (lc.trans (lb.trans la)) (nc.trans (nb.trans na)) (by
        intro x hx
        rw [hoff] at hx
        rw [bc x, bb x, ba x, if_neg (by omega), if_neg (by omega), if_neg (by omega)])
    apply q1.reindex
    · rw [hsdi, indexed_string.length_split, indexed_string.length_split,
        indexed_string.length_split]
    · exact hsds
    · exact hsdc
    · intro j hj
      rw [hsdi, hother j (by simp only [id_user, id_password, id_host, id_path] at hj ⊢; omega)
        (by simp only [id_user, id_password, id_host, id_path] at hj ⊢; omega)
        (by simp only [id_user, id_password, id_host, id_path] at hj ⊢; omega), hidx1]
  have lay := @indexed_string.splice.authority_layout w u.pt_.base sd (47 :: 47 :: s)
    (2 + U) (2 + U + PW) (2 + U + PW + H) h hP
    (by rw [hoff]; simp only [List.length_cons]
        rw [show s.length + 1 + 1 = 2 + s.length by omega]; exact spd)
    (by rw [hoff, hsdi]; exact hi1') (by rw [hoff, hsdi]; exact hi2')
    (by rw [hoff, hsdi]; exact hi3) (by omega) (by omega)
    (by simp only [List.length_cons]; omega)
    (by
      intro k hk
      simp only [List.length_cons] at hk
      rw [hoff, bfin]
      match k with
      | 0 =>
        rw [if_neg (by omega), if_neg (by omega), if_pos (by omega)]
        rfl
      | 1 =>
        rw [if_neg (by omega), if_pos (by omega)]
        rfl
      | k + 2 =>
        rw [if_pos (by omega)]
        simp only [byte_at, List.getD_cons_succ]
        congr 1
        omega)
  obtain ⟨y1, y2, y3, y4, y5, y6, y7, y8⟩ := lay
  have hport : length w sd.index_ id_port = PO := by
    have e4 : idx sd.index_ 4 = off + (2 + s.length) := by
      rw [hsdi, hother 4 (by decide) (by decide) (by decide)]
      exact hmid1 4 (by decide) (by decide)
    have e3 : idx sd.index_ 3 = off + (2 + U + PW + H) := by rw [hsdi]; exact hi3
    rw [length_of_offsets (by
        show offset sd.index_ (3 + 1) ≤ offset sd.index_ (4 + 1)
        rw [indexed_string.offset_succ, indexed_string.offset_succ, e3, e4]; omega) (by
        show offset sd.index_ (4 + 1) < _
        rw [indexed_string.offset_succ, e4]; omega)]
    show offset sd.index_ (4 + 1) - offset sd.index_ (3 + 1) = PO
    rw [indexed_string.offset_succ, indexed_string.offset_succ, e3, e4]
    omega
  refine ⟨u.with_base sd, ?_, y1, ?_, ?_, ?_, ?_, y6, y7, ?_, rfl, rfl, rfl⟩
  · unfold set_encoded_authority url_base.resize_range
    simp only [hs, if_false, hpa, hU, hPW, hH, hPO]
    rw [wadd_eq (show 2 + s.length < 2 ^ w by omega), e1]
    simp only [outcome.andThen, ea, eb, ec, indexed_string.split_part, hsd, on_base]
    rw [boost_assert_pos]
    exact hport
  · show indexed_string.get_part w sd id_user = _
    rw [y2, show 2 + U = U + 1 + 1 by omega, List.take_succ_cons, List.take_succ_cons]
  · show indexed_string.get_part w sd id_password = _
    rw [y3]
    rw [show 2 + U + PW - (2 + U) = PW by omega, show 2 + U = U + 1 + 1 by omega,
      List.drop_succ_cons, List.drop_succ_cons]
  · show indexed_string.get_part w sd id_host = _
    rw [y4]
    rw [show 2 + U + PW + H - (2 + U + PW) = H by omega,
      show 2 + U + PW = (U + PW) + 1 + 1 by omega, List.drop_succ_cons, List.drop_succ_cons]
  · show indexed_string.get_part w sd id_port = _
    rw [y5]
    rw [show 2 + U + PW + H = (U + PW + H) + 1 + 1 by omega, List.drop_succ_cons,
      List.drop_succ_cons]
  · intro hnz
    apply y8
    intro x hx
    simp only [List.mem_cons] at hx
    rcases hx with c | c | c
    · omega
    · omega
    · exact hnz x c

end url_base
end Url

namespace Url
namespace url_base

/-- Effect of `set_encoded_host(s)` for a non-empty `s` on a URL with an authority: the
host part becomes `s`, the host kind is the one the parser reports, and every other part is
kept. -/
theorem set_encoded_host_keep_spec {w : Nat} {a : storage}
    {parse_hostname parse_plain_hostname : List Nat → Option host_type} {e : pct_encoding}
    {s : List Nat} {u : url_base} {hk : host_type}
    (hP : u.pt_.base.index_.length = id_end) (h : indexed_string.wf w u.pt_.base)
    (hs : s ≠ []) (hph : parse_hostname s = some hk)
    (hauth : u.has_authority w = true)
    (hsz : length_all u.pt_.base.index_ + s.length + 3 < 2 ^ w)
    (halloc : ∀ m, ∃ f, a.allocate m = Except.ok f) :
    ∃ u', set_encoded_host w a parse_hostname parse_plain_hostname e s u = outcome.ok u' () ∧
      u'.pt_.base.index_.length = id_end ∧
      u'.part w id_host = s ∧ u'.pt_.host = hk ∧
      (∀ j, j < id_end → j ≠ id_host →
        u'.part_length w j = u.part_length w j ∧ u'.part w j = u.part w j) ∧
      part_index_check u'.pt_.base.index_ = true ∧
      ((∀ x, x ∈ s → x ≠ 0) → indexed_string.wf w u'.pt_.base) ∧
      u'.pt_.nseg = u.pt_.nseg ∧ u'.pt_.nparam = u.pt_.nparam := by
  have hi : id_host < u.pt_.base.index_.length := by rw [hP]; decide
  obtain ⟨st2, e2, sp, hlen, hidx, hl, hg, hoth, hwf⟩ :=
    @indexed_string.resize_then_fill w a id_host s u.pt_.base h hi
      (by intro hh; exact ⟨by omega, fun _ => halloc _⟩)
      (fun st dest => st.write dest s)
      (by
        intro st1 hroom _
        obtain ⟨sb, eb, ib, cb, nb, lb, bb⟩ :=
          @indexed_string.write_spec st1 (offset u.pt_.base.index_ id_host) s
            (Or.inr hroom)
        refine ⟨sb, eb, ib, cb, nb, lb, ?_, ?_⟩
        · intro x hx
          rw [bb x, if_neg (by omega)]
        · intro x hx
          rw [bb, if_pos (by omega)]
          congr 1
          omega)
  refine ⟨{ pt_ := { (u.with_base st2).pt_ with host := hk } }, ?_, hlen.trans hP, hg, rfl,
    ?_, ?_, hwf, rfl, rfl⟩
  · unfold set_encoded_host url_base.resize
    simp only [hs, if_false, hph, hauth, Bool.true_eq_false]
    rw [on_base_ok e2]
    rfl
  · intro j hj hjh
    exact hoth j (by rw [hP]; exact hj) hjh
  · apply sp.index_mono h (Nat.lt_succ_self _) hi
    intro j hj1 hj2
    have : j = id_host := by omega
    subst this
    show _ ≤ idx st2.index_ id_host ∧ idx st2.index_ id_host ≤ _ ∧ _
    rw [hidx]
    exact ⟨by omega, by omega, fun hh => by omega⟩

/-- Effect of `set_encoded_host(s)` for a non-empty `s` on a URL without an authority: the
user part becomes `//`, the host part `s`, the password and port parts stay empty, the host
kind is the one the parser reports, and every part outside the authority is kept. -/
theorem set_encoded_host_add_spec {w : Nat} {a : storage}
    {parse_hostname parse_plain_hostname : List Nat → Option host_type} {e : pct_encoding}
    {s : List Nat} {u : url_base} {hk : host_type}
    (hP : u.pt_.base.index_.length = id_end) (h : indexed_string.wf w u.pt_.base)
    (hs : s ≠ []) (hph : parse_hostname s = some hk)
    (hauth : u.has_authority w = false)
    (hsz : length_all u.pt_.base.index_ + s.length + 3 < 2 ^ w)
    (halloc : ∀ m, ∃ f, a.allocate m = Except.ok f) :
    ∃ u', set_encoded_host w a parse_hostname parse_plain_hostname e s u = outcome.ok u' () ∧
      u'.pt_.base.index_.length = id_end ∧
      u'.part w id_user = [47, 47] ∧ u'.part w id_password = [] ∧
      u'.part w id_host = s ∧ u'.part w id_port = [] ∧ u'.pt_.host = hk ∧
      (∀ j, j < id_end → (j < id_user ∨ id_path ≤ j) →
        u'.part_length w j = u.part_length w j ∧ u'.part w j = u.part w j) ∧
      part_index_check u'.pt_.base.index_ = true ∧
      ((∀ x, x ∈ s → x ≠ 0) → indexed_string.wf w u'.pt_.base) ∧
      u'.pt_.nseg = u.pt_.nseg ∧ u'.pt_.nparam = u.pt_.nparam := by
  have hi : id_user < u.pt_.base.index_.length := by rw [hP]; decide
  have hhi : id_path ≤ u.pt_.base.index_.length := by rw [hP]; decide
  have hLw := h.all_lt
  have ohL : offset u.pt_.base.index_ id_path ≤ length_all u.pt_.base.index_ :=
    h.offset_le_all hhi
  have hnone : offset u.pt_.base.index_ id_path = offset u.pt_.base.index_ id_user := by
    unfold has_authority at hauth
    simp only [ne_eq, decide_not, Bool.not_eq_eq_eq_not, Bool.not_false,
      decide_eq_true_eq] at hauth
    rw [h.length_range_eq (by decide) hhi] at hauth
    have := h.offset_mono (show id_user ≤ id_path by decide) hhi
    omega
  have m12 := h.offset_mono (show id_user ≤ id_password by decide)
    (show id_password ≤ u.pt_.base.index_.length by rw [hP]; decide)
  have m23 := h.offset_mono (show id_password ≤ id_host by decide)
    (show id_host ≤ u.pt_.base.index_.length by rw [hP]; decide)
  have m34 := h.offset_mono (show id_host ≤ id_port by decide)
    (show id_port ≤ u.pt_.base.index_.length by rw [hP]; decide)
  have m45 := h.offset_mono (show id_port ≤ id_path by decide) hhi
  have hlen0 : length w u.pt_.base.index_ id_user = 0 := by
    rw [h.length_eq hi]
    show offset u.pt_.base.index_ id_password - _ = 0
    omega
  obtain ⟨st1, e1, sp1, hmid1, -⟩ :=
    @indexed_string.resize_splice w a id_user (2 + s.length) u.pt_.base h hi
      (by intro hh; exact ⟨by omega, fun _ => halloc _⟩)
  have spw := sp1.widen h (show id_user + 1 ≤ id_path by decide) hhi
  rw [show offset u.pt_.base.index_ id_path - offset u.pt_.base.index_ (id_user + 1) = 0 by
      show offset u.pt_.base.index_ id_path - offset u.pt_.base.index_ id_password = 0
      omega, Nat.add_zero] at spw
  have hle1 := spw.total_le h
  have hlt1 := spw.total_lt h
  have ho1 := (spw.frame h (by decide) hhi).2.2.2.1
  have hlen1 : st1.index_.length = id_end := sp1.parts.trans hP
  have hix : ∀ j, id_user ≤ j → j < id_path →
      idx st1.index_ j = offset u.pt_.base.index_ id_user + (2 + s.length) := by
    intro j hj1 hj2
    have hh := sp1.high j (by simp only [id_user] at hj1 ⊢; omega)
      (by rw [hP]; simp only [id_path, id_end] at hj2 ⊢; omega)
    rw [hh]
    have oj : offset u.pt_.base.index_ (j + 1) = idx u.pt_.base.index_ j :=
      indexed_string.offset_succ _ _
    have mj1 := h.offset_mono (show id_user ≤ j + 1 by omega)
      (show j + 1 ≤ u.pt_.base.index_.length by
        rw [hP]; simp only [id_path, id_end] at hj2 ⊢; omega)
    have mj2 := h.offset_mono (show j + 1 ≤ id_path by omega) hhi
    have : offset u.pt_.base.index_ (id_user + 1) = offset u.pt_.base.index_ id_user := by
      show offset u.pt_.base.index_ id_password = _
      omega
    omega
  generalize hoff : offset u.pt_.base.index_ id_user = off at *
  have hT : off + (2 + s.length) ≤ (st1.s_.getD []).length := by omega
  obtain ⟨sa, ea, ia, ca, na, la, ba⟩ := @indexed_string.poke_spec st1 off 47 (by omega)
  obtain ⟨sb, eb, ib, cb, nb, lb, bb⟩ :=
    @indexed_string.poke_spec sa (off + 1) 47 (by omega)
  have hidx1 : sb.index_ = st1.index_ := ib.trans ia
  obtain ⟨sd, ed, id', cd, nd, ld, bd⟩ :=
    @indexed_string.write_spec
      { sb with index_ := split w (split w sb.index_ id_user 2) id_password 0 } (off + 2) s
      (Or.inr (by show _ ≤ (sb.s_.getD []).length; omega))
  have hsdi : sd.index_ = split w (split w sb.index_ id_user 2) id_password 0 := id'
  have hi1 : idx (split w sb.index_ id_user 2) id_user = off + 2 := by
    rw [indexed_string.idx_split _ _ _ _ _ (by rw [hidx1, hlen1]; decide), if_pos rfl,
      hidx1, ho1, wadd_eq (by omega)]
  have hi2 : idx sd.index_ id_password = off + 2 := by
    rw [hsdi, indexed_string.idx_split _ _ _ _ _ (by
      rw [indexed_string.length_split, hidx1, hlen1]; decide), if_pos rfl,
      show offset (split w sb.index_ id_user 2) id_password =
        idx (split w sb.index_ id_user 2) id_user from indexed_string.offset_succ _ 1, hi1,
      wadd_eq (by omega)]
  have hi1' : idx sd.index_ id_user = off + 2 := by
    rw [hsdi, indexed_string.idx_split _ _ _ _ _ (by
      rw [indexed_string.length_split, hidx1, hlen1]; decide), if_neg (by decide), hi1]
  have hother : ∀ j, j ≠ id_user → j ≠ id_password →
      idx sd.index_ j = idx st1.index_ j := by
    intro j j1 j2
    rw [hsdi, indexed_string.idx_split _ _ _ _ _ (by
      rw [indexed_string.length_split, hidx1, hlen1]; decide), if_neg j2,
      indexed_string.idx_split _ _ _ _ _ (by rw [hidx1, hlen1]; decide), if_neg j1, hidx1]
  have bfin : ∀ x, byte_at (sd.s_.getD []) x =
      if off + 2 ≤ x ∧ x < off + 2 + s.length then byte_at s (x - (off + 2))
      else if x = off + 1 then 47
      else if x = off then 47
      else byte_at (st1.s_.getD []) x := by
    intro x
    rw [bd x]
    show _ = _
    by_cases c : off + 2 ≤ x ∧ x < off + 2 + s.length
    · rw [if_pos c, if_pos c]
    · rw [if_neg c, if_neg c]
      show byte_at (sb.s_.getD []) x = _
      rw [bb x, ba x]
  have spd : indexed_string.splice w u.pt_.base sd id_user id_path (off + (2 + s.length)) := by
    have q1 := @indexed_string.splice.overwrite w u.pt_.base st1 sb id_user id_path
      (off + (2 + s.length)) h hhi spw hidx1 (cb.trans ca) (lb.trans la) (nb.trans na) (by
        intro x hx
        rw [hoff] at hx
        rw [bb x, ba x, if_neg (by omega), if_neg (by omega)])
    have q2 : indexed_string.splice w u.pt_.base
        { sb with index_ := split w (split w sb.index_ id_user 2) id_password 0 }
        id_user id_path (off + (2 + s.length)) := by
      apply q1.reindex
      · show (split w (split w sb.index_ id_user 2) id_password 0).length = sb.index_.length
        rw [indexed_string.length_split, indexed_string.length_split]
      · rfl
      · rfl
      · intro j hj
        show idx (split w (split w sb.index_ id_user 2) id_password 0) j = idx sb.index_ j
        rw [← hsdi, hother j
          (by simp only [id_user, id_password, id_host, id_path] at hj ⊢; omega)
          (by simp only [id_user, id_password, id_host, id_path] at hj ⊢; omega), hidx1]
    exact q2.overwrite h hhi id' cd ld nd (by
      intro x hx
      rw [hoff] at hx
      rw [bd x, if_neg (by omega)])
  have lay := @indexed_string.splice.authority_layout w u.pt_.base sd (47 :: 47 :: s)
    2 2 (2 + s.length) h hP
    (by rw [hoff]; simp only [List.length_cons]
        rw [show s.length + 1 + 1 = 2 + s.length by omega]; exact spd)
    (by rw [hoff]; exact hi1') (by rw [hoff]; exact hi2)
    (by rw [hoff, hother id_host (by decide) (by decide)]
        exact hix id_host (by decide) (by decide))
    (by omega) (by omega)
    (by simp only [List.length_cons]; omega)
    (by
      intro k hk
      simp only [List.length_cons] at hk
      rw [hoff, bfin]
      match k with
      | 0 =>
        rw [if_neg (by omega), if_neg (by omega), if_pos (by omega)]
        rfl
      | 1 =>
        rw [if_neg (by omega), if_pos (by omega)]
        rfl
      | k + 2 =>
        rw [if_pos (by omega)]
        simp only [byte_at, List.getD_cons_succ]
        congr 1
        omega)
  obtain ⟨y1, y2, y3, y4, y5, y6, y7, y8⟩ := lay
  refine ⟨{ pt_ := { (u.with_base sd).pt_ with host := hk } }, ?_, y1, ?_, ?_, ?_, ?_, rfl,
    y6, y7, ?_, rfl, rfl⟩
  · unfold set_encoded_host url_base.resize
    simp only [hs, if_false, hph, hauth, if_true]
    rw [wadd_eq (show 2 + s.length < 2 ^ w by omega), e1]
    simp only [outcome.andThen, ea, eb, indexed_string.split_part]
    rw [on_base_ok ed]
  · show indexed_string.get_part w sd id_user = _
    rw [y2]
    rfl
  · show indexed_string.get_part w sd id_password = _
    rw [y3]
    rfl
  · show indexed_string.get_part w sd id_host = _
    rw [y4, show 2 + s.length - 2 = s.length by omega]
    show List.take s.length s = s
    exact List.take_length s
  · show indexed_string.get_part w sd id_port = _
    rw [y5, show 2 + s.length = s.length + 1 + 1 by omega, List.drop_succ_cons,
      List.drop_succ_cons]
    exact List.drop_length s
  · intro hnz
    apply y8
    intro x hx
    simp only [List.mem_cons] at hx
    rcases hx with c | c | c
    · omega
    · omega
    · exact hnz x c

end url_base
end Url

/-! ## Iteration over the path segments -/

namespace Url

/-- A list splits into the bytes before its first `/` and the rest. -/
theorem span_slash (t : List Nat) :
    ∃ v r, t = v ++ r ∧ 47 ∉ v ∧ (r = [] ∨ r.head? = some 47) := by
  induction t with
  | nil => exact ⟨[], [], rfl, by simp, Or.inl rfl⟩
  | cons c t ih =>
    by_cases hc : c = 47
    · exact ⟨[], c :: t, rfl, by simp, Or.inr (by rw [hc]; rfl)⟩
    · obtain ⟨v, r, e, hv, hr⟩ := ih
      refine ⟨c :: v, r, by rw [e]; rfl, ?_, hr⟩
      simp only [List.mem_cons, not_or]
      exact ⟨fun h => hc h.symm, hv⟩

/-- A path that is empty or starts with `/` is the join of its segments, none of which
holds a `/`, and there are as many of them as the path has `/`. -/
theorem split_segments : ∀ (n : Nat) (l : List Nat), l.length ≤ n →
    (l = [] ∨ l.head? = some 47) →
    ∃ vs, join_segments vs = l ∧ (∀ v, v ∈ vs → 47 ∉ v) ∧ vs.length = l.count 47 := by
  intro n
  induction n with
  | zero =>
    intro l hl _
    have : l = [] := List.length_eq_zero.1 (by omega)
    subst this
    exact ⟨[], rfl, by simp, rfl⟩
  | succ n ih =>
    intro l hl h
    match l, hl, h with
    | [], _, _ => exact ⟨[], rfl, by simp, rfl⟩
    | c :: t, hl, h =>
      have hc : c = 47 := by
        rcases h with h | h
        · exact absurd h (by simp)
        · simpa using h
      subst hc
      obtain ⟨v, r, e, hv, hr⟩ := span_slash t
      have hrl : r.length ≤ n := by
        have := congrArg List.length e
        simp only [List.length_append] at this
        simp only [List.length_cons] at hl
        omega
      obtain ⟨vs, e1, e2, e3⟩ := ih r hrl hr
      refine ⟨v :: vs, ?_, ?_, ?_⟩
      · show 47 :: v ++ join_segments vs = 47 :: t
        rw [e1, e]
        rfl
      · intro v' hv'
        rcases List.mem_cons.1 hv' with c | c
        · rw [c]; exact hv
        · exact e2 v' c
      · rw [e, List.count_cons_self, List.count_append, List.count_eq_zero_of_not_mem hv,
          List.length_cons, e3]
        omega

theorem join_segments_length_pos (v : List Nat) (vs : List (List Nat)) :
    (join_segments (v :: vs)).length = 1 + v.length + (join_segments vs).length := by
  show (47 :: v ++ join_segments vs).length = _
  simp only [List.cons_append, List.length_cons, List.length_append]
  omega

/-- Reading the bytes of `47 :: v ++ l` off the buffer from `x` on. -/
theorem segment_bytes {b : List Nat} {x : Nat} {v l : List Nat}
    (h : ∀ k, k < (47 :: v ++ l).length → byte_at b (x + k) = byte_at (47 :: v ++ l) k) :
    byte_at b x = 47 ∧ (∀ i, i < v.length → byte_at b (x + 1 + i) = byte_at v i) ∧
    (∀ k, k < l.length → byte_at b (x + 1 + v.length + k) = byte_at l k) := by
  have hlen : (47 :: v ++ l).length = 1 + v.length + l.length := by
    simp only [List.cons_append, List.length_cons, List.length_append]
    omega
  rw [hlen] at h
  refine ⟨?_, ?_, ?_⟩
  · have := h 0 (by omega)
    rw [Nat.add_zero] at this
    rw [this]
    rfl
  · intro i hi
    have := h (i + 1) (by omega)
    rw [show x + (i + 1) = x + 1 + i by omega] at this
    rw [this]
    show byte_at (47 :: (v ++ l)) (i + 1) = _
    rw [byte_at_cons_succ, byte_at_append, if_pos hi]
  · intro k hk
    have := h (v.length + k + 1) (by omega)
    rw [show x + (v.length + k + 1) = x + 1 + v.length + k by omega] at this
    rw [this]
    show byte_at (47 :: (v ++ l)) (v.length + k + 1) = _
    rw [byte_at_cons_succ, byte_at_append, if_neg (by omega)]
    congr 1
    omega

namespace segments_type

theorem peek_some {st : indexed_string} {b : List Nat} (hb : st.s_ = some b) {p : Nat}
    (hp : p < b.length) : st.peek p = some (byte_at b p) := by
  unfold indexed_string.peek
  rw [hb]
  simp only [hp, if_true]

/-- The loop of `parse` stops after the `m` bytes that are not `/`. -/
theorem parse_loop_spec {st : indexed_string} {b : List Nat} (hb : st.s_ = some b) :
    ∀ (m p fuel : Nat), m ≤ fuel → p + fuel ≤ b.length →
      (∀ i, i < m → byte_at b (p + i) ≠ 47) → (fuel = m ∨ byte_at b (p + m) = 47) →
      parse_loop fuel p st = some (p + m) := by
  intro m
  induction m with
  | zero =>
    intro p fuel _ hroom _ hend
    match fuel, hroom, hend with
    | 0, _, _ => rfl
    | k + 1, hroom, hend =>
      have h47 : byte_at b p = 47 := by
        rcases hend with c | c
        · omega
        · exact c
      show (match st.peek p with
        | none => none
        | some c => if c = 47 then some p else parse_loop k (p + 1) st) = _
      rw [peek_some hb (by omega)]
      simp only [h47, if_true, Nat.add_zero]
  | succ m ih =>
    intro p fuel hm hroom hv hend
    match fuel, hm, hroom, hend with
    | 0, hm, _, _ => omega
    | k + 1, hm, hroom, hend =>
      have hne : byte_at b p ≠ 47 := by
        have := hv 0 (by omega)
        rw [Nat.add_zero] at this
        exact this
      show (match st.peek p with
        | none => none
        | some c => if c = 47 then some p else parse_loop k (p + 1) st) = _
      rw [peek_some hb (by omega)]
      simp only [hne, if_false]
      rw [ih (p + 1) k (by omega) (by omega) (by
          intro i hi
          have := hv (i + 1) (by omega)
          rw [show p + (i + 1) = p + 1 + i by omega] at this
          exact this) (by
          rcases hend with c | c
          · left; omega
          · right
            rw [show p + 1 + m = p + (m + 1) by omega]
            exact c)]
      congr 1
      omega

/-- Effect of `parse` on a segment: at a `/` followed by `m` bytes that are not `/`, up to
the end of the path or the next `/`, the length found is `1 + m`. -/
theorem parse_segment {w : Nat} {u : url_base} {b : List Nat}
    (hb : u.pt_.base.s_ = some b) {x m : Nat} (n0 : Nat)
    (hq : x + 1 + m ≤ offset u.pt_.base.index_ id_query)
    (hqf : offset u.pt_.base.index_ id_query ≤ offset u.pt_.base.index_ id_frag)
    (hcap : offset u.pt_.base.index_ id_query < b.length)
    (hw : offset u.pt_.base.index_ id_query < 2 ^ w)
    (h47 : byte_at b x = 47) (hv : ∀ i, i < m → byte_at b (x + 1 + i) ≠ 47)
    (hend : x + 1 + m = offset u.pt_.base.index_ id_query ∨ byte_at b (x + 1 + m) = 47) :
    parse w u ⟨x, n0⟩ = some ⟨x, 1 + m⟩ := by
  unfold parse
  simp only
  rw [if_neg (by omega), peek_some hb (by omega)]
  simp only [h47, if_true]
  rw [parse_loop_spec hb m (x + 1) (offset u.pt_.base.index_ id_query - (x + 1)) (by omega)
    (by omega) hv (by
      rcases hend with c | c
      · left; omega
      · right; exact c)]
  simp only
  rw [wsub_eq (by omega) (by omega)]
  congr 2
  omega

/-- Effect of `parse` at the start of a non-empty query part: the length found is `0`,
unless the query part starts with `/`. -/
theorem parse_at_query {w : Nat} {u : url_base} {b : List Nat}
    (hb : u.pt_.base.s_ = some b) (n0 : Nat)
    (hne : offset u.pt_.base.index_ id_query ≠ offset u.pt_.base.index_ id_frag)
    (hcap : offset u.pt_.base.index_ id_query < b.length)
    (hw : offset u.pt_.base.index_ id_query + 1 < 2 ^ w) :
    parse w u ⟨offset u.pt_.base.index_ id_query, n0⟩ =
      some ⟨offset u.pt_.base.index_ id_query,
        if byte_at b (offset u.pt_.base.index_ id_query) = 47 then 1 else 0⟩ := by
  unfold parse
  simp only
  rw [if_neg hne, peek_some hb hcap]
  simp only
  by_cases c : byte_at b (offset u.pt_.base.index_ id_query) = 47
  · simp only [c, if_true]
    rw [show offset u.pt_.base.index_ id_query - (offset u.pt_.base.index_ id_query + 1) = 0 by
      omega]
    show some _ = _
    rw [wsub_eq (by omega) (by omega)]
    congr 2
    omega
  · simp only [c, if_false]
    rw [Nat.sub_self]
    show some _ = _
    rw [wsub_eq (by omega) (by omega)]
    congr 2
    omega

/-- Value of an iterator on a segment. -/
theorem value_segment {u : url_base} {b : List Nat} (hb : u.pt_.base.s_ = some b)
    {x : Nat} {v : List Nat} (hroom : x + 1 + v.length ≤ b.length)
    (h47 : byte_at b x = 47) (hv : ∀ i, i < v.length → byte_at b (x + 1 + i) = byte_at v i) :
    value u ⟨x, 1 + v.length⟩ = v := by
  have e : (b.drop x).take (1 + v.length) = 47 :: v := by
    rw [show 1 + v.length = (47 :: v).length by simp only [List.length_cons]; omega]
    apply slice_eq_list
    · simp only [List.length_cons]; omega
    · intro k hk
      simp only [List.length_cons] at hk
      match k with
      | 0 => rw [Nat.add_zero, h47]; rfl
      | k + 1 =>
        rw [byte_at_cons_succ, show x + (k + 1) = x + 1 + k by omega]
        exact hv k (by omega)
  unfold value
  simp only [hb, Option.getD_some, e]
  simp

end segments_type
end Url

namespace Url

theorem join_segments_cases (vs : List (List Nat)) :
    vs = [] ∨ (0 < (join_segments vs).length ∧ byte_at (join_segments vs) 0 = 47) := by
  match vs with
  | [] => exact Or.inl rfl
  | v :: vs =>
    right
    rw [join_segments_length_pos]
    exact ⟨by omega, rfl⟩

namespace segments_type

theorem walk_succ {w : Nat} {u : url_base} {k : Nat} {it it1 it2 : segments_iterator}
    {vs : List (List Nat)} (h1 : next w u it = some it1)
    (h2 : walk w u k it1 = some (vs, it2)) :
    walk w u (k + 1) it = some (value u it :: vs, it2) := by
  simp only [walk, h1, h2]

/-- Effect of `++` on a segment that is not the last one of the path. -/
theorem next_inner {w : Nat} {u : url_base} {b : List Nat}
    (hb : u.pt_.base.s_ = some b) {x n m : Nat}
    (hq : x + n + 1 + m ≤ offset u.pt_.base.index_ id_query)
    (hqf : offset u.pt_.base.index_ id_query ≤ offset u.pt_.base.index_ id_frag)
    (hcap : offset u.pt_.base.index_ id_query < b.length)
    (hw : offset u.pt_.base.index_ id_query < 2 ^ w)
    (h47 : byte_at b (x + n) = 47) (hv : ∀ i, i < m → byte_at b (x + n + 1 + i) ≠ 47)
    (hend : x + n + 1 + m = offset u.pt_.base.index_ id_query ∨
      byte_at b (x + n + 1 + m) = 47) :
    next w u ⟨x, n⟩ = some ⟨x + n, 1 + m⟩ := by
  unfold next
  simp only
  rw [if_neg (by omega), wadd_eq (by omega), if_neg (by omega)]
  exact parse_segment hb n hq hqf hcap hw h47 hv hend

/-- Effect of `++` on the last segment of the path. -/
theorem next_last {w : Nat} {u : url_base} {b : List Nat}
    (hb : u.pt_.base.s_ = some b) {x n : Nat} (hn : 0 < n)
    (hq : x + n = offset u.pt_.base.index_ id_query)
    (hqf : offset u.pt_.base.index_ id_query ≤ offset u.pt_.base.index_ id_frag)
    (hcap : offset u.pt_.base.index_ id_query < b.length)
    (hw : offset u.pt_.base.index_ id_query + 1 < 2 ^ w) :
    ∃ it1, next w u ⟨x, n⟩ = some it1 ∧ it1.off_ = offset u.pt_.base.index_ id_query ∧
      ((offset u.pt_.base.index_ id_query = offset u.pt_.base.index_ id_frag ∨
        byte_at b (offset u.pt_.base.index_ id_query) ≠ 47) → it1.n_ = 0) := by
  unfold next
  simp only
  rw [if_neg (by omega), wadd_eq (by omega), hq]
  by_cases c : offset u.pt_.base.index_ id_query = offset u.pt_.base.index_ id_frag
  · rw [if_pos c]
    exact ⟨_, rfl, rfl, fun _ => rfl⟩
  · rw [if_neg c, parse_at_query hb n c hcap hw]
    refine ⟨_, rfl, rfl, ?_⟩
    intro h
    rcases h with h | h
    · exact absurd h c
    · show (if _ then 1 else 0) = 0
      rw [if_neg h]

/-- Walk over the segments `v :: vs` stored from `x` up to the end of the path. -/
theorem walk_spec {w : Nat} {u : url_base} {b : List Nat}
    (hb : u.pt_.base.s_ = some b)
    (hqf : offset u.pt_.base.index_ id_query ≤ offset u.pt_.base.index_ id_frag)
    (hcap : offset u.pt_.base.index_ id_query < b.length)
    (hw : offset u.pt_.base.index_ id_query + 1 < 2 ^ w) :
    ∀ (vs : List (List Nat)) (v : List Nat) (x : Nat),
      x + (join_segments (v :: vs)).length = offset u.pt_.base.index_ id_query →
      (∀ k, k < (join_segments (v :: vs)).length →
        byte_at b (x + k) = byte_at (join_segments (v :: vs)) k) →
      47 ∉ v → (∀ v', v' ∈ vs → 47 ∉ v') →
      ∃ it1, walk w u (vs.length + 1) ⟨x, 1 + v.length⟩ = some (v :: vs, it1) ∧
        it1.off_ = offset u.pt_.base.index_ id_query ∧
        ((offset u.pt_.base.index_ id_query = offset u.pt_.base.index_ id_frag ∨
          byte_at b (offset u.pt_.base.index_ id_query) ≠ 47) → it1.n_ = 0) ∧
        ∀ k, k < vs.length + 1 → ∃ vs' it',
          walk w u k ⟨x, 1 + v.length⟩ = some (vs', it') ∧
          it'.off_ < offset u.pt_.base.index_ id_query := by
  intro vs
  induction vs with
  | nil =>
    intro v x hx hbytes hv _
    rw [join_segments_length_pos] at hx
    have hx' : x + (1 + v.length) = offset u.pt_.base.index_ id_query := by
      simp only [join_segments, List.length_nil] at hx
      omega
    obtain ⟨h47, hvb, _⟩ := @segment_bytes b x v (join_segments []) hbytes
    obtain ⟨it1, e1, e2, e3⟩ := @next_last w u b hb x (1 + v.length) (by omega) hx' hqf hcap hw
    have hval := @value_segment u b hb x v (by omega) h47 hvb
    refine ⟨it1, ?_, e2, e3, ?_⟩
    · have := walk_succ e1 (show walk w u 0 it1 = some ([], it1) from rfl)
      rw [hval] at this
      exact this
    · intro k hk
      have : k = 0 := by simp only [List.length_nil] at hk; omega
      subst this
      exact ⟨[], _, rfl, by show x < _; omega⟩
  | cons v' vs' ih =>
    intro v x hx hbytes hv hvs
    rw [join_segments_length_pos] at hx
    have hl' := join_segments_length_pos v' vs'
    obtain ⟨h47, hvb, hrest⟩ := @segment_bytes b x v (join_segments (v' :: vs')) hbytes
    obtain ⟨h47', hvb', hrest'⟩ :=
      @segment_bytes b (x + 1 + v.length) v' (join_segments vs') hrest
    have hv' : 47 ∉ v' := hvs v' (List.mem_cons_self _ _)
    have hnext : next w u ⟨x, 1 + v.length⟩ = some ⟨x + (1 + v.length), 1 + v'.length⟩ := by
      apply next_inner hb (by omega) hqf hcap (by omega)
      · rw [show x + (1 + v.length) = x + 1 + v.length by omega]; exact h47'
      · intro i hi
        rw [show x + (1 + v.length) + 1 + i = x + 1 + v.length + 1 + i by omega, hvb' i hi]
        intro c
        exact hv' (c ▸ indexed_string.byte_at_mem hi)
      · rcases join_segments_cases vs' with c | ⟨c1, c2⟩
        · left
          subst c
          have e0 : (join_segments ([] : List (List Nat))).length = 0 := rfl
          rw [e0] at hl'
          omega
        · right
          have := hrest' 0 c1
          rw [Nat.add_zero] at this
          rw [show x + (1 + v.length) + 1 + v'.length = x + 1 + v.length + 1 + v'.length by
            omega, this, c2]
    obtain ⟨it1, e1, e2, e3, e4⟩ := ih v' (x + (1 + v.length)) (by omega) (by
        intro k hk
        rw [show x + (1 + v.length) + k = x + 1 + v.length + k by omega]
        exact hrest k hk) hv' (fun v2 h2 => hvs v2 (List.mem_cons_of_mem _ h2))
    have hval := @value_segment u b hb x v (by omega) h47 hvb
    refine ⟨it1, ?_, e2, e3, ?_⟩
    · have := walk_succ hnext e1
      rw [hval] at this
      exact this
    · intro k hk
      match k with
      | 0 => exact ⟨[], _, rfl, by show x < _; omega⟩
      | k + 1 =>
        obtain ⟨ws, it', f1, f2⟩ := e4 k (by simp only [List.length_cons] at hk ⊢; omega)
        exact ⟨_, it', walk_succ hnext f1, f2⟩

end segments_type
end Url

/-! ## Claims on the authority setters, rejected input and the segments -/

namespace Url
namespace url_base

/-- Claim C21.  For a URL in stored form and every non-empty `s` the hostname parser
accepts (the grow succeeding), `set_encoded_host(s)` returns; afterwards the host part is
`s` and the host kind is the one the parser reports; when there was no authority the user
part is exactly `//` and the password part and the port part are empty; when there was one
the user, password and port parts are the old ones; the scheme, path, query and fragment
parts are the old ones in both cases, and the index is non-decreasing (I1). -/
theorem C21_set_encoded_host (w : Nat) (a : storage)
    (parse_hostname parse_plain_hostname : List Nat → Option host_type) (e : pct_encoding)
    (s : List Nat) (u : url_base) (hk : host_type)
    (hsf : stored_form w u) (hs : s ≠ []) (hph : parse_hostname s = some hk)
    (hsz : length_all u.pt_.base.index_ + s.length + 3 < 2 ^ w)
    (halloc : ∀ m, ∃ f, a.allocate m = Except.ok f) :
    ∃ u', set_encoded_host w a parse_hostname parse_plain_hostname e s u = outcome.ok u' () ∧
      u'.part w id_host = s ∧ u'.pt_.host = hk ∧
      (u.has_authority w = false →
        u'.part w id_user = [47, 47] ∧ u'.part w id_password = [] ∧ u'.part w id_port = []) ∧
      (u.has_authority w = true →
        u'.part w id_user = u.part w id_user ∧
        u'.part w id_password = u.part w id_password ∧
        u'.part w id_port = u.part w id_port) ∧
      u'.part w id_scheme = u.part w id_scheme ∧ u'.part w id_path = u.part w id_path ∧
      u'.part w id_query = u.part w id_query ∧ u'.part w id_frag = u.part w id_frag ∧
      part_index_check u'.pt_.base.index_ = true := by
  by_cases hauth : u.has_authority w = true
  · obtain ⟨u', e1, _, hh, hkind, hfr, hmono, _⟩ :=
      @set_encoded_host_keep_spec w a parse_hostname parse_plain_hostname e s u hk hsf.1
        hsf.base_wf hs hph hauth hsz halloc
    refine ⟨u', e1, hh, hkind, fun c => ?_, fun _ => ⟨?_, ?_, ?_⟩, ?_, ?_, ?_, ?_, hmono⟩
    · rw [hauth] at c; exact absurd c (by decide)
    · exact (hfr id_user (by decide) (by decide)).2
    · exact (hfr id_password (by decide) (by decide)).2
    · exact (hfr id_port (by decide) (by decide)).2
    · exact (hfr id_scheme (by decide) (by decide)).2
    · exact (hfr id_path (by decide) (by decide)).2
    · exact (hfr id_query (by decide) (by decide)).2
    · exact (hfr id_frag (by decide) (by decide)).2
  · have hauth' : u.has_authority w = false := by
      cases hc : u.has_authority w
      · rfl
      · exact absurd hc hauth
    obtain ⟨u', e1, _, hu, hpw, hh, hpo, hkind, hfr, hmono, _⟩ :=
      @set_encoded_host_add_spec w a parse_hostname parse_plain_hostname e s u hk hsf.1
        hsf.base_wf hs hph hauth' hsz halloc
    refine ⟨u', e1, hh, hkind, fun _ => ⟨hu, hpw, hpo⟩, fun c => absurd c hauth,
      ?_, ?_, ?_, ?_, hmono⟩
    · exact (hfr id_scheme (by decide) (by decide)).2
    · exact (hfr id_path (by decide) (by decide)).2
    · exact (hfr id_query (by decide) (by decide)).2
    · exact (hfr id_frag (by decide) (by decide)).2

/-- Witness of C21: `set_encoded_host("h")` on a freshly constructed URL, which has no
authority. -/
theorem C21_set_encoded_host_witness :
    stored_form 64 empty_url ∧ empty_url.has_authority 64 = false ∧
    ∃ u', set_encoded_host 64 sample_storage accept_name accept_name identity_encoding [104]
        empty_url = outcome.ok u' () ∧
      u'.part 64 id_user = [47, 47] ∧ u'.part 64 id_password = [] ∧
      u'.part 64 id_host = [104] ∧ u'.part 64 id_port = [] ∧
      u'.pt_.host = host_type.name := by
  have hsf : stored_form 64 empty_url := by decide
  obtain ⟨u', e1, e2, e3, e4, _⟩ :=
    C21_set_encoded_host 64 sample_storage accept_name accept_name identity_encoding [104]
      empty_url host_type.name hsf (by decide) rfl (by decide) (fun _ => ⟨_, rfl⟩)
  obtain ⟨e5, e6, e7⟩ := e4 (by decide)
  exact ⟨hsf, by decide, u', e1, e5, e6, e2, e7, e3⟩

/-- Claim C22.  For a URL in stored form and every non-empty `s` for which the authority
parser returns a descriptor whose user, password, host and port lengths add up to `|s|`
(the grow succeeding), `set_encoded_authority(s)` returns; afterwards the user part is `//`
followed by the first bytes of `s`, the password part the next bytes, the host part the
next ones and the port part the last ones, each of the length the parser reports; the
index is non-decreasing (I1), and the scheme, path, query and fragment parts are the old
ones. -/
theorem C22_set_encoded_authority (w : Nat) (a : storage)
    (parse_authority : List Nat → Option parts) (s : List Nat) (u : url_base) (pt : parts)
    (hsf : stored_form w u) (hs : s ≠ []) (hpa : parse_authority s = some pt)
    (hsum : length w pt.index_ id_user + length w pt.index_ id_password +
      length w pt.index_ id_host + length w pt.index_ id_port = s.length)
    (hsz : length_all u.pt_.base.index_ + s.length + 3 < 2 ^ w)
    (halloc : ∀ m, ∃ f, a.allocate m = Except.ok f) :
    ∃ u', set_encoded_authority w a parse_authority s u = outcome.ok u' () ∧
      u'.part w id_user = 47 :: 47 :: s.take (length w pt.index_ id_user) ∧
      u'.part w id_password =
        (s.drop (length w pt.index_ id_user)).take (length w pt.index_ id_password) ∧
      u'.part w id_host =
        (s.drop (length w pt.index_ id_user + length w pt.index_ id_password)).take
          (length w pt.index_ id_host) ∧
      u'.part w id_port =
        s.drop (length w pt.index_ id_user + length w pt.index_ id_password +
          length w pt.index_ id_host) ∧
      (u'.part w id_port).length = length w pt.index_ id_port ∧
      part_index_check u'.pt_.base.index_ = true ∧
      u'.part w id_scheme = u.part w id_scheme ∧ u'.part w id_path = u.part w id_path ∧
      u'.part w id_query = u.part w id_query ∧ u'.part w id_frag = u.part w id_frag := by
  obtain ⟨u', e1, _, hu, hpw, hh, hpo, hfr, hmono, _⟩ :=
    @set_encoded_authority_spec w a parse_authority s u pt _ _ _ _ hsf.1 hsf.base_wf hs hpa
      rfl rfl rfl rfl hsum hsz halloc
  refine ⟨u', e1, hu, hpw, hh, hpo, ?_, hmono, ?_, ?_, ?_, ?_⟩
  · rw [hpo, List.length_drop]
    omega
  · exact (hfr id_scheme (by decide) (by decide)).2
  · exact (hfr id_path (by decide) (by decide)).2
  · exact (hfr id_query (by decide) (by decide)).2
  · exact (hfr id_frag (by decide) (by decide)).2

/-- Witness of C22: `set_encoded_authority("u:p@h:8")` on
`http://a:b@x.y:8080/p/q?k=v#f`. -/
theorem C22_set_encoded_authority_witness :
    stored_form 64 sample_url ∧
    ∃ u', set_encoded_authority 64 sample_storage (fun _ => some sample_authority_parts)
        [117, 58, 112, 64, 104, 58, 56] sample_url = outcome.ok u' () ∧
      u'.part 64 id_user = [47, 47, 117] ∧ u'.part 64 id_password = [58, 112, 64] ∧
      u'.part 64 id_host = [104] ∧ u'.part 64 id_port = [58, 56] ∧
      u'.part 64 id_path = [47, 112, 47, 113] := by
  have hsf : stored_form 64 sample_url := by decide
  obtain ⟨u', e1, e2, e3, e4, e5, _, _, _, e6, _⟩ :=
    C22_set_encoded_authority 64 sample_storage (fun _ => some sample_authority_parts)
      [117, 58, 112, 64, 104, 58, 56] sample_url sample_authority_parts hsf (by decide) rfl
      (by decide) (by decide) (fun _ => ⟨_, rfl⟩)
  exact ⟨hsf, u', e1, e2.trans (by decide), e3.trans (by decide), e4.trans (by decide),
    e5.trans (by decide), e6.trans (by decide)⟩

end url_base
end Url

namespace Url
namespace url_base

/-- Claim C23 fails on the code: on a fresh URL, with a userinfo parser that reports the
user of `u:p` as its first byte, `set_encoded_userinfo("u:p")` stores `//u:p@` and splits
the user part after one byte instead of three: the user part is `/`, not `//u`, and the
password part is `/u:p@`, not `:p@`. -/
theorem C23_userinfo_split_without_slashes :
    (one_byte_user [117, 58, 112]).map (fun pt => length 64 pt.index_ id_user) = some 1 ∧
    set_encoded_userinfo 64 sample_storage one_byte_user [117, 58, 112] empty_url =
      outcome.ok split_userinfo_url () ∧
    split_userinfo_url.part 64 id_user = [47] ∧
    split_userinfo_url.part 64 id_password = [47, 117, 58, 112, 64] ∧
    split_userinfo_url.part 64 id_user ≠ [47, 47, 117] ∧
    split_userinfo_url.part 64 id_password ≠ [58, 112, 64] := by
  decide

/-- Claim C24 fails on the code: on a fresh URL, which has no authority,
`set_port_part(":")` returns with the port part `:` and an empty user part, so the
authority parts read `:` and do not begin with `//`, and `encoded_authority()` then fails
its assertion; `set_port("8")` on the same URL stores `//:8`. -/
theorem C24_port_part_without_authority :
    indexed_string.get 64 empty_url.pt_.base id_user id_path = [] ∧
    set_port_part 64 sample_storage accept_all [58] empty_url = outcome.ok bare_port_url () ∧
    indexed_string.get 64 bare_port_url.pt_.base id_user id_path = [58] ∧
    bare_port_url.part 64 id_user = [] ∧ bare_port_url.part 64 id_port = [58] ∧
    encoded_authority 64 bare_port_url = none ∧
    set_port 64 sample_storage accept_all [56] empty_url = outcome.ok authority_port_url () ∧
    indexed_string.get 64 authority_port_url.pt_.base id_user id_path = [47, 47, 58, 56] := by
  decide

end url_base

namespace segments_type

/-- Claim C26 as stated fails on the code: what `insert_encoded(end(), "a")` stores on
`http://x/` is not the path `/a` with `nseg == 1`, and the call returns no state at all. -/
theorem C26_insert_writes_its_own_slash :
    insert_encoded_store 64 sample_storage identity_encoding ⟨9, 0⟩ [97] root_url =
      outcome.ok root_url_appended ⟨11, 0⟩ ∧
    root_url_appended.part 64 id_path ≠ [47, 97] ∧ root_url_appended.pt_.nseg ≠ 1 ∧
    ∀ u it, insert_encoded 64 sample_storage identity_encoding ⟨9, 0⟩ [97] root_url ≠
      outcome.ok u it := by
  refine ⟨by decide, by decide, by decide, ?_⟩
  intro u it
  have h : insert_encoded 64 sample_storage identity_encoding ⟨9, 0⟩ [97] root_url =
      outcome.fault := by decide
  rw [h]
  exact fun c => outcome.noConfusion c

/-- Claim C26, amended.  Over `http://x/`, whose path is `/` with `nseg == 1`, the
iteration yields exactly one element, the empty segment: `begin()` has the value `[]` and
`++` leads to `end()`.  `insert_encoded(end(), "a")` writes its own `/` in front of the new
segment and counts it: what it stores is the path part `//a` with `nseg == 2`, and I7
holds.  So it is on `http://x/?k`, where the call returns the URL `http://x//a?k`. -/
theorem C26_append_to_root_path :
    root_url.part 64 id_path = [47] ∧ root_url.pt_.nseg = 1 ∧
    begin 64 root_url = some ⟨8, 1⟩ ∧ value root_url ⟨8, 1⟩ = [] ∧
    next 64 root_url ⟨8, 1⟩ = some ⟨9, 0⟩ ∧ end_ 64 root_url = some ⟨9, 0⟩ ∧
    insert_encoded_store 64 sample_storage identity_encoding ⟨9, 0⟩ [97] root_url =
      outcome.ok root_url_appended ⟨11, 0⟩ ∧
    root_url_appended.part 64 id_path = [47, 47, 97] ∧ root_url_appended.pt_.nseg = 2 ∧
    root_url_appended.pt_.check_invariants 64 = true ∧
    root_query_url.part 64 id_path = [47] ∧ root_query_url.pt_.nseg = 1 ∧
    end_ 64 root_query_url = some ⟨9, 0⟩ ∧
    insert_encoded 64 sample_storage identity_encoding ⟨9, 0⟩ [97] root_query_url =
      outcome.ok root_query_url_appended ⟨11, 0⟩ ∧
    root_query_url_appended.part 64 id_path = [47, 47, 97] ∧
    root_query_url_appended.pt_.nseg = 2 ∧
    root_query_url_appended.pt_.check_invariants 64 = true := by
  decide

/-- Claim C27 fails on the code: over `/p/q`, a state with I1-I7 and no query,
`insert_encoded(end(), "a")` does not return: it stores the path `/p/q/a` with
`nseg == 3` and then parses the iterator it is about to return at `offset(id_frag)`, where
the assertion of `parse` fails. -/
theorem C27_append_without_query :
    indexed_string.valid 64 segments_url.pt_.base ∧
    segments_url.pt_.check_invariants 64 = true ∧
    end_ 64 segments_url = some ⟨4, 0⟩ ∧
    insert_encoded 64 sample_storage identity_encoding ⟨4, 0⟩ [97] segments_url =
      outcome.fault ∧
    insert_encoded_store 64 sample_storage identity_encoding ⟨4, 0⟩ [97] segments_url =
      outcome.ok segments_url_appended ⟨6, 0⟩ ∧
    segments_url_appended.part 64 id_path = [47, 112, 47, 113, 47, 97] ∧
    segments_url_appended.pt_.nseg = 3 ∧
    offset segments_url_appended.pt_.base.index_ id_frag = 6 ∧
    parse 64 segments_url_appended ⟨6, 0⟩ = none := by
  decide

/-- Claim C28 fails on the code: over `/p/q`, a state with I1-I7 and no query, `erase` of
the second segment, the range from `++begin()` to `end()`, does not return: it stores the
path `/p` with `nseg == 1` and then parses `first` at `offset(id_frag)`, where the
assertion of `parse` fails. -/
theorem C28_erase_last_segment :
    indexed_string.valid 64 segments_url.pt_.base ∧
    segments_url.pt_.check_invariants 64 = true ∧
    begin 64 segments_url = some ⟨0, 2⟩ ∧ next 64 segments_url ⟨0, 2⟩ = some ⟨2, 2⟩ ∧
    end_ 64 segments_url = some ⟨4, 0⟩ ∧
    erase 64 sample_storage ⟨2, 2⟩ ⟨4, 0⟩ segments_url = outcome.fault ∧
    erase_store 64 sample_storage ⟨2, 2⟩ ⟨4, 0⟩ segments_url =
      outcome.ok segments_url_erased ⟨2, 2⟩ ∧
    segments_url_erased.part 64 id_path = [47, 112] ∧ segments_url_erased.pt_.nseg = 1 ∧
    offset segments_url_erased.pt_.base.index_ id_frag = 2 ∧
    parse 64 segments_url_erased ⟨2, 2⟩ = none := by
  decide

/-- Claim C29 fails on the code: over the relative path `a/b`, where `nseg == 1`,
`begin()` is the segment `a`, which has no leading `/`; `replace_encoded(begin(), "x")`
writes `/x` in its place, so the path becomes `/x/b` with two `/` while `nseg` stays `1`:
I7 no longer holds. -/
theorem C29_replace_first_relative_segment :
    indexed_string.valid 64 relative_url.pt_.base ∧
    relative_url.pt_.check_invariants 64 = true ∧
    begin 64 relative_url = some ⟨0, 1⟩ ∧ value relative_url ⟨0, 1⟩ = [97] ∧
    replace_encoded 64 sample_storage identity_encoding ⟨0, 1⟩ [120] relative_url =
      outcome.ok relative_url_replaced ⟨0, 2⟩ ∧
    relative_url_replaced.part 64 id_path = [47, 120, 47, 98] ∧
    relative_url_replaced.pt_.nseg = 1 ∧
    (relative_url_replaced.part 64 id_path).count 47 = 2 ∧
    relative_url_replaced.pt_.check_invariants 64 = false := by
  decide

end segments_type
end Url

namespace Url
namespace url_base

/-- Claim C25.  For every state and every non-empty `s`: `set_userinfo_part(s)` with `s`
not ending in `@`, `set_port_part(s)` with `s` not beginning with `:`, `set_query_part(s)`
with `s` not beginning with `?` and `set_fragment_part(s)` with `s` not beginning with `#`
raise `invalid_part` and leave the state (buffer, index, `nseg`, `nparam`, host kind) as it
was; so does every raw setter whose `validate`, parser or matcher rejects its input: the
codec for the user, password, query, fragment and segment setters and for the part setters
behind their delimiter, the parser for the URL, origin, authority, userinfo and host
setters, the matcher for the scheme and port setters, the one path matcher that
`set_encoded_path` consults for the state and the input (`abempty` behind an authority,
else `absolute` for a leading `/`, else `noscheme` without a scheme, else `rootless`), and
the leading `:` that `set_encoded_password` refuses. -/
theorem C25_rejected_input_unchanged (w : Nat) (a : storage) (e : pct_encoding)
    (r : path_rules) (parse : List Nat → Option parts)
    (parse_host parse_plain : List Nat → Option host_type) (accept : List Nat → Bool)
    (pos : segments_iterator) (s : List Nat) (u : url_base) (hs : s ≠ []) :
    (s.getLast? ≠ some 64 →
      set_userinfo_part w a parse s u = outcome.raise error.invalid_part u) ∧
    (s.head? ≠ some 58 →
      set_port_part w a accept s u = outcome.raise error.invalid_part u) ∧
    (s.head? ≠ some 63 →
      set_query_part w a e s u = outcome.raise error.invalid_part u) ∧
    (s.head? ≠ some 35 →
      set_fragment_part w a e s u = outcome.raise error.invalid_part u) ∧
    (e.validate s = false →
      set_encoded_user w a e s u = outcome.raise error.invalid_part u ∧
      set_encoded_password w a e s u = outcome.raise error.invalid_part u ∧
      set_encoded_query w a e s u = outcome.raise error.invalid_part u ∧
      set_encoded_fragment w a e s u = outcome.raise error.invalid_part u ∧
      segments_type.insert_encoded w a e pos s u = outcome.raise error.invalid_part u ∧
      segments_type.replace_encoded w a e pos s u = outcome.raise error.invalid_part u) ∧
    (e.validate (s.drop 1) = false →
      set_query_part w a e s u = outcome.raise error.invalid_part u ∧
      set_fragment_part w a e s u = outcome.raise error.invalid_part u ∧
      (1 < s.length → set_password_part w a e s u = outcome.raise error.invalid_part u)) ∧
    (s.head? = some 58 →
      set_encoded_password w a e s u = outcome.raise error.invalid_part u) ∧
    (s.length = 1 → s.head? ≠ some 58 →
      set_password_part w a e s u = outcome.raise error.invalid_part u) ∧
    (parse s = none →
      set_encoded_url w a parse s u = outcome.raise error.invalid_part u ∧
      set_encoded_origin w a parse s u = outcome.raise error.invalid_part u ∧
      set_encoded_authority w a parse s u = outcome.raise error.invalid_part u ∧
      set_encoded_userinfo w a parse s u = outcome.raise error.invalid_part u) ∧
    (s.dropLast ≠ [] → parse s.dropLast = none →
      set_userinfo_part w a parse s u = outcome.raise error.invalid_part u) ∧
    (parse_host s = none →
      set_host w a parse_host e s u = outcome.raise error.invalid_part u ∧
      set_encoded_host w a parse_host parse_plain e s u =
        outcome.raise error.invalid_part u) ∧
    (accept s = false →
      set_scheme w a accept s u = outcome.raise error.invalid_part u ∧
      set_port w a accept s u = outcome.raise error.invalid_part u ∧
      ∀ (port_string : Nat → List Nat) (n : Nat), port_string n = s →
        set_port_unsigned w a accept port_string n u = outcome.raise error.invalid_part u) ∧
    (1 < s.length → accept (s.drop 1) = false →
      set_port_part w a accept s u = outcome.raise error.invalid_part u) ∧
    (u.has_authority w = true → r.match_path_abempty s = false →
      set_encoded_path w a r s u = outcome.raise error.invalid_part u) ∧
    (u.has_authority w = false → s.head? = some 47 → r.match_path_absolute s = false →
      set_encoded_path w a r s u = outcome.raise error.invalid_part u) ∧
    (u.has_authority w = false → s.head? ≠ some 47 → u.part_length w id_scheme = 0 →
      r.match_path_noscheme s = false →
      set_encoded_path w a r s u = outcome.raise error.invalid_part u) ∧
    (u.has_authority w = false → s.head? ≠ some 47 → u.part_length w id_scheme ≠ 0 →
      r.match_path_rootless s = false →
      set_encoded_path w a r s u = outcome.raise error.invalid_part u) := by
  have hd : 1 < s.length → s.drop 1 ≠ [] := by
    intro h1 h2
    have := congrArg List.length h2
    simp only [List.length_drop, List.length_nil] at this
    omega
  refine ⟨?_, ?_, ?_, ?_, ?_, ?_, ?_, ?_, ?_, ?_, ?_, ?_, ?_, ?_, ?_, ?_, ?_⟩
  · intro h
    simp [set_userinfo_part, hs, h]
  · intro h
    simp [set_port_part, hs, h]
  · intro h
    simp [set_query_part, hs, h]
  · intro h
    simp [set_fragment_part, hs, h]
  · intro h
    refine ⟨?_, ?_, ?_, ?_, ?_, ?_⟩
    · simp [set_encoded_user, hs, h]
    · unfold set_encoded_password
      by_cases c : s.head? = some 58
      · simp [hs, c]
      · simp [hs, c, h]
    · simp [set_encoded_query, hs, h]
    · simp [set_encoded_fragment, hs, h]
    · simp [segments_type.insert_encoded, segments_type.insert_encoded_store, h,
        outcome.andThen]
    · simp [segments_type.replace_encoded, h]
  · intro h
    rw [List.drop_one] at h
    refine ⟨?_, ?_, ?_⟩
    · unfold set_query_part
      by_cases c : s.head? = some 63
      · simp [hs, c, h]
      · simp [hs, c]
    · unfold set_fragment_part
      by_cases c : s.head? = some 35
      · simp [hs, c, h]
      · simp [hs, c]
    · intro h1
      have h2 : s.length ≠ 1 := by omega
      unfold set_password_part set_encoded_password
      by_cases c : (s.drop 1).head? = some 58
      · rw [List.drop_one] at c
        have := hd h1
        rw [List.drop_one] at this
        simp [hs, h2, this, c]
      · rw [List.drop_one] at c
        have := hd h1
        rw [List.drop_one] at this
        simp [hs, h2, this, c, h]
  · intro h
    simp [set_encoded_password, hs, h]
  · intro h1 h
    simp [set_password_part, hs, h1, h]
  · intro h
    refine ⟨?_, ?_, ?_, ?_⟩
    · simp [set_encoded_url, hs, h]
    · simp [set_encoded_origin, hs, h]
    · simp [set_encoded_authority, hs, h]
    · simp [set_encoded_userinfo, hs, h]
  · intro h1 h
    unfold set_userinfo_part set_encoded_userinfo
    by_cases c : s.getLast? = some 64
    · simp [hs, c, h1, h]
    · simp [hs, c]
  · intro h
    refine ⟨?_, ?_⟩
    · simp [set_host, hs, h]
    · simp [set_encoded_host, hs, h]
  · intro h
    refine ⟨?_, ?_, ?_⟩
    · simp [set_scheme, hs, h]
    · simp [set_port, hs, h]
    · intro port_string n hn
      simp [set_port_unsigned, set_port, hn, hs, h]
  · intro h1 h
    unfold set_port_part set_port
    have := hd h1
    rw [List.drop_one] at this h
    by_cases c : s.head? = some 58
    · simp [hs, c, h1, this, h]
    · simp [hs, c]
  · intro h1 h2
    simp [set_encoded_path, hs, h1, h2]
  · intro h1 h2 h3
    simp [set_encoded_path, hs, h1, h2, h3]
  · intro h1 h2 h3 h4
    simp [set_encoded_path, hs, h1, h2, h3, h4]
  · intro h1 h2 h3 h4
    simp [set_encoded_path, hs, h1, h2, h3, h4]

/-- Witness of C25: the input `x` on `http://a:b@x.y:8080/p/q?k=v#f`, with a codec, a
parser and a matcher that reject it, and with path matchers of which only `abempty`, the
one consulted behind an authority, rejects it; and the input `a:b` on the URL `a/b`, which
has neither scheme nor authority, with path matchers of which only `noscheme` rejects. -/
theorem C25_rejected_input_unchanged_witness :
    (set_userinfo_part 64 sample_storage reject_all [120] sample_url =
      outcome.raise error.invalid_part sample_url ∧
    set_port_part 64 sample_storage (fun _ => false) [120] sample_url =
      outcome.raise error.invalid_part sample_url ∧
    set_query_part 64 sample_storage ⟨fun s => s, fun _ => false⟩ [120] sample_url =
      outcome.raise error.invalid_part sample_url ∧
    set_fragment_part 64 sample_storage ⟨fun s => s, fun _ => false⟩ [120] sample_url =
      outcome.raise error.invalid_part sample_url ∧
    set_encoded_user 64 sample_storage ⟨fun s => s, fun _ => false⟩ [120] sample_url =
      outcome.raise error.invalid_part sample_url ∧
    set_encoded_authority 64 sample_storage reject_all [120] sample_url =
      outcome.raise error.invalid_part sample_url ∧
    set_encoded_path 64 sample_storage
        ⟨fun _ => false, fun _ => true, fun _ => true, fun _ => true⟩ [120] sample_url =
      outcome.raise error.invalid_part sample_url) ∧
    set_encoded_path 64 sample_storage
        ⟨fun _ => true, fun _ => true, fun _ => false, fun _ => true⟩ [97, 58, 98]
        relative_url =
      outcome.raise error.invalid_part relative_url := by
  have h := C25_rejected_input_unchanged 64 sample_storage ⟨fun s => s, fun _ => false⟩
    ⟨fun _ => false, fun _ => true, fun _ => true, fun _ => true⟩ reject_all (fun _ => none)
    (fun _ => none) (fun _ => false) ⟨19, 2⟩ [120] sample_url (by decide)
  have g := C25_rejected_input_unchanged 64 sample_storage identity_encoding
    ⟨fun _ => true, fun _ => true, fun _ => false, fun _ => true⟩ reject_all (fun _ => none)
    (fun _ => none) (fun _ => false) ⟨0, 1⟩ [97, 58, 98] relative_url (by decide)
  exact ⟨⟨h.1 (by decide), h.2.1 (by decide), h.2.2.1 (by decide), h.2.2.2.1 (by decide),
    (h.2.2.2.2.1 rfl).1, (h.2.2.2.2.2.2.2.2.1 rfl).2.2.1,
    h.2.2.2.2.2.2.2.2.2.2.2.2.2.1 (by decide) rfl⟩,
    g.2.2.2.2.2.2.2.2.2.2.2.2.2.2.2.1 (by decide) (by decide) (by decide) rfl⟩

end url_base
end Url

namespace Url

theorem head_eq_byte_at {l : List Nat} (h : 0 < l.length) : l.head? = some (byte_at l 0) := by
  match l, h with
  | c :: t, _ => rfl

namespace segments_type

/-- Claim C30.  For a state with eight parts that satisfies I1-I6 (a valid container) and
I7, and whose path part is empty or begins with `/`: `begin()` and `end()` return, and
`nseg` applications of `++` from `begin()` all return and end at the position of `end()`,
`offset(id_query)`, which no earlier step has reached; the iterator reached has the fields
of `end()` whenever the query part does not start with `/` (so in every stored form, with
or without query and fragment).  The values met are `nseg` lists without a `/`, and the
path part is their join, each behind its own `/`: the `i`-th value is the bytes between
the `i`-th `/` and the next one, or the end of the path. -/
theorem C30_segments_iteration (w : Nat) (u : url_base)
    (hP : u.pt_.base.index_.length = id_end) (hv : indexed_string.valid w u.pt_.base)
    (h7 : (u.part w id_path).count 47 = u.pt_.nseg)
    (habs : u.part w id_path = [] ∨ (u.part w id_path).head? = some 47) :
    ∃ it0 vs it1, begin w u = some it0 ∧
      end_ w u = some ⟨offset u.pt_.base.index_ id_query, 0⟩ ∧
      walk w u u.pt_.nseg it0 = some (vs, it1) ∧
      it1.off_ = offset u.pt_.base.index_ id_query ∧
      ((u.part w id_query).head? ≠ some 47 →
        it1 = ⟨offset u.pt_.base.index_ id_query, 0⟩) ∧
      (∀ k, k < u.pt_.nseg → ∃ vs' it', walk w u k it0 = some (vs', it') ∧
        it'.off_ < offset u.pt_.base.index_ id_query) ∧
      vs.length = u.pt_.nseg ∧ (∀ v, v ∈ vs → 47 ∉ v) ∧
      join_segments vs = u.part w id_path := by
  have h := indexed_string.wf_of_valid hv
  obtain ⟨vs, e1, e2, e3⟩ := split_segments _ (u.part w id_path) (le_refl _) habs
  rw [h7] at e3
  have hend : end_ w u = some ⟨offset u.pt_.base.index_ id_query, 0⟩ := by
    unfold end_ iterator
    rw [if_pos (Or.inl rfl)]
  match vs, e1, e2, e3 with
  | [], e1, e2, e3 =>
    have hn : u.pt_.nseg = 0 := e3.symm
    have hbegin : begin w u = some ⟨offset u.pt_.base.index_ id_query, 0⟩ := by
      unfold begin iterator
      rw [if_pos (Or.inr hn)]
    refine ⟨_, [], _, hbegin, hend, ?_, rfl, fun _ => rfl, ?_, e3, e2, e1⟩
    · rw [hn]; rfl
    · intro k hk
      omega
  | v :: vs', e1, e2, e3 =>
    have hj : id_path < u.pt_.base.index_.length := by rw [hP]; decide
    have hjq : id_query < u.pt_.base.index_.length := by rw [hP]; decide
    have hlen := join_segments_length_pos v vs'
    rw [e1] at hlen
    have hne : u.pt_.base.s_ ≠ none := by
      intro c
      have : u.part w id_path = [] := by
        unfold url_base.part indexed_string.get_part indexed_string.get
        rw [c]
        simp
      rw [this] at hlen
      simp only [List.length_nil] at hlen
      omega
    obtain ⟨b, hb⟩ := Option.ne_none_iff_exists'.1 hne
    have hbd : u.pt_.base.s_.getD [] = b := by rw [hb]; rfl
    obtain ⟨ht1, _⟩ := h.term hne
    have hbl := h.len
    rw [hbd] at hbl
    have hcap := h.cap
    have hqL : offset u.pt_.base.index_ id_query ≤ length_all u.pt_.base.index_ :=
      h.offset_le_all (by rw [hP]; decide)
    have hqf : offset u.pt_.base.index_ id_query ≤ offset u.pt_.base.index_ id_frag :=
      h.offset_mono (by decide) (by rw [hP]; decide)
    obtain ⟨g1, g2⟩ := h.get_part_bytes hj
    obtain ⟨_, p2, _⟩ := h.part_le hj
    rw [hbd] at g2
    have hpl : (u.part w id_path).length = length w u.pt_.base.index_ id_path := g1
    have hoq : offset u.pt_.base.index_ id_path + (join_segments (v :: vs')).length =
        offset u.pt_.base.index_ id_query := by
      rw [e1, hpl]
      exact p2
    have hbytes : ∀ k, k < (join_segments (v :: vs')).length →
        byte_at b (offset u.pt_.base.index_ id_path + k) =
          byte_at (join_segments (v :: vs')) k := by
      intro k hk
      rw [e1] at hk ⊢
      rw [hpl] at hk
      exact (g2 k hk).symm
    have hv0 : 47 ∉ v := e2 v (List.mem_cons_self _ _)
    obtain ⟨h47, hvb, hrest⟩ :=
      @segment_bytes b (offset u.pt_.base.index_ id_path) v (join_segments vs') hbytes
    have hn : u.pt_.nseg = vs'.length + 1 := e3.symm
    have hbegin : begin w u =
        some ⟨offset u.pt_.base.index_ id_path, 1 + v.length⟩ := by
      unfold begin iterator
      rw [if_neg (by
        intro c
        rcases c with c | c
        · exact absurd c (by decide)
        · omega)]
      apply parse_segment hb 0 (by rw [← e1] at hlen; omega) hqf (by omega) (by omega) h47
      · intro i hi
        rw [hvb i hi]
        intro c
        exact hv0 (c ▸ indexed_string.byte_at_mem hi)
      · rcases join_segments_cases vs' with c | ⟨c1, c2⟩
        · left
          subst c
          have e0 : (join_segments ([] : List (List Nat))).length = 0 := rfl
          rw [← e1, join_segments_length_pos, e0] at hlen
          rw [join_segments_length_pos, e0] at hoq
          omega
        · right
          have := hrest 0 c1
          rw [Nat.add_zero] at this
          rw [this, c2]
    obtain ⟨it1, w1, w2, w3, w4⟩ :=
      @walk_spec w u b hb hqf (by omega) (by omega) vs' v
        (offset u.pt_.base.index_ id_path) hoq hbytes hv0
        (fun v' h' => e2 v' (List.mem_cons_of_mem _ h'))
    refine ⟨_, v :: vs', it1, hbegin, hend, ?_, w2, ?_, ?_, e3, e2, e1⟩
    · rw [hn]; exact w1
    · intro hq
      have hn0 : it1.n_ = 0 := by
        apply w3
        by_cases c : offset u.pt_.base.index_ id_query = offset u.pt_.base.index_ id_frag
        · exact Or.inl c
        · right
          obtain ⟨q1, q2⟩ := h.get_part_bytes hjq
          obtain ⟨_, r2, _⟩ := h.part_le hjq
          rw [hbd] at q2
          have hpos : 0 < length w u.pt_.base.index_ id_query := by
            have : offset u.pt_.base.index_ (id_query + 1) =
                offset u.pt_.base.index_ id_frag := rfl
            omega
          have hh := @head_eq_byte_at (u.part w id_query) (by
            show 0 < (indexed_string.get_part w u.pt_.base id_query).length
            rw [q1]; exact hpos)
          have hb0 := q2 0 hpos
          rw [Nat.add_zero] at hb0
          intro c47
          apply hq
          rw [hh]
          show some (byte_at (indexed_string.get_part w u.pt_.base id_query) 0) = _
          rw [hb0, c47]
      cases it1 with
      | mk o n =>
        simp only at w2 hn0
        rw [w2, hn0]
    · intro k hk
      exact w4 k (by omega)

/-- Witness of C30: the two segments `p` and `q` of `http://a:b@x.y:8080/p/q?k=v#f`, a URL
with a query and a fragment. -/
theorem C30_segments_iteration_witness :
    indexed_string.valid 64 sample_url.pt_.base ∧ sample_url.pt_.nseg = 2 ∧
    sample_url.part 64 id_path = [47, 112, 47, 113] ∧
    ∃ it0 vs it1, begin 64 sample_url = some it0 ∧ end_ 64 sample_url = some ⟨23, 0⟩ ∧
      walk 64 sample_url 2 it0 = some (vs, it1) ∧ it1 = ⟨23, 0⟩ ∧
      vs.length = 2 ∧ join_segments vs = [47, 112, 47, 113] := by
  have hv : indexed_string.valid 64 sample_url.pt_.base := by decide
  obtain ⟨it0, vs, it1, e1, e2, e3, _, e5, _, e7, _, e9⟩ :=
    C30_segments_iteration 64 sample_url (by decide) hv (by decide) (by decide)
  exact ⟨hv, by decide, by decide, it0, vs, it1, e1, e2, e3, e5 (by decide), e7, e9⟩

end segments_type
end Url

/-! ## Backward steps over the path segments -/

namespace Url
namespace segments_type

theorem parse_off {w : Nat} {u : url_base} {it it1 : segments_iterator}
    (h : parse w u it = some it1) : it1.off_ = it.off_ := by
  unfold parse at h
  simp only at h
  split_ifs at h
  split at h
  · exact absurd h (by simp)
  · split at h
    · exact absurd h (by simp)
    · simp only [Option.some.injEq] at h
      rw [← h]

/-- Bytes that are not `/` from `y` on, up to the end `q` or the next `/`. -/
theorem segment_extent (b : List Nat) (q : Nat) : ∀ (d y : Nat), y + d = q →
    ∃ m, y + m ≤ q ∧ (∀ i, i < m → byte_at b (y + i) ≠ 47) ∧
      (y + m = q ∨ byte_at b (y + m) = 47) := by
  intro d
  induction d with
  | zero =>
    intro y hy
    exact ⟨0, by omega, fun i hi => by omega, Or.inl (by omega)⟩
  | succ d ih =>
    intro y hy
    by_cases c : byte_at b y = 47
    · exact ⟨0, by omega, fun i hi => by omega, Or.inr c⟩
    · obtain ⟨m, h1, h2, h3⟩ := ih (y + 1) (by omega)
      refine ⟨m + 1, by omega, ?_, ?_⟩
      · intro i hi
        match i with
        | 0 => exact c
        | i + 1 =>
          have := h2 i (by omega)
          rw [show y + (i + 1) = y + 1 + i by omega]
          exact this
      · rw [show y + (m + 1) = y + 1 + m by omega]
        exact h3

/-- Effect of `parse` on a segment, with or without a leading `/`. -/
theorem parse_any {w : Nat} {u : url_base} {b : List Nat}
    (hb : u.pt_.base.s_ = some b) {x m : Nat} (n0 : Nat)
    (hq : x + 1 + m ≤ offset u.pt_.base.index_ id_query)
    (hqf : offset u.pt_.base.index_ id_query ≤ offset u.pt_.base.index_ id_frag)
    (hcap : offset u.pt_.base.index_ id_query < b.length)
    (hw : offset u.pt_.base.index_ id_query < 2 ^ w)
    (hv : ∀ i, i < m → byte_at b (x + 1 + i) ≠ 47)
    (hend : x + 1 + m = offset u.pt_.base.index_ id_query ∨ byte_at b (x + 1 + m) = 47) :
    parse w u ⟨x, n0⟩ = some ⟨x, 1 + m⟩ := by
  by_cases h47 : byte_at b x = 47
  · exact parse_segment hb n0 hq hqf hcap hw h47 hv hend
  · unfold parse
    simp only
    rw [if_neg (by omega), peek_some hb (by omega)]
    simp only [h47, if_false]
    rw [parse_loop_spec hb (1 + m) x (offset u.pt_.base.index_ id_query - x) (by omega)
      (by omega) (by
        intro i hi
        match i with
        | 0 => exact h47
        | i + 1 =>
          rw [show x + (i + 1) = x + 1 + i by omega]
          exact hv i (by omega)) (by
        rcases hend with c | c
        · left; omega
        · right
          rw [show x + (1 + m) = x + 1 + m by omega]
          exact c)]
    simp only
    rw [wsub_eq (by omega) (by omega)]
    congr 2
    omega

/-- At the start of the path and at every `/` of the path `parse` finds a segment. -/
theorem parse_on_segment {w : Nat} {u : url_base} {b : List Nat}
    (hb : u.pt_.base.s_ = some b) {x : Nat} (n0 : Nat)
    (hox : offset u.pt_.base.index_ id_path ≤ x)
    (hxq : x < offset u.pt_.base.index_ id_query)
    (hqf : offset u.pt_.base.index_ id_query ≤ offset u.pt_.base.index_ id_frag)
    (hcap : offset u.pt_.base.index_ id_query < b.length)
    (hw : offset u.pt_.base.index_ id_query < 2 ^ w)
    (hx : x = offset u.pt_.base.index_ id_path ∨ byte_at b x = 47) :
    ∃ it, parse w u ⟨x, n0⟩ = some it ∧ it.off_ = x ∧
      on_segment b (offset u.pt_.base.index_ id_path) (offset u.pt_.base.index_ id_query)
        it := by
  obtain ⟨m, h1, h2, h3⟩ := segment_extent b (offset u.pt_.base.index_ id_query)
    (offset u.pt_.base.index_ id_query - (x + 1)) (x + 1) (by omega)
  refine ⟨⟨x, 1 + m⟩, parse_any hb n0 h1 hqf hcap hw h2 h3, rfl, ?_⟩
  refine ⟨hox, by show 1 ≤ 1 + m; omega, by show x + (1 + m) ≤ _; omega, ?_, hx, ?_⟩
  · intro i hi
    exact h2 i (by
      have : (1 + m) - 1 = m := by omega
      simp only [this] at hi
      exact hi)
  · show x + (1 + m) = _ ∨ byte_at b (x + (1 + m)) = 47
    rw [show x + (1 + m) = x + 1 + m by omega]
    exact h3

/-- Effect of `++` on an iterator that stands on a segment: it moves behind the segment,
and stands on a segment again unless it has reached the end of the path. -/
theorem next_on_segment {w : Nat} {u : url_base} {b : List Nat}
    (hb : u.pt_.base.s_ = some b) {it : segments_iterator}
    (hqf : offset u.pt_.base.index_ id_query ≤ offset u.pt_.base.index_ id_frag)
    (hcap : offset u.pt_.base.index_ id_query < b.length)
    (hw : offset u.pt_.base.index_ id_query + 1 < 2 ^ w)
    (hs : on_segment b (offset u.pt_.base.index_ id_path)
      (offset u.pt_.base.index_ id_query) it) :
    ∃ it1, next w u it = some it1 ∧ it1.off_ = it.off_ + it.n_ ∧
      (it1.off_ ≠ offset u.pt_.base.index_ id_query →
        on_segment b (offset u.pt_.base.index_ id_path)
          (offset u.pt_.base.index_ id_query) it1) := by
  obtain ⟨s1, s2, s3, s4, s5, s6⟩ := hs
  unfold next
  simp only
  rw [if_neg (by omega), wadd_eq (by omega)]
  by_cases c : it.off_ + it.n_ = offset u.pt_.base.index_ id_frag
  · rw [if_pos c]
    refine ⟨_, rfl, rfl, ?_⟩
    intro hne
    exact absurd (show it.off_ + it.n_ = offset u.pt_.base.index_ id_query by omega) hne
  · rw [if_neg c]
    by_cases c2 : it.off_ + it.n_ = offset u.pt_.base.index_ id_query
    · rw [c2, parse_at_query hb it.n_ (by omega) hcap hw]
      exact ⟨_, rfl, rfl, fun hne => absurd rfl hne⟩
    · have h47 : byte_at b (it.off_ + it.n_) = 47 := by
        rcases s6 with e | e
        · exact absurd e c2
        · exact e
      obtain ⟨it1, e1, e2, e3⟩ := @parse_on_segment w u b hb (it.off_ + it.n_) it.n_
        (by omega) (by omega) hqf hcap (by omega) (Or.inr h47)
      exact ⟨it1, e1, e2, fun _ => e3⟩

/-- The backward scan passes the bytes that are not `/`. -/
theorem scan_back_pass {st : indexed_string} {b : List Nat} (hb : st.s_ = some b)
    {o x : Nat} (hox : o ≤ x) : ∀ (k : Nat), x + k < b.length →
    (∀ i, i < k → byte_at b (x + 1 + i) ≠ 47) →
    scan_back 47 o st (x + 1 + k) = scan_back 47 o st (x + 1) := by
  intro k
  induction k with
  | zero => intro _ _; rfl
  | succ k ih =>
    intro hroom hv
    show scan_back 47 o st ((x + 1 + k) + 1) = _
    rw [scan_back, if_pos (by omega), peek_some hb (by omega)]
    simp only [hv k (by omega), if_false]
    exact ih (by omega) (fun i hi => hv i (by omega))

/-- Effect of `--` behind a segment: it returns to the segment. -/
theorem prev_of_next {w : Nat} {u : url_base} {b : List Nat}
    (hb : u.pt_.base.s_ = some b) {it it1 : segments_iterator}
    (hqf : offset u.pt_.base.index_ id_query ≤ offset u.pt_.base.index_ id_frag)
    (hcap : offset u.pt_.base.index_ id_query < b.length)
    (hw : offset u.pt_.base.index_ id_query + 1 < 2 ^ w)
    (hs : on_segment b (offset u.pt_.base.index_ id_path)
      (offset u.pt_.base.index_ id_query) it)
    (h1 : it1.off_ = it.off_ + it.n_) :
    prev w u it1 = some it := by
  obtain ⟨s1, s2, s3, s4, s5, s6⟩ := hs
  unfold prev
  rw [if_neg (by omega), h1, show it.off_ + it.n_ = it.off_ + 1 + (it.n_ - 1) by omega,
    scan_back_pass hb s1 (it.n_ - 1) (by omega) s4, scan_back]
  by_cases c : offset u.pt_.base.index_ id_path < it.off_
  · have h47 : byte_at b it.off_ = 47 := by
      rcases s5 with e | e
      · omega
      · exact e
    rw [if_pos c, peek_some hb (by omega)]
    simp only [h47, if_true]
    rw [parse_any hb it1.n_ (show it.off_ + 1 + (it.n_ - 1) ≤ _ by omega) hqf hcap
      (by omega) s4 (by
        rw [show it.off_ + 1 + (it.n_ - 1) = it.off_ + it.n_ by omega]
        exact s6)]
    cases it with
    | mk o n =>
      simp only at s2 ⊢
      congr 2
      omega
  · rw [if_neg c]
    simp only
    rw [wsub_eq (by omega) (by omega)]
    cases it with
    | mk o n =>
      simp only at s2 ⊢
      congr 2
      omega

/-- Walks that start at the position of `end()` do not move. -/
theorem advance_at_end {w : Nat} {u : url_base} : ∀ (k : Nat) (it0 it : segments_iterator),
    it0.off_ = offset u.pt_.base.index_ id_query → advance w u k it0 = some it →
    it.off_ = offset u.pt_.base.index_ id_query := by
  intro k it0 it h0 hk
  match k with
  | 0 =>
    simp only [advance, Option.some.injEq] at hk
    rw [← hk]; exact h0
  | k + 1 =>
    simp only [advance, h0, if_true] at hk
    exact absurd hk (by simp)

/-- Every iterator a walk reaches stands on a segment or at the position of `end()`. -/
theorem advance_on_segment {w : Nat} {u : url_base} {b : List Nat}
    (hb : u.pt_.base.s_ = some b)
    (hqf : offset u.pt_.base.index_ id_query ≤ offset u.pt_.base.index_ id_frag)
    (hcap : offset u.pt_.base.index_ id_query < b.length)
    (hw : offset u.pt_.base.index_ id_query + 1 < 2 ^ w) :
    ∀ (k : Nat) (it0 it : segments_iterator),
      (it0.off_ = offset u.pt_.base.index_ id_query ∨
        on_segment b (offset u.pt_.base.index_ id_path)
          (offset u.pt_.base.index_ id_query) it0) →
      advance w u k it0 = some it →
      (it.off_ = offset u.pt_.base.index_ id_query ∨
        on_segment b (offset u.pt_.base.index_ id_path)
          (offset u.pt_.base.index_ id_query) it) := by
  intro k
  induction k with
  | zero =>
    intro it0 it h0 hk
    simp only [advance, Option.some.injEq] at hk
    rw [← hk]; exact h0
  | succ k ih =>
    intro it0 it h0 hk
    by_cases c : it0.off_ = offset u.pt_.base.index_ id_query
    · exact Or.inl (advance_at_end (k + 1) it0 it c hk)
    · have hs : on_segment b (offset u.pt_.base.index_ id_path)
          (offset u.pt_.base.index_ id_query) it0 := by
        rcases h0 with e | e
        · exact absurd e c
        · exact e
      obtain ⟨it1, e1, e2, e3⟩ := next_on_segment hb hqf hcap hw hs
      simp only [advance, c, if_false, e1] at hk
      apply ih it1 it _ hk
      by_cases c2 : it1.off_ = offset u.pt_.base.index_ id_query
      · exact Or.inl c2
      · exact Or.inr (e3 c2)

end segments_type
end Url

/-! ## Claims on the iterators and the password part -/

namespace Url
namespace segments_type

/-- Claim C31.  For a state with eight parts that satisfies I1-I6 (a valid container; I7 is
not needed) and every iterator `it` reached from `begin()` by applications of `++` that does
not stand at the position of `end()`: `++it` returns, and `--` applied to it returns `it`,
with the same offset and the same length.  This covers the first segment, with or without a
leading `/`, and the case that `++it` is `end()`, with or without a query part. -/
theorem C31_segments_bidirectional (w : Nat) (u : url_base)
    (hP : u.pt_.base.index_.length = id_end) (hv : indexed_string.valid w u.pt_.base)
    (k : Nat) (it0 it : segments_iterator)
    (h0 : begin w u = some it0) (hk : advance w u k it0 = some it)
    (hne : it.off_ ≠ offset u.pt_.base.index_ id_query) :
    ∃ it1, next w u it = some it1 ∧ prev w u it1 = some it := by
  have h := indexed_string.wf_of_valid hv
  have hoq : offset u.pt_.base.index_ id_path ≤ offset u.pt_.base.index_ id_query :=
    h.offset_mono (by decide) (by rw [hP]; decide)
  have hqf : offset u.pt_.base.index_ id_query ≤ offset u.pt_.base.index_ id_frag :=
    h.offset_mono (by decide) (by rw [hP]; decide)
  have hqL : offset u.pt_.base.index_ id_query ≤ length_all u.pt_.base.index_ :=
    h.offset_le_all (by rw [hP]; decide)
  cases hs : u.pt_.base.s_ with
  | none =>
    have hz := h.all_zero hs
    have h00 : it0.off_ = offset u.pt_.base.index_ id_query := by
      unfold begin iterator at h0
      by_cases hn : u.pt_.nseg = 0
      · rw [if_pos (Or.inr hn)] at h0
        simp only [Option.some.injEq] at h0
        rw [← h0]
      · rw [if_neg (by simp [hn])] at h0
        have := parse_off h0
        simp only at this
        omega
    exact absurd (advance_at_end k it0 it h00 hk) hne
  | some b =>
    have hne' : u.pt_.base.s_ ≠ none := by rw [hs]; simp
    obtain ⟨ht1, _⟩ := h.term hne'
    have hbl := h.len
    rw [hs] at hbl
    simp only [Option.getD_some] at hbl
    have hcap := h.cap
    have hinv0 : it0.off_ = offset u.pt_.base.index_ id_query ∨
        on_segment b (offset u.pt_.base.index_ id_path)
          (offset u.pt_.base.index_ id_query) it0 := by
      unfold begin iterator at h0
      by_cases hn : u.pt_.nseg = 0
      · rw [if_pos (Or.inr hn)] at h0
        simp only [Option.some.injEq] at h0
        rw [← h0]
        exact Or.inl rfl
      · rw [if_neg (by simp [hn])] at h0
        by_cases c : offset u.pt_.base.index_ id_path = offset u.pt_.base.index_ id_query
        · have := parse_off h0
          simp only at this
          exact Or.inl (by omega)
        · obtain ⟨it', e1, _, e3⟩ := @parse_on_segment w u b hs
            (offset u.pt_.base.index_ id_path) 0 (le_refl _) (by omega) hqf (by omega)
            (by omega) (Or.inl rfl)
          rw [e1] at h0
          simp only [Option.some.injEq] at h0
          rw [← h0]
          exact Or.inr e3
    have hinv := advance_on_segment hs hqf (by omega) (by omega) k it0 it hinv0 hk
    have hseg : on_segment b (offset u.pt_.base.index_ id_path)
        (offset u.pt_.base.index_ id_query) it := by
      rcases hinv with e | e
      · exact absurd e hne
      · exact e
    obtain ⟨it1, e1, e2, _⟩ := @next_on_segment w u b hs it hqf (by omega) (by omega) hseg
    exact ⟨it1, e1, prev_of_next hs hqf (by omega) (by omega) hseg e2⟩

/-- Witness of C31: the first segment `a` of the relative path `a/b`, and the last segment
`/q` of `http://a:b@x.y:8080/p/q?k=v#f`, behind which `++` reaches `end()`. -/
theorem C31_segments_bidirectional_witness :
    (begin 64 relative_url = some ⟨0, 1⟩ ∧
      ∃ it1, next 64 relative_url ⟨0, 1⟩ = some it1 ∧
        prev 64 relative_url it1 = some ⟨0, 1⟩) ∧
    (begin 64 sample_url = some ⟨19, 2⟩ ∧ advance 64 sample_url 1 ⟨19, 2⟩ = some ⟨21, 2⟩ ∧
      ∃ it1, next 64 sample_url ⟨21, 2⟩ = some it1 ∧
        prev 64 sample_url it1 = some ⟨21, 2⟩) := by
  have b1 : begin 64 relative_url = some ⟨0, 1⟩ := by decide
  have b2 : begin 64 sample_url = some ⟨19, 2⟩ := by decide
  have a2 : advance 64 sample_url 1 ⟨19, 2⟩ = some ⟨21, 2⟩ := by decide
  exact ⟨⟨b1, C31_segments_bidirectional 64 relative_url (by decide) (by decide) 0 ⟨0, 1⟩
      ⟨0, 1⟩ b1 rfl (by decide)⟩,
    ⟨b2, a2, C31_segments_bidirectional 64 sample_url (by decide) (by decide) 1 ⟨19, 2⟩
      ⟨21, 2⟩ b2 a2 (by decide)⟩⟩

/-- Claim C34.  For a state that satisfies I7 and whose path part holds no `/` (empty or
not): `nseg == 0`, and `begin()` and `end()` are the same iterator, with the offset of the
query part and the length `0`; the iteration visits no element. -/
theorem C34_segments_without_slash (w : Nat) (u : url_base)
    (h7 : (u.part w id_path).count 47 = u.pt_.nseg) (hno : 47 ∉ u.part w id_path) :
    u.pt_.nseg = 0 ∧
    begin w u = some ⟨offset u.pt_.base.index_ id_query, 0⟩ ∧
    end_ w u = some ⟨offset u.pt_.base.index_ id_query, 0⟩ ∧
    begin w u = end_ w u := by
  have hn : u.pt_.nseg = 0 := by
    rw [← h7]
    exact List.count_eq_zero_of_not_mem hno
  have hb : begin w u = some ⟨offset u.pt_.base.index_ id_query, 0⟩ := by
    unfold begin iterator
    rw [if_pos (Or.inr hn)]
  have he : end_ w u = some ⟨offset u.pt_.base.index_ id_query, 0⟩ := by
    unfold end_ iterator
    rw [if_pos (Or.inl rfl)]
  exact ⟨hn, hb, he, hb.trans he.symm⟩

/-- Witness of C34: the path `abc`. -/
theorem C34_segments_without_slash_witness :
    plain_path_url.part 64 id_path = [97, 98, 99] ∧
    begin 64 plain_path_url = some ⟨3, 0⟩ ∧ end_ 64 plain_path_url = some ⟨3, 0⟩ := by
  obtain ⟨_, e1, e2, _⟩ := C34_segments_without_slash 64 plain_path_url (by decide) (by decide)
  exact ⟨by decide, e1, e2⟩

end segments_type

namespace params_type

/-- Claim C32 fails on the code.  With codecs that end a key at the first `=`, `&` or `#`
and a value at the first `&` or `#`, the iteration over `?a=1&b=&c` is as claimed: three
elements, `(a, 1)`, `(b, "")` and `(c, none)`, then `end()`.  But a key without a value is
only found at the very end of the URL: over `?a&b`, where `nparam == 2`, `begin()` does not
return, since `parse` asserts `*p == '='` on the `&` behind the first key; and over
`?a=1&b=&c#f` the third `++` does not return, since `parse` compares with the end of the
URL and asserts `*p == '='` on the `#`. -/
theorem C32_key_without_value :
    three_params_url.pt_.check_invariants 64 = true ∧
    begin 64 plain_codecs three_params_url = some ⟨0, 2, 2⟩ ∧
    value 64 three_params_url ⟨0, 2, 2⟩ = some ([97], some [49]) ∧
    next 64 plain_codecs three_params_url ⟨0, 2, 2⟩ = some ⟨4, 2, 1⟩ ∧
    value 64 three_params_url ⟨4, 2, 1⟩ = some ([98], some []) ∧
    next 64 plain_codecs three_params_url ⟨4, 2, 1⟩ = some ⟨7, 2, 0⟩ ∧
    value 64 three_params_url ⟨7, 2, 0⟩ = some ([99], none) ∧
    next 64 plain_codecs three_params_url ⟨7, 2, 0⟩ = some ⟨9, 0, 0⟩ ∧
    end_ 64 plain_codecs three_params_url = some ⟨9, 0, 0⟩ ∧
    indexed_string.valid 64 bare_keys_url.pt_.base ∧
    bare_keys_url.pt_.check_invariants 64 = true ∧ bare_keys_url.pt_.nparam = 2 ∧
    bare_keys_url.part 64 id_query = [63, 97, 38, 98] ∧
    begin 64 plain_codecs bare_keys_url = none ∧
    indexed_string.valid 64 three_params_frag_url.pt_.base ∧
    three_params_frag_url.pt_.check_invariants 64 = true ∧
    three_params_frag_url.part 64 id_query = [63, 97, 61, 49, 38, 98, 61, 38, 99] ∧
    three_params_frag_url.part 64 id_frag = [35, 102] ∧
    begin 64 plain_codecs three_params_frag_url = some ⟨0, 2, 2⟩ ∧
    next 64 plain_codecs three_params_frag_url ⟨0, 2, 2⟩ = some ⟨4, 2, 1⟩ ∧
    next 64 plain_codecs three_params_frag_url ⟨4, 2, 1⟩ = none := by
  decide

/-- Claim C33 fails on the code.  Over `?a=1&bb=22`, `begin()` is the element `(a, 1)` with
`nk_ == 2` and `nv_ == 2`; `++` gives the second element, with lengths `3` and `3`; `--`
applied to it finds no `&`, sets the offset to that of the query and leaves the lengths of
the second element in place, so the iterator differs from `begin()` and its dereference
fails `BOOST_ASSERT(p[nk_] == '=')`.  From the second element the round trip through
`end()` does return to it. -/
theorem C33_decrement_to_first_keeps_lengths :
    indexed_string.valid 64 two_params_url.pt_.base ∧
    two_params_url.pt_.check_invariants 64 = true ∧
    begin 64 plain_codecs two_params_url = some ⟨0, 2, 2⟩ ∧
    value 64 two_params_url ⟨0, 2, 2⟩ = some ([97], some [49]) ∧
    next 64 plain_codecs two_params_url ⟨0, 2, 2⟩ = some ⟨4, 3, 3⟩ ∧
    prev 64 plain_codecs two_params_url ⟨4, 3, 3⟩ = some ⟨0, 3, 3⟩ ∧
    value 64 two_params_url ⟨0, 3, 3⟩ = none ∧
    value 64 two_params_url ⟨4, 3, 3⟩ = some ([98, 98], some [50, 50]) ∧
    next 64 plain_codecs two_params_url ⟨4, 3, 3⟩ = some ⟨10, 0, 0⟩ ∧
    prev 64 plain_codecs two_params_url ⟨10, 0, 0⟩ = some ⟨4, 3, 3⟩ := by
  decide

end params_type

namespace url_base

/-- Claim C35 fails on the code.  On a freshly constructed URL, which has no user part,
`set_password_part(":")` first stores `//:@` and then, instead of returning, hands the
empty remainder to `set_encoded_password`, whose `set_password("")` clears the password
part again: the call returns with the user part `//` and an empty password part, not `:@`.
On `//`, where a user part exists, the same call returns with the password part `:@`, and
`set_password_part(":x")` on a fresh URL gives the password part `:x@`. -/
theorem C35_lone_colon_without_user :
    stored_form 64 empty_url ∧
    set_password_part 64 sample_storage identity_encoding [58] empty_url =
      outcome.ok cleared_password_url () ∧
    cleared_password_url.part 64 id_user = [47, 47] ∧
    cleared_password_url.part 64 id_password = [] ∧
    set_encoded_password 64 sample_storage identity_encoding [] colon_password_url =
      outcome.ok cleared_password_url () ∧
    stored_form 64 cleared_password_url ∧
    set_password_part 64 sample_storage identity_encoding [58] cleared_password_url =
      outcome.ok colon_password_url () ∧
    colon_password_url.part 64 id_password = [58, 64] ∧
    set_password_part 64 sample_storage identity_encoding [58, 120] empty_url =
      outcome.ok short_password_url () ∧
    short_password_url.part 64 id_password = [58, 120, 64] := by
  decide

end url_base
end Url

/-! ## Round trip of the whole URL -/

namespace Url
namespace parts_string

/-- A container whose index is that of the descriptor `pt` and whose payload is `s` passes
`check_invariants` with the counters of `pt` when the view of `s` through `pt` does. -/
theorem check_of_view {w : Nat} {pt : parts} {s : List Nat} {st : indexed_string}
    (h : indexed_string.wf w st) (hidx : st.index_ = pt.index_)
    (hP : pt.index_.length = id_end) (hall : indexed_string.get_all st = s)
    (hview : (pt.view s).check_invariants w = true) :
    ({ base := st, nseg := pt.nseg, nparam := pt.nparam, host := pt.host } :
      parts_string).check_invariants w = true := by
  have hpart : ∀ j, j < id_end →
      indexed_string.get_part w st j = indexed_string.get_part w (pt.view s).base j := by
    intro j hj
    have hj' : j < st.index_.length := by rw [hidx, hP]; exact hj
    obtain ⟨p1, p2, p3⟩ := h.part_le hj'
    have hsl : s.length = min (length_all st.index_) (st.s_.getD []).length := by
      rw [← hall]
      unfold indexed_string.get_all
      rw [List.length_take]
    have hcap := h.all_le_cap
    have hlen := h.len
    rw [indexed_string.get_part_eq, indexed_string.get_part_eq]
    show _ = (List.drop (offset pt.index_ j) s).take (length w pt.index_ j)
    rw [← hidx]
    apply slice_ext p1 (by omega)
    intro k hk
    rw [← hall]
    unfold indexed_string.get_all
    rw [byte_at_take, if_pos (by omega)]
  rw [check_invariants_iff] at hview ⊢
  show List.count 47 (indexed_string.get_part w st id_path) = pt.nseg ∧
    (if indexed_string.get_part w st id_query = [] then 0
      else (if (indexed_string.get_part w st id_query).head? = some 63 then 1 else 0) +
        (indexed_string.get_part w st id_query).count 38) = pt.nparam
  rw [hpart id_path (by decide), hpart id_query (by decide)]
  exact hview

end parts_string

namespace url_base
open indexed_string

/-- Description of `set_encoded_url(s)` for a parser that returns the descriptor `pt`, whose
counters fit `s`. -/
theorem set_encoded_url_spec {w : Nat} {a : storage} {parse_url : List Nat → Option parts}
    {u : url_base} {s : List Nat} {pt : parts}
    (h : wf w u.pt_.base) (hP : u.pt_.base.index_.length = id_end)
    (hnul : ∀ c, c ∈ s → c ≠ 0) (hparse : s ≠ [] → parse_url s = some pt)
    (hptP : pt.index_.length = id_end) (hmono : part_index_check pt.index_ = true)
    (hptL : length_all pt.index_ = s.length)
    (hfit : s ≠ [] → (pt.view s).check_invariants w = true) (hsz : s.length + 1 < 2 ^ w)
    (halloc : s ≠ [] → u.pt_.base.capacity_ < s.length + 1 →
      ∃ f, a.allocate (s.length + 1) = Except.ok f) :
    ∃ u', set_encoded_url w a parse_url s u = outcome.ok u' () ∧
      encoded_url w u' = s ∧ wf w u'.pt_.base ∧ u'.pt_.base.index_.length = id_end ∧
      u'.pt_.check_invariants w = true ∧
      (s ≠ [] → u'.pt_.base.index_ = pt.index_ ∧ u'.pt_.nseg = pt.nseg ∧
        u'.pt_.nparam = pt.nparam ∧ u'.pt_.host = pt.host) ∧
      (s = [] → (∀ k, offset u'.pt_.base.index_ k = 0) ∧ u'.pt_.nseg = 0 ∧
        u'.pt_.nparam = 0 ∧ u'.pt_.host = host_type.none) := by
  unfold set_encoded_url
  by_cases hs : s = []
  · subst hs
    obtain ⟨st', c1, c2, c3, c4, c5, c6⟩ := clear_all_spec h
    obtain ⟨ps', k1, _, _, k4, _⟩ := @parts_string.clear_all_keeps w u.pt_ h
    have k0 : u.pt_.clear_all =
        outcome.ok { base := st', nseg := 0, nparam := 0, host := host_type.none } () := by
      unfold parts_string.clear_all parts_string.lift
      rw [c1]
    have kk : ps' = { base := st', nseg := 0, nparam := 0, host := host_type.none } := by
      rw [k1] at k0
      injection k0
    rw [kk] at k4
    simp only [if_true, parts_string.clear_all, c1, parts_string.lift]
    refine ⟨_, rfl, ?_, c2, by rw [c3]; exact hP, k4, fun hne => absurd rfl hne, fun _ => ?_⟩
    · rw [encoded_url_eq_get_all (u := ⟨⟨st', 0, 0, host_type.none⟩⟩) c2 (by rw [c3]; exact hP)]
      unfold get_all
      dsimp only
      rw [c5]
      rfl
    · refine ⟨?_, rfl, rfl, rfl⟩
      intro k
      dsimp only
      unfold offset
      split_ifs
      · rfl
      · exact c4 _
  · obtain ⟨st', c1, c2, c3, c4⟩ := copy_all_spec (a := a) h hs (by rw [hptP, hP])
      (part_index_check_mono hmono) hptL hnul hsz (halloc hs)
    have hchk := parts_string.check_of_view c3 c2 hptP c4 (hfit hs)
    simp only [hs, if_false, hparse hs, parts_string.copy_all, c1, parts_string.lift, hchk,
      if_true]
    refine ⟨_, rfl, ?_, c3, by dsimp only; rw [c2]; exact hptP, hchk,
      fun _ => ⟨c2, rfl, rfl, rfl⟩, fun he => by first | exact absurd he hs | exact he.elim⟩
    rw [encoded_url_eq_get_all (u := ⟨⟨st', pt.nseg, pt.nparam, pt.host⟩⟩) c3
      (by dsimp only; rw [c2]; exact hptP)]
    exact c4

/-- Claim C7 as stated fails for a descriptor whose counters do not fit the bytes: on a
freshly constructed URL and the input `/`, a descriptor with non-decreasing offsets and
`pt.offset(8) = 1` that reports the path `/` with `nseg == 0` makes `set_encoded_url` stop
at the closing `BOOST_ASSERT(check_invariants() == 0)` of `parts_string::copy_all`; with
`nseg == 1` the call returns. -/
theorem C7_counters_must_fit :
    valid 64 empty_url.pt_.base ∧ empty_url.pt_.base.index_.length = id_end ∧
    unfit_parts.index_.length = id_end ∧ part_index_check unfit_parts.index_ = true ∧
    length_all unfit_parts.index_ = [47].length ∧
    (unfit_parts.view [47]).check_invariants 64 = false ∧
    set_encoded_url 64 sample_storage (fun _ => some unfit_parts) [47] empty_url =
      outcome.fault ∧
    set_encoded_url 64 sample_storage (fun _ => some slash_parts) [47] empty_url =
      outcome.ok slash_url () := by
  decide

/-- Claim C7, amended.  For a container in a valid state, a NUL-free byte string `s` and a
descriptor `pt` that the parser returns for `s`, with non-decreasing offsets,
`pt.offset(8) = |s|` and counters `nseg` and `nparam` that fit the path and the query of `s`
(the storage handing out the block when one is needed): `set_encoded_url(s)` returns,
`encoded_url()` is `s`, the index and the counters `nseg`, `nparam`, `host` are those of
`pt`, the state satisfies I1-I6, I7 and I8, and for the empty `s` every offset is `0` and
the counters are reset.  Hence feeding `encoded_url()` back through `set_encoded_url`, with
any storage and a parser whose descriptor fits in the same way, returns and prints the same
bytes. -/
theorem C7_set_encoded_url_round_trip (w : Nat) (a : storage)
    (parse_url : List Nat → Option parts) (u : url_base) (s : List Nat) (pt : parts)
    (hv : valid w u.pt_.base) (hP : u.pt_.base.index_.length = id_end)
    (hnul : ∀ c, c ∈ s → c ≠ 0) (hparse : s ≠ [] → parse_url s = some pt)
    (hptP : pt.index_.length = id_end) (hmono : part_index_check pt.index_ = true)
    (hptL : length_all pt.index_ = s.length)
    (hfit : s ≠ [] → (pt.view s).check_invariants w = true) (hsz : s.length + 1 < 2 ^ w)
    (halloc : s ≠ [] → u.pt_.base.capacity_ < s.length + 1 →
      ∃ f, a.allocate (s.length + 1) = Except.ok f) :
    ∃ u', set_encoded_url w a parse_url s u = outcome.ok u' () ∧
      encoded_url w u' = s ∧ valid w u'.pt_.base ∧ u'.pt_.check_invariants w = true ∧
      (s ≠ [] → u'.pt_.base.index_ = pt.index_ ∧ u'.pt_.nseg = pt.nseg ∧
        u'.pt_.nparam = pt.nparam ∧ u'.pt_.host = pt.host) ∧
      (s = [] → (∀ k, offset u'.pt_.base.index_ k = 0) ∧ u'.pt_.nseg = 0 ∧
        u'.pt_.nparam = 0 ∧ u'.pt_.host = host_type.none) ∧
      (∀ (a2 : storage) (pt2 : parts),
        (encoded_url w u' ≠ [] → parse_url (encoded_url w u') = some pt2) →
        pt2.index_.length = id_end → part_index_check pt2.index_ = true →
        length_all pt2.index_ = (encoded_url w u').length →
        (encoded_url w u' ≠ [] → (pt2.view (encoded_url w u')).check_invariants w = true) →
        ∃ u'', set_encoded_url w a2 parse_url (encoded_url w u') u' = outcome.ok u'' () ∧
          encoded_url w u'' = encoded_url w u' ∧ valid w u''.pt_.base ∧
          u''.pt_.check_invariants w = true) := by
  have h := wf_of_valid hv
  obtain ⟨u', e1, e2, e3, e4, e7, e5, e6⟩ :=
    set_encoded_url_spec (a := a) h hP hnul hparse hptP hmono hptL hfit hsz halloc
  refine ⟨u', e1, e2, valid_of_wf e3, e7, e5, e6, ?_⟩
  intro a2 pt2 hp2 hl2 hm2 hL2 hf2
  have hg := encoded_url_eq_get_all e3 e4
  have hlen : (encoded_url w u').length = length_all u'.pt_.base.index_ := by
    rw [hg]
    unfold get_all
    have := e3.all_le_cap
    have := e3.len
    simp only [List.length_take]
    omega
  have hnz : ∀ c, c ∈ encoded_url w u' → c ≠ 0 := by
    intro c hc
    rw [hg] at hc
    unfold get_all at hc
    obtain ⟨k, hk, rfl⟩ := List.getElem_of_mem hc
    simp only [List.length_take] at hk
    have := e3.nonzero k (by omega)
    simp only [List.getElem_take]
    unfold byte_at at this
    rw [List.getD_eq_getElem?_getD, List.getElem?_eq_getElem (by omega)] at this
    exact this
  have hcap : encoded_url w u' ≠ [] →
      ¬ (u'.pt_.base.capacity_ < (encoded_url w u').length + 1) := by
    intro hne
    rw [hlen]
    have hpos : 0 < (encoded_url w u').length := List.length_pos.2 hne
    have hs : u'.pt_.base.s_ ≠ none := by
      intro hs
      have z := e3.all_zero hs
      omega
    have := (e3.term hs).1
    omega
  have hsz2 : (encoded_url w u').length + 1 < 2 ^ w := by
    rw [e2]
    exact hsz
  obtain ⟨u'', f1, f2, f3, _, f5, _⟩ := set_encoded_url_spec (a := a2) e3 e4 hnz hp2 hl2 hm2
    hL2 hf2 hsz2 (fun hne c => absurd c (hcap hne))
  exact ⟨u'', f1, f2, valid_of_wf f3, f5⟩

/-- Witness of C7: the bytes `h:` set on a freshly constructed URL, with a parser that
reports a two-byte scheme. -/
theorem C7_set_encoded_url_round_trip_witness :
    ∃ u', set_encoded_url 64 sample_storage (fun _ => some sample_parts) [104, 58] empty_url =
        outcome.ok u' () ∧ encoded_url 64 u' = [104, 58] ∧ u'.pt_.nseg = 0 ∧
      u'.pt_.check_invariants 64 = true := by
  obtain ⟨u', e1, e2, _, e3, e4, _⟩ := C7_set_encoded_url_round_trip 64 sample_storage
    (fun _ => some sample_parts) empty_url [104, 58] sample_parts (by decide) (by decide)
    (by decide) (fun _ => rfl) (by decide) (by decide) (by decide) (fun _ => by decide)
    (by decide) (fun _ _ => ⟨_, rfl⟩)
  exact ⟨u', e1, e2, (e4 (by decide)).2.1, e3⟩

end url_base
end Url

/-! ## Invariants across the splice primitives -/

namespace Url
namespace indexed_string

/-- Payload after a resize seen as a splice: every byte outside the bytes a grow adds,
from the old end of the range to its new end, is a byte of the old payload, hence
non-zero. -/
theorem splice.resized_payload {w : Nat} {st st' : indexed_string} {lo hi n : Nat}
    (h : indexed_string.wf w st) (sp : splice w st st' lo hi (offset st.index_ lo + n))
    (hlh : lo < hi) (hhi : hi ≤ st.index_.length)
    (hkeep : ∀ x, x < offset st.index_ lo + min n (offset st.index_ hi - offset st.index_ lo) →
      byte_at (st'.s_.getD []) x = byte_at (st.s_.getD []) x) :
    ∀ x, x < length_all st'.index_ →
      ¬ (offset st.index_ hi ≤ x ∧ x < offset st.index_ lo + n) →
      byte_at (st'.s_.getD []) x ≠ 0 := by
  obtain ⟨_, hL, _, _, _, _⟩ := sp.frame h hlh hhi
  have olh : offset st.index_ lo ≤ offset st.index_ hi := h.offset_mono (Nat.le_of_lt hlh) hhi
  have ohL : offset st.index_ hi ≤ length_all st.index_ := h.offset_le_all hhi
  intro x hx hout
  by_cases c : x < offset st.index_ lo + min n (offset st.index_ hi - offset st.index_ lo)
  · rw [hkeep x c]
    exact h.nonzero x (by omega)
  · have hT : offset st.index_ lo + n ≤ x := by omega
    have := sp.tail (x + offset st.index_ hi - (offset st.index_ lo + n)) (by omega) (by omega)
    rw [show x + offset st.index_ hi - (offset st.index_ lo + n) + (offset st.index_ lo + n) -
      offset st.index_ hi = x by omega] at this
    rw [this]
    exact h.nonzero _ (by omega)

/-- After a resize seen as a splice, a write of non-zero bytes that fills the bytes the
grow added, from the old end of the range to its new end, returns a valid state. -/
theorem splice.filled {w : Nat} {st st' : indexed_string} {lo hi n : Nat}
    (h : indexed_string.wf w st) (sp : splice w st st' lo hi (offset st.index_ lo + n))
    (hlh : lo < hi) (hhi : hi ≤ st.index_.length)
    (hmid : ∀ j, lo ≤ j → j < hi → idx st'.index_ j = offset st.index_ lo + n)
    (hkeep : ∀ x, x < offset st.index_ lo + min n (offset st.index_ hi - offset st.index_ lo) →
      byte_at (st'.s_.getD []) x = byte_at (st.s_.getD []) x)
    (fill : List Nat)
    (hfl : offset st.index_ hi + fill.length = offset st.index_ lo + n)
    (hnz : ∀ c, c ∈ fill → c ≠ 0) :
    ∃ st'', write (offset st.index_ hi) fill st' = outcome.ok st'' () ∧
      st''.index_ = st'.index_ ∧ valid w st'' := by
  have olh : offset st.index_ lo ≤ offset st.index_ hi := h.offset_mono (Nat.le_of_lt hlh) hhi
  have ohL : offset st.index_ hi ≤ length_all st.index_ := h.offset_le_all hhi
  have hle := sp.total_le h
  obtain ⟨st'', e, hidx, hcap, hnull, hlen, hb⟩ :=
    @write_spec st' (offset st.index_ hi) fill (Or.inr (by omega))
  have sp2 : splice w st st'' lo hi (offset st.index_ lo + n) := by
    apply sp.overwrite h hhi hidx hcap hlen hnull
    intro x hx
    rw [hb x, if_neg (by omega)]
  have hmid2 : ∀ j, lo ≤ j → j < hi → idx st''.index_ j = offset st.index_ lo + n := by
    intro j h1 h2
    rw [hidx]
    exact hmid j h1 h2
  have hkeep2 : ∀ x,
      x < offset st.index_ lo + min n (offset st.index_ hi - offset st.index_ lo) →
      byte_at (st''.s_.getD []) x = byte_at (st.s_.getD []) x := by
    intro x hx
    rw [hb x, if_neg (by omega)]
    exact hkeep x hx
  obtain ⟨_, r2⟩ := sp2.resized h hlh hhi hmid2 hkeep2
  refine ⟨st'', e, hidx, r2 ?_⟩
  intro x hx1 hx2
  rw [hb x, if_pos (by omega)]
  exact hnz _ (byte_at_mem (by omega))

/-- Claim C8, amended.  From a valid state (I1, I3, I4/I5): `clear_all`, `clear(first,
last)` and `change_part` followed by a completely filling NUL-free `copy` leave a valid
state.  `resize(i, n)` and `resize(first, last, n)` return the offset of the start of the
range and leave the index non-decreasing (I1), the buffer attached exactly when the
capacity is non-zero (I4), terminated at `offset(PartCount)` (I5) with
`offset(PartCount) < capacity_` (I6), and every payload byte outside the bytes a grow adds,
from the old end of the range to its new end, non-zero; the state is valid (I3) when the
resize does not grow, and after a grow it is valid once the caller has written non-zero
bytes over the added bytes. -/
theorem C8_splice_invariants (w : Nat) (st : indexed_string) (hv : valid w st) :
    (∃ st', clear_all st = outcome.ok st' () ∧ valid w st' ∧ valid_frame w st') ∧
    (∀ first last, first ≤ last → last ≤ st.index_.length →
      ∃ st', clear w first last st = outcome.ok st' () ∧ valid w st' ∧ valid_frame w st') ∧
    (∀ (a : storage) (i n : Nat), i < st.index_.length →
      (length w st.index_ i < n →
        length_all st.index_ + (n - length w st.index_ i) + 1 < 2 ^ w ∧
        (st.capacity_ < length_all st.index_ + (n - length w st.index_ i) + 1 →
          ∃ f, a.allocate (length_all st.index_ + (n - length w st.index_ i) + 1) =
            Except.ok f)) →
      ∃ st', resize w a i n st = outcome.ok st' (offset st.index_ i) ∧ valid_frame w st' ∧
        (∀ x, x < length_all st'.index_ →
          ¬ (offset st.index_ (i + 1) ≤ x ∧ x < offset st.index_ i + n) →
          byte_at (st'.s_.getD []) x ≠ 0) ∧
        ((∀ x, offset st.index_ (i + 1) ≤ x → x < offset st.index_ i + n →
          byte_at (st'.s_.getD []) x ≠ 0) → valid w st') ∧
        (n ≤ length w st.index_ i → valid w st') ∧
        (∀ fill : List Nat, length w st.index_ i < n →
          fill.length = n - length w st.index_ i → (∀ c, c ∈ fill → c ≠ 0) →
          ∃ st'', write (offset st.index_ (i + 1)) fill st' = outcome.ok st'' () ∧
            st''.index_ = st'.index_ ∧ valid w st'')) ∧
    (∀ (a : storage) (first last n : Nat), first < last → last ≤ st.index_.length →
      (length_range w st.index_ first last < n →
        length_all st.index_ + (n - length_range w st.index_ first last) + 1 < 2 ^ w ∧
        (st.capacity_ <
            length_all st.index_ + (n - length_range w st.index_ first last) + 1 →
          ∃ f, a.allocate
            (length_all st.index_ + (n - length_range w st.index_ first last) + 1) =
              Except.ok f)) →
      ∃ st', resize_range w a first last n st = outcome.ok st' (offset st.index_ first) ∧
        valid_frame w st' ∧
        (∀ x, x < length_all st'.index_ →
          ¬ (offset st.index_ last ≤ x ∧ x < offset st.index_ first + n) →
          byte_at (st'.s_.getD []) x ≠ 0) ∧
        ((∀ x, offset st.index_ last ≤ x → x < offset st.index_ first + n →
          byte_at (st'.s_.getD []) x ≠ 0) → valid w st') ∧
        (n ≤ length_range w st.index_ first last → valid w st') ∧
        (∀ fill : List Nat, length_range w st.index_ first last < n →
          fill.length = n - length_range w st.index_ first last → (∀ c, c ∈ fill → c ≠ 0) →
          ∃ st'', write (offset st.index_ last) fill st' = outcome.ok st'' () ∧
            st''.index_ = st'.index_ ∧ valid w st'')) ∧
    (∀ (a : storage) (p i e : Nat) (src : List Nat), p < st.index_.length → 0 < w →
      src.length < 2 ^ (w - 1) → e < 2 ^ (w - 1) → (∀ c, c ∈ src → c ≠ 0) →
      offset st.index_ p ≤ i → i + e ≤ offset st.index_ (p + 1) →
      (e < src.length → length_all st.index_ + (src.length - e) + 1 < 2 ^ w ∧
        (st.capacity_ < length_all st.index_ + (src.length - e) + 1 →
          ∃ f, a.allocate (length_all st.index_ + (src.length - e) + 1) = Except.ok f)) →
      ∃ st' q, change_part_copy w a p i e src st = outcome.ok st' q ∧ valid w st' ∧
        valid_frame w st') := by
  have h := wf_of_valid hv
  refine ⟨?_, ?_, ?_, ?_, ?_⟩
  · obtain ⟨st', e, hw', _⟩ := clear_all_spec h
    exact ⟨st', e, valid_of_wf hw', valid_frame_of_wf hw'⟩
  · intro first last hfl hl
    by_cases hne : offset st.index_ first = offset st.index_ last
    · exact ⟨st, by unfold clear; simp only [hne, if_true], hv, valid_frame_of_wf h⟩
    · have hfl' : first < last := by
        rcases Nat.lt_or_ge first last with c | c
        · exact c
        · have : first = last := by omega
          subst this; exact absurd rfl hne
      obtain ⟨st', e, sp, _, hmid, _⟩ := clear_splice h hl hne hfl'
      have hw' : wf w st' := by
        apply sp.wf h hfl' hl
        · intro j hj1 hj2
          rw [hmid j hj1 hj2]
          refine ⟨le_refl _, le_refl _, fun c => ?_⟩
          rw [hmid (j + 1) (by omega) c]
        · intro x hx1 hx2; omega
      exact ⟨st', e, valid_of_wf hw', valid_frame_of_wf hw'⟩
  · intro a i n hi hgrow
    obtain ⟨st', e, sp, hmid, hkeep⟩ := resize_splice h hi hgrow
    obtain ⟨r1, r2⟩ := sp.resized h (Nat.lt_succ_self i) hi hmid hkeep
    have hlen := h.length_eq hi
    have o1 : offset st.index_ i ≤ offset st.index_ (i + 1) :=
      h.offset_mono (Nat.le_succ i) hi
    refine ⟨st', e, r1, sp.resized_payload h (Nat.lt_succ_self i) hi hkeep, r2, ?_, ?_⟩
    · intro hle
      apply r2
      intro x hx1 hx2
      omega
    · intro fill hg hfl hnz
      exact sp.filled h (Nat.lt_succ_self i) hi hmid hkeep fill (by omega) hnz
  · intro a first last n hfl hl hgrow
    obtain ⟨st', e, sp, hmid, _, hkeep⟩ := resize_range_splice h hfl hl hgrow
    have hlen := h.length_range_eq (Nat.le_of_lt hfl) hl
    rw [hlen] at hkeep
    obtain ⟨r1, r2⟩ := sp.resized h hfl hl hmid hkeep
    have o1 : offset st.index_ first ≤ offset st.index_ last :=
      h.offset_mono (Nat.le_of_lt hfl) hl
    refine ⟨st', e, r1, sp.resized_payload h hfl hl hkeep, r2, ?_, ?_⟩
    · intro hle
      apply r2
      intro x hx1 hx2
      omega
    · intro fill hg hfl' hnz
      exact sp.filled h hfl hl hmid hkeep fill (by omega) hnz
  · intro a p i e src hp hw hsrc he hnul hi hie hgrow
    obtain ⟨st', e1, sp, b1, b2, b3, _⟩ :=
      change_part_copy_splice (a := a) h hp hw hsrc he hi hie hgrow
    have hw' := change_part_copy_wf h hp hnul hi hie sp b1 b2 b3
    exact ⟨st', i, e1, valid_of_wf hw', valid_frame_of_wf hw'⟩

/-- Witness of C8 on the sample container: clearing parts `1` and `2` leaves a valid
state; growing the last part by one byte inside the capacity leaves the old terminator in
the payload and every other payload byte non-zero, and writing the byte `7` over the added
byte gives a valid state. -/
theorem C8_splice_invariants_witness :
    (∃ st', clear 64 1 3 sample_string = outcome.ok st' () ∧ valid 64 st') ∧
    (∃ st', resize 64 failing_storage 2 3 sample_string = outcome.ok st' 3 ∧
      valid_frame 64 st' ∧
      (∀ x, x < length_all st'.index_ → ¬ (5 ≤ x ∧ x < 6) →
        byte_at (st'.s_.getD []) x ≠ 0) ∧
      ∃ st'', write 5 [7] st' = outcome.ok st'' () ∧ st''.index_ = st'.index_ ∧
        valid 64 st'') := by
  have hC := C8_splice_invariants 64 sample_string (by decide)
  obtain ⟨st1, e1, hv1, _⟩ := hC.2.1 1 3 (by decide) (by decide)
  obtain ⟨st2, e2, hf2, hp2, _, _, hfill⟩ := hC.2.2.1 failing_storage 2 3 (by decide)
    (fun _ => ⟨by decide, fun c => absurd c (by decide)⟩)
  exact ⟨⟨st1, e1, hv1⟩, ⟨st2, e2, hf2, hp2,
    hfill [7] (by decide) (by decide) (by decide)⟩⟩

/-- Claim C8 as stated fails for a growing `resize`: growing the last part of the sample
container by one byte returns normally, inside the capacity, and leaves the old terminator
inside the payload, so `offset(PartCount)` is `6` while `strlen` is `5`. -/
theorem C8_resize_grow_breaks_strlen :
    valid 64 sample_string ∧
    resize 64 failing_storage 2 3 sample_string = outcome.ok grown_string 3 ∧
    length_all grown_string.index_ = 6 ∧ strlen [1, 2, 3, 4, 5, 0, 0, 9] = some 5 ∧
    check_invariants grown_string = false ∧ ¬ valid 64 grown_string := by
  refine ⟨by decide, by decide, by decide, by decide, by decide, by decide⟩

end indexed_string
end Url
